import Mathlib

/-!
# axl::json (json.hpp): value model, printer and parser

A shallow embedding of `src/json.hpp`.

* Text is a list of bytes (`char_t`), each kept as its numeric value; an input
  stream is the list of bytes not yet read, an output stream the list of bytes
  written.
* C++ exceptions are the `Error` alternatives of `Except`.  Two outcomes that
  are undefined behaviour in C++ (a write past the end of a fixed stack buffer,
  a read of a local that was never assigned) are reported as
  `Error.undefined_behaviour`.
* An owning pointer (`unique_ptr_t`) is `none` when null and `some (a, x)` when
  it owns the object `x` stored at address `a`.  Allocation takes the next
  address from a counter (`heap`) that is threaded through the parser.
* A double is kept as its 64 IEEE-754 bits; `atof` and the formatting of a
  finite double belong to the C library / the output stream and are parameters.
* The thread-local switches of json.hpp are the fields of `Config`.
-/

namespace json

/-! ## Basic types (json.hpp 41-68) -/

/-- One byte of text (`char_t`), as its numeric value. -/
abbrev char_t := Nat

/-- The type `integer_t = int64_t`; values are kept in the range of a signed 64-bit integer. -/
abbrev integer_t := Int

/-- The type `number_t = double`, kept as the 64 bits of the IEEE-754 encoding. -/
abbrev number_t := Nat

/-- The type `string_t`: the content of a growable owned buffer. -/
abbrev string_t := List char_t

/-- The type `unique_ptr_t<E>`: null, or the address of the owned object together with the object. -/
abbrev unique_ptr_t (α : Type) := Option (Nat × α)

/-- The thread-local switches `process_string`, `decode_utf8`, `decode_utf8_ext`,
`encode_utf8`, `encode_utf8_ext` (json.hpp 60-68). -/
structure Config where
  process_string : Bool
  decode_utf8 : Bool
  decode_utf8_ext : Bool
  encode_utf8 : Bool
  encode_utf8_ext : Bool
  deriving DecidableEq

/-- The initial values of the switches (json.hpp 60-68). -/
def default_config : Config :=
  { process_string := true, decode_utf8 := true, decode_utf8_ext := true,
    encode_utf8 := false, encode_utf8_ext := false }

/-- The exception kinds thrown by json.hpp, and the two outcomes the embedding adds. -/
inductive Error where
  /-- The exception `axl::end_of_stream_exception`. -/
  | end_of_stream
  /-- The exception `axl::runtime_error_exception`, used for every syntax and type error. -/
  | runtime_error
  /-- The exception `axl::null_pointer_exception`. -/
  | null_pointer
  /-- The exception `axl::index_out_of_bounds_exception`. -/
  | index_out_of_bounds
  /-- Undefined behaviour in C++: out-of-bounds access to a stack buffer, or use of an unassigned local. -/
  | undefined_behaviour
  /-- The recursion budget of the embedding ran out; not an outcome of the C++ code. -/
  | out_of_fuel
  deriving DecidableEq

instance instDecidableEqExcept {ε α : Type} [DecidableEq ε] [DecidableEq α] :
    DecidableEq (Except ε α) := fun a b =>
  match a, b with
  | .ok x, .ok y => if h : x = y then isTrue (by rw [h]) else isFalse (fun e => h (by cases e; rfl))
  | .error x, .error y =>
    if h : x = y then isTrue (by rw [h]) else isFalse (fun e => h (by cases e; rfl))
  | .ok _, .error _ => isFalse (fun e => by cases e)
  | .error _, .ok _ => isFalse (fun e => by cases e)

/-- The constant `inf = 1e+300 * 1e+300`: the bits of +infinity. -/
def inf : number_t := 0x7FF0000000000000

/-- The value `-inf`: the bits of -infinity. -/
def neg_inf : number_t := 0xFFF0000000000000

/-- IEEE-754: a double is a NaN when its exponent field is all ones and its fraction is not zero. -/
def number_is_nan (x : number_t) : Bool :=
  (x / 2 ^ 52) % 2 ^ 11 == 2047 && x % 2 ^ 52 != 0

/-- IEEE-754 `==` on doubles: false when either side is a NaN; +0 and -0 are equal. -/
def number_eq (a b : number_t) : Bool :=
  !number_is_nan a && !number_is_nan b && (a == b || (a % 2 ^ 63 == 0 && b % 2 ^ 63 == 0))

/-! ## The value model (json.hpp 129-695) -/

/-- The enumeration `Variant::Index` (json.hpp 407-417). -/
inductive Index where
  | invalid_i
  | null_i
  | boolean_i
  | integer_i
  | number_i
  | string_i
  | array_i
  | object_i
  deriving DecidableEq

/-- The tagged union `Variant` (json.hpp 395-695).  Each constructor is one value of `index`
together with the live member: `Boolean::m_value`, `Integer::m_value`, `Number::m_value`,
`String::m_value`, `Array::m_elements`, `Object::m_entries`.  A `List` models the ordered
sequence `array_t`; an association list in iteration order models the mapping `object_t`. -/
inductive Variant where
  | invalid
  | null
  | boolean (m_value : Bool)
  | integer (m_value : integer_t)
  | number (m_value : number_t)
  | string (m_value : Option (Nat × List char_t))
  | array (m_elements : Option (Nat × List Variant))
  | object (m_entries : Option (Nat × List (List char_t × Variant)))

/-- The struct `String` (json.hpp 230-287): its only member `m_value`. -/
abbrev String := unique_ptr_t string_t

/-- The struct `Array` (json.hpp 289-332): its only member `m_elements`. -/
abbrev Array := unique_ptr_t (List Variant)

/-- The struct `Object` (json.hpp 336-393): its only member `m_entries`. -/
abbrev Object := unique_ptr_t (List (string_t × Variant))

/-- The member `Variant::index`. -/
def Variant.index : Variant → Index
  | .invalid => .invalid_i
  | .null => .null_i
  | .boolean _ => .boolean_i
  | .integer _ => .integer_i
  | .number _ => .number_i
  | .string _ => .string_i
  | .array _ => .array_i
  | .object _ => .object_i

/-- Modelled from the spec: `Unique::operator==` (pointer/Unique.hpp is not part of the sources).
The spec describes the comparison of two owners as "strict pointer identity" (sections 3 and 9):
two owners are equal when both are null or both hold the same address. -/
def unique_ptr_eq {α : Type} (a b : unique_ptr_t α) : Bool :=
  match a, b with
  | none, none => true
  | some (p, _), some (q, _) => p == q
  | _, _ => false

/-- The operator `explicit operator bool` of an owner: it is not null. -/
def unique_ptr_bool {α : Type} (a : unique_ptr_t α) : Bool := a.isSome

/-- The content of a string owner after dereferencing (`*m_value.ptr()`); empty for null. -/
def string_content (s : String) : string_t :=
  match s with
  | some (_, x) => x
  | none => []

/-- The operator `Variant::operator==(Variant const &)` (json.hpp 652-669). -/
def Variant.operator_eq (lhs rhs : Variant) : Bool :=
  if rhs.index ≠ lhs.index then false
  else
    match lhs, rhs with
    | .null, _ => true
    | .boolean a, .boolean b => a == b
    | .integer a, .integer b => a == b
    | .number a, .number b => number_eq a b
    | .string a, .string b =>
      unique_ptr_eq a b
        || ((unique_ptr_bool a && unique_ptr_bool b) && string_content a == string_content b)
    | .array a, .array b => unique_ptr_eq a b
    | .object a, .object b => unique_ptr_eq a b
    | _, _ => false

/-! ## hex digits (json.hpp 2043-2065) -/

/-- The function `hex_char` (json.hpp 2043-2052). -/
def hex_char (value : Nat) : char_t :=
  if value ≤ 9 then 48 + value
  else if value ≤ 15 then 65 + value - 10
  else 48

/-- The function `hex_value` (json.hpp 2054-2065). -/
def hex_value (hex_char : char_t) : Nat :=
  if 48 ≤ hex_char ∧ hex_char ≤ 57 then hex_char - 48
  else if 97 ≤ hex_char ∧ hex_char ≤ 102 then 10 + (hex_char - 97)
  else if 65 ≤ hex_char ∧ hex_char ≤ 70 then 10 + (hex_char - 65)
  else 0

/-! ## The printer (json.hpp 1024-1361) -/

/-- The struct `PrintSettings` (json.hpp 1024-1029). -/
structure PrintSettings where
  depth : Int := 0
  readable : Bool := true
  _indent : Bool := true
  deriving DecidableEq

/-- The settings of a compact print: `readable = false`. -/
def compact : PrintSettings := { depth := 0, readable := false, _indent := true }

/-- The function `print_indent` (json.hpp 1047-1051): `axl::stream::repeat('\t', n)` writes
`n` tab characters (none when `n <= 0`). -/
def print_indent (n : Int) : List char_t := List.replicate n.toNat 9

/-- The common opening `if(ps.readable && ps._indent) print_indent(ostream, ps.depth);`. -/
def print_lead (ps : PrintSettings) : List char_t :=
  if ps.readable && ps._indent then print_indent ps.depth else []

/-- The decimal digits of `n`, most significant first, in front of `acc`. -/
def decimal_digits : Nat → Nat → List char_t → List char_t
  | 0, _, acc => acc
  | fuel + 1, n, acc =>
    if n < 10 then (48 + n) :: acc else decimal_digits fuel (n / 10) ((48 + n % 10) :: acc)

/-- Modelled from the spec: `Output::operator<<(int64_t)` (stream/Output.hpp is not part of the
sources) writes the "decimal text" of the integer: a minus sign for a negative value, then the
decimal digits without leading zeros. -/
def write_integer (value : integer_t) : List char_t :=
  if value < 0 then 45 :: decimal_digits (value.natAbs + 1) value.natAbs []
  else decimal_digits (value.natAbs + 1) value.natAbs []

/-- The function `print(Output &, Null const &, PrintSettings const &)` (json.hpp 1053-1059). -/
def print_null (ps : PrintSettings) : List char_t :=
  print_lead ps ++ [110, 117, 108, 108]

/-- The function `print(Output &, Boolean const &, PrintSettings const &)` (json.hpp 1061-1067). -/
def print_boolean (rhs : Bool) (ps : PrintSettings) : List char_t :=
  print_lead ps ++ (if rhs then [116, 114, 117, 101] else [102, 97, 108, 115, 101])

/-- The function `print(Output &, Integer const &, PrintSettings const &)` (json.hpp 1069-1075). -/
def print_integer (rhs : integer_t) (ps : PrintSettings) : List char_t :=
  print_lead ps ++ write_integer rhs

/-- The function `print(Output &, Number const &, PrintSettings const &)` (json.hpp 1077-1090).
`fmt` is the text `Output::operator<<(double)` writes. -/
def print_number (fmt : number_t → List char_t) (rhs : number_t) (ps : PrintSettings) :
    List char_t :=
  print_lead ps ++
    (if number_is_nan rhs then [110, 117, 108, 108]
     else if number_eq rhs inf then [57, 101, 43, 57, 57, 57]
     else if number_eq rhs neg_inf then [45, 57, 101, 43, 57, 57, 57]
     else fmt rhs)

/-- The read `begin_[k]` of the string printer; a read outside the content is undefined. -/
def read_at (begin_ : List char_t) (k : Nat) : Except Error char_t :=
  match begin_.get? k with
  | some c => .ok c
  | none => .error .undefined_behaviour

/-- The difference `length_ - k` in `size_t` arithmetic (it wraps around below zero). -/
def size_sub (length_ k : Nat) : Nat := (length_ + 2 ^ 64 - k) % 2 ^ 64

/-- One iteration of the `for` loop of the string printer (json.hpp 1107-1242) at index `i`
with `ch = begin_[i]`: the bytes written and the value of `i` at the end of the body. -/
def print_string_step (cfg : Config) (begin_ : List char_t) (i : Nat) (ch : char_t) :
    Except Error (List char_t × Nat) :=
  let length_ := begin_.length
  if ch = 92 then
    if i < size_sub length_ 1 then
      (read_at begin_ (i + 1)).bind (fun nx =>
        if (cfg.decode_utf8 = false ∧ nx = 117) ∨ (cfg.decode_utf8_ext = false ∧ nx = 85) then
          .ok ([92, nx], i + 1)
        else .ok ([92, 92], i))
    else .ok ([92, 92], i)
  else if ch = 34 then .ok ([92, 34], i)
  else if ch = 10 then .ok ([92, 110], i)
  else if ch = 13 then .ok ([92, 114], i)
  else if ch = 9 then .ok ([92, 116], i)
  else if ch = 8 then .ok ([92, 98], i)
  else if ch = 12 then .ok ([92, 102], i)
  else if cfg.encode_utf8 || cfg.encode_utf8_ext then
    if ch &&& 0xF8 = 0xF0 ∧ cfg.encode_utf8_ext = true then
      if i < size_sub length_ 3 then
        (read_at begin_ (i + 1)).bind (fun b1 =>
          (read_at begin_ (i + 2)).bind (fun b2 =>
            (read_at begin_ (i + 3)).bind (fun b3 =>
              let unicode_ := (((ch &&& 0x07) <<< 18) ||| ((b1 &&& 0x3F) <<< 12)
                ||| ((b2 &&& 0x3F) <<< 6) ||| (b3 &&& 0x3F)) % 2 ^ 32
              .ok ([92, 85, hex_char ((unicode_ >>> 20) &&& 0xF),
                    hex_char ((unicode_ >>> 16) &&& 0xF), hex_char ((unicode_ >>> 12) &&& 0xF),
                    hex_char ((unicode_ >>> 8) &&& 0xF), hex_char ((unicode_ >>> 4) &&& 0xF),
                    hex_char (unicode_ &&& 0xF)], i + 3))))
      else .ok ([ch], i)
    else if ch &&& 0xF0 = 0xE0 ∧ cfg.encode_utf8 = true then
      if i < size_sub length_ 2 then
        (read_at begin_ (i + 1)).bind (fun b1 =>
          (read_at begin_ (i + 2)).bind (fun b2 =>
            let unicode_ := (((ch &&& 0x0F) <<< 12) ||| ((b1 &&& 0x3F) <<< 6)
              ||| (b2 &&& 0x3F)) % 2 ^ 16
            .ok ([92, 117, hex_char ((unicode_ >>> 12) &&& 0xF),
                  hex_char ((unicode_ >>> 8) &&& 0xF), hex_char ((unicode_ >>> 4) &&& 0xF),
                  hex_char (unicode_ &&& 0xF)], i + 2)))
      else .ok ([ch], i)
    else if ch &&& 0xE0 = 0xC0 ∧ cfg.encode_utf8 = true then
      if i < size_sub length_ 1 then
        (read_at begin_ i).bind (fun b1 =>
          let unicode_ := (((ch &&& 0x1F) <<< 6) ||| (b1 &&& 0x3F)) % 2 ^ 16
          .ok ([92, 117, hex_char ((unicode_ >>> 12) &&& 0xF),
                hex_char ((unicode_ >>> 8) &&& 0xF), hex_char ((unicode_ >>> 4) &&& 0xF),
                hex_char (unicode_ &&& 0xF)], i + 1))
      else .ok ([ch], i)
    else .ok ([ch], i)
  else .ok ([ch], i)

/-- The `for(size_t i = 0; i < length_; ++i)` loop of the string printer (json.hpp 1105-1243),
from index `i`; every iteration advances `i`, so a budget of `length_` iterations is enough. -/
def print_string_loop (cfg : Config) (begin_ : List char_t) :
    Nat → Nat → Except Error (List char_t)
  | 0, i => if i < begin_.length then .error .out_of_fuel else .ok []
  | fuel + 1, i =>
    if i < begin_.length then
      (read_at begin_ i).bind (fun ch =>
        (print_string_step cfg begin_ i ch).bind (fun r =>
          (print_string_loop cfg begin_ fuel (r.2 + 1)).bind (fun out => .ok (r.1 ++ out))))
    else .ok []

/-- The function `print(Output &, String const &, PrintSettings const &)` (json.hpp 1092-1254). -/
def print_string (cfg : Config) (rhs : String) (ps : PrintSettings) :
    Except Error (List char_t) :=
  if cfg.process_string then
    match rhs with
    | some (_, str_) =>
      (print_string_loop cfg str_ str_.length 0).bind
        (fun out => .ok (print_lead ps ++ [34] ++ out ++ [34]))
    | none => .ok (print_lead ps ++ [34] ++ [34])
  else
    .ok (print_lead ps ++ [34] ++ string_content rhs ++ [34])

/-- The test of json.hpp 1267-1281: at most 7 elements and the first one is a null, boolean,
integer or number. -/
def single_line (elements : List Variant) : Bool :=
  decide (elements.length ≤ 7) &&
    (match elements.head? with
     | some e =>
       (match e.index with
        | .null_i | .boolean_i | .integer_i | .number_i => true
        | _ => false)
     | none => false)

mutual

/-- The function `print(Output &, Variant const &, PrintSettings const &)` (json.hpp 1346-1361)
with the branches for Array (1256-1299) and Object (1312-1344) in place. -/
def print (cfg : Config) (fmt : number_t → List char_t) :
    Variant → PrintSettings → Except Error (List char_t)
  | .invalid, _ => .ok []
  | .null, ps => .ok (print_null ps)
  | .boolean b, ps => .ok (print_boolean b ps)
  | .integer n, ps => .ok (print_integer n ps)
  | .number x, ps => .ok (print_number fmt x ps)
  | .string s, ps => print_string cfg s ps
  | .array none, ps => .ok (print_lead ps ++ [91] ++ [93])
  | .array (some (_, elements)), ps =>
    if elements.length > 0 then
      let sl := single_line elements
      (print_elements cfg fmt elements
          { depth := ps.depth + 1, readable := ps.readable, _indent := !sl }
          (ps.readable && !sl)).bind (fun body =>
        .ok (print_lead ps ++ [91] ++ body
          ++ (if ps.readable && !sl then [10] ++ print_indent ps.depth else []) ++ [93]))
    else .ok (print_lead ps ++ [91] ++ [93])
  | .object none, ps => .ok (print_lead ps ++ [123] ++ [125])
  | .object (some (_, entries)), ps =>
    if entries.length > 0 then
      (print_entries cfg fmt entries
          { depth := ps.depth + 1, readable := ps.readable, _indent := true }).bind (fun body =>
        .ok (print_lead ps ++ [123] ++ (if ps.readable then [10] else []) ++ body
          ++ (if ps.readable then [10] ++ print_indent ps.depth else []) ++ [125]))
    else .ok (print_lead ps ++ [123] ++ [125])

/-- The element loop of the array printer (json.hpp 1283-1290); `newline` is
`ps.readable && !single_line`.  A comma follows every element except the last. -/
def print_elements (cfg : Config) (fmt : number_t → List char_t) :
    List Variant → PrintSettings → Bool → Except Error (List char_t)
  | [], _, _ => .ok []
  | e :: rest, ps_, newline =>
    (print cfg fmt e ps_).bind (fun a =>
      (print_elements cfg fmt rest ps_ newline).bind (fun b =>
        .ok ((if newline then [10] else []) ++ a ++ (if rest.isEmpty then [] else [44]) ++ b)))

/-- The entry loop of the object printer (json.hpp 1326-1335) with the entry printer
`print(Output &, element_t const &, PrintSettings const &)` (json.hpp 1301-1310) in place: the
key is written between quotes as it is. -/
def print_entries (cfg : Config) (fmt : number_t → List char_t) :
    List (string_t × Variant) → PrintSettings → Except Error (List char_t)
  | [], _ => .ok []
  | (key, value) :: rest, ps_ =>
    (print cfg fmt value { depth := ps_.depth, readable := ps_.readable, _indent := false }).bind
      (fun a =>
        (print_entries cfg fmt rest ps_).bind (fun b =>
          .ok (print_lead ps_ ++ [34] ++ key ++ [34] ++ [58]
            ++ (if ps_.readable then [32] else []) ++ a
            ++ (if rest.isEmpty then [] else [44] ++ (if ps_.readable then [10] else []))
            ++ b)))

end

/-! ## Input stream primitives -/

/-- Modelled from the spec: `axl::is_char_white_space` (utilities.hpp is not part of the sources):
"space, tab, CR, LF, and other ASCII space characters", that is 9..13 and 32. -/
def is_char_white_space (ch : char_t) : Bool :=
  ch == 32 || (9 ≤ ch && ch ≤ 13)

/-- The loop shared by `_skip_spaces` and `_check_and_skip_spaces` (json.hpp 1379-1384,
1393-1398): read while the byte read is white space; reaching the end of the stream right
after a white-space byte throws end_of_stream.  `ch` is the current value of the local. -/
def skip_loop (ch : char_t) : List char_t → Except Error (char_t × List char_t)
  | [] => .ok (ch, [])
  | c :: rest =>
    if is_char_white_space c then
      if rest.isEmpty then .error .end_of_stream else skip_loop c rest
    else .ok (c, rest)

/-- The function `_skip_spaces` (json.hpp 1375-1385).  The local `ch` is not initialised: when
the very first read fails the function returns an indeterminate value. -/
def _skip_spaces (istream : List char_t) : Except Error (char_t × List char_t) :=
  match istream with
  | [] => .error .undefined_behaviour
  | _ :: _ => skip_loop 0 istream

/-- The function `_check_and_skip_spaces` (json.hpp 1387-1399). -/
def _check_and_skip_spaces (istream : List char_t) (ch_ : char_t) :
    Except Error (char_t × List char_t) :=
  if ch_ ≠ 0 ∧ ¬ is_char_white_space ch_ = true then .ok (ch_, istream)
  else skip_loop ch_ istream

/-! ## parse(Input &, String &, char_t) (json.hpp 1693-1932) -/

/-- The constant `buffer_size_` of the string parser (json.hpp 1701). -/
def buffer_size_ : Nat := 1024

/-- The locals of the string parser that outlive one loop iteration: the accumulated `jstr`,
the scratch `buffer` (only `buffer[0 .. i)` is kept, so `i` is its length), and the allocation
counter. -/
structure StringLocals where
  jstr : String
  buffer : List char_t
  heap : Nat
  deriving DecidableEq

/-- Modelled from the spec: the constructor `string_t(size)` and the member `string_t::copy`
(dsa/String.hpp is not part of the sources), as `flush_buffer` uses them: a fresh buffer of
`length_ + i` bytes receives the old content and then the scratch bytes ("flushing (appending)
into a growable owned buffer"). -/
def string_append_copy (old bytes : string_t) : string_t := old ++ bytes

/-- The lambda `flush_buffer` (json.hpp 1704-1716): a fresh string of length `length_ + i` is
allocated, receives the old content followed by `buffer[0 .. i)`, and replaces `jstr`; `i = 0`. -/
def flush_buffer (st : StringLocals) : StringLocals :=
  { jstr := some (st.heap, string_append_copy (string_content st.jstr) st.buffer), buffer := [],
    heap := st.heap + 1 }

/-- The guarded flush `if(i >= bound) flush_buffer();`. -/
def flush_if_ge (bound : Nat) (st : StringLocals) : StringLocals :=
  if st.buffer.length ≥ bound then flush_buffer st else st

/-- The statement `buffer[i++] = ch;`: a write at an index outside the 1024-byte array is
undefined behaviour. -/
def buffer_put (st : StringLocals) (ch : char_t) : Except Error StringLocals :=
  if st.buffer.length < buffer_size_ then .ok { st with buffer := st.buffer ++ [ch] }
  else .error .undefined_behaviour

/-- A run of statements `buffer[i++] = c;`, in order. -/
def buffer_puts (st : StringLocals) : List char_t → Except Error StringLocals
  | [] => .ok st
  | c :: cs => (buffer_put st c).bind (fun st1 => buffer_puts st1 cs)

/-- The code at label `record_char` (json.hpp 1893-1899). -/
def record_char (st : StringLocals) (escape_ : Bool) (ch : char_t) : Except Error StringLocals :=
  if escape_ then .error .runtime_error
  else buffer_put (flush_if_ge buffer_size_ st) ch

/-- The lambda mapping an escape letter to its character (json.hpp 1873-1886). -/
def escape_value (ech : char_t) : char_t :=
  if ech = 92 then 92
  else if ech = 47 then 47
  else if ech = 98 then 8
  else if ech = 102 then 12
  else if ech = 110 then 10
  else if ech = 114 then 13
  else if ech = 116 then 9
  else ech

/-- The `\u` branch with decoding enabled, after the four bytes `ucode` were read
(json.hpp 1757-1793).  `unicode_` is a `uint16_t`. -/
def decode_u (st : StringLocals) (u0 u1 u2 u3 : char_t) : Except Error StringLocals :=
  let unicode_ := ((hex_value u0 <<< 12) ||| (hex_value u1 <<< 8) ||| (hex_value u2 <<< 4)
    ||| hex_value u3) % 2 ^ 16
  if unicode_ ≤ 0x7F then
    buffer_puts (flush_if_ge buffer_size_ st) [unicode_ &&& 0x7F]
  else if unicode_ ≤ 0x7FF then
    buffer_puts (flush_if_ge (buffer_size_ - 2) st)
      [0xC0 ||| ((unicode_ >>> 6) &&& 0x1F), 0x80 ||| (unicode_ &&& 0x3F)]
  else if unicode_ ≤ 0xFFFF then
    buffer_puts (flush_if_ge (buffer_size_ - 3) st)
      [0xE0 ||| ((unicode_ >>> 12) &&& 0x0F), 0x80 ||| ((unicode_ >>> 6) &&& 0x3F),
        0x80 ||| (unicode_ &&& 0x3F)]
  else
    buffer_puts (flush_if_ge (buffer_size_ - 6) st) [92, 117, u0, u1, u2, u3]

/-- The `\U` branch with decoding enabled, after the six bytes `ucode` were read
(json.hpp 1812-1861).  `unicode_` is a `uint32_t`; the first digit is shifted by 18. -/
def decode_U (st : StringLocals) (u0 u1 u2 u3 u4 u5 : char_t) : Except Error StringLocals :=
  let unicode_ := ((hex_value u0 <<< 18) ||| (hex_value u1 <<< 16) ||| (hex_value u2 <<< 12)
    ||| (hex_value u3 <<< 8) ||| (hex_value u4 <<< 4) ||| hex_value u5) % 2 ^ 32
  if unicode_ ≤ 0x7F then
    buffer_puts (flush_if_ge buffer_size_ st) [unicode_ &&& 0x7F]
  else if unicode_ ≤ 0x7FF then
    buffer_puts (flush_if_ge (buffer_size_ - 2) st)
      [0xC0 ||| ((unicode_ >>> 6) &&& 0x1F), 0x80 ||| (unicode_ &&& 0x3F)]
  else if unicode_ ≤ 0xFFFF then
    buffer_puts (flush_if_ge (buffer_size_ - 3) st)
      [0xE0 ||| ((unicode_ >>> 12) &&& 0x0F), 0x80 ||| ((unicode_ >>> 6) &&& 0x3F),
        0x80 ||| (unicode_ &&& 0x3F)]
  else if unicode_ ≤ 0x10FFFF then
    buffer_puts (flush_if_ge (buffer_size_ - 4) st)
      [0xF0 ||| ((unicode_ >>> 18) &&& 0x07), 0x80 ||| ((unicode_ >>> 12) &&& 0x3F),
        0x80 ||| ((unicode_ >>> 6) &&& 0x3F), 0x80 ||| (unicode_ &&& 0x3F)]
  else
    buffer_puts (flush_if_ge (buffer_size_ - 6) st) [92, 85, u0, u1, u2, u3, u4, u5]

/-- The `while` loop of the string parser (json.hpp 1718-1923), one byte per iteration.  The
result is the state at label `end_loop` when the closing quote was read; every other way of
reaching `end_loop` (the stream ends, or fewer than N hex digits could be read) makes one of the
two checks at 1925-1928 throw, and both throw `runtime_error_exception`. -/
def parse_string_loop (cfg : Config) :
    StringLocals → Bool → List char_t → Except Error (StringLocals × List char_t)
  | _, _, [] => .error .runtime_error
  | st, escape_, ch :: rest =>
    if cfg.process_string then
      if ch = 34 then
        if escape_ then
          (record_char st false ch).bind (fun st1 => parse_string_loop cfg st1 false rest)
        else .ok (st, rest)
      else if ch = 92 ∧ escape_ = false then parse_string_loop cfg st true rest
      else if ch = 92 ∨ ch = 47 ∨ ch = 98 ∨ ch = 102 ∨ ch = 110 ∨ ch = 114 ∨ ch = 116
          ∨ ch = 117 ∨ ch = 85 then
        if escape_ then
          if ch = 117 then
            if cfg.decode_utf8 then
              match rest with
              | u0 :: u1 :: u2 :: u3 :: rest1 =>
                (decode_u st u0 u1 u2 u3).bind (fun st1 => parse_string_loop cfg st1 false rest1)
              | _ => .error .runtime_error
            else
              (buffer_puts (flush_if_ge buffer_size_ st) [92, ch]).bind
                (fun st1 => parse_string_loop cfg st1 false rest)
          else if ch = 85 then
            if cfg.decode_utf8_ext then
              match rest with
              | u0 :: u1 :: u2 :: u3 :: u4 :: u5 :: rest1 =>
                (decode_U st u0 u1 u2 u3 u4 u5).bind
                  (fun st1 => parse_string_loop cfg st1 false rest1)
              | _ => .error .runtime_error
            else
              (buffer_puts (flush_if_ge buffer_size_ st) [92, ch]).bind
                (fun st1 => parse_string_loop cfg st1 false rest)
          else
            (record_char st false (escape_value ch)).bind
              (fun st1 => parse_string_loop cfg st1 false rest)
        else
          (record_char st escape_ ch).bind (fun st1 => parse_string_loop cfg st1 escape_ rest)
      else
        (record_char st escape_ ch).bind (fun st1 => parse_string_loop cfg st1 escape_ rest)
    else
      if ch = 34 then
        if escape_ then
          (buffer_put (flush_if_ge buffer_size_ st) ch).bind
            (fun st1 => parse_string_loop cfg st1 false rest)
        else .ok (st, rest)
      else
        let escape1 := if ch = 92 then !escape_ else escape_
        (buffer_put (flush_if_ge buffer_size_ st) ch).bind
          (fun st1 => parse_string_loop cfg st1 escape1 rest)

/-- The function `parse(Input &, String &, char_t)` (json.hpp 1693-1932).  Returns the carried
character (the closing quote), the new value of `rhs`, the rest of the stream and the
allocation counter. -/
def parse_string (cfg : Config) (istream : List char_t) (heap : Nat) (ch_ : char_t) :
    Except Error (char_t × String × List char_t × Nat) :=
  (_check_and_skip_spaces istream ch_).bind (fun r =>
    if r.1 ≠ 34 then .error .runtime_error
    else
      (parse_string_loop cfg { jstr := none, buffer := [], heap := heap } false r.2).bind
        (fun q =>
          let st := flush_buffer q.1
          .ok (34, st.jstr, q.2, st.heap)))

/-! ## C library conversions used by the numeric tokenizer -/

/-- The value of the leading run of decimal digits of a text, continuing from `acc`. -/
def digit_run (acc : Nat) : List char_t → Nat
  | [] => acc
  | c :: cs => if 48 ≤ c ∧ c ≤ 57 then digit_run (acc * 10 + (c - 48)) cs else acc

/-- The C library scan shared by `atoi` and `atoll`: leading white space, an optional sign,
then the leading run of decimal digits; anything after it is ignored. -/
def scan_integer (s : List char_t) : Int :=
  match s.dropWhile is_char_white_space with
  | 45 :: r => - (digit_run 0 r : Int)
  | 43 :: r => (digit_run 0 r : Int)
  | r => (digit_run 0 r : Int)

/-- The C library function `atoll` on the text of a NUL-terminated buffer.  A value outside the
range of `long long` is undefined in C; the model saturates as `strtoll` does. -/
def atoll (s : List char_t) : integer_t :=
  max (-(2 : Int) ^ 63) (min ((2 : Int) ^ 63 - 1) (scan_integer s))

/-- The C library function `atoi`.  A value outside the range of `int` is undefined in C; the
model follows the GNU C library on a platform with a 64-bit `long`, where `atoi(s)` is
`(int) strtol(s, NULL, 10)`: the value saturates at the range of `long` and is then cut to its
low 32 bits, read as a signed number. -/
def atoi (s : List char_t) : Int :=
  (max (-(2 : Int) ^ 63) (min ((2 : Int) ^ 63 - 1) (scan_integer s)) + (2 : Int) ^ 31)
    % (2 : Int) ^ 32 - (2 : Int) ^ 31

/-! ## parse(Null), parse(Boolean) (json.hpp 1466-1521) -/

/-- One conjunct `1 == (read_ = istream.read(&ch, ...)) && ch == expected` of the literal
matchers, together with the two throws that follow a failed match: a failed read leaves
`read_ != 1` (end_of_stream), a wrong byte leaves `read_ == 1` (runtime_error). -/
def expect_char (expected : char_t) (istream : List char_t) : Except Error (List char_t) :=
  match istream with
  | [] => .error .end_of_stream
  | c :: rest => if c = expected then .ok rest else .error .runtime_error

/-- The function `parse(Input &, Null &, char_t)` (json.hpp 1466-1481): the carried character
and the rest of the stream. -/
def parse_null (istream : List char_t) (ch_ : char_t) : Except Error (char_t × List char_t) :=
  (_check_and_skip_spaces istream ch_).bind (fun r =>
    if r.1 = 110 then
      (expect_char 117 r.2).bind (fun s1 =>
        (expect_char 108 s1).bind (fun s2 =>
          (expect_char 108 s2).bind (fun s3 => .ok (108, s3))))
    else .error .runtime_error)

/-- The function `parse(Input &, Boolean &, char_t)` (json.hpp 1483-1521): the carried
character, the value assigned to `rhs`, and the rest of the stream. -/
def parse_boolean (istream : List char_t) (ch_ : char_t) :
    Except Error (char_t × Bool × List char_t) :=
  (_check_and_skip_spaces istream ch_).bind (fun r =>
    if r.1 = 116 then
      (expect_char 114 r.2).bind (fun s1 =>
        (expect_char 117 s1).bind (fun s2 =>
          (expect_char 101 s2).bind (fun s3 => .ok (101, true, s3))))
    else if r.1 = 102 then
      (expect_char 97 r.2).bind (fun s1 =>
        (expect_char 108 s1).bind (fun s2 =>
          (expect_char 115 s2).bind (fun s3 =>
            (expect_char 101 s3).bind (fun s4 => .ok (101, false, s4)))))
    else .error .runtime_error)

/-! ## parse_numeric (json.hpp 1524-1691) -/

/-- The constant `max_buffer_size_` of the numeric tokenizer (json.hpp 1529). -/
def max_buffer_size_ : Nat := 64

/-- The locals of `parse_numeric` that change inside its loop; `buffer` keeps `buffer[0 .. i)`. -/
structure NumericLocals where
  buffer : List char_t
  point_ : Bool
  just_read_point_ : Bool
  exponent_ : Bool
  just_read_exponent_ : Bool
  point_i : Nat
  exponent_i : Nat
  deriving DecidableEq

/-- The code at label `record_and_continue` (json.hpp 1629-1635). -/
def record_and_continue (st : NumericLocals) (ch : char_t) : NumericLocals :=
  { st with
    buffer := st.buffer ++ [ch]
    just_read_point_ := if st.just_read_point_ && ch != 46 then false else st.just_read_point_
    just_read_exponent_ :=
      if st.just_read_exponent_ && ch != 101 then false else st.just_read_exponent_ }

/-- The `for` loop of `parse_numeric` (json.hpp 1561-1651).  The result is the state at label
`end_loop`, the value of `ch` there and the rest of the stream. -/
def parse_numeric_loop :
    NumericLocals → char_t → List char_t → Except Error (NumericLocals × char_t × List char_t)
  | st, ch, [] => .ok (st, ch, [])
  | st, _, c :: rest =>
    if st.buffer.length < max_buffer_size_ then
      if c = 46 then
        if st.point_ then .error .runtime_error
        else if st.exponent_ then .error .runtime_error
        else
          parse_numeric_loop
            (record_and_continue
              { st with point_ := true, point_i := st.buffer.length, just_read_point_ := true } c)
            c rest
      else if c = 45 ∨ c = 43 then
        if st.exponent_ then
          if !st.just_read_exponent_ then .error .runtime_error
          else parse_numeric_loop (record_and_continue st c) c rest
        else .error .runtime_error
      else if c = 101 ∨ c = 69 then
        if st.exponent_ then .error .runtime_error
        else if st.just_read_point_ then .error .runtime_error
        else
          parse_numeric_loop
            (record_and_continue
              { st with exponent_ := true, just_read_exponent_ := true,
                        exponent_i := st.buffer.length } c)
            c rest
      else if 48 ≤ c ∧ c ≤ 57 then parse_numeric_loop (record_and_continue st c) c rest
      else if c = 44 ∨ c = 93 ∨ c = 125 ∨ c = 32 ∨ c = 10 ∨ c = 13 ∨ c = 9 ∨ c = 11 ∨ c = 12 then
        .ok (st, c, rest)
      else .error .runtime_error
    else .ok (st, c, rest)

/-- The conversion after label `end_loop` (json.hpp 1653-1682). -/
def convert_numeric (atof : List char_t → number_t) (signed_ : Bool) (st : NumericLocals) :
    Except Error Variant :=
  if (st.buffer.length = 1 ∧ (signed_ = true ∨ st.point_ = true))
      ∨ (st.point_ = true ∧ st.point_i = st.buffer.length - 1) then
    .error .runtime_error
  else if st.point_ || st.exponent_ then
    if st.exponent_ then
      if atoi (st.buffer.drop (st.exponent_i + 1)) ≥ 999 then
        if signed_ then .ok (.number (if st.buffer.head? = some 45 then neg_inf else inf))
        else .ok (.number inf)
      else .ok (.number (atof st.buffer))
    else .ok (.number (atof st.buffer))
  else .ok (.integer (atoll st.buffer))

/-- The function `parse_numeric` (json.hpp 1524-1691): the carried character, the value
assigned to `rhs`, and the rest of the stream.  `atof` is the C library function. -/
def parse_numeric (atof : List char_t → number_t) (istream : List char_t) (ch_ : char_t) :
    Except Error (char_t × Variant × List char_t) :=
  (_check_and_skip_spaces istream ch_).bind (fun r =>
    let ch := r.1
    if ch = 46 then .error .runtime_error
    else if ch = 45 ∨ ch = 43 ∨ (48 ≤ ch ∧ ch ≤ 57) then
      let signed_ : Bool := ch = 45 ∨ ch = 43
      (parse_numeric_loop
          { buffer := [ch], point_ := false, just_read_point_ := false, exponent_ := false,
            just_read_exponent_ := false, point_i := 0, exponent_i := 0 } ch r.2).bind
        (fun q => (convert_numeric atof signed_ q.1).bind (fun v => .ok (q.2.1, v, q.2.2)))
    else .error .runtime_error)

/-! ## parse(Array), parse(Object), parse(Variant) (json.hpp 1401-1464, 1934-2040) -/

/-- Modelled from the spec: `List::emplace` (dsa/Array.hpp is not part of the sources), the
"ordered insertion" the array parser relies on: the element is added at the end of the
sequence. -/
def list_emplace (elements : List Variant) (element_ : Variant) : List Variant :=
  elements ++ [element_]

/-- The member `Array::insert` (json.hpp 712-719): null_pointer on a null owner. -/
def Array.insert (rhs : Array) (element_ : Variant) : Except Error Array :=
  match rhs with
  | none => .error .null_pointer
  | some (a, elements) => .ok (some (a, list_emplace elements element_))

/-- Modelled from the spec: `HashMap::emplace` (dsa/HashMap.hpp is not part of the sources),
"insert-or-overwrite by key" with a stable iteration order: an existing key keeps its place and
receives the new value, a new key is added at the end. -/
def object_emplace (entries_ : List (string_t × Variant)) (key_ : string_t) (value_ : Variant) :
    List (string_t × Variant) :=
  if entries_.any (fun e => e.1 == key_) then
    entries_.map (fun e => if e.1 == key_ then (key_, value_) else e)
  else entries_ ++ [(key_, value_)]

/-- The member `Object::set(String &&, variant_t &&)` (json.hpp 826-833): null_pointer on a
null owner; the key owner is dereferenced. -/
def Object.set (rhs : Object) (key_ : String) (value_ : Variant) : Except Error Object :=
  match rhs with
  | none => .error .null_pointer
  | some (a, entries_) => .ok (some (a, object_emplace entries_ (string_content key_) value_))

/-- The `switch(element_.index)` after an element or member value (json.hpp 1964-1976,
2021-2033): after a string, array, object, null or boolean the next byte is read; after a
number the character carried by `parse_numeric` is kept. -/
def skip_after_value (idx : Index) (istream : List char_t) (ch : char_t) :
    Except Error (char_t × List char_t) :=
  match idx with
  | .string_i | .array_i | .object_i | .null_i | .boolean_i => _skip_spaces istream
  | _ => _check_and_skip_spaces istream ch

mutual

/-- The function `parse(Input &, Variant &, char_t)` (json.hpp 1401-1464): the carried
character, the value assigned to `rhs`, the rest of the stream and the allocation counter. -/
def parse_variant (cfg : Config) (atof : List char_t → number_t) :
    Nat → List char_t → Nat → char_t → Except Error (char_t × Variant × List char_t × Nat)
  | 0, _, _, _ => .error .out_of_fuel
  | fuel + 1, istream, heap, ch_ =>
    (_check_and_skip_spaces istream ch_).bind (fun r =>
      let ch := r.1
      if ch = 110 then
        (parse_null r.2 ch).bind (fun q => .ok (q.1, .null, q.2, heap))
      else if ch = 116 ∨ ch = 102 then
        (parse_boolean r.2 ch).bind (fun q => .ok (q.1, .boolean q.2.1, q.2.2, heap))
      else if ch = 45 ∨ ch = 43 ∨ ch = 46 ∨ (48 ≤ ch ∧ ch ≤ 57) then
        (parse_numeric atof r.2 ch).bind (fun q => .ok (q.1, q.2.1, q.2.2, heap))
      else if ch = 34 then
        (parse_string cfg r.2 heap ch).bind (fun q => .ok (q.1, .string q.2.1, q.2.2.1, q.2.2.2))
      else if ch = 91 then
        (parse_array cfg atof fuel r.2 heap ch).bind
          (fun q => .ok (q.1, .array q.2.1, q.2.2.1, q.2.2.2))
      else if ch = 123 then
        (parse_object cfg atof fuel r.2 heap ch).bind
          (fun q => .ok (q.1, .object q.2.1, q.2.2.1, q.2.2.2))
      else .error .runtime_error)
termination_by structural fuel => fuel

/-- The function `parse(Input &, Array &, char_t)` (json.hpp 1934-1983), entered with a
default-constructed (null) `rhs` as `parse(Variant)` does. -/
def parse_array (cfg : Config) (atof : List char_t → number_t) :
    Nat → List char_t → Nat → char_t → Except Error (char_t × Array × List char_t × Nat)
  | 0, _, _, _ => .error .out_of_fuel
  | fuel + 1, istream, heap, ch_ =>
    (_check_and_skip_spaces istream ch_).bind (fun r =>
      if r.1 ≠ 91 then .error .runtime_error
      else
        (_skip_spaces r.2).bind (fun r1 =>
          if r1.1 = 93 then .ok (93, none, r1.2, heap)
          else
            (parse_array_loop cfg atof fuel none true r1.1 r1.2 heap).bind (fun q =>
              if q.1 ≠ 93 then .error .runtime_error else .ok q)))
termination_by structural fuel => fuel

/-- The `do ... while(ch == ',')` loop of the array parser (json.hpp 1946-1978). -/
def parse_array_loop (cfg : Config) (atof : List char_t → number_t) :
    Nat → Array → Bool → char_t → List char_t → Nat →
      Except Error (char_t × Array × List char_t × Nat)
  | 0, _, _, _, _, _ => .error .out_of_fuel
  | fuel + 1, rhs, first_time, ch, istream, heap =>
    (if ch = 44 then _skip_spaces istream else _check_and_skip_spaces istream ch).bind (fun r =>
      (parse_variant cfg atof fuel r.2 heap r.1).bind (fun e =>
        let element_ := e.2.1
        let heap1 := e.2.2.2
        (if element_.index ≠ .invalid_i then
            if first_time then
              (.ok (some (heap1, [element_]), false, heap1 + 1) : Except Error (Array × Bool × Nat))
            else (Array.insert rhs element_).bind (fun a => .ok (a, first_time, heap1))
          else .ok (rhs, first_time, heap1)).bind (fun u =>
          (skip_after_value element_.index e.2.2.1 e.1).bind (fun r2 =>
            if r2.1 = 44 then parse_array_loop cfg atof fuel u.1 u.2.1 r2.1 r2.2 u.2.2
            else .ok (r2.1, u.1, r2.2, u.2.2)))))
termination_by structural fuel => fuel

/-- The function `parse(Input &, Object &, char_t)` (json.hpp 1985-2040), entered with a
default-constructed (null) `rhs` as `parse(Variant)` does. -/
def parse_object (cfg : Config) (atof : List char_t → number_t) :
    Nat → List char_t → Nat → char_t → Except Error (char_t × Object × List char_t × Nat)
  | 0, _, _, _ => .error .out_of_fuel
  | fuel + 1, istream, heap, ch_ =>
    (_check_and_skip_spaces istream ch_).bind (fun r =>
      if r.1 ≠ 123 then .error .runtime_error
      else
        (_skip_spaces r.2).bind (fun r1 =>
          if r1.1 = 125 then .ok (125, none, r1.2, heap)
          else
            (parse_object_loop cfg atof fuel none true r1.1 r1.2 heap).bind (fun q =>
              if q.1 ≠ 125 then .error .runtime_error else .ok q)))
termination_by structural fuel => fuel

/-- The `do ... while(ch == ',')` loop of the object parser (json.hpp 1997-2035). -/
def parse_object_loop (cfg : Config) (atof : List char_t → number_t) :
    Nat → Object → Bool → char_t → List char_t → Nat →
      Except Error (char_t × Object × List char_t × Nat)
  | 0, _, _, _, _, _ => .error .out_of_fuel
  | fuel + 1, rhs, first_time, ch, istream, heap =>
    (if ch = 44 then _skip_spaces istream else _check_and_skip_spaces istream ch).bind (fun r =>
      (parse_string cfg r.2 heap r.1).bind (fun k =>
        let key_ := k.2.1
        (_skip_spaces k.2.2.1).bind (fun r1 =>
          if r1.1 ≠ 58 then .error .runtime_error
          else
            (_skip_spaces r1.2).bind (fun r2 =>
              (parse_variant cfg atof fuel r2.2 k.2.2.2 r2.1).bind (fun e =>
                let value_ := e.2.1
                let heap1 := e.2.2.2
                (if value_.index ≠ .invalid_i then
                    if first_time then
                      (.ok (some (heap1, [(string_content key_, value_)]), false, heap1 + 1) :
                        Except Error (Object × Bool × Nat))
                    else (Object.set rhs key_ value_).bind (fun a => .ok (a, first_time, heap1))
                  else .ok (rhs, first_time, heap1)).bind (fun u =>
                  (skip_after_value value_.index e.2.2.1 e.1).bind (fun r3 =>
                    if r3.1 = 44 then parse_object_loop cfg atof fuel u.1 u.2.1 r3.1 r3.2 u.2.2
                    else .ok (r3.1, u.1, r3.2, u.2.2))))))))
termination_by structural fuel => fuel
end

/-- The entry point `operator>>(Input &, Variant &)` (json.hpp 2163-2168): `parse` with no
carried character.  The recursion budget is three nested calls per byte of input, and four. -/
def parse (cfg : Config) (atof : List char_t → number_t) (istream : List char_t) (heap : Nat) :
    Except Error (char_t × Variant × List char_t × Nat) :=
  parse_variant cfg atof (3 * istream.length + 4) istream heap 0

/-! ## Definitions used to state the properties -/

/-- Everything the string parser has accumulated: the content of `jstr` and then `buffer[0 .. i)`. -/
def accumulated (st : StringLocals) : List char_t := string_content st.jstr ++ st.buffer

/-- The segment `seg` of a literal is read, from any state of the loop outside an escape, as
the bytes `out`: the loop continues after it with `out` appended to what was accumulated. -/
def Decodes (cfg : Config) (seg out : List char_t) : Prop :=
  ∀ (st : StringLocals) (rest : List char_t), st.buffer.length ≤ buffer_size_ →
    ∃ st1 : StringLocals, st1.buffer.length ≤ buffer_size_
      ∧ accumulated st1 = accumulated st ++ out
      ∧ parse_string_loop cfg st false (seg ++ rest) = parse_string_loop cfg st1 false rest

/-- What the string printer writes for one byte when the encode switches are off and the decode
switches are on. -/
def printed_byte (c : char_t) : List char_t :=
  if c = 92 then [92, 92]
  else if c = 34 then [92, 34]
  else if c = 10 then [92, 110]
  else if c = 13 then [92, 114]
  else if c = 9 then [92, 116]
  else if c = 8 then [92, 98]
  else if c = 12 then [92, 102]
  else [c]

/-- The text written for a whole content, byte by byte. -/
def printed_text : List char_t → List char_t
  | [] => []
  | c :: cs => printed_byte c ++ printed_text cs

/-- The hexadecimal digit of value `d` (below 16), in upper or lower case. -/
def hex_digit (upper : Bool) (d : Nat) : char_t :=
  if d < 10 then 48 + d else if upper then 55 + d else 87 + d

/-- The standard UTF-8 byte layout of a code point below 0x110000 (RFC 3629, section 3), applied
to surrogate values as to any other value. -/
def standard_utf8 (c : Nat) : List char_t :=
  if c ≤ 0x7F then [c]
  else if c ≤ 0x7FF then [0xC0 + c / 64, 0x80 + c % 64]
  else if c ≤ 0xFFFF then [0xE0 + c / 4096, 0x80 + c / 64 % 64, 0x80 + c % 64]
  else [0xF0 + c / 262144, 0x80 + c / 4096 % 64, 0x80 + c / 64 % 64, 0x80 + c % 64]

/-- The bytes that end a numeric token (json.hpp 1637-1646). -/
def numeric_terminators : List char_t := [44, 93, 125, 32, 10, 13, 9, 11, 12]

/-- The text after a token: nothing, or something that starts with a terminator. -/
def ends_token (rest : List char_t) : Bool :=
  match rest with
  | [] => true
  | t :: _ => decide (t ∈ numeric_terminators)

/-! ## Definitions used to state the properties of the tokenizer, the literals and the object loop -/

/-- The locals of the tokenizer as a function of the text accumulated in `buffer`. -/
def flags_of (buffer : List char_t) : NumericLocals :=
  { buffer := buffer
    point_ := decide (46 ∈ buffer)
    just_read_point_ := decide (buffer.getLast? = some 46)
    exponent_ := decide (101 ∈ buffer ∨ 69 ∈ buffer)
    just_read_exponent_ := decide (buffer.getLast? = some 101)
    point_i := if 46 ∈ buffer then buffer.indexOf 46 else 0
    exponent_i := if 101 ∈ buffer ∨ 69 ∈ buffer
      then buffer.findIdx (fun x => x == 101 || x == 69) else 0 }

/-- The bytes of which numeric tokens are made: digits, the point, the signs, `e` and `E`. -/
def numeric_char (c : Nat) : Bool :=
  c == 46 || c == 45 || c == 43 || c == 101 || c == 69 || (decide (48 ≤ c) && decide (c ≤ 57))

/-- The characters of a literal after its first one, matched one read at a time as the `&&`
chains of the literal parsers do. -/
def match_literal : List char_t → List char_t → Except Error (List char_t)
  | [], s => .ok s
  | e :: es, s => (expect_char e s).bind (match_literal es)

/-- The literal `null`. -/
def literal_null : List char_t := [110, 117, 108, 108]

/-- The literal `true`. -/
def literal_true : List char_t := [116, 114, 117, 101]

/-- The literal `false`. -/
def literal_false : List char_t := [102, 97, 108, 115, 101]

/-- The Null parser with no carried character, as a reader of values. -/
def read_null (istream : List char_t) : Except Error (Variant × List char_t) :=
  (parse_null istream 0).map (fun q => (Variant.null, q.2))

/-- The Boolean parser with no carried character, as a reader of values. -/
def read_boolean (istream : List char_t) : Except Error (Variant × List char_t) :=
  (parse_boolean istream 0).map (fun q => (Variant.boolean q.2.1, q.2.2))

/-- The contract of one literal `lit` with its value and its reader: the reader succeeds with
that value exactly on the inputs that spell the literal in full after optional white space,
and the rest is what follows the literal; on an input that ends inside the literal, after its
first character, the error is end_of_stream; on an input that departs from the literal after
its first character the error is the syntax error. -/
def literal_contract (lit : List char_t) (value : Variant)
    (read : List char_t → Except Error (Variant × List char_t)) : Prop :=
  (∀ s rest, read s = .ok (value, rest) ↔
      ∃ ws, (∀ w ∈ ws, is_char_white_space w = true) ∧ s = ws ++ lit ++ rest)
    ∧ (∀ ws k, (∀ w ∈ ws, is_char_white_space w = true) → 1 ≤ k → k < lit.length →
        read (ws ++ lit.take k) = .error .end_of_stream)
    ∧ (∀ ws k c rest, (∀ w ∈ ws, is_char_white_space w = true) → 1 ≤ k → k < lit.length →
        lit.get? k ≠ some c → read (ws ++ lit.take k ++ c :: rest) = .error .runtime_error)

/-- The members that the object loop (json.hpp 1997-2035) reads, in the order of the text:
the loop of `parse_object_loop` with the same reads, the same allocation counter and the same
exits, in which the pair of the key and the value of each round is collected instead of being
handed to the mapping. -/
def parse_object_members (cfg : Config) (atof : List char_t → number_t) :
    Nat → Bool → char_t → List char_t → Nat →
      Except Error (char_t × List (string_t × Variant) × List char_t × Nat)
  | 0, _, _, _, _ => .error .out_of_fuel
  | fuel + 1, first_time, ch, istream, heap =>
    (if ch = 44 then _skip_spaces istream else _check_and_skip_spaces istream ch).bind (fun r =>
      (parse_string cfg r.2 heap r.1).bind (fun k =>
        (_skip_spaces k.2.2.1).bind (fun r1 =>
          if r1.1 ≠ 58 then .error .runtime_error
          else
            (_skip_spaces r1.2).bind (fun r2 =>
              (parse_variant cfg atof fuel r2.2 k.2.2.2 r2.1).bind (fun e =>
                let value_ := e.2.1
                let valid : Bool := decide (value_.index ≠ .invalid_i)
                let heap2 := if valid && first_time then e.2.2.2 + 1 else e.2.2.2
                let here := if valid then [(string_content k.2.1, value_)] else []
                (skip_after_value value_.index e.2.2.1 e.1).bind (fun r3 =>
                  if r3.1 = 44 then
                    (parse_object_members cfg atof fuel (first_time && !valid) r3.1 r3.2
                      heap2).bind (fun q => .ok (q.1, here ++ q.2.1, q.2.2.1, q.2.2.2))
                  else .ok (r3.1, here, r3.2, heap2)))))))

/-- The members of an object text, in the order of the text: the prologue and the epilogue of
`parse(Object)` around `parse_object_members`. -/
def object_members (cfg : Config) (atof : List char_t → number_t) (fuel : Nat)
    (istream : List char_t) (heap : Nat) (ch_ : char_t) :
    Except Error (char_t × List (string_t × Variant) × List char_t × Nat) :=
  match fuel with
  | 0 => .error .out_of_fuel
  | fuel + 1 =>
    (_check_and_skip_spaces istream ch_).bind (fun r =>
      if r.1 ≠ 123 then .error .runtime_error
      else
        (_skip_spaces r.2).bind (fun r1 =>
          if r1.1 = 125 then .ok (125, [], r1.2, heap)
          else
            (parse_object_members cfg atof fuel true r1.1 r1.2 heap).bind (fun q =>
              if q.1 ≠ 125 then .error .runtime_error else .ok q)))

/-- The entries behind an owner; none behind a null owner. -/
def object_entries (o : Object) : List (string_t × Variant) :=
  match o with
  | none => []
  | some (_, entries_) => entries_

/-- The entries of a mapping that carry the key `k`. -/
def entries_for (entries_ : List (string_t × Variant)) (k : string_t) :
    List (string_t × Variant) :=
  entries_.filter (fun e => e.1 == k)

/-- The value of the last member of the text that carries the key `k`, if there is one. -/
def last_value : List (string_t × Variant) → string_t → Option Variant
  | [], _ => none
  | m :: ms, k =>
    match last_value ms k with
    | some v => some v
    | none => if m.1 = k then some m.2 else none

/-- The text of one member with an Integer value: the key between quotes, the colon and the
decimal text of the value. -/
def member_text (m : string_t × Int) : List char_t :=
  34 :: (m.1 ++ 34 :: 58 :: write_integer m.2)

/-- The text of the members of an object after the opening brace: the members separated by
commas, the closing brace, and then `rest`. -/
def members_text : List (string_t × Int) → List char_t → List char_t
  | [], rest => 125 :: rest
  | [m], rest => member_text m ++ 125 :: rest
  | m :: m1 :: ms, rest => member_text m ++ 44 :: members_text (m1 :: ms) rest

/-! ## The keyed index operator and the move constructor (json.hpp 437-452, 624-636) -/

/-- The operator `Variant::operator[](string_view_t const &)` (json.hpp 624-636).  The
expression `object.entries()[key]` dereferences the owner and indexes the mapping; both belong
to headers outside the sources and are the parameter `entries_index`. -/
def Variant.operator_index (entries_index : Object → string_t → Except Error Variant)
    (v : Variant) (key : string_t) : Except Error Variant :=
  if v.index ≠ .object_i then .error .runtime_error
  else
    match v with
    | .object m_entries => entries_index m_entries key
    | _ => .error .undefined_behaviour

/-- Modelled from the spec: the move constructor of `unique_ptr_t` (pointer/Unique.hpp is not
part of the sources), the "standard copy/move/append semantics" of a "single-ownership smart
pointer": the new owner receives the pointer and the source is left null.  The result is the
new owner and the source after the move. -/
def unique_ptr_move {α : Type} (rhs : unique_ptr_t α) : unique_ptr_t α × unique_ptr_t α :=
  (rhs, none)

/-- The constructor `Variant::Variant(Variant &&)` (json.hpp 437-452): `index` is initialised
from `rhs.index` and the live member is move-constructed from the member of `rhs`
(`String(String &&)`, `Array(Array &&)` and `Object(Object &&)` move the owner, json.hpp 251-253,
699-701, 787-789; the scalar structs are copied).  Nothing assigns `rhs.index`.  The result is
the constructed value and `rhs` after the move. -/
def Variant.move_construct : Variant → Variant × Variant
  | .invalid => (.invalid, .invalid)
  | .null => (.null, .null)
  | .boolean m_value => (.boolean m_value, .boolean m_value)
  | .integer m_value => (.integer m_value, .integer m_value)
  | .number m_value => (.number m_value, .number m_value)
  | .string m_value => (.string (unique_ptr_move m_value).1, .string (unique_ptr_move m_value).2)
  | .array m_elements =>
    (.array (unique_ptr_move m_elements).1, .array (unique_ptr_move m_elements).2)
  | .object m_entries =>
    (.object (unique_ptr_move m_entries).1, .object (unique_ptr_move m_entries).2)

/-! ## Definitions used to state the properties of the printer, the value model and the tokens -/

/-- IEEE-754: a double is finite when its exponent field is not all ones. -/
def number_is_finite (x : number_t) : Bool := (x / 2 ^ 52) % 2 ^ 11 != 2047

/-- The text of one entry as the entry printer writes it (json.hpp 1301-1310), given the text
of its value: the indentation, the key between quotes, a colon, a space in readable mode, the
value. -/
def entry_text (ps_ : PrintSettings) (key : string_t) (value_text : List char_t) : List char_t :=
  print_lead ps_ ++ [34] ++ key ++ [34] ++ [58] ++ (if ps_.readable then [32] else []) ++ value_text

/-- The condition the specification gives for a one-line array: at most 7 elements, the first
of them a Null, Boolean, Integer or Number. -/
def one_line_array (elements : List Variant) : Bool :=
  match elements with
  | [] => false
  | e :: _ =>
    decide (elements.length ≤ 7)
      && (e.index == .null_i || e.index == .boolean_i || e.index == .integer_i
          || e.index == .number_i)

/-- A byte that the string printer writes as it is when the encode switches are off: not a
backslash, a quote, or one of the five control characters with a short escape. -/
def printed_plain (c : char_t) : Prop :=
  c ≠ 92 ∧ c ≠ 34 ∧ c ≠ 10 ∧ c ≠ 13 ∧ c ≠ 9 ∧ c ≠ 8 ∧ c ≠ 12

/-- The six structural characters: the brackets, the braces, the comma and the colon. -/
def structural_char (c : Nat) : Bool :=
  c == 91 || c == 93 || c == 123 || c == 125 || c == 44 || c == 58

/-- The texts of the tokens: one structural character; a string literal, that is an opening
quote and a text that the loop of the string parser reads completely, up to its closing quote;
the text of a number, a non-empty run of the bytes numbers are made of; one of the literals
`null`, `true` and `false`. -/
inductive Token (cfg : Config) : List char_t → Prop
  | structural (c : char_t) (h : structural_char c = true) : Token cfg [c]
  | string (body : List char_t)
      (h : ∀ heap, ∃ st, parse_string_loop cfg (StringLocals.mk none [] heap) false body
        = .ok (st, [])) : Token cfg (34 :: body)
  | number (w : List char_t) (hne : w ≠ []) (h : ∀ c ∈ w, numeric_char c = true) : Token cfg w
  | literal (w : List char_t) (h : w = literal_null ∨ w = literal_true ∨ w = literal_false) :
      Token cfg w

/-- The text `t` is the text `s` with white space inserted before tokens: both are the same
tokens, in `s` after the white space `w1` and in `t` after the white space `w2` of which `w1`
is a part, up to a common remainder.  The text of a number is the whole run: it is not followed
by one more byte of a number. -/
inductive Spaced (cfg : Config) : List char_t → List char_t → Prop
  | done (s : List char_t) : Spaced cfg s s
  | gap (w1 w2 pre s t : List char_t) (hw : ∀ c ∈ w2, is_char_white_space c = true)
      (hsub : List.Sublist w1 w2) (htok : Token cfg pre)
      (hmax : (∀ c ∈ pre, numeric_char c = true) →
        ∀ c, s.head? = some c → numeric_char c = false)
      (hrest : Spaced cfg s t) : Spaced cfg (w1 ++ pre ++ s) (w2 ++ pre ++ t)

/-- The text that is still to be read when `ch` is the carried character: a carried character
that is 0 or white space is dropped by `_check_and_skip_spaces`, any other one is the next
character. -/
def unread (ch : char_t) (istream : List char_t) : List char_t :=
  if ch = 0 ∨ is_char_white_space ch = true then istream else ch :: istream

/-- The text that is still to be read after an element, for `skip_after_value`: after a number
the carried character counts, after every other value it does not. -/
def after_value (idx : Index) (ch : char_t) (istream : List char_t) : List char_t :=
  match idx with
  | .string_i | .array_i | .object_i | .null_i | .boolean_i => istream
  | _ => unread ch istream

/-! ## The hash, Array::operator[], operator!= and the typed getters (json.hpp 51, 671-688, 738-758, 871-999, 2185-2202) -/

/-- The constant `hash_table_size_` (json.hpp 51). -/
def hash_table_size_ : Nat := 256

/-- The function `hash(axl::json::Variant const &)` (json.hpp 2185-2202).  The hashes of an
integer, of the 64 bits of a double, of a string and of a pointer belong to headers outside the
sources and are the parameters `hash_integer`, `hash_uint64`, `hash_string`, `hash_pointer`;
`self` is the address `&var`. -/
def hash (hash_integer : integer_t → Nat) (hash_uint64 : Nat → Nat)
    (hash_string : string_t → Nat) (hash_pointer : Nat → Nat) (self : Nat) (var : Variant) :
    Nat :=
  let partition_size_ := (hash_table_size_ - 4) / 4
  let half_partition_size_ := partition_size_ / 2
  match var with
  | .null => 1
  | .boolean m_value => (if m_value then 1 else 0) + 2
  | .integer m_value => hash_integer m_value % partition_size_ + 4
  | .number m_value => hash_uint64 m_value % partition_size_ + partition_size_
  | .string m_value =>
    (if unique_ptr_bool m_value then hash_string (string_content m_value) else 0)
      % partition_size_ + partition_size_ * 2
  | .array _ => hash_pointer self % half_partition_size_ + partition_size_ * 3
  | .object _ =>
    hash_pointer self % half_partition_size_ + partition_size_ * 3 + half_partition_size_
  | .invalid => 0

/-- The statement `for(; index > 0 && it; ++it);` of `Array::operator[]` (json.hpp 745, 756):
nothing in it changes `index`.  The iterator is the part of the sequence it has not passed; it
converts to false at the end of the sequence. -/
def index_loop (index : Nat) : List Variant → List Variant
  | [] => []
  | x :: it => if index > 0 then index_loop index it else x :: it

/-- The member `Array::operator[](size_t)` (json.hpp 738-758).  `*it` for an iterator at the
end of the sequence is undefined. -/
def Array.operator_index (rhs : Array) (index : Nat) : Except Error Variant :=
  match rhs with
  | none => .error .null_pointer
  | some (_, elements_) =>
    if index ≥ elements_.length then .error .index_out_of_bounds
    else
      match index_loop index elements_ with
      | x :: _ => .ok x
      | [] => .error .undefined_behaviour

/-- Modelled from the spec: `Unique::operator!=` (pointer/Unique.hpp is not part of the
sources), the negation of the "strict pointer identity" of `unique_ptr_eq`. -/
def unique_ptr_ne {α : Type} (a b : unique_ptr_t α) : Bool := !unique_ptr_eq a b

/-- The operator `Variant::operator!=(Variant const &)` (json.hpp 671-688).  IEEE-754 `!=` on
doubles is the negation of `==`. -/
def Variant.operator_ne (lhs rhs : Variant) : Bool :=
  if rhs.index ≠ lhs.index then true
  else
    match lhs, rhs with
    | .null, _ => false
    | .boolean a, .boolean b => a != b
    | .integer a, .integer b => a != b
    | .number a, .number b => !number_eq a b
    | .string a, .string b =>
      unique_ptr_ne a b
        || ((unique_ptr_bool a && unique_ptr_bool b) && string_content a != string_content b)
        || (unique_ptr_bool a == !unique_ptr_bool b)
    | .array a, .array b => unique_ptr_ne a b
    | .object a, .object b => unique_ptr_ne a b
    | _, _ => true

/-- Modelled from the spec: `HashMap::position_of` (dsa/HashMap.hpp is not part of the
sources), the "lookup-by-key returning found/not-found plus value": the value of the entry
with the key, or nothing. -/
def position_of (entries : List (string_t × Variant)) (key : string_t) : Option Variant :=
  (entries.find? (fun e => e.1 == key)).map (fun e => e.2)

/-- The member `Object::get_boolean` with `T = boolean_t` (json.hpp 871-891): the returned
value and `copy_to` afterwards. -/
def Object.get_boolean (rhs : Object) (key : string_t) (copy_to : Bool) : Bool × Bool :=
  match rhs with
  | some (_, entries) =>
    match position_of entries key with
    | some var =>
      match var with
      | .boolean m_value => (true, m_value)
      | .null => (true, copy_to)
      | _ => (false, copy_to)
    | none => (false, copy_to)
  | none => (false, copy_to)

/-- The member `Object::get_integer` with `T = integer_t` (json.hpp 893-913). -/
def Object.get_integer (rhs : Object) (key : string_t) (copy_to : integer_t) :
    Bool × integer_t :=
  match rhs with
  | some (_, entries) =>
    match position_of entries key with
    | some var =>
      match var with
      | .integer m_value => (true, m_value)
      | .null => (true, copy_to)
      | _ => (false, copy_to)
    | none => (false, copy_to)
  | none => (false, copy_to)

/-- The member `Object::get_number` with `T = number_t` (json.hpp 915-935). -/
def Object.get_number (rhs : Object) (key : string_t) (copy_to : number_t) : Bool × number_t :=
  match rhs with
  | some (_, entries) =>
    match position_of entries key with
    | some var =>
      match var with
      | .number m_value => (true, m_value)
      | .null => (true, copy_to)
      | _ => (false, copy_to)
    | none => (false, copy_to)
  | none => (false, copy_to)

/-- The member `Object::get_string` with `T = string_t` (json.hpp 937-957).  The payload is
read with `var.string.value()`, that is `*m_value` (json.hpp 277), with no test of the owner:
for a null owner the dereference is undefined. -/
def Object.get_string (rhs : Object) (key : string_t) (copy_to : string_t) :
    Except Error (Bool × string_t) :=
  match rhs with
  | some (_, entries) =>
    match position_of entries key with
    | some var =>
      match var with
      | .string m_value =>
        match m_value with
        | some (_, value_) => .ok (true, value_)
        | none => .error .undefined_behaviour
      | .null => .ok (true, copy_to)
      | _ => .ok (false, copy_to)
    | none => .ok (false, copy_to)
  | none => .ok (false, copy_to)

/-- The copy constructors `Array::Array(Array const &)` and `Object::Object(Object const &)`
(json.hpp 703-705, 791-793), which the copy assignments call: a null owner gives a null owner,
otherwise `make_unique` gives a new object at the address `heap`, built by the copy constructor
of the container (`copy_container`, from a header outside the sources). -/
def owner_copy {α : Type} (copy_container : α → α) (heap : Nat) (rhs : unique_ptr_t α) :
    unique_ptr_t α :=
  match rhs with
  | some (_, x) => some (heap, copy_container x)
  | none => none

/-- The member `Object::get_array` (json.hpp 959-978). -/
def Object.get_array (copy_container : List Variant → List Variant) (heap : Nat) (rhs : Object)
    (key : string_t) (copy_to : Array) : Bool × Array :=
  match rhs with
  | some (_, entries) =>
    match position_of entries key with
    | some var =>
      match var with
      | .array m_elements => (true, owner_copy copy_container heap m_elements)
      | .null => (true, copy_to)
      | _ => (false, copy_to)
    | none => (false, copy_to)
  | none => (false, copy_to)

/-- The member `Object::get_object` (json.hpp 980-999). -/
def Object.get_object
    (copy_container : List (string_t × Variant) → List (string_t × Variant)) (heap : Nat)
    (rhs : Object) (key : string_t) (copy_to : Object) : Bool × Object :=
  match rhs with
  | some (_, entries) =>
    match position_of entries key with
    | some var =>
      match var with
      | .object m_entries => (true, owner_copy copy_container heap m_entries)
      | .null => (true, copy_to)
      | _ => (false, copy_to)
    | none => (false, copy_to)
  | none => (false, copy_to)

/-! ## Definitions used to state the properties of the typed getters -/

/-- The Value a key maps to in an Object: nothing when the mapping is absent or has no entry
with the key. -/
def stored (rhs : Object) (key : string_t) : Option Variant :=
  match rhs with
  | some (_, entries) => position_of entries key
  | none => none

/-! ## Definitions used to state the round trip of a value -/

/-- A text is a run of digits: it is not empty and every character is one of `0` to `9`. -/
def is_digits (l : List char_t) : Prop := l ≠ [] ∧ ∀ c ∈ l, 48 ≤ c ∧ c ≤ 57

/-- The decimal texts of Numbers, as in the JSON grammar: an optional minus sign and a run of
digits, followed by a fraction (a point and a run of digits), or by an exponent (`e` with an
optional sign, or `E`, and then a run of digits of value below 999), or by both; 64 characters
at most. -/
def number_text (w : List char_t) : Prop :=
  ∃ sg ip fr ex : List char_t, w = sg ++ ip ++ fr ++ ex
    ∧ (sg = [] ∨ sg = [45]) ∧ is_digits ip
    ∧ (fr = [] ∨ ∃ fd, fr = 46 :: fd ∧ is_digits fd)
    ∧ (ex = [] ∨ ∃ e es ed, ex = e :: (es ++ ed)
        ∧ ((e = 101 ∧ (es = [] ∨ es = [43] ∨ es = [45])) ∨ (e = 69 ∧ es = []))
        ∧ is_digits ed ∧ digit_run 0 ed < 999)
    ∧ (fr ≠ [] ∨ ex ≠ []) ∧ w.length ≤ 64

/-- The values for which the compact print is read back as an equal value: Null, Boolean,
Integer in the 64-bit range, a finite Number that the output stream writes as a decimal text
with a point or an exponent and that the C library reads back from that text as an equal
double, String with a present buffer under the initial switches, Array and Object with an
absent payload.  `fmt` is the text `Output::operator<<(double)` writes and `atof` the C
library function. -/
def round_trips (cfg : Config) (fmt : number_t → List char_t) (atof : List char_t → number_t)
    (V : Variant) : Prop :=
  match V with
  | .null => True
  | .boolean _ => True
  | .integer n => -(2 : Int) ^ 63 ≤ n ∧ n < (2 : Int) ^ 63
  | .number x =>
    number_is_finite x = true ∧ number_text (fmt x) ∧ number_eq (atof (fmt x)) x = true
  | .string (some _) => cfg = default_config
  | .array none => True
  | .object none => True
  | _ => False

/-! # Theorems -/

/-! ## Lemmas: the `Except` plumbing -/

@[simp] theorem except_bind_ok {ε α β : Type} (a : α) (f : α → Except ε β) :
    (Except.ok a : Except ε α).bind f = f a := rfl

@[simp] theorem except_bind_error {ε α β : Type} (e : ε) (f : α → Except ε β) :
    (Except.error e : Except ε α).bind f = Except.error e := rfl

@[simp] theorem except_bind_pure {ε α : Type} (x : Except ε α) :
    x.bind (fun a => Except.ok a) = x := by
  cases x <;> rfl

/-! ## Lemmas: the scratch buffer of the string parser -/

theorem accumulated_flush (st : StringLocals) :
    accumulated (flush_buffer st) = accumulated st := by
  simp [accumulated, flush_buffer, string_content, string_append_copy]

theorem buffer_puts_ok (cs : List char_t) :
    ∀ st : StringLocals, st.buffer.length + cs.length ≤ buffer_size_ →
      buffer_puts st cs = .ok { st with buffer := st.buffer ++ cs } := by
  induction cs with
  | nil => intro st _; simp [buffer_puts]
  | cons c cs ih =>
    intro st h
    have h1 : st.buffer.length < buffer_size_ := by
      simp only [List.length_cons] at h; omega
    have h2 : ({ st with buffer := st.buffer ++ [c] } : StringLocals).buffer.length + cs.length
        ≤ buffer_size_ := by
      simp only [List.length_append, List.length_cons, List.length_nil] at h ⊢; omega
    simp [buffer_puts, buffer_put, h1, ih _ h2]

/-- A guarded flush followed by at most `k` writes never leaves the buffer and appends exactly
the bytes written. -/
theorem flush_then_puts (k : Nat) (cs : List char_t) (st : StringLocals)
    (hk : k ≤ buffer_size_) (hcs : cs.length ≤ max k 1)
    (hst : st.buffer.length ≤ buffer_size_) :
    ∃ st1, buffer_puts (flush_if_ge (buffer_size_ - k) st) cs = .ok st1
      ∧ st1.buffer.length ≤ buffer_size_ ∧ accumulated st1 = accumulated st ++ cs := by
  have hb : buffer_size_ = 1024 := rfl
  by_cases hge : st.buffer.length ≥ buffer_size_ - k
  · have hfl : flush_if_ge (buffer_size_ - k) st = flush_buffer st := by
      simp [flush_if_ge, hge]
    have hlen : (flush_buffer st).buffer.length + cs.length ≤ buffer_size_ := by
      simp only [flush_buffer, List.length_nil]; omega
    refine ⟨_, by rw [hfl, buffer_puts_ok cs _ hlen], ?_, ?_⟩
    · simpa using hlen
    · simp [accumulated, flush_buffer, string_content, string_append_copy]
  · have hfl : flush_if_ge (buffer_size_ - k) st = st := by
      simp [flush_if_ge, hge]
    have hlen : st.buffer.length + cs.length ≤ buffer_size_ := by omega
    refine ⟨_, by rw [hfl, buffer_puts_ok cs _ hlen], ?_, ?_⟩
    · simpa using hlen
    · simp [accumulated]

theorem record_char_ok (st : StringLocals) (ch : char_t)
    (hst : st.buffer.length ≤ buffer_size_) :
    ∃ st1, record_char st false ch = .ok st1
      ∧ st1.buffer.length ≤ buffer_size_ ∧ accumulated st1 = accumulated st ++ [ch] := by
  obtain ⟨st1, h1, h2, h3⟩ := flush_then_puts 0 [ch] st (by decide) (by simp) hst
  refine ⟨st1, ?_, h2, h3⟩
  simpa [record_char, buffer_puts] using h1

/-! ## Lemmas: single steps of the string loop -/

theorem parse_string_loop_cons (cfg : Config) (st : StringLocals) (escape_ : Bool) (ch : char_t)
    (rest : List char_t) :
    parse_string_loop cfg st escape_ (ch :: rest) =
     (if cfg.process_string then
      if ch = 34 then
        if escape_ then
          (record_char st false ch).bind (fun st1 => parse_string_loop cfg st1 false rest)
        else .ok (st, rest)
      else if ch = 92 ∧ escape_ = false then parse_string_loop cfg st true rest
      else if ch = 92 ∨ ch = 47 ∨ ch = 98 ∨ ch = 102 ∨ ch = 110 ∨ ch = 114 ∨ ch = 116
          ∨ ch = 117 ∨ ch = 85 then
        if escape_ then
          if ch = 117 then
            if cfg.decode_utf8 then
              match rest with
              | u0 :: u1 :: u2 :: u3 :: rest1 =>
                (decode_u st u0 u1 u2 u3).bind (fun st1 => parse_string_loop cfg st1 false rest1)
              | _ => .error .runtime_error
            else
              (buffer_puts (flush_if_ge buffer_size_ st) [92, ch]).bind
                (fun st1 => parse_string_loop cfg st1 false rest)
          else if ch = 85 then
            if cfg.decode_utf8_ext then
              match rest with
              | u0 :: u1 :: u2 :: u3 :: u4 :: u5 :: rest1 =>
                (decode_U st u0 u1 u2 u3 u4 u5).bind
                  (fun st1 => parse_string_loop cfg st1 false rest1)
              | _ => .error .runtime_error
            else
              (buffer_puts (flush_if_ge buffer_size_ st) [92, ch]).bind
                (fun st1 => parse_string_loop cfg st1 false rest)
          else
            (record_char st false (escape_value ch)).bind
              (fun st1 => parse_string_loop cfg st1 false rest)
        else
          (record_char st escape_ ch).bind (fun st1 => parse_string_loop cfg st1 escape_ rest)
      else
        (record_char st escape_ ch).bind (fun st1 => parse_string_loop cfg st1 escape_ rest)
    else
      if ch = 34 then
        if escape_ then
          (buffer_put (flush_if_ge buffer_size_ st) ch).bind
            (fun st1 => parse_string_loop cfg st1 false rest)
        else .ok (st, rest)
      else
        let escape1 := if ch = 92 then !escape_ else escape_
        (buffer_put (flush_if_ge buffer_size_ st) ch).bind
          (fun st1 => parse_string_loop cfg st1 escape1 rest)) := by
  rcases rest with _ | ⟨u0, _ | ⟨u1, _ | ⟨u2, _ | ⟨u3, _ | ⟨u4, _ | ⟨u5, rest⟩⟩⟩⟩⟩⟩ <;> rfl


theorem loop_plain_step (cfg : Config) (hps : cfg.process_string = true) (st : StringLocals)
    (ch : char_t) (rest : List char_t) (h34 : ch ≠ 34) (h92 : ch ≠ 92) :
    parse_string_loop cfg st false (ch :: rest)
      = (record_char st false ch).bind (fun st1 => parse_string_loop cfg st1 false rest) := by
  rw [parse_string_loop_cons]
  simp [hps, h34, h92]

theorem loop_backslash_step (cfg : Config) (hps : cfg.process_string = true) (st : StringLocals)
    (rest : List char_t) :
    parse_string_loop cfg st false (92 :: rest) = parse_string_loop cfg st true rest := by
  rw [parse_string_loop_cons]
  simp [hps]

theorem loop_quote_step (cfg : Config) (hps : cfg.process_string = true) (st : StringLocals)
    (rest : List char_t) :
    parse_string_loop cfg st false (34 :: rest) = .ok (st, rest) := by
  rw [parse_string_loop_cons]
  simp [hps]

theorem loop_escaped_step (cfg : Config) (hps : cfg.process_string = true) (st : StringLocals)
    (e : char_t) (rest : List char_t)
    (he : e = 34 ∨ e = 92 ∨ e = 47 ∨ e = 98 ∨ e = 102 ∨ e = 110 ∨ e = 114 ∨ e = 116) :
    parse_string_loop cfg st true (e :: rest)
      = (record_char st false (escape_value e)).bind
          (fun st1 => parse_string_loop cfg st1 false rest) := by
  rw [parse_string_loop_cons]
  rcases he with h | h | h | h | h | h | h | h <;> subst h <;> simp [hps, escape_value]

theorem loop_bad_escape_step (cfg : Config) (hps : cfg.process_string = true) (st : StringLocals)
    (c : char_t) (rest : List char_t)
    (hc : c ∉ [34, 92, 47, 98, 102, 110, 114, 116, 117, 85]) :
    parse_string_loop cfg st true (c :: rest) = .error .runtime_error := by
  rw [parse_string_loop_cons]
  simp only [List.mem_cons, List.mem_singleton, List.not_mem_nil, or_false, not_or] at hc
  obtain ⟨h1, h2, h3, h4, h5, h6, h7, h8, h9, h10⟩ := hc
  simp [hps, h1, h2, h3, h4, h5, h6, h7, h8, h9, h10, record_char]

theorem loop_u_step (cfg : Config) (hps : cfg.process_string = true)
    (hd : cfg.decode_utf8 = true) (st : StringLocals) (u0 u1 u2 u3 : char_t)
    (rest : List char_t) :
    parse_string_loop cfg st true (117 :: u0 :: u1 :: u2 :: u3 :: rest)
      = (decode_u st u0 u1 u2 u3).bind (fun st1 => parse_string_loop cfg st1 false rest) := by
  rw [parse_string_loop_cons]
  simp [hps, hd]

theorem loop_U_step (cfg : Config) (hps : cfg.process_string = true)
    (hd : cfg.decode_utf8_ext = true) (st : StringLocals) (u0 u1 u2 u3 u4 u5 : char_t)
    (rest : List char_t) :
    parse_string_loop cfg st true (85 :: u0 :: u1 :: u2 :: u3 :: u4 :: u5 :: rest)
      = (decode_U st u0 u1 u2 u3 u4 u5).bind (fun st1 => parse_string_loop cfg st1 false rest) := by
  rw [parse_string_loop_cons]
  simp [hps, hd]

theorem loop_u_literal_step (cfg : Config) (hps : cfg.process_string = true)
    (hd : cfg.decode_utf8 = false) (st : StringLocals) (rest : List char_t) :
    parse_string_loop cfg st true (117 :: rest)
      = (buffer_puts (flush_if_ge buffer_size_ st) [92, 117]).bind
          (fun st1 => parse_string_loop cfg st1 false rest) := by
  rw [parse_string_loop_cons]
  simp [hps, hd]

theorem loop_U_literal_step (cfg : Config) (hps : cfg.process_string = true)
    (hd : cfg.decode_utf8_ext = false) (st : StringLocals) (rest : List char_t) :
    parse_string_loop cfg st true (85 :: rest)
      = (buffer_puts (flush_if_ge buffer_size_ st) [92, 85]).bind
          (fun st1 => parse_string_loop cfg st1 false rest) := by
  rw [parse_string_loop_cons]
  simp [hps, hd]

/-! ## Lemmas: segments of a string literal -/

theorem decodes_nil (cfg : Config) : Decodes cfg [] [] := by
  intro st rest hst
  exact ⟨st, hst, by simp, rfl⟩

theorem decodes_append (cfg : Config) (s1 o1 s2 o2 : List char_t)
    (h1 : Decodes cfg s1 o1) (h2 : Decodes cfg s2 o2) : Decodes cfg (s1 ++ s2) (o1 ++ o2) := by
  intro st rest hst
  obtain ⟨st1, hb1, ha1, hl1⟩ := h1 st (s2 ++ rest) hst
  obtain ⟨st2, hb2, ha2, hl2⟩ := h2 st1 rest hb1
  refine ⟨st2, hb2, ?_, ?_⟩
  · rw [ha2, ha1, List.append_assoc]
  · rw [List.append_assoc, hl1, hl2]

theorem decodes_of_step (cfg : Config) (seg out : List char_t)
    (f : StringLocals → Except Error StringLocals)
    (hstep : ∀ st rest, parse_string_loop cfg st false (seg ++ rest)
      = (f st).bind (fun st1 => parse_string_loop cfg st1 false rest))
    (hf : ∀ st : StringLocals, st.buffer.length ≤ buffer_size_ →
      ∃ st1, f st = .ok st1 ∧ st1.buffer.length ≤ buffer_size_
        ∧ accumulated st1 = accumulated st ++ out) :
    Decodes cfg seg out := by
  intro st rest hst
  obtain ⟨st1, h1, h2, h3⟩ := hf st hst
  exact ⟨st1, h2, h3, by rw [hstep, h1]; rfl⟩

/-- A byte that is neither a quote nor a backslash stands for itself. -/
theorem decodes_plain_char (cfg : Config) (hps : cfg.process_string = true) (c : char_t)
    (h34 : c ≠ 34) (h92 : c ≠ 92) : Decodes cfg [c] [c] :=
  decodes_of_step cfg [c] [c] (fun st => record_char st false c)
    (fun st rest => loop_plain_step cfg hps st c rest h34 h92)
    (fun st hst => record_char_ok st c hst)

theorem decodes_plain (cfg : Config) (hps : cfg.process_string = true) (s : List char_t)
    (hs : ∀ c ∈ s, c ≠ 34 ∧ c ≠ 92) : Decodes cfg s s := by
  induction s with
  | nil => exact decodes_nil cfg
  | cons c s ih =>
    have hc := hs c (List.mem_cons_self c s)
    exact decodes_append cfg [c] [c] s s (decodes_plain_char cfg hps c hc.1 hc.2)
      (ih (fun d hd => hs d (List.mem_cons_of_mem c hd)))

/-- A backslash followed by one of the eight escape letters stands for one byte. -/
theorem decodes_escape (cfg : Config) (hps : cfg.process_string = true) (e : char_t)
    (he : e = 34 ∨ e = 92 ∨ e = 47 ∨ e = 98 ∨ e = 102 ∨ e = 110 ∨ e = 114 ∨ e = 116) :
    Decodes cfg [92, e] [escape_value e] :=
  decodes_of_step cfg [92, e] [escape_value e] (fun st => record_char st false (escape_value e))
    (fun st rest => by
      show parse_string_loop cfg st false (92 :: e :: rest) = _
      rw [loop_backslash_step cfg hps, loop_escaped_step cfg hps st e rest he])
    (fun st hst => record_char_ok st (escape_value e) hst)

/-- A literal whose body is read as `out` parses to a present buffer holding `out`. -/
theorem parse_string_of_decodes (cfg : Config) (hps : cfg.process_string = true)
    (body out rest : List char_t) (heap : Nat) (h : Decodes cfg body out) :
    ∃ a heap1, parse_string cfg (34 :: (body ++ 34 :: rest)) heap 0
      = .ok (34, some (a, out), rest, heap1) := by
  obtain ⟨st1, _, ha, hl⟩ := h { jstr := none, buffer := [], heap := heap } (34 :: rest)
    (by simp)
  refine ⟨st1.heap, st1.heap + 1, ?_⟩
  have hskip : _check_and_skip_spaces (34 :: (body ++ 34 :: rest)) 0
      = .ok (34, body ++ 34 :: rest) := by
    simp [_check_and_skip_spaces, skip_loop, is_char_white_space]
  simp only [parse_string, hskip, except_bind_ok, hl, loop_quote_step cfg hps]
  simp [flush_buffer, accumulated, string_content, string_append_copy] at ha ⊢
  exact ha

/-! ## Lemmas: leading indentation -/

theorem skip_loop_tabs (n : Nat) (ch c : char_t) (rest : List char_t)
    (hc : is_char_white_space c = false) :
    skip_loop ch (List.replicate n 9 ++ c :: rest) = .ok (c, rest) := by
  induction n generalizing ch with
  | zero => simp [skip_loop, hc]
  | succ n ih =>
    have h9 : is_char_white_space 9 = true := by decide
    simp only [List.replicate_succ, List.cons_append, skip_loop, h9, if_true]
    rw [if_neg (by simp)]
    exact ih 9

theorem check_and_skip_lead (ps : PrintSettings) (c : char_t) (rest : List char_t)
    (hc : is_char_white_space c = false) :
    _check_and_skip_spaces (print_lead ps ++ c :: rest) 0 = .ok (c, rest) := by
  have h0 : ∀ l, _check_and_skip_spaces l 0 = skip_loop 0 l := by
    intro l; simp [_check_and_skip_spaces]
  rw [h0]
  unfold print_lead
  split
  · exact skip_loop_tabs _ 0 c rest hc
  · simpa using skip_loop_tabs 0 0 c rest hc

/-! ## Lemmas: the string printer with the initial switches -/

theorem size_sub_one_le (n : Nat) (h : 1 ≤ n) : size_sub n 1 ≤ n - 1 := by
  unfold size_sub
  have : n + 2 ^ 64 - 1 = (n - 1) + 2 ^ 64 := by omega
  rw [this, Nat.add_mod_right]
  exact Nat.mod_le _ _

theorem read_at_of_lt (s : List char_t) (i : Nat) (h : i < s.length) :
    read_at s i = .ok (s.get ⟨i, h⟩) := by
  simp [read_at, List.getElem?_eq_getElem h]

theorem print_string_step_default (s : List char_t) (i : Nat) (ch : char_t)
    (hi : i < s.length) :
    print_string_step default_config s i ch = .ok (printed_byte ch, i) := by
  unfold print_string_step printed_byte
  by_cases h92 : ch = 92
  · simp only [h92, if_true]
    by_cases hg : i < size_sub s.length 1
    · have hlt : i + 1 < s.length := by
        have := size_sub_one_le s.length (by omega); omega
      simp [hg, read_at_of_lt s (i + 1) hlt, default_config]
    · simp [hg]
  · simp [h92, default_config]
    split_ifs <;> rfl

theorem print_string_loop_default (s : List char_t) :
    ∀ fuel i, s.length - i ≤ fuel →
      print_string_loop default_config s fuel i = .ok (printed_text (s.drop i)) := by
  intro fuel
  induction fuel with
  | zero =>
    intro i h
    have hi : ¬ i < s.length := by omega
    simp [print_string_loop, hi, List.drop_eq_nil_of_le (Nat.le_of_not_lt hi), printed_text]
  | succ fuel ih =>
    intro i h
    by_cases hi : i < s.length
    · have hdrop : s.drop i = s.get ⟨i, hi⟩ :: s.drop (i + 1) := by
        rw [List.drop_eq_getElem_cons hi]
        rfl
      simp only [print_string_loop, hi, if_true, read_at_of_lt s i hi, except_bind_ok,
        print_string_step_default s i _ hi, ih (i + 1) (by omega), hdrop, printed_text]
    · simp [print_string_loop, hi, List.drop_eq_nil_of_le (Nat.le_of_not_lt hi), printed_text]

theorem print_string_default (a : Nat) (s : List char_t) (ps : PrintSettings) :
    print_string default_config (some (a, s)) ps
      = .ok (print_lead ps ++ [34] ++ printed_text s ++ [34]) := by
  simp [print_string, default_config]
  have := print_string_loop_default s s.length 0 (by omega)
  simp only [default_config, List.drop_zero] at this
  rw [this]; rfl

theorem decodes_printed_byte (c : char_t) : Decodes default_config (printed_byte c) [c] := by
  have hps : default_config.process_string = true := rfl
  unfold printed_byte
  split_ifs with h1 h2 h3 h4 h5 h6 h7
  · subst h1; exact decodes_escape _ hps 92 (by simp)
  · subst h2; exact decodes_escape _ hps 34 (by simp)
  · subst h3; exact decodes_escape _ hps 110 (by simp)
  · subst h4; exact decodes_escape _ hps 114 (by simp)
  · subst h5; exact decodes_escape _ hps 116 (by simp)
  · subst h6; exact decodes_escape _ hps 98 (by simp)
  · subst h7; exact decodes_escape _ hps 102 (by simp)
  · exact decodes_plain_char _ hps c h2 h1

theorem decodes_printed_text (s : List char_t) : Decodes default_config (printed_text s) s := by
  induction s with
  | nil => exact decodes_nil _
  | cons c s ih =>
    exact decodes_append _ (printed_byte c) [c] (printed_text s) s (decodes_printed_byte c) ih

/-- A literal, after the indentation of the printer, whose body is read as `out`. -/
theorem parse_string_lead_of_decodes (cfg : Config) (hps : cfg.process_string = true)
    (ps : PrintSettings) (body out rest : List char_t) (heap : Nat) (h : Decodes cfg body out) :
    ∃ a heap1, parse_string cfg (print_lead ps ++ 34 :: (body ++ 34 :: rest)) heap 0
      = .ok (34, some (a, out), rest, heap1) := by
  obtain ⟨st1, _, ha, hl⟩ := h { jstr := none, buffer := [], heap := heap } (34 :: rest)
    (by simp)
  refine ⟨st1.heap, st1.heap + 1, ?_⟩
  simp only [parse_string, check_and_skip_lead ps 34 _ (by decide), except_bind_ok, hl,
    loop_quote_step cfg hps]
  simp [flush_buffer, accumulated, string_content, string_append_copy] at ha ⊢
  exact ha

/-- The string round trip behind C1 and C2. -/
theorem string_round_trip (a : Nat) (s : List char_t) (ps : PrintSettings) (rest : List char_t)
    (heap : Nat) :
    ∃ text a1 heap1, print_string default_config (some (a, s)) ps = .ok text
      ∧ parse_string default_config (text ++ rest) heap 0 = .ok (34, some (a1, s), rest, heap1) := by
  obtain ⟨a1, heap1, h⟩ := parse_string_lead_of_decodes default_config rfl ps (printed_text s) s
    rest heap (decodes_printed_text s)
  refine ⟨_, a1, heap1, print_string_default a s ps, ?_⟩
  simp at h ⊢
  exact h

/-! ## Lemmas: bit operations as arithmetic -/

theorem hex_value_hex_digit (upper : Bool) (d : Nat) (h : d < 16) :
    hex_value (hex_digit upper d) = d := by
  interval_cases d <;> cases upper <;> rfl

theorem or_eq_add_of_lt (i a b : Nat) (hb : b < 2 ^ i) : (2 ^ i * a) ||| b = 2 ^ i * a + b :=
  (Nat.mul_add_lt_is_or hb a).symm

theorem and_mask (v k : Nat) : v &&& (2 ^ k - 1) = v % 2 ^ k :=
  Nat.and_pow_two_sub_one_eq_mod v k

theorem code_unit_of_digits (h0 h1 h2 h3 : Nat) (a0 : h0 < 16) (a1 : h1 < 16) (a2 : h2 < 16)
    (a3 : h3 < 16) :
    ((h0 <<< 12) ||| (h1 <<< 8) ||| (h2 <<< 4) ||| h3) % 2 ^ 16
      = h0 * 4096 + h1 * 256 + h2 * 16 + h3 := by
  simp only [Nat.shiftLeft_eq]
  have e1 : h0 * 2 ^ 12 ||| h1 * 2 ^ 8 = h0 * 2 ^ 12 + h1 * 2 ^ 8 := by
    have := or_eq_add_of_lt 12 h0 (h1 * 2 ^ 8) (by omega)
    rwa [Nat.mul_comm (2 ^ 12) h0] at this
  have e2 : (h0 * 2 ^ 12 + h1 * 2 ^ 8) ||| h2 * 2 ^ 4 = h0 * 2 ^ 12 + h1 * 2 ^ 8 + h2 * 2 ^ 4 := by
    have := or_eq_add_of_lt 8 (h0 * 16 + h1) (h2 * 2 ^ 4) (by omega)
    have e : 2 ^ 8 * (h0 * 16 + h1) = h0 * 2 ^ 12 + h1 * 2 ^ 8 := by ring
    rwa [e] at this
  have e3 : (h0 * 2 ^ 12 + h1 * 2 ^ 8 + h2 * 2 ^ 4) ||| h3
      = h0 * 2 ^ 12 + h1 * 2 ^ 8 + h2 * 2 ^ 4 + h3 := by
    have := or_eq_add_of_lt 4 (h0 * 256 + h1 * 16 + h2) h3 (by omega)
    have e : 2 ^ 4 * (h0 * 256 + h1 * 16 + h2) = h0 * 2 ^ 12 + h1 * 2 ^ 8 + h2 * 2 ^ 4 := by ring
    rwa [e] at this
  rw [e1, e2, e3]
  omega

theorem utf8_one_byte (v : Nat) (h : v ≤ 0x7F) : v &&& 0x7F = v := by
  have := and_mask v 7
  norm_num at this
  rw [this]; omega

theorem utf8_two_bytes (v : Nat) (h : v ≤ 0x7FF) :
    [0xC0 ||| ((v >>> 6) &&& 0x1F), 0x80 ||| (v &&& 0x3F)] = [0xC0 + v / 64, 0x80 + v % 64] := by
  have m1 := and_mask (v >>> 6) 5
  have m2 := and_mask v 6
  have o1 := or_eq_add_of_lt 6 3 (v / 64) (by omega)
  have o2 := or_eq_add_of_lt 7 1 (v % 64) (by omega)
  norm_num [Nat.shiftRight_eq_div_pow] at m1 m2 o1 o2
  rw [Nat.shiftRight_eq_div_pow, m2]
  norm_num
  rw [m1, o2, Nat.mod_eq_of_lt (by omega), o1]
  simp

theorem utf8_three_bytes (v : Nat) (h : v ≤ 0xFFFF) :
    [0xE0 ||| ((v >>> 12) &&& 0x0F), 0x80 ||| ((v >>> 6) &&& 0x3F), 0x80 ||| (v &&& 0x3F)]
      = [0xE0 + v / 4096, 0x80 + v / 64 % 64, 0x80 + v % 64] := by
  have m1 := and_mask (v >>> 12) 4
  have m2 := and_mask (v >>> 6) 6
  have m3 := and_mask v 6
  have o1 := or_eq_add_of_lt 5 7 (v / 4096) (by omega)
  have o2 := or_eq_add_of_lt 7 1 (v / 64 % 64) (by omega)
  have o3 := or_eq_add_of_lt 7 1 (v % 64) (by omega)
  norm_num [Nat.shiftRight_eq_div_pow] at m1 m2 m3 o1 o2 o3
  rw [Nat.shiftRight_eq_div_pow, Nat.shiftRight_eq_div_pow, m3]
  norm_num
  rw [m1, m2, o2, o3, Nat.mod_eq_of_lt (by omega), o1]
  simp

theorem utf8_four_bytes (v : Nat) (h : v ≤ 0x10FFFF) :
    [0xF0 ||| ((v >>> 18) &&& 0x07), 0x80 ||| ((v >>> 12) &&& 0x3F),
        0x80 ||| ((v >>> 6) &&& 0x3F), 0x80 ||| (v &&& 0x3F)]
      = [0xF0 + v / 262144, 0x80 + v / 4096 % 64, 0x80 + v / 64 % 64, 0x80 + v % 64] := by
  have m1 := and_mask (v >>> 18) 3
  have m2 := and_mask (v >>> 12) 6
  have m3 := and_mask (v >>> 6) 6
  have m4 := and_mask v 6
  have o1 := or_eq_add_of_lt 4 15 (v / 262144) (by omega)
  have o2 := or_eq_add_of_lt 7 1 (v / 4096 % 64) (by omega)
  have o3 := or_eq_add_of_lt 7 1 (v / 64 % 64) (by omega)
  have o4 := or_eq_add_of_lt 7 1 (v % 64) (by omega)
  norm_num [Nat.shiftRight_eq_div_pow] at m1 m2 m3 m4 o1 o2 o3 o4
  rw [Nat.shiftRight_eq_div_pow, Nat.shiftRight_eq_div_pow, Nat.shiftRight_eq_div_pow, m4]
  norm_num
  rw [m1, m2, m3, o2, o3, o4, Nat.mod_eq_of_lt (by omega), o1]
  simp


/-! ## Lemmas: the `\u` and `\U` escapes -/

theorem decode_u_hex (st : StringLocals) (hst : st.buffer.length ≤ buffer_size_)
    (p0 p1 p2 p3 : Bool) (d0 d1 d2 d3 : Nat) (h0 : d0 < 16) (h1 : d1 < 16) (h2 : d2 < 16)
    (h3 : d3 < 16) :
    ∃ st1, decode_u st (hex_digit p0 d0) (hex_digit p1 d1) (hex_digit p2 d2) (hex_digit p3 d3)
        = .ok st1
      ∧ st1.buffer.length ≤ buffer_size_
      ∧ accumulated st1
          = accumulated st ++ standard_utf8 (d0 * 4096 + d1 * 256 + d2 * 16 + d3) := by
  have hv : d0 * 4096 + d1 * 256 + d2 * 16 + d3 ≤ 0xFFFF := by omega
  generalize hvdef : d0 * 4096 + d1 * 256 + d2 * 16 + d3 = v at hv
  unfold decode_u standard_utf8
  simp only [hex_value_hex_digit, h0, h1, h2, h3, code_unit_of_digits, hvdef]
  by_cases c1 : v ≤ 0x7F
  · simp only [c1, if_true, utf8_one_byte v c1]
    exact flush_then_puts 0 [v] st (by decide) (by simp) hst
  · by_cases c2 : v ≤ 0x7FF
    · simp only [c1, c2, if_true, if_false, utf8_two_bytes v c2]
      exact flush_then_puts 2 _ st (by decide) (by simp) hst
    · simp only [c1, c2, hv, if_true, if_false, utf8_three_bytes v hv]
      exact flush_then_puts 3 _ st (by decide) (by simp) hst

/-- With `\u` decoding on, `\u` and four hex digits stand for the UTF-8 bytes of their value. -/
theorem decodes_u (cfg : Config) (hps : cfg.process_string = true)
    (hd : cfg.decode_utf8 = true) (p0 p1 p2 p3 : Bool) (d0 d1 d2 d3 : Nat) (h0 : d0 < 16)
    (h1 : d1 < 16) (h2 : d2 < 16) (h3 : d3 < 16) :
    Decodes cfg [92, 117, hex_digit p0 d0, hex_digit p1 d1, hex_digit p2 d2, hex_digit p3 d3]
      (standard_utf8 (d0 * 4096 + d1 * 256 + d2 * 16 + d3)) :=
  decodes_of_step cfg _ _
    (fun st => decode_u st (hex_digit p0 d0) (hex_digit p1 d1) (hex_digit p2 d2) (hex_digit p3 d3))
    (fun st rest => by
      show parse_string_loop cfg st false (92 :: 117 :: _ :: _ :: _ :: _ :: rest) = _
      rw [loop_backslash_step cfg hps, loop_u_step cfg hps hd])
    (fun st hst => decode_u_hex st hst p0 p1 p2 p3 d0 d1 d2 d3 h0 h1 h2 h3)

/-! ## Lemmas: decimal text of an integer -/

theorem decimal_digits_spec :
    ∀ (fuel n : Nat) (acc : List Nat), n < fuel →
      ∃ D : List Nat, decimal_digits fuel n acc = D ++ acc ∧ 1 ≤ D.length
        ∧ (∀ c ∈ D, 48 ≤ c ∧ c ≤ 57)
        ∧ (∀ a rest, digit_run a (D ++ rest) = digit_run (a * 10 ^ D.length + n) rest)
        ∧ 10 ^ (D.length - 1) ≤ max n 1 := by
  intro fuel
  induction fuel with
  | zero => intro n _ h; omega
  | succ fuel ih =>
    intro n acc hn
    by_cases h10 : n < 10
    · refine ⟨[48 + n], by simp [decimal_digits, h10], by simp, ?_, ?_, ?_⟩
      · intro c hc
        simp only [List.mem_singleton] at hc
        omega
      · intro a rest
        have : 48 + n ≤ 57 := by omega
        simp [digit_run, this]
      · simp
    · obtain ⟨D, hD, hlen, hdig, hrun, hpow⟩ := ih (n / 10) ((48 + n % 10) :: acc) (by omega)
      refine ⟨D ++ [48 + n % 10], by simp [decimal_digits, h10, hD], by simp, ?_, ?_, ?_⟩
      · intro c hc
        rcases List.mem_append.mp hc with h | h
        · exact hdig c h
        · simp only [List.mem_singleton] at h
          omega
      · intro a rest
        have h57 : 48 + n % 10 ≤ 57 := by omega
        rw [List.append_assoc, hrun]
        simp only [List.singleton_append, digit_run, Nat.le_add_right, h57, and_self, if_true,
          Nat.add_sub_cancel_left, List.length_append, List.length_singleton, pow_succ]
        congr 1
        rw [← Nat.mul_assoc]
        generalize a * 10 ^ D.length = q
        omega
      · have hk : D.length = (D.length - 1) + 1 := by omega
        have h1 : max (n / 10) 1 = n / 10 := by omega
        rw [h1] at hpow
        simp only [List.length_append, List.length_singleton, Nat.add_sub_cancel]
        rw [hk, pow_succ]
        have : n ≤ max n 1 := le_max_left _ _
        omega

theorem decimal_length_le (D : List Nat) (n : Nat) (hn : n ≤ 2 ^ 63)
    (hpow : 10 ^ (D.length - 1) ≤ max n 1) : D.length ≤ 19 := by
  by_contra hcon
  have h19 : 19 ≤ D.length - 1 := by omega
  have h1 : (10 : Nat) ^ 19 ≤ 10 ^ (D.length - 1) := Nat.pow_le_pow_right (by decide) h19
  have h2 : max n 1 ≤ 2 ^ 63 := max_le hn (by norm_num)
  have h3 : (2 : Nat) ^ 63 < 10 ^ 19 := by norm_num
  omega

/-! ## Lemmas: the numeric tokenizer on a run of digits -/

theorem parse_numeric_loop_digits :
    ∀ (ds : List Nat) (st : NumericLocals) (ch : Nat) (rest : List Nat),
      st.point_ = false → st.just_read_point_ = false → st.exponent_ = false →
      st.just_read_exponent_ = false → (∀ c ∈ ds, 48 ≤ c ∧ c ≤ 57) →
      st.buffer.length + ds.length < max_buffer_size_ →
      ∃ ch1, parse_numeric_loop st ch (ds ++ rest)
        = parse_numeric_loop { st with buffer := st.buffer ++ ds } ch1 rest := by
  intro ds
  induction ds with
  | nil => intro st ch rest _ _ _ _ _ _; exact ⟨ch, by simp⟩
  | cons c ds ih =>
    intro st ch rest f1 f2 f3 f4 hds hlen
    have hc := hds c (List.mem_cons_self c ds)
    simp only [List.length_cons] at hlen
    have hlt : st.buffer.length < max_buffer_size_ := by omega
    have hrec : record_and_continue st c = { st with buffer := st.buffer ++ [c] } := by
      simp [record_and_continue, f2, f4]
    obtain ⟨ch1, h1⟩ := ih { st with buffer := st.buffer ++ [c] } c rest f1 f2 f3 f4
      (fun d hd => hds d (List.mem_cons_of_mem c hd))
      (by simp only [List.length_append, List.length_singleton]; omega)
    refine ⟨ch1, ?_⟩
    have e46 : c ≠ 46 := by omega
    have e45 : c ≠ 45 := by omega
    have e43 : c ≠ 43 := by omega
    have e101 : c ≠ 101 := by omega
    have e69 : c ≠ 69 := by omega
    rw [List.cons_append, parse_numeric_loop]
    simp only [hlt, if_true, e46, e45, e43, e101, e69, or_self, if_false, hc.1, hc.2, and_self,
      hrec]
    rw [h1]
    simp

theorem parse_numeric_loop_end (st : NumericLocals) (ch : Nat) (rest : List Nat)
    (hlen : st.buffer.length < max_buffer_size_)
    (hrest : rest = [] ∨ ∃ t rest1, rest = t :: rest1 ∧ t ∈ [44, 93, 125, 32, 10, 13, 9, 11, 12]) :
    ∃ ch1, parse_numeric_loop st ch rest = .ok (st, ch1, rest.tail) := by
  rcases hrest with h | ⟨t, rest1, h, ht⟩
  · subst h; exact ⟨ch, by simp [parse_numeric_loop]⟩
  · subst h
    refine ⟨t, ?_⟩
    rw [parse_numeric_loop]
    simp only [List.mem_cons, List.mem_singleton, List.not_mem_nil, or_false] at ht
    rcases ht with h | h | h | h | h | h | h | h | h <;> subst h <;> simp [hlen]

theorem scan_integer_digits (D : List Nat) (n : Nat) (hlen : 1 ≤ D.length)
    (hdig : ∀ c ∈ D, 48 ≤ c ∧ c ≤ 57)
    (hrun : ∀ a rest, digit_run a (D ++ rest) = digit_run (a * 10 ^ D.length + n) rest) :
    scan_integer D = (n : Int) ∧ scan_integer (45 :: D) = -(n : Int) := by
  have hval : digit_run 0 D = n := by
    have := hrun 0 []
    simpa [digit_run] using this
  constructor
  · cases D with
    | nil => simp at hlen
    | cons d ds =>
      have hd := hdig d (List.mem_cons_self d ds)
      have e45 : d ≠ 45 := by omega
      have e43 : d ≠ 43 := by omega
      have e32 : d ≠ 32 := by omega
      have e13 : ¬ d ≤ 13 := by omega
      have hws : is_char_white_space d = false := by
        simp [is_char_white_space, e32, e13]
      unfold scan_integer
      rw [List.dropWhile_cons_of_neg (by simp [hws])]
      split
      · rename_i h; simp at h; exact absurd h.1 e45
      · rename_i h; simp at h; exact absurd h.1 e43
      · rw [hval]
  · unfold scan_integer
    rw [List.dropWhile_cons_of_neg (by decide)]
    simp [hval]

/-! ## Lemmas: the integer round trip -/

theorem ends_token_cases (rest : List Nat) (h : ends_token rest = true) :
    rest = [] ∨ ∃ t rest1, rest = t :: rest1 ∧ t ∈ [44, 93, 125, 32, 10, 13, 9, 11, 12] := by
  cases rest with
  | nil => exact Or.inl rfl
  | cons t rest1 =>
    refine Or.inr ⟨t, rest1, rfl, ?_⟩
    simpa [ends_token, numeric_terminators] using h

theorem clamp_int64 (n : Int) (hlo : -(2 : Int) ^ 63 ≤ n) (hhi : n < (2 : Int) ^ 63) :
    max (-(2 : Int) ^ 63) (min ((2 : Int) ^ 63 - 1) n) = n := by
  rw [min_eq_right (by omega), max_eq_right hlo]

theorem neg_natAbs_of_neg (n : Int) (h : n < 0) : -(n.natAbs : Int) = n := by omega

theorem natAbs_of_not_neg (n : Int) (h : ¬ n < 0) : (n.natAbs : Int) = n := by omega

theorem write_integer_shape (n : Int) (hlo : -(2 : Int) ^ 63 ≤ n) (hhi : n < (2 : Int) ^ 63) :
    ∃ (c0 : Nat) (ds : List Nat), write_integer n = c0 :: ds
      ∧ (c0 = 45 ∨ (48 ≤ c0 ∧ c0 ≤ 57)) ∧ (∀ c ∈ ds, 48 ≤ c ∧ c ≤ 57) ∧ ds.length ≤ 19
      ∧ (c0 = 45 → 1 ≤ ds.length) ∧ atoll (c0 :: ds) = n := by
  have hnat : n.natAbs ≤ 2 ^ 63 := by omega
  obtain ⟨D, hD, hlen, hdig, hrun, hpow⟩ :=
    decimal_digits_spec (n.natAbs + 1) n.natAbs [] (by omega)
  rw [List.append_nil] at hD
  have h19 := decimal_length_le D n.natAbs hnat hpow
  obtain ⟨hpos, hneg⟩ := scan_integer_digits D n.natAbs hlen hdig hrun
  by_cases hn : n < 0
  · refine ⟨45, D, by simp [write_integer, hn, hD], Or.inl rfl, hdig, h19, fun _ => hlen, ?_⟩
    unfold atoll
    rw [hneg, neg_natAbs_of_neg n hn]
    exact clamp_int64 n hlo hhi
  · cases D with
    | nil => simp at hlen
    | cons d ds =>
      refine ⟨d, ds, by simp [write_integer, hn, hD], Or.inr (hdig d (List.mem_cons_self d ds)),
        fun c hc => hdig c (List.mem_cons_of_mem d hc), ?_, ?_, ?_⟩
      · simp only [List.length_cons] at h19; omega
      · intro h45
        have := hdig d (List.mem_cons_self d ds)
        omega
      · unfold atoll
        rw [hpos, natAbs_of_not_neg n hn]
        exact clamp_int64 n hlo hhi

theorem parse_numeric_token (atof : List char_t → number_t) (c0 : Nat) (ds rest : List Nat)
    (hc0 : c0 = 45 ∨ (48 ≤ c0 ∧ c0 ≤ 57)) (hds : ∀ c ∈ ds, 48 ≤ c ∧ c ≤ 57)
    (hlen : ds.length ≤ 19) (hsign : c0 = 45 → 1 ≤ ds.length) (hrest : ends_token rest = true) :
    ∃ ch, parse_numeric atof (ds ++ rest) c0
      = .ok (ch, .integer (atoll (c0 :: ds)), rest.tail) := by
  have hws : is_char_white_space c0 = false := by
    have e32 : c0 ≠ 32 := by omega
    have e13 : ¬ c0 ≤ 13 := by omega
    simp [is_char_white_space, e32, e13]
  have h0 : c0 ≠ 0 := by omega
  have hskip : _check_and_skip_spaces (ds ++ rest) c0 = .ok (c0, ds ++ rest) := by
    simp [_check_and_skip_spaces, h0, hws]
  have h46 : c0 ≠ 46 := by omega
  have hstart : c0 = 45 ∨ c0 = 43 ∨ (48 ≤ c0 ∧ c0 ≤ 57) := by omega
  obtain ⟨ch1, hloop⟩ := parse_numeric_loop_digits ds
    { buffer := [c0], point_ := false, just_read_point_ := false, exponent_ := false,
      just_read_exponent_ := false, point_i := 0, exponent_i := 0 } c0 rest rfl rfl rfl rfl hds
    (by simp [max_buffer_size_]; omega)
  obtain ⟨ch2, hend⟩ := parse_numeric_loop_end
    { buffer := [c0] ++ ds, point_ := false, just_read_point_ := false, exponent_ := false,
      just_read_exponent_ := false, point_i := 0, exponent_i := 0 } ch1 rest
    (by simp [max_buffer_size_]; omega) (ends_token_cases rest hrest)
  refine ⟨ch2, ?_⟩
  simp only [parse_numeric, hskip, except_bind_ok, h46, if_false, hstart, if_true, hloop, hend]
  have hconv : ∀ signed_ : Bool, (signed_ = true → c0 = 45) →
      convert_numeric atof signed_
        { buffer := [c0] ++ ds, point_ := false, just_read_point_ := false, exponent_ := false,
          just_read_exponent_ := false, point_i := 0, exponent_i := 0 }
        = .ok (.integer (atoll (c0 :: ds))) := by
    intro signed_ hs
    have hcond : ¬ ((([c0] ++ ds).length = 1 ∧ (signed_ = true ∨ false = true))
        ∨ (false = true ∧ 0 = ([c0] ++ ds).length - 1)) := by
      intro h
      rcases h with ⟨h1, h2 | h2⟩ | ⟨h1, _⟩
      · have := hsign (hs h2)
        simp only [List.singleton_append, List.length_cons] at h1
        omega
      · cases h2
      · cases h1
    simp only [convert_numeric, hcond, if_false]
    simp
  rw [hconv]
  · rfl
  · intro hs
    rcases hc0 with h | h
    · exact h
    · have e45 : c0 ≠ 45 := by omega
      have e43 : c0 ≠ 43 := by omega
      simp [e45, e43] at hs

/-- The decimal text of a 64-bit integer, read by `parse_numeric` with its first byte carried. -/
theorem parse_numeric_write_integer (atof : List char_t → number_t) (n : Int)
    (hlo : -(2 : Int) ^ 63 ≤ n) (hhi : n < (2 : Int) ^ 63) (rest : List Nat)
    (hrest : ends_token rest = true) :
    ∃ (c0 : Nat) (ds : List Nat), write_integer n = c0 :: ds
      ∧ (c0 = 45 ∨ (48 ≤ c0 ∧ c0 ≤ 57))
      ∧ ∃ ch, parse_numeric atof (ds ++ rest) c0 = .ok (ch, .integer n, rest.tail) := by
  obtain ⟨c0, ds, hw, hc0, hds, hlen, hsign, hval⟩ := write_integer_shape n hlo hhi
  obtain ⟨ch, h⟩ := parse_numeric_token atof c0 ds rest hc0 hds hlen hsign hrest
  exact ⟨c0, ds, hw, hc0, ch, by rw [h, hval]⟩

theorem parse_numeric_lead (atof : List char_t → number_t) (ps : PrintSettings) (c0 : Nat)
    (tail : List Nat) (hc0 : c0 = 45 ∨ (48 ≤ c0 ∧ c0 ≤ 57)) :
    parse_numeric atof (print_lead ps ++ c0 :: tail) 0 = parse_numeric atof tail c0 := by
  have hws : is_char_white_space c0 = false := by
    have e32 : c0 ≠ 32 := by omega
    have e13 : ¬ c0 ≤ 13 := by omega
    simp [is_char_white_space, e32, e13]
  have h0 : c0 ≠ 0 := by omega
  have hskip : _check_and_skip_spaces tail c0 = .ok (c0, tail) := by
    simp [_check_and_skip_spaces, h0, hws]
  unfold parse_numeric
  rw [check_and_skip_lead ps c0 tail hws, hskip]

/-! ## Lemmas: dispatch in parse(Variant) -/

theorem parse_string_carried_of_decodes (cfg : Config) (hps : cfg.process_string = true)
    (body out rest : List char_t) (heap : Nat) (h : Decodes cfg body out) :
    ∃ a heap1, parse_string cfg (body ++ 34 :: rest) heap 34
      = .ok (34, some (a, out), rest, heap1) := by
  obtain ⟨st1, _, ha, hl⟩ := h { jstr := none, buffer := [], heap := heap } (34 :: rest)
    (by simp)
  refine ⟨st1.heap, st1.heap + 1, ?_⟩
  have hskip : _check_and_skip_spaces (body ++ 34 :: rest) 34 = .ok (34, body ++ 34 :: rest) := by
    simp [_check_and_skip_spaces, is_char_white_space]
  simp only [parse_string, hskip, except_bind_ok, hl, loop_quote_step cfg hps]
  simp [flush_buffer, accumulated, string_content, string_append_copy] at ha ⊢
  exact ha

theorem parse_variant_string (cfg : Config) (atof : List char_t → number_t) (fuel : Nat)
    (ps : PrintSettings) (tail : List char_t) (heap : Nat) :
    parse_variant cfg atof (fuel + 1) (print_lead ps ++ 34 :: tail) heap 0
      = (parse_string cfg tail heap 34).bind
          (fun q => .ok (q.1, .string q.2.1, q.2.2.1, q.2.2.2)) := by
  rw [parse_variant, check_and_skip_lead ps 34 tail (by decide)]
  rfl

theorem parse_variant_numeric (cfg : Config) (atof : List char_t → number_t) (fuel : Nat)
    (ps : PrintSettings) (c0 : Nat) (tail : List Nat) (heap : Nat)
    (hc0 : c0 = 45 ∨ (48 ≤ c0 ∧ c0 ≤ 57)) :
    parse_variant cfg atof (fuel + 1) (print_lead ps ++ c0 :: tail) heap 0
      = (parse_numeric atof tail c0).bind (fun q => .ok (q.1, q.2.1, q.2.2, heap)) := by
  have hws : is_char_white_space c0 = false := by
    have e32 : c0 ≠ 32 := by omega
    have e13 : ¬ c0 ≤ 13 := by omega
    simp [is_char_white_space, e32, e13]
  have e110 : c0 ≠ 110 := by omega
  have e116 : c0 ≠ 116 := by omega
  have e102 : c0 ≠ 102 := by omega
  have hnum : c0 = 45 ∨ c0 = 43 ∨ c0 = 46 ∨ (48 ≤ c0 ∧ c0 ≤ 57) := by omega
  rw [parse_variant, check_and_skip_lead ps c0 tail hws]
  simp only [except_bind_ok, e110, e116, e102, or_self, if_false, hnum, if_true]

/-- The decimal text of a 64-bit integer, alone in the stream, read by the entry point. -/
theorem parse_write_integer (cfg : Config) (atof : List char_t → number_t) (n : Int)
    (hlo : -(2 : Int) ^ 63 ≤ n) (hhi : n < (2 : Int) ^ 63) (heap : Nat) :
    ∃ ch, parse cfg atof (write_integer n) heap = .ok (ch, .integer n, [], heap) := by
  obtain ⟨c0, ds, hw, hc0, ch, hp⟩ := parse_numeric_write_integer atof n hlo hhi [] rfl
  refine ⟨ch, ?_⟩
  have hv := parse_variant_numeric cfg atof (3 * (c0 :: ds).length + 3) compact c0 ds heap hc0
  have hl : print_lead compact ++ c0 :: ds = c0 :: ds := rfl
  rw [hl] at hv
  rw [List.append_nil] at hp
  unfold parse
  rw [hw]
  show parse_variant cfg atof (3 * (c0 :: ds).length + 3 + 1) (c0 :: ds) heap 0 = _
  rw [hv, hp]
  rfl

/-- The compact print of a present string, alone in the stream, read by the entry point. -/
theorem parse_printed_string (atof : List char_t → number_t) (s : List char_t) (heap : Nat) :
    ∃ a1 heap1, parse default_config atof (34 :: (printed_text s ++ [34])) heap
      = .ok (34, .string (some (a1, s)), [], heap1) := by
  obtain ⟨a1, heap1, hp⟩ := parse_string_carried_of_decodes default_config rfl
    (printed_text s) s [] heap (decodes_printed_text s)
  refine ⟨a1, heap1, ?_⟩
  have hv := parse_variant_string default_config atof
    (3 * (34 :: (printed_text s ++ [34])).length + 3) compact (printed_text s ++ [34]) heap
  have hl : print_lead compact ++ 34 :: (printed_text s ++ [34])
      = 34 :: (printed_text s ++ [34]) := rfl
  rw [hl] at hv
  unfold parse
  show parse_variant default_config atof (3 * (34 :: (printed_text s ++ [34])).length + 3 + 1)
    (34 :: (printed_text s ++ [34])) heap 0 = _
  rw [hv, hp]
  rfl

/-! ## Lemmas: the string parser never reports the end of the stream -/

theorem bind_ne_end_of_stream {α β : Type} (x : Except Error α) (f : α → Except Error β)
    (hx : x ≠ .error .end_of_stream) (hf : ∀ a, f a ≠ .error .end_of_stream) :
    x.bind f ≠ .error .end_of_stream := by
  cases x with
  | error e => simpa using hx
  | ok a => simpa using hf a

theorem buffer_put_ne_end_of_stream (st : StringLocals) (ch : char_t) :
    buffer_put st ch ≠ .error .end_of_stream := by
  unfold buffer_put
  split_ifs <;> simp

theorem buffer_puts_ne_end_of_stream (cs : List char_t) :
    ∀ st : StringLocals, buffer_puts st cs ≠ .error .end_of_stream := by
  induction cs with
  | nil => intro st; simp [buffer_puts]
  | cons c cs ih =>
    intro st
    exact bind_ne_end_of_stream _ _ (buffer_put_ne_end_of_stream st c) (fun a => ih a)

theorem record_char_ne_end_of_stream (st : StringLocals) (e : Bool) (ch : char_t) :
    record_char st e ch ≠ .error .end_of_stream := by
  unfold record_char
  split_ifs
  · simp
  · exact buffer_put_ne_end_of_stream _ _

theorem decode_u_ne_end_of_stream (st : StringLocals) (u0 u1 u2 u3 : char_t) :
    decode_u st u0 u1 u2 u3 ≠ .error .end_of_stream := by
  unfold decode_u
  simp only []
  split_ifs <;> exact buffer_puts_ne_end_of_stream _ _

theorem decode_U_ne_end_of_stream (st : StringLocals) (u0 u1 u2 u3 u4 u5 : char_t) :
    decode_U st u0 u1 u2 u3 u4 u5 ≠ .error .end_of_stream := by
  unfold decode_U
  simp only []
  split_ifs <;> exact buffer_puts_ne_end_of_stream _ _

theorem parse_string_loop_nil (cfg : Config) (st : StringLocals) (e : Bool) :
    parse_string_loop cfg st e [] = .error .runtime_error := rfl

theorem parse_string_loop_ne_end_of_stream (cfg : Config) :
    ∀ (n : Nat) (input : List char_t) (st : StringLocals) (e : Bool), input.length ≤ n →
      parse_string_loop cfg st e input ≠ .error .end_of_stream := by
  intro n
  induction n with
  | zero =>
    intro input st e h
    have : input = [] := List.length_eq_zero.mp (Nat.le_zero.mp h)
    subst this
    rw [parse_string_loop_nil]
    simp
  | succ n ih =>
    intro input st e h
    cases input with
    | nil => rw [parse_string_loop_nil]; simp
    | cons ch rest =>
      have hr : rest.length ≤ n := by simpa using h
      have hrec : ∀ (st1 : StringLocals) (e1 : Bool),
          parse_string_loop cfg st1 e1 rest ≠ .error .end_of_stream := fun st1 e1 => ih rest st1 e1 hr
      rw [parse_string_loop_cons]
      generalize parse_string_loop cfg = F at ih hrec ⊢
      split_ifs
      all_goals first
        | exact hrec _ _
        | exact bind_ne_end_of_stream _ _ (record_char_ne_end_of_stream _ _ _) (fun a => hrec a _)
        | exact bind_ne_end_of_stream _ _ (buffer_puts_ne_end_of_stream _ _) (fun a => hrec a _)
        | exact bind_ne_end_of_stream _ _ (buffer_put_ne_end_of_stream _ _) (fun a => hrec a _)
        | (simp; done)
        | skip
      all_goals split
      · exact bind_ne_end_of_stream _ _ (decode_u_ne_end_of_stream _ _ _ _ _)
          (fun a => ih _ a false (by simp only [List.length_cons] at hr ⊢; omega))
      · simp
      · exact bind_ne_end_of_stream _ _ (decode_U_ne_end_of_stream _ _ _ _ _ _ _)
          (fun a => ih _ a false (by simp only [List.length_cons] at hr ⊢; omega))
      · simp

/-- After the opening quote, whatever follows, the string parser does not throw the
end-of-stream kind. -/
theorem parse_string_ne_end_of_stream (cfg : Config) (body : List char_t) (heap : Nat) :
    parse_string cfg (34 :: body) heap 0 ≠ .error .end_of_stream := by
  have hskip : _check_and_skip_spaces (34 :: body) 0 = .ok (34, body) := by
    simp [_check_and_skip_spaces, skip_loop, is_char_white_space]
  unfold parse_string
  rw [hskip]
  simp only [except_bind_ok, ne_eq, not_true_eq_false, if_false]
  exact bind_ne_end_of_stream _ _
    (parse_string_loop_ne_end_of_stream cfg body.length body _ false (Nat.le_refl _))
    (fun q => by simp)

/-! ## Round trips (C1, C2, C3) -/

/-- C1 fails as stated: the String value whose buffer is absent (it has no Number payload at
all) prints in compact mode as the two quotes, the parse of that text succeeds with a
present, empty buffer, and `operator==` of the parsed value and the original is false.  The
Invalid value prints nothing at all, and the parse of the empty text fails.  With string
processing off the String a"b is printed as it is between two quotes, and the parse of that
text ends the literal at the quote in the middle and gives the String a. -/
theorem round_trip_absent_string_differs :
    print default_config (fun _ => []) (.string none) compact = .ok [34, 34]
      ∧ parse default_config (fun _ => 0) [34, 34] 0 = .ok (34, .string (some (0, [])), [], 1)
      ∧ Variant.operator_eq (.string (some (0, []))) (.string none) = false
      ∧ print default_config (fun _ => []) .invalid compact = .ok []
      ∧ parse default_config (fun _ => 0) [] 0 = .error .runtime_error
      ∧ print { default_config with process_string := false } (fun _ => [])
          (.string (some (5, [97, 34, 98]))) compact = .ok [34, 97, 34, 98, 34]
      ∧ parse { default_config with process_string := false } (fun _ => 0)
          [34, 97, 34, 98, 34] 0 = .ok (34, .string (some (0, [97])), [98, 34], 1)
      ∧ Variant.operator_eq (.string (some (0, [97]))) (.string (some (5, [97, 34, 98])))
          = false :=
  ⟨rfl, rfl, rfl, rfl, rfl, rfl, rfl, rfl⟩

/-- C2: with string processing on, both decode switches on and both encode switches off (the
initial switches), for every content `s` of any length, printing a String with a present buffer
holding `s` (under any print settings) succeeds, and parsing the printed text yields a String
with a present buffer whose content is exactly `s`, leaving what follows the literal unread. -/
theorem string_print_parse_round_trip (a : Nat) (s : List char_t) (ps : PrintSettings)
    (rest : List char_t) (heap : Nat) :
    ∃ text a1 heap1, print_string default_config (some (a, s)) ps = .ok text
      ∧ parse_string default_config (text ++ rest) heap 0 = .ok (34, some (a1, s), rest, heap1) :=
  string_round_trip a s ps rest heap

/-- C3: for every 64-bit signed integer `n`, the text the printer emits for Integer `n` (under
any print settings), at the end of the input or followed by a terminator, is parsed by
`parse_numeric` to the Integer `n`. -/
theorem integer_print_parse_round_trip (atof : List char_t → number_t) (n : Int)
    (hlo : -(2 : Int) ^ 63 ≤ n) (hhi : n < (2 : Int) ^ 63) (ps : PrintSettings)
    (rest : List char_t) (hrest : ends_token rest = true) :
    ∃ ch, parse_numeric atof (print_integer n ps ++ rest) 0
      = .ok (ch, .integer n, rest.tail) := by
  obtain ⟨c0, ds, hw, hc0, ch, hp⟩ :=
    parse_numeric_write_integer atof n hlo hhi rest hrest
  refine ⟨ch, ?_⟩
  have hl := parse_numeric_lead atof ps c0 (ds ++ rest) hc0
  rw [print_integer, hw, List.append_assoc, List.cons_append, hl, hp]

/-- Witness of C3, at the least 64-bit integer followed by a comma. -/
theorem integer_print_parse_round_trip_witness :
    (-(2 : Int) ^ 63 ≤ -9223372036854775808 ∧ (-9223372036854775808 : Int) < (2 : Int) ^ 63
        ∧ ends_token [44, 49] = true)
      ∧ ∃ ch,
          parse_numeric (fun _ => 0) (print_integer (-9223372036854775808) compact ++ [44, 49]) 0
            = .ok (ch, .integer (-9223372036854775808), [49]) :=
  ⟨⟨by decide, by decide, by decide⟩,
    integer_print_parse_round_trip (fun _ => 0) (-9223372036854775808) (by decide) (by decide)
      compact [44, 49] (by decide)⟩

/-! ## Equality of independently parsed values (C4) -/

/-- C4, the code at the failing input: the text `[1]` is parsed twice, the second parse
starting from the allocation counter the first one left.  Both parses succeed with an Array
holding the Integer 1, at two different addresses, and `operator==` of the two values is
false, because for Array (and Object) it compares the owners only.  The String case of the same
operator compares the content: two parses of the literal of the byte a compare equal. -/
theorem two_parses_of_array_compare_unequal :
    parse default_config (fun _ => 0) [91, 49, 93] 0
        = .ok (93, .array (some (0, [.integer 1])), [], 1)
      ∧ parse default_config (fun _ => 0) [91, 49, 93] 1
        = .ok (93, .array (some (1, [.integer 1])), [], 2)
      ∧ Variant.operator_eq (.array (some (0, [.integer 1]))) (.array (some (1, [.integer 1])))
        = false
      ∧ parse default_config (fun _ => 0) [34, 97, 34] 0 = .ok (34, .string (some (0, [97])), [], 1)
      ∧ parse default_config (fun _ => 0) [34, 97, 34] 1 = .ok (34, .string (some (1, [97])), [], 2)
      ∧ Variant.operator_eq (.string (some (0, [97]))) (.string (some (1, [97]))) = true :=
  ⟨rfl, rfl, rfl, rfl, rfl, rfl⟩

/-! ## Escapes in string literals (C5 - C10) -/

/-- C5: with string processing and `\u` decoding on, for every four hex digits (each in upper
or lower case) of value `v = d0*4096 + d1*256 + d2*16 + d3`, a literal holding the escape
between any bytes `pre` and `post` that are neither quotes nor backslashes parses to
`pre`, then exactly the standard UTF-8 bytes of `v`, then `post`; the encoding has 1 byte when
`v <= 0x7F`, 2 bytes when `v <= 0x7FF` and 3 bytes otherwise (surrogate values included).  Two
escapes in a row are each encoded on their own: nothing pairs a value with the escape after it. -/
theorem u_escape_decodes_to_utf8 (cfg : Config) (hps : cfg.process_string = true)
    (hdec : cfg.decode_utf8 = true) (p0 p1 p2 p3 : Bool) (d0 d1 d2 d3 : Nat) (h0 : d0 < 16)
    (h1 : d1 < 16) (h2 : d2 < 16) (h3 : d3 < 16) (q0 q1 q2 q3 : Bool) (e0 e1 e2 e3 : Nat)
    (k0 : e0 < 16) (k1 : e1 < 16) (k2 : e2 < 16) (k3 : e3 < 16) (pre post rest : List char_t)
    (hpre : ∀ c ∈ pre, c ≠ 34 ∧ c ≠ 92) (hpost : ∀ c ∈ post, c ≠ 34 ∧ c ≠ 92) (heap : Nat) :
    (∃ a heap1,
        parse_string cfg
            (34 :: (pre ++ [92, 117, hex_digit p0 d0, hex_digit p1 d1, hex_digit p2 d2,
              hex_digit p3 d3] ++ post ++ 34 :: rest)) heap 0
          = .ok (34, some (a, pre ++ standard_utf8 (d0 * 4096 + d1 * 256 + d2 * 16 + d3) ++ post),
              rest, heap1))
      ∧ (standard_utf8 (d0 * 4096 + d1 * 256 + d2 * 16 + d3)).length
          = (if d0 * 4096 + d1 * 256 + d2 * 16 + d3 ≤ 0x7F then 1
             else if d0 * 4096 + d1 * 256 + d2 * 16 + d3 ≤ 0x7FF then 2 else 3)
      ∧ (∃ a heap1,
        parse_string cfg
            (34 :: (pre ++ [92, 117, hex_digit p0 d0, hex_digit p1 d1, hex_digit p2 d2,
              hex_digit p3 d3] ++ [92, 117, hex_digit q0 e0, hex_digit q1 e1, hex_digit q2 e2,
              hex_digit q3 e3] ++ post ++ 34 :: rest)) heap 0
          = .ok (34, some (a, pre ++ standard_utf8 (d0 * 4096 + d1 * 256 + d2 * 16 + d3)
              ++ standard_utf8 (e0 * 4096 + e1 * 256 + e2 * 16 + e3) ++ post), rest, heap1)) := by
  have hd := decodes_u cfg hps hdec p0 p1 p2 p3 d0 d1 d2 d3 h0 h1 h2 h3
  have he := decodes_u cfg hps hdec q0 q1 q2 q3 e0 e1 e2 e3 k0 k1 k2 k3
  have hA := decodes_plain cfg hps pre hpre
  have hB := decodes_plain cfg hps post hpost
  refine ⟨?_, ?_, ?_⟩
  · exact parse_string_of_decodes cfg hps _ _ rest heap
      (decodes_append cfg _ _ _ _ (decodes_append cfg _ _ _ _ hA hd) hB)
  · have hv : d0 * 4096 + d1 * 256 + d2 * 16 + d3 ≤ 0xFFFF := by omega
    unfold standard_utf8
    split_ifs <;> simp
  · exact parse_string_of_decodes cfg hps _ _ rest heap
      (decodes_append cfg _ _ _ _
        (decodes_append cfg _ _ _ _ (decodes_append cfg _ _ _ _ hA hd) he) hB)

/-- Witness of C5: the literal with the escape for U+00E9 in lower-case digits, followed by the
escape for U+D83D, parses to the bytes C3 A9 and ED A0 BD. -/
theorem u_escape_decodes_to_utf8_witness :
    (∃ a heap1, parse_string default_config [34, 92, 117, 48, 48, 101, 57, 34] 0 0
        = .ok (34, some (a, [0xC3, 0xA9]), [], heap1))
      ∧ (∃ a heap1,
          parse_string default_config
              [34, 92, 117, 48, 48, 101, 57, 92, 117, 68, 56, 51, 68, 34] 0 0
            = .ok (34, some (a, [0xC3, 0xA9, 0xED, 0xA0, 0xBD]), [], heap1)) := by
  have h := u_escape_decodes_to_utf8 default_config rfl rfl false false false false 0 0 14 9
    (by decide) (by decide) (by decide) (by decide) true true true true 13 8 3 13 (by decide)
    (by decide) (by decide) (by decide) [] [] [] (by simp) (by simp) 0
  exact ⟨h.1, h.2.2⟩

/-- C6, the code at the failing input: the six digits 100000 have the value 0x100000, whose
standard UTF-8 encoding is F4 80 80 80; the parser shifts the first digit by 18 instead of 20,
takes the value to be 0x40000 and appends F1 80 80 80.  The printer, with the `\U` encoding
on, writes the bytes F4 80 80 80 as that same escape (its first digit is taken with a shift
of 20). -/
theorem U_escape_100000_misdecoded :
    parse_string default_config [34, 92, 85, 49, 48, 48, 48, 48, 48, 34] 0 0
        = .ok (34, some (0, [0xF1, 0x80, 0x80, 0x80]), [], 1)
      ∧ standard_utf8 0x100000 = [0xF4, 0x80, 0x80, 0x80]
      ∧ standard_utf8 0x40000 = [0xF1, 0x80, 0x80, 0x80]
      ∧ print_string { default_config with encode_utf8_ext := true }
          (some (0, [0xF4, 0x80, 0x80, 0x80])) compact
        = .ok [34, 92, 85, 49, 48, 48, 48, 48, 48, 34] := by
  decide

/-- C7, the code at the failing input: the six digits 110000 have the value 0x110000, above
0x10FFFF; the parser (first digit shifted by 18, and "or"ed over the second) takes the value to
be 0x50000 and appends its UTF-8 bytes F1 90 80 80 instead of the eight characters of the
escape. -/
theorem U_escape_110000_not_passed_through :
    parse_string default_config [34, 92, 85, 49, 49, 48, 48, 48, 48, 34] 0 0
        = .ok (34, some (0, [0xF1, 0x90, 0x80, 0x80]), [], 1)
      ∧ standard_utf8 0x50000 = [0xF1, 0x90, 0x80, 0x80] := by
  decide

/-- C8: with string processing on, inside a literal (between any bytes `pre` and `post` that
are neither quotes nor backslashes) each of the eight recognised escapes stands for exactly one
byte, as listed; a backslash followed by any byte other than these eight letters, `u` and `U`
raises the runtime (syntax) error; and the literal of the four escapes n, t, quote, backslash
parses to the four bytes newline, tab, quote, backslash. -/
theorem simple_escapes_decode (cfg : Config) (hps : cfg.process_string = true)
    (pre post rest : List char_t) (hpre : ∀ c ∈ pre, c ≠ 34 ∧ c ≠ 92)
    (hpost : ∀ c ∈ post, c ≠ 34 ∧ c ≠ 92) (heap : Nat) :
    (∀ p ∈ [((34 : Nat), (34 : Nat)), (92, 92), (47, 47), (98, 8), (102, 12), (110, 10),
          (114, 13), (116, 9)],
        ∃ a heap1, parse_string cfg (34 :: (pre ++ [92, p.1] ++ post ++ 34 :: rest)) heap 0
          = .ok (34, some (a, pre ++ [p.2] ++ post), rest, heap1))
      ∧ (∀ c : Nat, c ∉ [34, 92, 47, 98, 102, 110, 114, 116, 117, 85] →
          parse_string cfg (34 :: (pre ++ 92 :: c :: rest)) heap 0 = .error .runtime_error)
      ∧ (∃ a heap1, parse_string cfg [34, 92, 110, 92, 116, 92, 34, 92, 92, 34] heap 0
          = .ok (34, some (a, [10, 9, 34, 92]), [], heap1)) := by
  have hA := decodes_plain cfg hps pre hpre
  have hB := decodes_plain cfg hps post hpost
  refine ⟨?_, ?_, ?_⟩
  · intro p hp
    have key : ∀ e : Nat,
        (e = 34 ∨ e = 92 ∨ e = 47 ∨ e = 98 ∨ e = 102 ∨ e = 110 ∨ e = 114 ∨ e = 116) →
        ∃ a heap1, parse_string cfg (34 :: (pre ++ [92, e] ++ post ++ 34 :: rest)) heap 0
          = .ok (34, some (a, pre ++ [escape_value e] ++ post), rest, heap1) := fun e he =>
      parse_string_of_decodes cfg hps _ _ rest heap
        (decodes_append cfg _ _ _ _ (decodes_append cfg _ _ _ _ hA (decodes_escape cfg hps e he))
          hB)
    simp only [List.mem_cons, List.mem_singleton, List.not_mem_nil, or_false] at hp
    rcases hp with h | h | h | h | h | h | h | h <;> subst h
    · exact key 34 (by simp)
    · exact key 92 (by simp)
    · exact key 47 (by simp)
    · exact key 98 (by simp)
    · exact key 102 (by simp)
    · exact key 110 (by simp)
    · exact key 114 (by simp)
    · exact key 116 (by simp)
  · intro c hc
    obtain ⟨st1, _, _, hl⟩ := hA { jstr := none, buffer := [], heap := heap } (92 :: c :: rest)
      (by simp)
    have hskip : _check_and_skip_spaces (34 :: (pre ++ 92 :: c :: rest)) 0
        = .ok (34, pre ++ 92 :: c :: rest) := by
      simp [_check_and_skip_spaces, skip_loop, is_char_white_space]
    simp only [parse_string, hskip, except_bind_ok, hl, loop_backslash_step cfg hps,
      loop_bad_escape_step cfg hps st1 c rest hc]
    rfl
  · exact parse_string_of_decodes cfg hps [92, 110, 92, 116, 92, 34, 92, 92] [10, 9, 34, 92] []
      heap
      (decodes_append cfg [92, 110] [10] _ _ (decodes_escape cfg hps 110 (by simp))
        (decodes_append cfg [92, 116] [9] _ _ (decodes_escape cfg hps 116 (by simp))
          (decodes_append cfg [92, 34] [34] [92, 92] [92] (decodes_escape cfg hps 34 (by simp))
            (decodes_escape cfg hps 92 (by simp)))))

/-- Witness of C8, with the initial switches, `pre = "a"`, `post = "b"`: the escape `\n` gives
the byte 10 and the escape `\x` raises the runtime error. -/
theorem simple_escapes_decode_witness :
    (∃ a heap1, parse_string default_config [34, 97, 92, 110, 98, 34] 0 0
        = .ok (34, some (a, [97, 10, 98]), [], heap1))
      ∧ parse_string default_config [34, 97, 92, 120, 98, 34] 0 0 = .error .runtime_error := by
  have h := simple_escapes_decode default_config rfl [97] [98] [] (by decide) (by decide) 0
  have h2 := simple_escapes_decode default_config rfl [97] [] [98, 34] (by decide) (by simp) 0
  exact ⟨h.1 (110, 10) (by simp), h2.2.1 120 (by decide)⟩

/-- C9 fails as stated: with `\u` decoding off, the four characters backslash, n, 0, 0 after
the marker are not stored unchanged; the literal parses to the five bytes backslash, u,
newline, 0, 0. -/
theorem u_marker_following_bytes_processed :
    parse_string { default_config with decode_utf8 := false }
        [34, 92, 117, 92, 110, 48, 48, 34] 0 0
      = .ok (34, some (0, [92, 117, 10, 48, 48]), [], 1) := by
  decide

/-- C9 as amended: with string processing on and `\u` decoding off, for every four characters
`h` none of which is a quote or a backslash, the literal of backslash, u and `h` parses to the
six bytes backslash, u and `h`; likewise with `\U` decoding off for backslash, U and six such
characters. -/
theorem literal_markers_stored (cfg : Config) (hps : cfg.process_string = true)
    (h : List char_t) (hh : ∀ c ∈ h, c ≠ 34 ∧ c ≠ 92) (rest : List char_t) (heap : Nat) :
    (cfg.decode_utf8 = false → h.length = 4 →
        ∃ a heap1, parse_string cfg (34 :: 92 :: 117 :: (h ++ 34 :: rest)) heap 0
          = .ok (34, some (a, 92 :: 117 :: h), rest, heap1))
      ∧ (cfg.decode_utf8_ext = false → h.length = 6 →
        ∃ a heap1, parse_string cfg (34 :: 92 :: 85 :: (h ++ 34 :: rest)) heap 0
          = .ok (34, some (a, 92 :: 85 :: h), rest, heap1)) := by
  have hH := decodes_plain cfg hps h hh
  have hskip : ∀ l, _check_and_skip_spaces (34 :: l) 0 = .ok (34, l) := by
    intro l; simp [_check_and_skip_spaces, skip_loop, is_char_white_space]
  have hput : ∀ m : Nat,
      buffer_puts (flush_if_ge buffer_size_ { jstr := none, buffer := [], heap := heap }) [92, m]
        = .ok { jstr := none, buffer := [92, m], heap := heap } := by
    intro m; rfl
  constructor
  · intro hd _
    obtain ⟨st1, _, ha, hl⟩ := hH { jstr := none, buffer := [92, 117], heap := heap }
      (34 :: rest) (by simp [buffer_size_])
    refine ⟨st1.heap, st1.heap + 1, ?_⟩
    simp only [parse_string, hskip, except_bind_ok, loop_backslash_step cfg hps,
      loop_u_literal_step cfg hps hd, hput, hl, loop_quote_step cfg hps]
    simp [flush_buffer, accumulated, string_content, string_append_copy] at ha ⊢
    exact ha
  · intro hd _
    obtain ⟨st1, _, ha, hl⟩ := hH { jstr := none, buffer := [92, 85], heap := heap }
      (34 :: rest) (by simp [buffer_size_])
    refine ⟨st1.heap, st1.heap + 1, ?_⟩
    simp only [parse_string, hskip, except_bind_ok, loop_backslash_step cfg hps,
      loop_U_literal_step cfg hps hd, hput, hl, loop_quote_step cfg hps]
    simp [flush_buffer, accumulated, string_content, string_append_copy] at ha ⊢
    exact ha

/-- Witness of C9 as amended: the literal of backslash, u, 0, 0, e, 9 with `\u` decoding off
parses to those six bytes. -/
theorem literal_markers_stored_witness :
    ∃ a heap1,
      parse_string { default_config with decode_utf8 := false }
          [34, 92, 117, 48, 48, 101, 57, 34] 0 0
        = .ok (34, some (a, [92, 117, 48, 48, 101, 57]), [], heap1) :=
  (literal_markers_stored { default_config with decode_utf8 := false } rfl [48, 48, 101, 57]
    (by decide) [] 0).1 rfl rfl

/-- C10, the code at the failing input: the unterminated literal of a quote and the bytes
a, b, c raises the runtime (syntax) error kind, through `parse(String)` and through the entry
point alike, not the end-of-stream kind; and under every configuration, whatever follows the
opening quote, the string parser never raises the end-of-stream kind. -/
theorem unterminated_string_raises_runtime_error :
    parse_string default_config [34, 97, 98, 99] 0 0 = .error .runtime_error
      ∧ parse default_config (fun _ => 0) [34, 97, 98, 99] 0 = .error .runtime_error
      ∧ ∀ (cfg : Config) (body : List char_t) (heap : Nat),
          parse_string cfg (34 :: body) heap 0 ≠ .error .end_of_stream :=
  ⟨by decide, rfl, parse_string_ne_end_of_stream⟩

/-! ## Lemmas: the numeric tokenizer, the literals, the object loop -/

theorem flags_of_start (c0 : Nat) (h : c0 = 45 ∨ c0 = 43 ∨ (48 ≤ c0 ∧ c0 ≤ 57)) :
    flags_of [c0] = NumericLocals.mk [c0] false false false false 0 0 := by
  have e46 : c0 ≠ 46 := by omega
  have e101 : c0 ≠ 101 := by omega
  have e69 : c0 ≠ 69 := by omega
  simp [flags_of, e46, e101, e69, Ne.symm e46, Ne.symm e101, Ne.symm e69]

theorem marker_idx_append (buf l : List Nat) (h : 101 ∈ buf ∨ 69 ∈ buf) :
    List.findIdx (fun x => x == 101 || x == 69) (buf ++ l)
      = List.findIdx (fun x => x == 101 || x == 69) buf := by
  have hlt : List.findIdx (fun x => x == 101 || x == 69) buf < buf.length := by
    apply List.findIdx_lt_length_of_exists
    rcases h with h | h
    · exact ⟨101, h, by simp⟩
    · exact ⟨69, h, by simp⟩
  rw [List.findIdx_append, if_pos hlt]

theorem marker_idx_new (buf : List Nat) (c : Nat) (h : ¬ (101 ∈ buf ∨ 69 ∈ buf))
    (hc : c = 101 ∨ c = 69) :
    List.findIdx (fun x => x == 101 || x == 69) (buf ++ [c]) = buf.length := by
  have hall : ∀ x ∈ buf, (fun x => x == 101 || x == 69) x = false := by
    intro x hx
    have e1 : x ≠ 101 := fun e => h (Or.inl (e ▸ hx))
    have e2 : x ≠ 69 := fun e => h (Or.inr (e ▸ hx))
    simp [e1, e2]
  have hlen := List.findIdx_eq_length_of_false hall
  rw [List.findIdx_append, hlen, if_neg (lt_irrefl _)]
  rcases hc with rfl | rfl <;> simp [List.findIdx_cons]

theorem flags_of_plain (buf : List Nat) (c : Nat) (e46 : c ≠ 46) (e101 : c ≠ 101)
    (e69 : c ≠ 69) : record_and_continue (flags_of buf) c = flags_of (buf ++ [c]) := by
  simp only [flags_of, record_and_continue]
  by_cases hp : 46 ∈ buf <;> by_cases hm : 101 ∈ buf ∨ 69 ∈ buf <;>
    simp [e46, e101, e69, Ne.symm e46, Ne.symm e101, Ne.symm e69, hp, hm,
      List.indexOf_append_of_mem, marker_idx_append]

theorem flags_of_point (buf : List Nat) (hp : 46 ∉ buf) :
    record_and_continue
        { flags_of buf with point_ := true, point_i := buf.length, just_read_point_ := true } 46
      = flags_of (buf ++ [46]) := by
  simp only [flags_of, record_and_continue]
  by_cases hm : 101 ∈ buf ∨ 69 ∈ buf <;>
    simp [hp, hm, List.indexOf_append_of_not_mem, marker_idx_append]

theorem flags_of_marker (buf : List Nat) (c : Nat) (hc : c = 101 ∨ c = 69)
    (hm : ¬ (101 ∈ buf ∨ 69 ∈ buf)) :
    record_and_continue
        { flags_of buf with exponent_ := true, just_read_exponent_ := true,
                            exponent_i := buf.length } c
      = flags_of (buf ++ [c]) := by
  have hidx := marker_idx_new buf c hm hc
  simp only [flags_of, record_and_continue]
  by_cases hp : 46 ∈ buf <;> rcases hc with rfl | rfl <;>
    simp [hp, hm, hidx, List.indexOf_append_of_mem]

/-- One round of the tokenizer loop, from the state that belongs to the accumulated text. -/
theorem numeric_step (buf : List Nat) (hlen : buf.length < 64) (ch c : Nat) (rest : List Nat) :
    parse_numeric_loop (flags_of buf) ch (c :: rest) =
      if c = 46 then
        if 46 ∈ buf ∨ (101 ∈ buf ∨ 69 ∈ buf) then .error .runtime_error
        else parse_numeric_loop (flags_of (buf ++ [c])) c rest
      else if c = 45 ∨ c = 43 then
        if buf.getLast? = some 101 then parse_numeric_loop (flags_of (buf ++ [c])) c rest
        else .error .runtime_error
      else if c = 101 ∨ c = 69 then
        if (101 ∈ buf ∨ 69 ∈ buf) ∨ buf.getLast? = some 46 then .error .runtime_error
        else parse_numeric_loop (flags_of (buf ++ [c])) c rest
      else if 48 ≤ c ∧ c ≤ 57 then parse_numeric_loop (flags_of (buf ++ [c])) c rest
      else if c = 44 ∨ c = 93 ∨ c = 125 ∨ c = 32 ∨ c = 10 ∨ c = 13 ∨ c = 9 ∨ c = 11 ∨ c = 12
        then .ok (flags_of buf, c, rest)
      else .error .runtime_error := by
  have hlt : (flags_of buf).buffer.length < max_buffer_size_ := hlen
  rw [parse_numeric_loop, if_pos hlt]
  by_cases h46 : c = 46
  · subst h46
    simp only [if_true]
    by_cases hp : 46 ∈ buf
    · simp [flags_of, hp]
    · by_cases hm : 101 ∈ buf ∨ 69 ∈ buf
      · simp [flags_of, hp, hm]
      · rw [if_neg (by simp [flags_of, hp]), if_neg (by simp [flags_of, hm]),
          if_neg (by tauto)]
        rw [← flags_of_point buf hp]
        rfl
  · simp only [h46, if_false]
    by_cases hs : c = 45 ∨ c = 43
    · simp only [hs, if_true]
      by_cases hl : buf.getLast? = some 101
      · have hm : 101 ∈ buf := List.mem_of_getLast?_eq_some hl
        have e46 : c ≠ 46 := h46
        have e101 : c ≠ 101 := by omega
        have e69 : c ≠ 69 := by omega
        rw [if_pos (by simp [flags_of, hm]), if_neg (by simp [flags_of, hl]), if_pos hl,
          flags_of_plain buf c e46 e101 e69]
      · rw [if_neg hl]
        by_cases hm : 101 ∈ buf ∨ 69 ∈ buf
        · rw [if_pos (by simp [flags_of, hm]), if_pos (by simp [flags_of, hl])]
        · rw [if_neg (by simp [flags_of, hm])]
    · simp only [hs, if_false]
      by_cases he : c = 101 ∨ c = 69
      · simp only [he, if_true]
        by_cases hm : 101 ∈ buf ∨ 69 ∈ buf
        · rw [if_pos (by simp [flags_of, hm]), if_pos (Or.inl hm)]
        · rw [if_neg (by simp [flags_of, hm])]
          by_cases hl : buf.getLast? = some 46
          · rw [if_pos (by simp [flags_of, hl]), if_pos (Or.inr hl)]
          · rw [if_neg (by simp [flags_of, hl]), if_neg (by tauto)]
            rw [← flags_of_marker buf c he hm]
            rfl
      · simp only [he, if_false]
        by_cases hd : 48 ≤ c ∧ c ≤ 57
        · have e101 : c ≠ 101 := by omega
          have e69 : c ≠ 69 := by omega
          simp only [hd, and_self, if_true, flags_of_plain buf c h46 e101 e69]
        · simp only [hd, if_false]

theorem numeric_char_cases (c : Nat) (h : numeric_char c = true) :
    c = 46 ∨ c = 45 ∨ c = 43 ∨ c = 101 ∨ c = 69 ∨ (48 ≤ c ∧ c ≤ 57) := by
  simp only [numeric_char, Bool.or_eq_true, Bool.and_eq_true, beq_iff_eq, decide_eq_true_eq] at h
  omega

theorem skip_loop_white (ws : List Nat) (hws : ∀ w ∈ ws, is_char_white_space w = true) (ch c : Nat)
    (rest : List Nat) (hc : is_char_white_space c = false) :
    skip_loop ch (ws ++ c :: rest) = .ok (c, rest) := by
  induction ws generalizing ch with
  | nil => simp [skip_loop, hc]
  | cons w ws ih =>
    have hw := hws w (List.mem_cons_self w ws)
    rw [List.cons_append, skip_loop, if_pos hw, if_neg (by simp)]
    exact ih (fun x hx => hws x (List.mem_cons_of_mem w hx)) w

/-- The tokenizer on a run of token bytes: it stops with the syntax error, or goes on from the
state that belongs to the longer text. -/
theorem numeric_run : ∀ (p buf : List Nat) (ch : Nat) (rest : List Nat),
    buf.length + p.length ≤ 64 → (∀ x ∈ p, numeric_char x = true) →
    parse_numeric_loop (flags_of buf) ch (p ++ rest) = .error .runtime_error
      ∨ ∃ ch1, parse_numeric_loop (flags_of buf) ch (p ++ rest)
          = parse_numeric_loop (flags_of (buf ++ p)) ch1 rest := by
  intro p
  induction p with
  | nil => intro buf ch rest _ _; exact Or.inr ⟨ch, by simp⟩
  | cons c p ih =>
    intro buf ch rest hlen hp
    simp only [List.length_cons] at hlen
    have hc := numeric_char_cases c (hp c (List.mem_cons_self c p))
    have hstep := numeric_step buf (by omega) ch c (p ++ rest)
    have hl1 : (buf ++ [c]).length + p.length ≤ 64 := by
      simp only [List.length_append, List.length_singleton]; omega
    have hnext := ih (buf ++ [c]) c rest hl1 (fun x hx => hp x (List.mem_cons_of_mem c hx))
    rw [List.append_assoc, List.singleton_append] at hnext
    rw [List.cons_append, hstep]
    by_cases h46 : c = 46
    · rw [if_pos h46]
      split_ifs
      · exact Or.inl rfl
      · exact hnext
    · rw [if_neg h46]
      by_cases hs : c = 45 ∨ c = 43
      · rw [if_pos hs]
        split_ifs
        · exact hnext
        · exact Or.inl rfl
      · rw [if_neg hs]
        by_cases he : c = 101 ∨ c = 69
        · rw [if_pos he]
          split_ifs
          · exact Or.inl rfl
          · exact hnext
        · rw [if_neg he]
          have hd : 48 ≤ c ∧ c ≤ 57 := by omega
          rw [if_pos hd]
          exact hnext

/-- What the tokenizer loop returns: the state that belongs to the text it has read, which is
followed in the stream by the character it carries and the unread rest. -/
theorem numeric_loop_result : ∀ (input buf : List Nat) (ch : Nat) (st : NumericLocals) (ch1 : Nat)
    (rest : List Nat), buf.length ≤ 64 →
    parse_numeric_loop (flags_of buf) ch input = .ok (st, ch1, rest) →
    ∃ tok : List Nat, st = flags_of (buf ++ tok) ∧ (buf ++ tok).length ≤ 64
      ∧ ((input = tok ∧ rest = []) ∨ input = tok ++ ch1 :: rest) := by
  intro input
  induction input with
  | nil =>
    intro buf ch st ch1 rest hlen h
    simp only [parse_numeric_loop, Except.ok.injEq, Prod.mk.injEq] at h
    exact ⟨[], by simp [h.1.symm], by simpa using hlen, Or.inl ⟨rfl, h.2.2.symm⟩⟩
  | cons c input ih =>
    intro buf ch st ch1 rest hlen h
    by_cases hlt : buf.length < 64
    · rw [numeric_step buf hlt] at h
      have hrec : parse_numeric_loop (flags_of (buf ++ [c])) c input = .ok (st, ch1, rest) →
          ∃ tok : List Nat, st = flags_of (buf ++ tok) ∧ (buf ++ tok).length ≤ 64
            ∧ ((c :: input = tok ∧ rest = []) ∨ c :: input = tok ++ ch1 :: rest) := by
        intro h1
        obtain ⟨tok, e1, e2, e3⟩ := ih (buf ++ [c]) c st ch1 rest
          (by simp only [List.length_append, List.length_singleton]; omega) h1
        refine ⟨c :: tok, by simpa using e1, by simpa using e2, ?_⟩
        rcases e3 with ⟨e3, e4⟩ | e3
        · exact Or.inl ⟨by rw [e3], e4⟩
        · exact Or.inr (by rw [e3]; rfl)
      have hstop : (Except.ok (flags_of buf, c, input) : Except Error _) = .ok (st, ch1, rest) →
          ∃ tok : List Nat, st = flags_of (buf ++ tok) ∧ (buf ++ tok).length ≤ 64
            ∧ ((c :: input = tok ∧ rest = []) ∨ c :: input = tok ++ ch1 :: rest) := by
        intro h1
        simp only [Except.ok.injEq, Prod.mk.injEq] at h1
        exact ⟨[], by simp [h1.1.symm], by simpa using hlen,
          Or.inr (by rw [h1.2.1, h1.2.2]; rfl)⟩
      split_ifs at h
      all_goals first
        | exact hrec h
        | exact hstop h
    · have hge : ¬ (flags_of buf).buffer.length < max_buffer_size_ := hlt
      rw [parse_numeric_loop, if_neg hge] at h
      simp only [Except.ok.injEq, Prod.mk.injEq] at h
      exact ⟨[], by simp [h.1.symm], by simpa using hlen,
        Or.inr (by rw [h.2.1, h.2.2]; rfl)⟩

/-- A successful run of `parse_numeric`, taken apart: the first character after the white
space is a sign or a digit, the loop ends in the state that belongs to the token `c0 :: tok` it
has accumulated, and the value is the conversion of that state. -/
theorem parse_numeric_ok (atof : List char_t → number_t) (istream : List Nat) (ch_ ch : Nat)
    (v : Variant) (rest : List Nat) (h : parse_numeric atof istream ch_ = .ok (ch, v, rest)) :
    ∃ (c0 : Nat) (s tok : List Nat), _check_and_skip_spaces istream ch_ = .ok (c0, s)
      ∧ (c0 = 45 ∨ c0 = 43 ∨ (48 ≤ c0 ∧ c0 ≤ 57))
      ∧ parse_numeric_loop (NumericLocals.mk [c0] false false false false 0 0) c0 s
          = .ok (flags_of (c0 :: tok), ch, rest)
      ∧ (c0 :: tok).length ≤ 64
      ∧ ((s = tok ∧ rest = []) ∨ s = tok ++ ch :: rest)
      ∧ convert_numeric atof (decide (c0 = 45 ∨ c0 = 43)) (flags_of (c0 :: tok)) = .ok v := by
  unfold parse_numeric at h
  cases hskip : _check_and_skip_spaces istream ch_ with
  | error e => rw [hskip] at h; cases h
  | ok r =>
    obtain ⟨c0, s⟩ := r
    rw [hskip] at h
    simp only [except_bind_ok] at h
    by_cases h46 : c0 = 46
    · rw [if_pos h46] at h; cases h
    · rw [if_neg h46] at h
      by_cases hst : c0 = 45 ∨ c0 = 43 ∨ (48 ≤ c0 ∧ c0 ≤ 57)
      · rw [if_pos hst] at h
        cases hloop : parse_numeric_loop (NumericLocals.mk [c0] false false false false 0 0) c0 s with
        | error e => rw [hloop] at h; cases h
        | ok q =>
          obtain ⟨st, ch1, rest1⟩ := q
          rw [hloop] at h
          simp only [except_bind_ok] at h
          have hloop1 := hloop
          rw [← flags_of_start c0 hst] at hloop1
          obtain ⟨tok, e1, e2, e3⟩ := numeric_loop_result s [c0] c0 st ch1 rest1 (by simp) hloop1
          rw [List.singleton_append] at e1 e2
          cases hconv : convert_numeric atof (decide (c0 = 45 ∨ c0 = 43)) st with
          | error e => rw [hconv] at h; cases h
          | ok v1 =>
            rw [hconv] at h
            simp only [except_bind_ok, Except.ok.injEq, Prod.mk.injEq] at h
            obtain ⟨rfl, rfl, rfl⟩ := h
            subst e1
            exact ⟨c0, s, tok, rfl, hst, hloop, e2, e3, hconv⟩
      · rw [if_neg hst] at h; cases h

/-- The discriminant chosen by the conversion at `end_loop`. -/
theorem convert_numeric_index (atof : List char_t → number_t) (signed_ : Bool) (tok : List Nat)
    (v : Variant) (h : convert_numeric atof signed_ (flags_of tok) = .ok v) :
    (v.index = .number_i ↔ (46 ∈ tok ∨ 101 ∈ tok ∨ 69 ∈ tok))
      ∧ (v.index = .integer_i ↔ ¬ (46 ∈ tok ∨ 101 ∈ tok ∨ 69 ∈ tok)) := by
  unfold convert_numeric at h
  by_cases hp : 46 ∈ tok <;> by_cases hm : 101 ∈ tok ∨ 69 ∈ tok <;>
    simp only [flags_of, hp, hm, decide_True, decide_False, Bool.true_or, Bool.or_true,
      Bool.or_false, if_true, if_false, Bool.false_eq_true] at h <;>
    split_ifs at h <;> cases h <;> simp [Variant.index] <;> tauto

theorem atoi_in_range (x : List Nat) (h1 : -(2 : Int) ^ 31 ≤ scan_integer x)
    (h2 : scan_integer x < (2 : Int) ^ 31) : atoi x = scan_integer x := by
  unfold atoi
  have e1 : max (-(2 : Int) ^ 63) (min ((2 : Int) ^ 63 - 1) (scan_integer x)) = scan_integer x := by
    rw [min_eq_right (by omega), max_eq_right (by omega)]
  rw [e1]
  omega

theorem atoi_ge_999 (x : List Nat) (h : scan_integer x ≥ 999)
    (h2 : scan_integer x < (2 : Int) ^ 31) : atoi x ≥ 999 := by
  rw [atoi_in_range x (by omega) h2]
  exact h

/-- The conversion at `end_loop` of a token with an exponent part of value 999 or more, within
the range of `int`. -/
theorem convert_numeric_saturates (atof : List char_t → number_t) (signed_ : Bool)
    (m x : List Nat) (e : Nat) (he : e = 101 ∨ e = 69) (h101 : 101 ∉ m) (h69 : 69 ∉ m)
    (hx : scan_integer x ≥ 999) (hx2 : scan_integer x < (2 : Int) ^ 31)
    (hs : signed_ = false → (m ++ e :: x).head? ≠ some 45) (v : Variant)
    (h : convert_numeric atof signed_ (flags_of (m ++ e :: x)) = .ok v) :
    v = .number (if (m ++ e :: x).head? = some 45 then neg_inf else inf) := by
  have hmem : 101 ∈ m ++ e :: x ∨ 69 ∈ m ++ e :: x := by
    rcases he with rfl | rfl <;> simp
  have hidx : List.findIdx (fun x => x == 101 || x == 69) (m ++ e :: x) = m.length := by
    have h0 : ¬ (101 ∈ m ∨ 69 ∈ m) := by tauto
    have h1 := marker_idx_new m e h0 he
    have h2 : 101 ∈ m ++ [e] ∨ 69 ∈ m ++ [e] := by rcases he with rfl | rfl <;> simp
    have h3 := marker_idx_append (m ++ [e]) x h2
    rw [List.append_assoc, List.singleton_append] at h3
    rw [h3, h1]
  have hdrop : List.drop (m.length + 1) (m ++ e :: x) = x := by
    rw [List.drop_append]
    rfl
  have hexp : (flags_of (m ++ e :: x)).exponent_ = true := decide_eq_true hmem
  have hei : (flags_of (m ++ e :: x)).exponent_i = m.length := by
    show (if _ then _ else 0) = m.length
    rw [if_pos hmem, hidx]
  have hbuf : (flags_of (m ++ e :: x)).buffer = m ++ e :: x := rfl
  have hat := atoi_ge_999 x hx hx2
  unfold convert_numeric at h
  rw [hexp, hei, hbuf, hdrop] at h
  simp only [Bool.or_true, if_true, hat] at h
  split_ifs at h <;> cases h
  all_goals first
    | (rename_i h1; rw [if_pos h1])
    | (rename_i h1; rw [if_neg h1])
    | (rename_i hsg; rw [if_neg (hs (by simpa using hsg))])

theorem numeric_char_not_white (c : Nat) (h : numeric_char c = true) :
    is_char_white_space c = false := by
  have hc := numeric_char_cases c h
  have e32 : c ≠ 32 := by omega
  have e13 : ¬ c ≤ 13 := by omega
  simp [is_char_white_space, e32, e13]

theorem check_and_skip_first (c : Nat) (s : List Nat) (h : is_char_white_space c = false) :
    _check_and_skip_spaces (c :: s) 0 = .ok (c, s) := by
  simp [_check_and_skip_spaces, skip_loop, h]

theorem upper_marker_then_sign (atof : List char_t → number_t) (m : List Nat) (sign : Nat)
    (rest : List Nat) (hne : m ≠ []) (hm : ∀ x ∈ m, 48 ≤ x ∧ x ≤ 57) (hlen : m.length < 63)
    (hs : sign = 43 ∨ sign = 45) :
    parse_numeric atof (m ++ 69 :: sign :: rest) 0 = .error .runtime_error := by
  cases m with
  | nil => exact absurd rfl hne
  | cons c0 m1 =>
    have hc0 := hm c0 (List.mem_cons_self c0 m1)
    have hnum : ∀ x ∈ m1 ++ [69], numeric_char x = true := by
      intro x hx
      rcases List.mem_append.mp hx with h | h
      · have := hm x (List.mem_cons_of_mem c0 h)
        have e1 : 48 ≤ x := this.1
        have e2 : x ≤ 57 := this.2
        simp [numeric_char, e1, e2]
      · rw [List.mem_singleton.mp h]; rfl
    have hws : is_char_white_space c0 = false := by
      have e32 : c0 ≠ 32 := by omega
      have e13 : ¬ c0 ≤ 13 := by omega
      simp [is_char_white_space, e32, e13]
    have hskip := check_and_skip_first c0 (m1 ++ 69 :: sign :: rest) hws
    have hst : c0 = 45 ∨ c0 = 43 ∨ (48 ≤ c0 ∧ c0 ≤ 57) := Or.inr (Or.inr hc0)
    have h46 : c0 ≠ 46 := by omega
    simp only [List.length_cons] at hlen
    unfold parse_numeric
    rw [List.cons_append, hskip]
    simp only [except_bind_ok]
    rw [if_neg h46, if_pos hst, ← flags_of_start c0 hst]
    have hrun := numeric_run (m1 ++ [69]) [c0] c0 (sign :: rest)
      (by simp only [List.length_singleton, List.length_append]; omega) hnum
    rw [List.append_assoc, List.singleton_append] at hrun
    rcases hrun with herr | ⟨ch1, hgo⟩
    · rw [herr]; rfl
    · have hlast : ([c0] ++ (m1 ++ [69])).getLast? = some 69 := by
        rw [← List.append_assoc, List.getLast?_concat]
      rw [hgo, numeric_step _ (by simp only [List.length_singleton, List.length_append]; omega)]
      have e46 : sign ≠ 46 := by omega
      have es : sign = 45 ∨ sign = 43 := by omega
      rw [if_neg e46, if_pos es, if_neg (by rw [hlast]; decide)]
      rfl

theorem record_and_continue_length (st : NumericLocals) (c : Nat) :
    (record_and_continue st c).buffer.length = st.buffer.length + 1 := by
  simp [record_and_continue]

/-- Once the buffer is full the loop ends: what follows the first 64 characters does not reach
the state at `end_loop`. -/
theorem numeric_loop_tail : ∀ (t : List Nat) (st : NumericLocals) (ch : Nat) (tail : List Nat),
    st.buffer.length + t.length = 64 →
    (parse_numeric_loop st ch (t ++ tail)).map (fun q => q.1)
      = (parse_numeric_loop st ch t).map (fun q => q.1) := by
  intro t
  induction t with
  | nil =>
    intro st ch tail hlen
    have hge : ¬ st.buffer.length < max_buffer_size_ := by
      simp only [List.length_nil, Nat.add_zero] at hlen
      simp [max_buffer_size_, hlen]
    cases tail with
    | nil => rfl
    | cons x tail =>
      have h1 : parse_numeric_loop st ch (x :: tail) = .ok (st, x, tail) := by
        rw [parse_numeric_loop, if_neg hge]
      rw [List.nil_append, h1]
      rfl
  | cons c t ih =>
    intro st ch tail hlen
    simp only [List.length_cons] at hlen
    have hstep : ∀ st1 : NumericLocals, st1.buffer.length = st.buffer.length →
        (parse_numeric_loop (record_and_continue st1 c) c (t ++ tail)).map (fun q => q.1)
          = (parse_numeric_loop (record_and_continue st1 c) c t).map (fun q => q.1) := by
      intro st1 h1
      exact ih _ c tail (by rw [record_and_continue_length, h1]; omega)
    rw [List.cons_append, parse_numeric_loop, parse_numeric_loop]
    split_ifs
    all_goals first
      | rfl
      | exact hstep _ rfl

theorem bind_convert_map (atof : List char_t → number_t) (signed_ : Bool)
    (X : Except Error (NumericLocals × char_t × List char_t)) :
    (X.bind (fun q => (convert_numeric atof signed_ q.1).bind
        (fun v => (.ok (q.2.1, v, q.2.2) : Except Error (char_t × Variant × List char_t))))).map
          (fun q => q.2.1)
      = (X.map (fun q => q.1)).bind (convert_numeric atof signed_) := by
  cases X with
  | error e => rfl
  | ok q =>
    show ((convert_numeric atof signed_ q.1).bind _).map _ = convert_numeric atof signed_ q.1
    cases convert_numeric atof signed_ q.1 <;> rfl

theorem parse_numeric_tail (atof : List char_t → number_t) (c0 : Nat) (t tail : List Nat)
    (hws : is_char_white_space c0 = false) (hlen : t.length = 63) :
    (parse_numeric atof (c0 :: t ++ tail) 0).map (fun q => q.2.1)
      = (parse_numeric atof (c0 :: t) 0).map (fun q => q.2.1) := by
  unfold parse_numeric
  rw [List.cons_append, check_and_skip_first c0 (t ++ tail) hws, check_and_skip_first c0 t hws]
  simp only [except_bind_ok]
  by_cases h46 : c0 = 46
  · rw [if_pos h46, if_pos h46]
  · rw [if_neg h46, if_neg h46]
    by_cases hst : c0 = 45 ∨ c0 = 43 ∨ (48 ≤ c0 ∧ c0 ≤ 57)
    · rw [if_pos hst, if_pos hst, bind_convert_map, bind_convert_map,
        numeric_loop_tail t _ c0 tail (by simp [hlen])]
    · rw [if_neg hst, if_neg hst]

theorem head_of_unsigned (c0 : Nat) (tok : List Nat)
    (h : decide (c0 = 45 ∨ c0 = 43) = false) : (c0 :: tok).head? ≠ some 45 := by
  intro h1
  simp only [List.head?_cons, Option.some.injEq] at h1
  subst h1
  simp at h

theorem check_and_skip_white (ws : List Nat) (hws : ∀ w ∈ ws, is_char_white_space w = true)
    (c : Nat) (rest : List Nat) (hc : is_char_white_space c = false) :
    _check_and_skip_spaces (ws ++ c :: rest) 0 = .ok (c, rest) := by
  have h : _check_and_skip_spaces (ws ++ c :: rest) 0 = skip_loop 0 (ws ++ c :: rest) := by
    simp [_check_and_skip_spaces]
  rw [h, skip_loop_white ws hws 0 c rest hc]

theorem skip_spaces_white (ws : List Nat) (hws : ∀ w ∈ ws, is_char_white_space w = true)
    (c : Nat) (rest : List Nat) (hc : is_char_white_space c = false) :
    _skip_spaces (ws ++ c :: rest) = .ok (c, rest) := by
  have h : _skip_spaces (ws ++ c :: rest) = skip_loop 0 (ws ++ c :: rest) := by
    cases ws <;> rfl
  rw [h, skip_loop_white ws hws 0 c rest hc]

theorem parse_variant_invalid_token (cfg : Config) (atof : List char_t → number_t) (fuel : Nat)
    (ws : List Nat) (c : Nat) (rest : List Nat) (heap : Nat)
    (hws : ∀ w ∈ ws, is_char_white_space w = true) (hc : is_char_white_space c = false)
    (hne : c ∉ [110, 116, 102, 45, 43, 46, 34, 91, 123]) (hd : ¬ (48 ≤ c ∧ c ≤ 57)) :
    parse_variant cfg atof (fuel + 1) (ws ++ c :: rest) heap 0 = .error .runtime_error := by
  simp only [List.mem_cons, List.mem_singleton, List.not_mem_nil, or_false, not_or] at hne
  obtain ⟨e1, e2, e3, e4, e5, e6, e7, e8, e9⟩ := hne
  rw [parse_variant, check_and_skip_white ws hws c rest hc]
  simp only [except_bind_ok, e1, e2, e3, e4, e5, e6, e7, e8, e9, hd, or_self, if_false]

theorem match_literal_full (es rest : List Nat) : match_literal es (es ++ rest) = .ok rest := by
  induction es with
  | nil => rfl
  | cons e es ih => simp [match_literal, expect_char, ih]

theorem match_literal_ok (es s rest : List Nat) (h : match_literal es s = .ok rest) :
    s = es ++ rest := by
  induction es generalizing s with
  | nil => simp only [match_literal, Except.ok.injEq] at h; simp [h]
  | cons e es ih =>
    cases s with
    | nil => simp [match_literal, expect_char] at h
    | cons c s =>
      by_cases hc : c = e
      · subst hc
        simp only [match_literal, expect_char, if_true, except_bind_ok] at h
        rw [ih s h]; rfl
      · simp [match_literal, expect_char, hc] at h

theorem match_literal_short (es : List Nat) (k : Nat) (hk : k < es.length) :
    match_literal es (es.take k) = .error .end_of_stream := by
  induction es generalizing k with
  | nil => simp at hk
  | cons e es ih =>
    cases k with
    | zero => rfl
    | succ k =>
      simp only [List.length_cons] at hk
      simp [match_literal, expect_char, ih k (by omega)]

theorem match_literal_mismatch (es : List Nat) (k c : Nat) (rest : List Nat)
    (hk : k < es.length) (hc : es.get? k ≠ some c) :
    match_literal es (es.take k ++ c :: rest) = .error .runtime_error := by
  induction es generalizing k with
  | nil => simp at hk
  | cons e es ih =>
    cases k with
    | zero =>
      have hne : c ≠ e := by
        intro h; apply hc; simp [h]
      simp [match_literal, expect_char, hne]
    | succ k =>
      simp only [List.length_cons] at hk
      have hc1 : es.get? k ≠ some c := by simpa using hc
      simp [match_literal, expect_char, ih k (by omega) hc1]

theorem parse_null_eq (istream : List Nat) (ch_ : Nat) :
    parse_null istream ch_ = (_check_and_skip_spaces istream ch_).bind (fun r =>
      if r.1 = 110 then (match_literal [117, 108, 108] r.2).bind (fun s => .ok (108, s))
      else .error .runtime_error) := by
  unfold parse_null
  congr 1
  funext r
  by_cases h : r.1 = 110
  · simp only [h, if_true, match_literal]
    cases expect_char 117 r.2 with
    | error e => rfl
    | ok s1 =>
      simp only [except_bind_ok]
      cases expect_char 108 s1 with
      | error e => rfl
      | ok s2 =>
        simp only [except_bind_ok]
        cases expect_char 108 s2 <;> rfl
  · simp only [h, if_false]

theorem parse_boolean_eq (istream : List Nat) (ch_ : Nat) :
    parse_boolean istream ch_ = (_check_and_skip_spaces istream ch_).bind (fun r =>
      if r.1 = 116 then (match_literal [114, 117, 101] r.2).bind (fun s => .ok (101, true, s))
      else if r.1 = 102 then
        (match_literal [97, 108, 115, 101] r.2).bind (fun s => .ok (101, false, s))
      else .error .runtime_error) := by
  unfold parse_boolean
  congr 1
  funext r
  by_cases h : r.1 = 116
  · simp only [h, if_true, match_literal]
    cases expect_char 114 r.2 with
    | error e => rfl
    | ok s1 =>
      simp only [except_bind_ok]
      cases expect_char 117 s1 with
      | error e => rfl
      | ok s2 =>
        simp only [except_bind_ok]
        cases expect_char 101 s2 <;> rfl
  · simp only [h, if_false]
    by_cases h2 : r.1 = 102
    · simp only [h2, if_true, match_literal]
      cases expect_char 97 r.2 with
      | error e => rfl
      | ok s1 =>
        simp only [except_bind_ok]
        cases expect_char 108 s1 with
        | error e => rfl
        | ok s2 =>
          simp only [except_bind_ok]
          cases expect_char 115 s2 with
          | error e => rfl
          | ok s3 =>
            simp only [except_bind_ok]
            cases expect_char 101 s3 <;> rfl
    · simp only [h2, if_false]

theorem skip_loop_ok : ∀ (s : List Nat) (ch c : Nat) (tail : List Nat),
    skip_loop ch s = .ok (c, tail) →
    (s = [] ∧ c = ch ∧ tail = [])
      ∨ ∃ ws, (∀ w ∈ ws, is_char_white_space w = true) ∧ s = ws ++ c :: tail := by
  intro s
  induction s with
  | nil =>
    intro ch c tail h
    simp only [skip_loop, Except.ok.injEq, Prod.mk.injEq] at h
    exact Or.inl ⟨rfl, h.1.symm, h.2.symm⟩
  | cons x s ih =>
    intro ch c tail h
    rw [skip_loop] at h
    by_cases hx : is_char_white_space x = true
    · rw [if_pos hx] at h
      cases s with
      | nil => simp at h
      | cons y s =>
        rw [if_neg (by simp)] at h
        rcases ih x c tail h with ⟨h1, _, _⟩ | ⟨ws, hws, hs⟩
        · cases h1
        · refine Or.inr ⟨x :: ws, ?_, by rw [hs]; rfl⟩
          intro w hw
          rcases List.mem_cons.mp hw with rfl | hw
          · exact hx
          · exact hws w hw
    · rw [if_neg hx] at h
      simp only [Except.ok.injEq, Prod.mk.injEq] at h
      exact Or.inr ⟨[], by simp, by rw [h.1, h.2]; rfl⟩

theorem check_and_skip_ok (s : List Nat) (c : Nat) (tail : List Nat) (hc : c ≠ 0)
    (h : _check_and_skip_spaces s 0 = .ok (c, tail)) :
    ∃ ws, (∀ w ∈ ws, is_char_white_space w = true) ∧ s = ws ++ c :: tail := by
  have h1 : skip_loop 0 s = .ok (c, tail) := by
    simpa [_check_and_skip_spaces] using h
  rcases skip_loop_ok s 0 c tail h1 with ⟨_, h2, _⟩ | h2
  · exact absurd h2 hc
  · exact h2

/-- A reader that skips white space, takes the first character of the literal and matches the
others keeps the contract of the literal. -/
theorem literal_contract_of (c0 : Nat) (es : List Nat) (value : Variant)
    (read : List char_t → Except Error (Variant × List char_t))
    (hread : ∀ ws tail, (∀ w ∈ ws, is_char_white_space w = true) →
      read (ws ++ c0 :: tail) = (match_literal es tail).map (fun s => (value, s)))
    (hinv : ∀ s rest, read s = .ok (value, rest) →
      ∃ ws tail, (∀ w ∈ ws, is_char_white_space w = true) ∧ s = ws ++ c0 :: tail
        ∧ match_literal es tail = .ok rest) :
    literal_contract (c0 :: es) value read := by
  refine ⟨?_, ?_, ?_⟩
  · intro s rest
    constructor
    · intro h
      obtain ⟨ws, tail, hws, hs, hm⟩ := hinv s rest h
      refine ⟨ws, hws, ?_⟩
      rw [hs, match_literal_ok es tail rest hm]
      simp
    · rintro ⟨ws, hws, rfl⟩
      have := hread ws (es ++ rest) hws
      rw [match_literal_full] at this
      simpa using this
  · intro ws k hws hk1 hk
    obtain ⟨k, rfl⟩ : ∃ j, k = j + 1 := ⟨k - 1, by omega⟩
    simp only [List.length_cons] at hk
    rw [List.take_succ_cons, hread ws _ hws, match_literal_short es k (by omega)]
    rfl
  · intro ws k c rest hws hk1 hk hc
    obtain ⟨k, rfl⟩ : ∃ j, k = j + 1 := ⟨k - 1, by omega⟩
    simp only [List.length_cons] at hk
    have hc1 : es.get? k ≠ some c := by simpa using hc
    rw [List.take_succ_cons, List.append_assoc, List.cons_append, hread ws _ hws,
      match_literal_mismatch es k c rest (by omega) hc1]
    rfl

theorem read_null_contract : literal_contract literal_null .null read_null := by
  apply literal_contract_of 110 [117, 108, 108] .null read_null
  · intro ws tail hws
    unfold read_null
    rw [parse_null_eq, check_and_skip_white ws hws 110 tail (by decide)]
    simp only [except_bind_ok, if_true]
    cases match_literal [117, 108, 108] tail <;> rfl
  · intro s rest h
    unfold read_null at h
    rw [parse_null_eq] at h
    cases hskip : _check_and_skip_spaces s 0 with
    | error e => rw [hskip] at h; cases h
    | ok r =>
      obtain ⟨c, tail⟩ := r
      rw [hskip] at h
      simp only [except_bind_ok] at h
      by_cases hc : c = 110
      · subst hc
        obtain ⟨ws, hws, hs⟩ := check_and_skip_ok s 110 tail (by decide) hskip
        refine ⟨ws, tail, hws, hs, ?_⟩
        simp only [if_true] at h
        cases hm : match_literal [117, 108, 108] tail with
        | error e => rw [hm] at h; cases h
        | ok s3 =>
          rw [hm] at h
          simp only [except_bind_ok, Except.map, Except.ok.injEq, Prod.mk.injEq] at h
          rw [h.2]
      · rw [if_neg hc] at h; cases h

theorem read_boolean_true_contract :
    literal_contract literal_true (.boolean true) read_boolean := by
  apply literal_contract_of 116 [114, 117, 101] (.boolean true) read_boolean
  · intro ws tail hws
    unfold read_boolean
    rw [parse_boolean_eq, check_and_skip_white ws hws 116 tail (by decide)]
    simp only [except_bind_ok, if_true]
    cases match_literal [114, 117, 101] tail <;> rfl
  · intro s rest h
    unfold read_boolean at h
    rw [parse_boolean_eq] at h
    cases hskip : _check_and_skip_spaces s 0 with
    | error e => rw [hskip] at h; cases h
    | ok r =>
      obtain ⟨c, tail⟩ := r
      rw [hskip] at h
      simp only [except_bind_ok] at h
      by_cases hc : c = 116
      · subst hc
        obtain ⟨ws, hws, hs⟩ := check_and_skip_ok s 116 tail (by decide) hskip
        refine ⟨ws, tail, hws, hs, ?_⟩
        simp only [if_true] at h
        cases hm : match_literal [114, 117, 101] tail with
        | error e => rw [hm] at h; cases h
        | ok s3 =>
          rw [hm] at h
          simp only [except_bind_ok, Except.map, Except.ok.injEq, Prod.mk.injEq] at h
          rw [h.2]
      · rw [if_neg hc] at h
        by_cases hc2 : c = 102
        · rw [if_pos hc2] at h
          cases hm : match_literal [97, 108, 115, 101] tail with
          | error e => rw [hm] at h; cases h
          | ok s3 =>
            rw [hm] at h
            simp [Except.map] at h
        · rw [if_neg hc2] at h; cases h

theorem read_boolean_false_contract :
    literal_contract literal_false (.boolean false) read_boolean := by
  apply literal_contract_of 102 [97, 108, 115, 101] (.boolean false) read_boolean
  · intro ws tail hws
    unfold read_boolean
    rw [parse_boolean_eq, check_and_skip_white ws hws 102 tail (by decide)]
    simp only [except_bind_ok, if_true]
    cases match_literal [97, 108, 115, 101] tail <;> rfl
  · intro s rest h
    unfold read_boolean at h
    rw [parse_boolean_eq] at h
    cases hskip : _check_and_skip_spaces s 0 with
    | error e => rw [hskip] at h; cases h
    | ok r =>
      obtain ⟨c, tail⟩ := r
      rw [hskip] at h
      simp only [except_bind_ok] at h
      by_cases hc : c = 116
      · rw [if_pos hc] at h
        cases hm : match_literal [114, 117, 101] tail with
        | error e => rw [hm] at h; cases h
        | ok s3 =>
          rw [hm] at h
          simp [Except.map] at h
      · rw [if_neg hc] at h
        by_cases hc2 : c = 102
        · subst hc2
          obtain ⟨ws, hws, hs⟩ := check_and_skip_ok s 102 tail (by decide) hskip
          refine ⟨ws, tail, hws, hs, ?_⟩
          simp only [if_true] at h
          cases hm : match_literal [97, 108, 115, 101] tail with
          | error e => rw [hm] at h; cases h
          | ok s3 =>
            rw [hm] at h
            simp only [except_bind_ok, Except.map, Except.ok.injEq, Prod.mk.injEq] at h
            rw [h.2]
        · rw [if_neg hc2] at h; cases h

theorem read_first_character_mismatch (ws : List Nat) (c : Nat) (rest : List Nat)
    (hws : ∀ w ∈ ws, is_char_white_space w = true) (hc : is_char_white_space c = false) :
    (c ≠ 110 → read_null (ws ++ c :: rest) = .error .runtime_error)
      ∧ (c ≠ 116 → c ≠ 102 → read_boolean (ws ++ c :: rest) = .error .runtime_error) := by
  constructor
  · intro h
    unfold read_null
    rw [parse_null_eq, check_and_skip_white ws hws c rest hc]
    simp only [except_bind_ok, h, if_false]
    rfl
  · intro h1 h2
    unfold read_boolean
    rw [parse_boolean_eq, check_and_skip_white ws hws c rest hc]
    simp only [except_bind_ok, h1, h2, if_false]
    rfl

theorem read_success_values (s : List Nat) (v : Variant) (rest : List Nat) :
    (read_null s = .ok (v, rest) → v = .null)
      ∧ (read_boolean s = .ok (v, rest) → v = .boolean true ∨ v = .boolean false) := by
  constructor
  · intro h
    unfold read_null at h
    cases hp : parse_null s 0 with
    | error e => rw [hp] at h; cases h
    | ok q =>
      rw [hp] at h
      simp only [Except.map, Except.ok.injEq, Prod.mk.injEq] at h
      exact h.1.symm
  · intro h
    unfold read_boolean at h
    cases hp : parse_boolean s 0 with
    | error e => rw [hp] at h; cases h
    | ok q =>
      rw [hp] at h
      simp only [Except.map, Except.ok.injEq, Prod.mk.injEq] at h
      rw [← h.1]
      cases q.2.1
      · exact Or.inr rfl
      · exact Or.inl rfl

theorem entries_for_absent (es : List (List Nat × Variant)) (k : List Nat)
    (h : ∀ e ∈ es, e.1 ≠ k) : entries_for es k = [] := by
  unfold entries_for
  rw [List.filter_eq_nil_iff]
  intro e he
  simpa using h e he

theorem any_key_iff (es : List (List Nat × Variant)) (k : List Nat) :
    es.any (fun e => e.1 == k) = true ↔ k ∈ es.map Prod.fst := by
  simp only [List.any_eq_true, beq_iff_eq, List.mem_map]

theorem overwrite_absent (es : List (List Nat × Variant)) (k : List Nat) (v : Variant)
    (h : ∀ e ∈ es, e.1 ≠ k) : es.map (fun e => if e.1 == k then (k, v) else e) = es := by
  induction es with
  | nil => rfl
  | cons e es ih =>
    have he : e.1 ≠ k := h e (List.mem_cons_self e es)
    have ih1 := ih (fun x hx => h x (List.mem_cons_of_mem e hx))
    rw [List.map_cons, ih1]
    simp [he]

theorem overwrite_keys (es : List (List Nat × Variant)) (k : List Nat) (v : Variant) :
    (es.map (fun e => if e.1 == k then (k, v) else e)).map Prod.fst = es.map Prod.fst := by
  induction es with
  | nil => rfl
  | cons e es ih =>
    simp only [List.map_cons, ih]
    by_cases he : e.1 = k
    · simp [he]
    · simp [he]

theorem emplace_keys_nodup (es : List (List Nat × Variant)) (k : List Nat) (v : Variant)
    (h : (es.map Prod.fst).Nodup) : ((object_emplace es k v).map Prod.fst).Nodup := by
  unfold object_emplace
  by_cases ha : es.any (fun e => e.1 == k) = true
  · rw [if_pos ha, overwrite_keys]; exact h
  · rw [if_neg ha]
    have hk : k ∉ es.map Prod.fst := fun hm => ha ((any_key_iff es k).mpr hm)
    rw [List.map_append, List.map_singleton]
    exact List.Nodup.append h (List.nodup_singleton k)
      (by
        intro x hx hx1
        rw [List.mem_singleton] at hx1
        have hx2 : x = k := hx1
        exact hk (hx2 ▸ hx))

theorem overwrite_for_same (es : List (List Nat × Variant)) (k : List Nat) (v : Variant)
    (h : (es.map Prod.fst).Nodup) (hk : k ∈ es.map Prod.fst) :
    entries_for (es.map (fun e => if e.1 == k then (k, v) else e)) k = [(k, v)] := by
  induction es with
  | nil => simp at hk
  | cons e es ih =>
    rw [List.map_cons, List.nodup_cons] at h
    by_cases he : e.1 = k
    · have habs : ∀ x ∈ es, x.1 ≠ k := by
        intro x hx hxk
        exact h.1 (he ▸ hxk ▸ List.mem_map_of_mem Prod.fst hx)
      rw [List.map_cons, overwrite_absent es k v habs]
      have := entries_for_absent es k habs
      unfold entries_for at this ⊢
      simp [he, this]
    · have hk1 : k ∈ es.map Prod.fst := by
        rw [List.map_cons, List.mem_cons] at hk
        rcases hk with hk | hk
        · exact absurd hk.symm he
        · exact hk
      have := ih h.2 hk1
      unfold entries_for at this ⊢
      rw [List.map_cons, List.filter_cons, this]
      simp [he]

theorem emplace_for_same (es : List (List Nat × Variant)) (k : List Nat) (v : Variant)
    (h : (es.map Prod.fst).Nodup) : entries_for (object_emplace es k v) k = [(k, v)] := by
  unfold object_emplace
  by_cases ha : es.any (fun e => e.1 == k) = true
  · rw [if_pos ha]
    exact overwrite_for_same es k v h ((any_key_iff es k).mp ha)
  · rw [if_neg ha]
    have hk : ∀ e ∈ es, e.1 ≠ k := by
      intro e he hek
      exact ha ((any_key_iff es k).mpr (hek ▸ List.mem_map_of_mem Prod.fst he))
    have := entries_for_absent es k hk
    unfold entries_for at this ⊢
    simp [this]

theorem emplace_for_other (es : List (List Nat × Variant)) (k k1 : List Nat) (v : Variant)
    (hne : k ≠ k1) : entries_for (object_emplace es k v) k1 = entries_for es k1 := by
  unfold object_emplace entries_for
  by_cases ha : es.any (fun e => e.1 == k) = true
  · rw [if_pos ha]
    clear ha
    induction es with
    | nil => rfl
    | cons e es ih =>
      rw [List.map_cons, List.filter_cons, List.filter_cons, ih]
      by_cases he : e.1 = k
      · have he1 : e.1 ≠ k1 := he ▸ hne
        simp [he, hne, he1]
      · simp [he]
  · rw [if_neg ha]
    simp [hne]

/-- Inserting the members of a text one after the other: for each key the mapping ends with
exactly the entry of the last member that carries it. -/
theorem fold_emplace_for : ∀ (ms es : List (List Nat × Variant)) (k : List Nat),
    (es.map Prod.fst).Nodup →
    entries_for (ms.foldl (fun acc m => object_emplace acc m.1 m.2) es) k
      = match last_value ms k with
        | some v => [(k, v)]
        | none => entries_for es k := by
  intro ms
  induction ms with
  | nil => intro es k _; rfl
  | cons m ms ih =>
    intro es k hes
    rw [List.foldl_cons, ih (object_emplace es m.1 m.2) k (emplace_keys_nodup es m.1 m.2 hes)]
    have hlast : last_value (m :: ms) k = match last_value ms k with
        | some v => some v
        | none => if m.1 = k then some m.2 else none := rfl
    rw [hlast]
    cases last_value ms k with
    | some v => rfl
    | none =>
      by_cases hm : m.1 = k
      · simp only [hm, if_true]
        rw [← hm]
        exact emplace_for_same es m.1 m.2 hes
      · simp only [hm, if_false]
        exact emplace_for_other es m.1 k m.2 hm

theorem bind_ok_inv {ε α β : Type} {x : Except ε α} {f : α → Except ε β} {b : β}
    (h : x.bind f = .ok b) : ∃ a, x = .ok a ∧ f a = .ok b := by
  cases x with
  | error e => cases h
  | ok a => exact ⟨a, rfl, h⟩

/-- The object loop and the loop that collects the members read the same text: the mapping
that the object loop returns holds the members, inserted one after the other. -/
theorem object_loop_members (cfg : Config) (atof : List char_t → number_t) :
    ∀ (fuel : Nat) (rhs : Object) (ft : Bool) (ch : Nat) (istream : List Nat) (heap : Nat)
      (c : Nat) (rhs1 : Object) (rest : List Nat) (heap1 : Nat),
      (ft = true → object_entries rhs = []) →
      parse_object_loop cfg atof fuel rhs ft ch istream heap = .ok (c, rhs1, rest, heap1) →
      ∃ ms, parse_object_members cfg atof fuel ft ch istream heap = .ok (c, ms, rest, heap1)
        ∧ object_entries rhs1
            = ms.foldl (fun acc m => object_emplace acc m.1 m.2) (object_entries rhs) := by
  intro fuel
  induction fuel with
  | zero =>
    intro rhs ft ch istream heap c rhs1 rest heap1 _ h
    rw [parse_object_loop] at h
    cases h
  | succ fuel ih =>
    intro rhs ft ch istream heap c rhs1 rest heap1 hft h
    rw [parse_object_loop] at h
    rw [parse_object_members]
    obtain ⟨r, h0, h⟩ := bind_ok_inv h
    obtain ⟨k, hk, h⟩ := bind_ok_inv h
    obtain ⟨r1, hr1, h⟩ := bind_ok_inv h
    by_cases h58 : r1.1 = 58
    · simp only [h58, ne_eq, not_true_eq_false, if_false] at h
      obtain ⟨r2, hr2, h⟩ := bind_ok_inv h
      obtain ⟨e, he, h⟩ := bind_ok_inv h
      obtain ⟨u, hu, h⟩ := bind_ok_inv h
      obtain ⟨r3, hr3, h⟩ := bind_ok_inv h
      simp only [h0, hk, hr1, hr2, he, hr3, except_bind_ok, h58, ne_eq, not_true_eq_false,
        if_false]
      have tail : ∀ (here : List (string_t × Variant)) (ft2 : Bool) (heap2 : Nat),
          u.2.1 = ft2 → u.2.2 = heap2 →
          object_entries u.1
            = here.foldl (fun acc m => object_emplace acc m.1 m.2) (object_entries rhs) →
          (ft2 = true → object_entries u.1 = []) →
          ∃ ms, (if r3.1 = 44 then
                (parse_object_members cfg atof fuel ft2 r3.1 r3.2 heap2).bind
                  (fun q => .ok (q.1, here ++ q.2.1, q.2.2.1, q.2.2.2))
              else .ok (r3.1, here, r3.2, heap2)) = .ok (c, ms, rest, heap1)
            ∧ object_entries rhs1
                = ms.foldl (fun acc m => object_emplace acc m.1 m.2) (object_entries rhs) := by
        intro here ft2 heap2 e1 e2 e3 e4
        by_cases h44 : r3.1 = 44
        · rw [if_pos h44] at h ⊢
          rw [e1, e2] at h
          obtain ⟨ms1, hm, hent⟩ := ih u.1 ft2 r3.1 r3.2 heap2 c rhs1 rest heap1 e4 h
          refine ⟨here ++ ms1, by rw [hm]; rfl, ?_⟩
          rw [hent, e3, List.foldl_append]
        · rw [if_neg h44] at h ⊢
          simp only [Except.ok.injEq, Prod.mk.injEq] at h
          obtain ⟨h1, h2, h3, h4⟩ := h
          refine ⟨here, by rw [h1, h3, ← e2, h4], ?_⟩
          rw [← h2, e3]
      by_cases hv : e.2.1.index = Index.invalid_i
      · simp only [hv, not_true_eq_false, if_false, Except.ok.injEq] at hu
        subst hu
        simp only [hv, not_true_eq_false, decide_False, Bool.false_and, Bool.not_false,
          Bool.and_true, if_false, Bool.false_eq_true]
        exact tail [] ft e.2.2.2 rfl rfl rfl hft
      · cases ft with
        | true =>
          simp only [hv, not_false_eq_true, if_true, Except.ok.injEq] at hu
          subst hu
          simp only [hv, not_false_eq_true, decide_True, Bool.true_and, Bool.not_true,
            Bool.and_false, if_true]
          exact tail [(string_content k.2.1, e.2.1)] false (e.2.2.2 + 1) rfl rfl
            (by rw [hft rfl]; rfl) (fun hh => by cases hh)
        | false =>
          simp only [hv, not_false_eq_true, if_true, Bool.false_eq_true, if_false] at hu
          obtain ⟨a, ha, hu⟩ := bind_ok_inv hu
          simp only [Except.ok.injEq] at hu
          subst hu
          simp only [hv, not_false_eq_true, decide_True, Bool.and_false, Bool.not_true,
            Bool.false_eq_true, if_true, if_false]
          cases rhs with
          | none => cases ha
          | some p =>
            obtain ⟨addr, es⟩ := p
            simp only [Object.set, Except.ok.injEq] at ha
            subst ha
            exact tail [(string_content k.2.1, e.2.1)] false e.2.2.2 rfl rfl rfl
              (fun hh => by cases hh)
    · simp only [h58, ne_eq, not_false_eq_true, if_true] at h
      cases h

theorem parse_object_members_of_ok (cfg : Config) (atof : List char_t → number_t) (fuel : Nat)
    (istream : List Nat) (heap ch_ ch : Nat) (obj : Object) (rest : List Nat) (heap1 : Nat)
    (h : parse_object cfg atof fuel istream heap ch_ = .ok (ch, obj, rest, heap1)) :
    ∃ ms, object_members cfg atof fuel istream heap ch_ = .ok (ch, ms, rest, heap1)
      ∧ object_entries obj = ms.foldl (fun acc m => object_emplace acc m.1 m.2) [] := by
  cases fuel with
  | zero => rw [parse_object] at h; cases h
  | succ fuel =>
    rw [parse_object] at h
    unfold object_members
    obtain ⟨r, h0, h⟩ := bind_ok_inv h
    by_cases h123 : r.1 = 123
    · simp only [h123, ne_eq, not_true_eq_false, if_false] at h
      obtain ⟨r1, hr1, h⟩ := bind_ok_inv h
      simp only [h0, hr1, except_bind_ok, h123, ne_eq, not_true_eq_false, if_false]
      by_cases h125 : r1.1 = 125
      · rw [if_pos h125] at h ⊢
        simp only [Except.ok.injEq, Prod.mk.injEq] at h
        obtain ⟨h1, h2, h3, h4⟩ := h
        exact ⟨[], by rw [h1, h3, h4], by rw [← h2]; rfl⟩
      · rw [if_neg h125] at h ⊢
        obtain ⟨q, hq, h⟩ := bind_ok_inv h
        by_cases hq1 : q.1 = 125
        · simp only [hq1, ne_eq, not_true_eq_false, if_false, Except.ok.injEq] at h
          subst h
          obtain ⟨ms, hm, hent⟩ := object_loop_members cfg atof fuel none true r1.1 r1.2 heap
            ch obj rest heap1 (fun _ => rfl) hq
          have hch : ch = 125 := hq1
          refine ⟨ms, ?_, hent⟩
          rw [hm]
          simp only [except_bind_ok, hch, ne_eq, not_true_eq_false, if_false]
        · simp only [hq1, ne_eq, not_false_eq_true, if_true] at h
          cases h
    · simp only [h123, ne_eq, not_false_eq_true, if_true] at h
      cases h

theorem parse_numeric_loop_stop (st : NumericLocals) (ch t : Nat) (rest : List Nat)
    (hlen : st.buffer.length < max_buffer_size_) (ht : t = 44 ∨ t = 125) :
    parse_numeric_loop st ch (t :: rest) = .ok (st, t, rest) := by
  rw [parse_numeric_loop]
  rcases ht with h | h <;> subst h <;> simp [hlen]

theorem parse_numeric_token_stop (atof : List char_t → number_t) (c0 : Nat) (ds : List Nat)
    (t : Nat) (rest : List Nat) (hc0 : c0 = 45 ∨ (48 ≤ c0 ∧ c0 ≤ 57))
    (hds : ∀ c ∈ ds, 48 ≤ c ∧ c ≤ 57) (hlen : ds.length ≤ 19) (hsign : c0 = 45 → 1 ≤ ds.length)
    (ht : t = 44 ∨ t = 125) :
    parse_numeric atof (ds ++ t :: rest) c0 = .ok (t, .integer (atoll (c0 :: ds)), rest) := by
  obtain ⟨ch, h⟩ := parse_numeric_token atof c0 ds (t :: rest) hc0 hds hlen hsign
    (by rcases ht with h | h <;> subst h <;> rfl)
  have h1 := h
  obtain ⟨c1, s, tok, hskip, hst, hloop, _, hsplit, _⟩ :=
    parse_numeric_ok atof (ds ++ t :: rest) c0 ch _ _ h1
  have hws : is_char_white_space c0 = false := by
    have e32 : c0 ≠ 32 := by omega
    have e13 : ¬ c0 ≤ 13 := by omega
    simp [is_char_white_space, e32, e13]
  have h0 : c0 ≠ 0 := by omega
  have hskip1 : _check_and_skip_spaces (ds ++ t :: rest) c0 = .ok (c0, ds ++ t :: rest) := by
    simp [_check_and_skip_spaces, h0, hws]
  rw [hskip1] at hskip
  simp only [Except.ok.injEq, Prod.mk.injEq] at hskip
  obtain ⟨rfl, rfl⟩ := hskip
  obtain ⟨ch1, hdig⟩ := parse_numeric_loop_digits ds
    (NumericLocals.mk [c0] false false false false 0 0) c0 (t :: rest) rfl rfl rfl rfl hds
    (by simp [max_buffer_size_]; omega)
  rw [hdig, parse_numeric_loop_stop _ ch1 t rest (by simp [max_buffer_size_]; omega) ht] at hloop
  simp only [Except.ok.injEq, Prod.mk.injEq] at hloop
  rw [h, ← hloop.2.1]
  rfl

theorem parse_variant_carried_numeric (cfg : Config) (atof : List char_t → number_t) (f : Nat)
    (c0 : Nat) (s : List Nat) (heap : Nat) (hc0 : c0 = 45 ∨ (48 ≤ c0 ∧ c0 ≤ 57)) :
    parse_variant cfg atof (f + 1) s heap c0
      = (parse_numeric atof s c0).bind (fun q => .ok (q.1, q.2.1, q.2.2, heap)) := by
  have hws : is_char_white_space c0 = false := by
    have e32 : c0 ≠ 32 := by omega
    have e13 : ¬ c0 ≤ 13 := by omega
    simp [is_char_white_space, e32, e13]
  have h0 : c0 ≠ 0 := by omega
  have hskip : _check_and_skip_spaces s c0 = .ok (c0, s) := by
    simp [_check_and_skip_spaces, h0, hws]
  have e110 : c0 ≠ 110 := by omega
  have e116 : c0 ≠ 116 := by omega
  have e102 : c0 ≠ 102 := by omega
  have hnum : c0 = 45 ∨ c0 = 43 ∨ c0 = 46 ∨ (48 ≤ c0 ∧ c0 ≤ 57) := by omega
  rw [parse_variant, hskip]
  simp only [except_bind_ok, e110, e116, e102, or_self, if_false, hnum, if_true]

/-- One round of the object loop on a member with a plain key and an Integer value, followed
by a comma or by the closing brace. -/
theorem object_round (cfg : Config) (hps : cfg.process_string = true)
    (atof : List char_t → number_t) (f : Nat) (rhs : Object) (ft : Bool) (ch : Nat)
    (istream : List Nat) (heap : Nat) (k : List Nat) (n : Int) (t : Nat) (rest : List Nat)
    (hentry : (if ch = 44 then _skip_spaces istream else _check_and_skip_spaces istream ch)
      = .ok (34, k ++ 34 :: 58 :: (write_integer n ++ t :: rest)))
    (hk : ∀ c ∈ k, c ≠ 34 ∧ c ≠ 92) (hlo : -(2 : Int) ^ 63 ≤ n) (hhi : n < (2 : Int) ^ 63)
    (ht : t = 44 ∨ t = 125) (hrhs : ft = false → rhs ≠ none) :
    ∃ (rhs1 : Object) (heap1 : Nat), rhs1 ≠ none
        ∧ object_entries rhs1
          = object_emplace (if ft then [] else object_entries rhs) k (.integer n)
        ∧ parse_object_loop cfg atof (f + 2) rhs ft ch istream heap
          = (if t = 44 then parse_object_loop cfg atof (f + 1) rhs1 false t rest heap1
             else .ok (t, rhs1, rest, heap1)) := by
  obtain ⟨a, hp1, hstr⟩ := parse_string_carried_of_decodes cfg hps k k
    (58 :: (write_integer n ++ t :: rest)) heap (decodes_plain cfg hps k hk)
  obtain ⟨c0, ds, hw, hc0, hds, hlen, hsign, hval⟩ := write_integer_shape n hlo hhi
  have hnum := parse_numeric_token_stop atof c0 ds t rest hc0 hds hlen hsign ht
  rw [hval] at hnum
  have hws : is_char_white_space c0 = false := by
    have e32 : c0 ≠ 32 := by omega
    have e13 : ¬ c0 ≤ 13 := by omega
    simp [is_char_white_space, e32, e13]
  have hs1 : _skip_spaces (58 :: (write_integer n ++ t :: rest))
      = .ok (58, write_integer n ++ t :: rest) := by
    simp [_skip_spaces, skip_loop, is_char_white_space]
  have hs2 : _skip_spaces (write_integer n ++ t :: rest) = .ok (c0, ds ++ t :: rest) := by
    rw [hw]
    simp [_skip_spaces, skip_loop, hws]
  have hv : parse_variant cfg atof (f + 1) (ds ++ t :: rest) hp1 c0
      = .ok (t, .integer n, rest, hp1) := by
    rw [parse_variant_carried_numeric cfg atof f c0 _ hp1 hc0, hnum]
    rfl
  have hsk : skip_after_value (Variant.integer n).index rest t = .ok (t, rest) := by
    rcases ht with h | h <;> subst h <;>
      simp [skip_after_value, Variant.index, _check_and_skip_spaces, is_char_white_space]
  have hvalid : (Variant.integer n).index ≠ Index.invalid_i := by simp [Variant.index]
  rw [parse_object_loop]
  simp only [hentry, except_bind_ok, hstr, hs1, ne_eq, not_true_eq_false, if_false, hs2, hv,
    hvalid, not_false_eq_true, if_true]
  cases ft with
  | true =>
    simp only [if_true, except_bind_ok, hsk]
    exact ⟨some (hp1, [(k, .integer n)]), hp1 + 1, by simp, by simp [object_entries,
      object_emplace, string_content], rfl⟩
  | false =>
    cases rhs with
    | none => exact absurd rfl (hrhs rfl)
    | some p =>
      obtain ⟨addr, es⟩ := p
      simp only [Bool.false_eq_true, if_false, Object.set, except_bind_ok, hsk]
      exact ⟨some (addr, object_emplace es k (.integer n)), hp1, by simp, by simp [object_entries,
        string_content], rfl⟩

theorem members_text_shape (m : List Nat × Int) (ms : List (List Nat × Int)) (rest : List Nat) :
    ∃ t rest1, members_text (m :: ms) rest = 34 :: (m.1 ++ 34 :: 58 :: (write_integer m.2
        ++ t :: rest1))
      ∧ ((ms = [] ∧ t = 125 ∧ rest1 = rest) ∨ (ms ≠ [] ∧ t = 44 ∧ rest1 = members_text ms rest)) := by
  cases ms with
  | nil => exact ⟨125, rest, by simp [members_text, member_text], Or.inl ⟨rfl, rfl, rfl⟩⟩
  | cons m1 ms =>
    exact ⟨44, members_text (m1 :: ms) rest, by simp [members_text, member_text],
      Or.inr ⟨by simp, rfl, rfl⟩⟩

/-- The object loop on the text of members with plain keys and Integer values: it ends at the
closing brace with the members inserted one after the other. -/
theorem object_loop_on_members (cfg : Config) (hps : cfg.process_string = true)
    (atof : List char_t → number_t) :
    ∀ (ms : List (List Nat × Int)) (m : List Nat × Int) (f : Nat) (rhs : Object) (ft : Bool)
      (ch : Nat) (istream : List Nat) (heap : Nat) (rest : List Nat),
      ms.length ≤ f →
      (∀ x ∈ m :: ms, (∀ c ∈ x.1, c ≠ 34 ∧ c ≠ 92) ∧ -(2 : Int) ^ 63 ≤ x.2 ∧ x.2 < (2 : Int) ^ 63) →
      (ft = false → rhs ≠ none) →
      (if ch = 44 then _skip_spaces istream else _check_and_skip_spaces istream ch)
        = .ok (34, (members_text (m :: ms) rest).tail) →
      ∃ (rhs1 : Object) (heap1 : Nat),
        parse_object_loop cfg atof (f + 2) rhs ft ch istream heap = .ok (125, rhs1, rest, heap1)
        ∧ object_entries rhs1
            = ((m :: ms).map (fun x => (x.1, Variant.integer x.2))).foldl
                (fun acc x => object_emplace acc x.1 x.2) (if ft then [] else object_entries rhs) := by
  intro ms
  induction ms with
  | nil =>
    intro m f rhs ft ch istream heap rest _ hm hrhs hentry
    have hm1 := hm m (List.mem_cons_self m [])
    obtain ⟨rhs1, heap1, _, hent, hloop⟩ := object_round cfg hps atof f rhs ft ch istream heap m.1 m.2
      125 rest (by simpa [members_text, member_text] using hentry) hm1.1 hm1.2.1 hm1.2.2
      (Or.inr rfl) hrhs
    refine ⟨rhs1, heap1, ?_, ?_⟩
    · rw [hloop, if_neg (by decide)]
    · rw [hent]; rfl
  | cons m1 ms ih =>
    intro m f rhs ft ch istream heap rest hf hm hrhs hentry
    have hm1 := hm m (List.mem_cons_self m (m1 :: ms))
    simp only [List.length_cons] at hf
    obtain ⟨f1, rfl⟩ : ∃ f1, f = f1 + 1 := ⟨f - 1, by omega⟩
    obtain ⟨rhs1, heap1, hne, hent, hloop⟩ := object_round cfg hps atof (f1 + 1) rhs ft ch istream heap
      m.1 m.2 44 (members_text (m1 :: ms) rest)
      (by simpa [members_text, member_text] using hentry) hm1.1 hm1.2.1 hm1.2.2 (Or.inl rfl) hrhs
    obtain ⟨t, rest1, hshape, _⟩ := members_text_shape m1 ms rest
    have hentry1 : (if (44 : Nat) = 44 then _skip_spaces (members_text (m1 :: ms) rest)
        else _check_and_skip_spaces (members_text (m1 :: ms) rest) 44)
        = .ok (34, (members_text (m1 :: ms) rest).tail) := by
      rw [if_pos rfl, hshape]
      simp [_skip_spaces, skip_loop, is_char_white_space]
    obtain ⟨rhs2, heap2, hloop2, hent2⟩ := ih m1 f1 rhs1 false 44 (members_text (m1 :: ms) rest)
      heap1 rest (by omega) (fun x hx => hm x (List.mem_cons_of_mem m hx)) (fun _ => hne) hentry1
    refine ⟨rhs2, heap2, ?_, ?_⟩
    · rw [hloop, if_pos rfl, hloop2]
    · rw [hent2, hent]
      simp only [Bool.false_eq_true, if_false, List.map_cons, List.foldl_cons]

theorem members_text_length : ∀ (ms : List (List Nat × Int)) (m : List Nat × Int)
    (rest : List Nat), ms.length ≤ (members_text (m :: ms) rest).length := by
  intro ms
  induction ms with
  | nil => intro m rest; simp
  | cons m1 ms ih =>
    intro m rest
    have := ih m1 rest
    simp only [members_text, member_text, List.length_cons, List.length_append] at this ⊢
    omega

/-- The entry point on the text of an object whose members have plain keys and Integer
values: the parse succeeds, stops after the closing brace, and the mapping holds the members
inserted one after the other. -/
theorem parse_members_text (cfg : Config) (hps : cfg.process_string = true)
    (atof : List char_t → number_t) (m : List Nat × Int) (ms : List (List Nat × Int))
    (rest : List Nat) (heap : Nat)
    (hm : ∀ x ∈ m :: ms, (∀ c ∈ x.1, c ≠ 34 ∧ c ≠ 92) ∧ -(2 : Int) ^ 63 ≤ x.2 ∧ x.2 < (2 : Int) ^ 63) :
    ∃ (obj : Object) (heap1 : Nat),
      parse cfg atof (123 :: members_text (m :: ms) rest) heap = .ok (125, .object obj, rest, heap1)
      ∧ object_entries obj
          = ((m :: ms).map (fun x => (x.1, Variant.integer x.2))).foldl
              (fun acc x => object_emplace acc x.1 x.2) [] := by
  obtain ⟨t, rest1, hshape, _⟩ := members_text_shape m ms rest
  have hlen := members_text_length ms m rest
  have h1 : _check_and_skip_spaces (123 :: members_text (m :: ms) rest) 0
      = .ok (123, members_text (m :: ms) rest) := check_and_skip_first 123 _ (by decide)
  have h2 : _check_and_skip_spaces (members_text (m :: ms) rest) 123
      = .ok (123, members_text (m :: ms) rest) := by
    simp [_check_and_skip_spaces, is_char_white_space]
  have h3 : _skip_spaces (members_text (m :: ms) rest)
      = .ok (34, (members_text (m :: ms) rest).tail) := by
    rw [hshape]
    simp [_skip_spaces, skip_loop, is_char_white_space]
  have hentry : (if (34 : Nat) = 44 then _skip_spaces (members_text (m :: ms) rest).tail
      else _check_and_skip_spaces (members_text (m :: ms) rest).tail 34)
      = .ok (34, (members_text (m :: ms) rest).tail) := by
    rw [if_neg (by decide)]
    simp [_check_and_skip_spaces, is_char_white_space]
  obtain ⟨rhs1, heap1, hloop, hent⟩ := object_loop_on_members cfg hps atof ms m
    (3 * (123 :: members_text (m :: ms) rest).length) none true 34
    (members_text (m :: ms) rest).tail heap rest
    (by simp only [List.length_cons]; omega) hm (fun h => by cases h) hentry
  refine ⟨rhs1, heap1, ?_, hent⟩
  show parse_variant cfg atof (3 * (123 :: members_text (m :: ms) rest).length + 2 + 1 + 1)
    (123 :: members_text (m :: ms) rest) heap 0 = _
  rw [parse_variant, h1]
  simp only [except_bind_ok, Nat.reduceEqDiff, or_self, Nat.reduceLeDiff, and_false, if_false,
    if_true]
  rw [parse_object, h2]
  simp only [except_bind_ok, ne_eq, not_true_eq_false, if_false, h3, Nat.reduceEqDiff, hloop]

theorem numeric_run_digits : ∀ (p buf : List Nat) (ch : Nat) (rest : List Nat),
    buf.length + p.length ≤ 64 → (∀ x ∈ p, 48 ≤ x ∧ x ≤ 57) →
    ∃ ch1, parse_numeric_loop (flags_of buf) ch (p ++ rest)
      = parse_numeric_loop (flags_of (buf ++ p)) ch1 rest := by
  intro p
  induction p with
  | nil => intro buf ch rest _ _; exact ⟨ch, by simp⟩
  | cons c p ih =>
    intro buf ch rest hlen hp
    simp only [List.length_cons] at hlen
    have hc := hp c (List.mem_cons_self c p)
    have hl1 : (buf ++ [c]).length + p.length ≤ 64 := by
      simp only [List.length_append, List.length_singleton]; omega
    obtain ⟨ch1, hnext⟩ := ih (buf ++ [c]) c rest hl1
      (fun x hx => hp x (List.mem_cons_of_mem c hx))
    rw [List.append_assoc, List.singleton_append] at hnext
    refine ⟨ch1, ?_⟩
    have e46 : c ≠ 46 := by omega
    have es : ¬ (c = 45 ∨ c = 43) := by omega
    have ee : ¬ (c = 101 ∨ c = 69) := by omega
    rw [List.cons_append, numeric_step buf (by omega), if_neg e46, if_neg es, if_neg ee,
      if_pos hc, hnext]

/-- A token of a sign or digit and 63 more digits, whatever follows it: the Integer read from
these 64 characters. -/
theorem parse_numeric_long_integer (atof : List char_t → number_t) (c0 : Nat)
    (t tail : List Nat) (hc0 : c0 = 45 ∨ c0 = 43 ∨ (48 ≤ c0 ∧ c0 ≤ 57))
    (ht : ∀ x ∈ t, 48 ≤ x ∧ x ≤ 57) (hlen : t.length = 63) :
    ∃ ch rest, parse_numeric atof (c0 :: t ++ tail) 0
      = .ok (ch, .integer (atoll (c0 :: t)), rest) := by
  have hws : is_char_white_space c0 = false := by
    have e32 : c0 ≠ 32 := by omega
    have e13 : ¬ c0 ≤ 13 := by omega
    simp [is_char_white_space, e32, e13]
  have h46 : c0 ≠ 46 := by omega
  obtain ⟨ch1, hrun⟩ := numeric_run_digits t [c0] c0 tail (by simp [hlen]) ht
  rw [List.singleton_append] at hrun
  have hfull : ¬ (flags_of (c0 :: t)).buffer.length < max_buffer_size_ := by
    show ¬ (c0 :: t).length < 64
    simp [hlen]
  have hstop : ∃ ch rest, parse_numeric_loop (flags_of (c0 :: t)) ch1 tail
      = .ok (flags_of (c0 :: t), ch, rest) := by
    cases tail with
    | nil => exact ⟨ch1, [], rfl⟩
    | cons x r => exact ⟨x, r, by rw [parse_numeric_loop, if_neg hfull]⟩
  obtain ⟨ch, rest, hstop⟩ := hstop
  have hp : 46 ∉ c0 :: t := by
    intro h
    rcases List.mem_cons.mp h with h | h
    · exact h46 h.symm
    · have := ht 46 h; omega
  have hm : ¬ (101 ∈ c0 :: t ∨ 69 ∈ c0 :: t) := by
    rintro (h | h)
    · rcases List.mem_cons.mp h with h | h
      · omega
      · have := ht 101 h; omega
    · rcases List.mem_cons.mp h with h | h
      · omega
      · have := ht 69 h; omega
  have hconv : ∀ signed_ : Bool, convert_numeric atof signed_ (flags_of (c0 :: t))
      = .ok (.integer (atoll (c0 :: t))) := by
    intro signed_
    have h1 : (flags_of (c0 :: t)).point_ = false := by simp [flags_of, hp]
    have h2 : (flags_of (c0 :: t)).exponent_ = false := by
      show decide _ = false
      exact decide_eq_false hm
    have h3 : (flags_of (c0 :: t)).buffer = c0 :: t := rfl
    unfold convert_numeric
    rw [h1, h2, h3]
    simp [hlen]
  refine ⟨ch, rest, ?_⟩
  unfold parse_numeric
  rw [List.cons_append, check_and_skip_first c0 (t ++ tail) hws]
  simp only [except_bind_ok]
  rw [if_neg h46, if_pos hc0, ← flags_of_start c0 hc0, hrun, hstop]
  simp only [except_bind_ok, hconv]

/-! ## Duplicate keys (C11) -/

/-- C11: whenever `parse(Object)` returns an Object for a text, then for every key `k` that
a member of the text carries (the members being the pairs of key and value that the object
loop reads, in the order of the text) the mapping of the Object holds exactly one entry with
the key `k`, and the value of that entry is the value of the last member of the text with the
key `k`.  And an Object is returned: with string processing on, for every nonempty list of
members with keys free of quotes and backslashes and 64-bit Integer values, keys repeated at
will, the entry point parses the text of the object up to its closing brace, and the mapping
holds for each key exactly the entry of its last member.  The mapping is modelled by its
insert-or-overwrite contract. -/
theorem duplicate_keys_last_write_wins (cfg : Config) (atof : List char_t → number_t)
    (fuel : Nat) (istream : List char_t) (heap : Nat) (ch_ ch : char_t) (obj : Object)
    (rest : List char_t) (heap1 : Nat)
    (h : parse_object cfg atof fuel istream heap ch_ = .ok (ch, obj, rest, heap1)) :
    (∃ ms, object_members cfg atof fuel istream heap ch_ = .ok (ch, ms, rest, heap1)
      ∧ ∀ k v, last_value ms k = some v → entries_for (object_entries obj) k = [(k, v)])
    ∧ (cfg.process_string = true →
        ∀ (m : string_t × Int) (ms : List (string_t × Int)) (rest0 : List char_t) (heap0 : Nat),
          (∀ x ∈ m :: ms, (∀ c ∈ x.1, c ≠ 34 ∧ c ≠ 92)
            ∧ -(2 : Int) ^ 63 ≤ x.2 ∧ x.2 < (2 : Int) ^ 63) →
          ∃ (obj0 : Object) (heap2 : Nat),
            parse cfg atof (123 :: members_text (m :: ms) rest0) heap0
              = .ok (125, .object obj0, rest0, heap2)
            ∧ ∀ k v, last_value ((m :: ms).map (fun x => (x.1, Variant.integer x.2))) k = some v →
                entries_for (object_entries obj0) k = [(k, v)]) := by
  constructor
  · obtain ⟨ms, hm, hent⟩ :=
      parse_object_members_of_ok cfg atof fuel istream heap ch_ ch obj rest heap1 h
    refine ⟨ms, hm, ?_⟩
    intro k v hk
    have := fold_emplace_for ms [] k (by simp)
    rw [hk] at this
    rw [hent]
    exact this
  · intro hps m ms rest0 heap0 hm
    obtain ⟨obj0, heap2, hp, hent⟩ := parse_members_text cfg hps atof m ms rest0 heap0 hm
    refine ⟨obj0, heap2, hp, ?_⟩
    intro k v hk
    have := fold_emplace_for ((m :: ms).map (fun x => (x.1, Variant.integer x.2))) [] k (by simp)
    rw [hk] at this
    rw [hent]
    exact this

/-- Witness of C11: the text `{"a":1,"a":2}` has the members (a, 1) and (a, 2) in this order,
and it parses, through the entry point too, to an Object with the single entry (a, 2). -/
theorem duplicate_keys_last_write_wins_witness :
    parse default_config (fun _ => 0)
        [123, 34, 97, 34, 58, 49, 44, 34, 97, 34, 58, 50, 125] 0
        = .ok (125, .object (some (1, [([97], .integer 2)])), [], 3)
      ∧ object_members default_config (fun _ => 0) 5
          [123, 34, 97, 34, 58, 49, 44, 34, 97, 34, 58, 50, 125] 0 0
        = .ok (125, [([97], .integer 1), ([97], .integer 2)], [], 3)
      ∧ last_value [([97], .integer 1), ([97], .integer 2)] [97] = some (.integer 2)
      ∧ entries_for (object_entries (some (1, [([97], .integer 2)]))) [97]
        = [([97], .integer 2)] := by
  have h := (duplicate_keys_last_write_wins default_config (fun _ => 0) 5
    [123, 34, 97, 34, 58, 49, 44, 34, 97, 34, 58, 50, 125] 0 0 125
    (some (1, [([97], .integer 2)])) [] 3 rfl).1
  obtain ⟨ms, hm, hk⟩ := h
  have hms : object_members default_config (fun _ => 0) 5
      [123, 34, 97, 34, 58, 49, 44, 34, 97, 34, 58, 50, 125] 0 0
      = .ok (125, [([97], .integer 1), ([97], .integer 2)], [], 3) := rfl
  rw [hms] at hm
  simp only [Except.ok.injEq, Prod.mk.injEq, true_and, and_true] at hm
  subst hm
  exact ⟨rfl, hms, rfl, hk [97] (.integer 2) rfl⟩

/-! ## Syntax errors of the entry point (C12) -/

/-- C12: under every configuration, when the first character of the input that is not white
space is none of n, t, f, -, +, the point, a digit, the quote, `[` or `{`, the entry point
raises the syntax error; and so it does for the texts `{"a":}` and `[1,]`. -/
theorem invalid_first_character_rejected (cfg : Config) (atof : List char_t → number_t)
    (ws : List char_t) (c : char_t) (rest : List char_t) (heap : Nat)
    (hws : ∀ w ∈ ws, is_char_white_space w = true) (hc : is_char_white_space c = false)
    (hne : c ∉ [110, 116, 102, 45, 43, 46, 34, 91, 123]) (hd : ¬ (48 ≤ c ∧ c ≤ 57)) :
    parse cfg atof (ws ++ c :: rest) heap = .error .runtime_error
      ∧ parse cfg atof [123, 34, 97, 34, 58, 125] heap = .error .runtime_error
      ∧ parse cfg atof [91, 49, 44, 93] heap = .error .runtime_error := by
  refine ⟨parse_variant_invalid_token cfg atof _ ws c rest heap hws hc hne hd, ?_, ?_⟩
  · obtain ⟨b1, b2, b3, b4, b5⟩ := cfg
    cases b1 <;> cases b2 <;> cases b3 <;> cases b4 <;> cases b5 <;> rfl
  · rfl

/-- Witness of C12: two spaces and then the character `x`. -/
theorem invalid_first_character_rejected_witness :
    parse default_config (fun _ => 0) ([32, 32] ++ 120 :: [49]) 0 = .error .runtime_error :=
  (invalid_first_character_rejected default_config (fun _ => 0) [32, 32] 120 [49] 0
    (by decide) (by decide) (by decide) (by decide)).1

/-! ## The literals null, true and false (C13) -/

/-- C13 fails as stated: on the empty input, which ends before any literal is complete, the
Null parser and the Boolean parser raise the syntax error, not end_of_stream: the first
character is fetched by `_check_and_skip_spaces`, which does not report a failed read, and no
read of the matching chain takes place. -/
theorem literal_on_empty_input_is_syntax_error :
    parse_null [] 0 = .error .runtime_error
      ∧ parse_boolean [] 0 = .error .runtime_error
      ∧ parse_null [] 0 ≠ .error .end_of_stream
      ∧ parse_boolean [] 0 ≠ .error .end_of_stream := by
  decide

/-- C13 as amended: each of the literals `null`, `true` and `false` keeps its contract with its
parser (success, with the value Null, Boolean true or Boolean false, exactly on the inputs that
spell the literal in full after optional white space; end_of_stream when the input ends after
the first character of the literal and before its last; the syntax error when a character
after the first differs from the expected one); a successful parse yields no other value; a
first character that starts no literal is the syntax error; and the empty input is the syntax
error. -/
theorem literals_parse_exactly (ws : List char_t) (c : char_t) (s rest : List char_t)
    (v : Variant) (hws : ∀ w ∈ ws, is_char_white_space w = true)
    (hc : is_char_white_space c = false) :
    literal_contract literal_null .null read_null
      ∧ literal_contract literal_true (.boolean true) read_boolean
      ∧ literal_contract literal_false (.boolean false) read_boolean
      ∧ (read_null s = .ok (v, rest) → v = .null)
      ∧ (read_boolean s = .ok (v, rest) → v = .boolean true ∨ v = .boolean false)
      ∧ (c ≠ 110 → read_null (ws ++ c :: rest) = .error .runtime_error)
      ∧ (c ≠ 116 → c ≠ 102 → read_boolean (ws ++ c :: rest) = .error .runtime_error)
      ∧ read_null [] = .error .runtime_error
      ∧ read_boolean [] = .error .runtime_error :=
  ⟨read_null_contract, read_boolean_true_contract, read_boolean_false_contract,
    (read_success_values s v rest).1, (read_success_values s v rest).2,
    (read_first_character_mismatch ws c rest hws hc).1,
    (read_first_character_mismatch ws c rest hws hc).2, rfl, rfl⟩

/-- Witness of C13 as amended: `null`, `true` and `false` after white space are read in full;
`nul`, `tr` and `fals` end too early; `nulx`, `trux` and `fa1se` depart from the literal; `x`
starts no literal. -/
theorem literals_parse_exactly_witness :
    read_null ([32] ++ literal_null ++ [44]) = .ok (.null, [44])
      ∧ read_boolean ([10] ++ literal_true ++ [93]) = .ok (.boolean true, [93])
      ∧ read_boolean ([9] ++ literal_false ++ []) = .ok (.boolean false, [])
      ∧ read_null ([32] ++ literal_null.take 3) = .error .end_of_stream
      ∧ read_boolean ([] ++ literal_true.take 2) = .error .end_of_stream
      ∧ read_boolean ([] ++ literal_false.take 4) = .error .end_of_stream
      ∧ read_null ([] ++ literal_null.take 3 ++ 120 :: []) = .error .runtime_error
      ∧ read_boolean ([] ++ literal_true.take 3 ++ 120 :: []) = .error .runtime_error
      ∧ read_boolean ([] ++ literal_false.take 2 ++ 49 :: [115, 101]) = .error .runtime_error
      ∧ read_null ([32] ++ 120 :: [49]) = .error .runtime_error
      ∧ read_boolean ([32] ++ 120 :: [49]) = .error .runtime_error := by
  obtain ⟨hn, ht, hf, _, _, h1, h2, _, _⟩ :=
    literals_parse_exactly [32] 120 [] [49] .null (by decide) (by decide)
  exact ⟨(hn.1 _ _).mpr ⟨[32], by decide, rfl⟩, (ht.1 _ _).mpr ⟨[10], by decide, rfl⟩,
    (hf.1 _ _).mpr ⟨[9], by decide, by simp⟩,
    hn.2.1 [32] 3 (by decide) (by decide) (by decide),
    ht.2.1 [] 2 (by decide) (by decide) (by decide),
    hf.2.1 [] 4 (by decide) (by decide) (by decide),
    hn.2.2 [] 3 120 [] (by decide) (by decide) (by decide) (by decide),
    ht.2.2 [] 3 120 [] (by decide) (by decide) (by decide) (by decide),
    hf.2.2 [] 2 49 [115, 101] (by decide) (by decide) (by decide) (by decide),
    h1 (by decide), h2 (by decide) (by decide)⟩

/-! ## The empty array (C14) -/

/-- C14 fails as stated: the parse of `[]` succeeds and the Array it yields has a null
owner (`rhs = {}` at json.hpp 1941-1942); the element sequence is absent, not present and
empty.  The parse of `[1]`, for comparison, yields a present sequence. -/
theorem empty_array_text_yields_null_owner :
    parse default_config (fun _ => 0) [91, 93] 0 = .ok (93, .array none, [], 0)
      ∧ unique_ptr_bool (none : Array) = false
      ∧ parse default_config (fun _ => 0) [91, 49, 93] 0
          = .ok (93, .array (some (0, [.integer 1])), [], 1) :=
  ⟨rfl, rfl, rfl⟩

/-- C14 as amended: under every configuration, the text `[`, any run of white space, `]`
parses to an Array whose owner is null (no element sequence is allocated: the allocation
counter is unchanged), and what follows the closing bracket is left unread. -/
theorem empty_array_text_parses_to_absent_array (cfg : Config) (atof : List char_t → number_t)
    (ws rest : List char_t) (heap : Nat) (hws : ∀ w ∈ ws, is_char_white_space w = true) :
    parse cfg atof (91 :: ws ++ 93 :: rest) heap = .ok (93, .array none, rest, heap) := by
  have h1 : _check_and_skip_spaces (91 :: ws ++ 93 :: rest) 0 = .ok (91, ws ++ 93 :: rest) :=
    check_and_skip_first 91 _ (by decide)
  have h2 : _check_and_skip_spaces (ws ++ 93 :: rest) 91 = .ok (91, ws ++ 93 :: rest) := by
    simp [_check_and_skip_spaces, is_char_white_space]
  have h3 := skip_spaces_white ws hws 93 rest (by decide)
  show parse_variant cfg atof (3 * (91 :: ws ++ 93 :: rest).length + 2 + 1 + 1)
    (91 :: ws ++ 93 :: rest) heap 0 = _
  rw [parse_variant, h1]
  simp only [except_bind_ok, Nat.reduceEqDiff, or_self, Nat.reduceLeDiff, and_false, if_false,
    if_true]
  rw [parse_array, h2]
  simp only [except_bind_ok, ne_eq, not_true_eq_false, if_false, h3, if_true]

/-- Witness of C14 as amended: `[`, a space and a line feed, `]`, and then a comma. -/
theorem empty_array_text_parses_to_absent_array_witness :
    parse default_config (fun _ => 0) (91 :: [32, 10] ++ 93 :: [44]) 0
      = .ok (93, .array none, [44], 0) :=
  empty_array_text_parses_to_absent_array default_config (fun _ => 0) [32, 10] [44] 0
    (by decide)

/-! ## The grammar of numeric tokens (C16) -/

/-- C17, the code at the failing input: `1E+5` raises the syntax error while `1e+5` is
accepted as a Number; and for every run `m` of mantissa digits (with room in the buffer), the
marker `E` followed by a sign raises the syntax error, whatever comes after the sign: the
flag `just_read_exponent_` is cleared when `E` is recorded (json.hpp 1633 compares with the
lower-case `e` only), so the sign is an unexpected sign.  Without a sign `E` is accepted. -/
theorem upper_case_exponent_with_sign_rejected (atof : List char_t → number_t)
    (m : List char_t) (sign : char_t) (rest : List char_t) (hne : m ≠ [])
    (hm : ∀ x ∈ m, 48 ≤ x ∧ x ≤ 57) (hlen : m.length < 63) (hs : sign = 43 ∨ sign = 45) :
    parse_numeric atof (m ++ 69 :: sign :: rest) 0 = .error .runtime_error
      ∧ parse_numeric atof [49, 69, 43, 53] 0 = .error .runtime_error
      ∧ parse_numeric atof [49, 101, 43, 53] 0 = .ok (53, .number (atof [49, 101, 43, 53]), [])
      ∧ parse_numeric atof [49, 69, 53] 0 = .ok (53, .number (atof [49, 69, 53]), []) :=
  ⟨upper_marker_then_sign atof m sign rest hne hm hlen hs, rfl, rfl, rfl⟩

/-- Witness of C17 at the mantissa `1` and the sign `+`. -/
theorem upper_case_exponent_with_sign_rejected_witness :
    parse_numeric (fun _ => 0) ([49] ++ 69 :: 43 :: [53]) 0 = .error .runtime_error :=
  (upper_case_exponent_with_sign_rejected (fun _ => 0) [49] 43 [53] (by decide) (by decide)
    (by decide) (by decide)).1

/-! ## Tokens without a digit (C18) -/

/-- C18, the code at the failing input: a sign followed only by an exponent marker (`-e`,
`+e`, `-E`, `+E`), and also with a second sign after the lower-case marker (`-e+`), is
accepted and produces a Number, the conversion of that text; the tokens `.`, `+`, `-`, `+.`
and `-.` are rejected with the syntax error, by the test at `end_loop` (json.hpp 1653-1660),
which looks at the length and at the place of the point only. -/
theorem sign_then_exponent_marker_accepted (atof : List char_t → number_t) :
    parse_numeric atof [45, 101] 0 = .ok (101, .number (atof [45, 101]), [])
      ∧ parse_numeric atof [43, 101] 0 = .ok (101, .number (atof [43, 101]), [])
      ∧ parse_numeric atof [45, 69] 0 = .ok (69, .number (atof [45, 69]), [])
      ∧ parse_numeric atof [43, 69] 0 = .ok (69, .number (atof [43, 69]), [])
      ∧ parse_numeric atof [45, 101, 43] 0 = .ok (43, .number (atof [45, 101, 43]), [])
      ∧ parse_numeric atof [45, 101, 44] 0 = .ok (44, .number (atof [45, 101]), [])
      ∧ parse_numeric atof [46] 0 = .error .runtime_error
      ∧ parse_numeric atof [43] 0 = .error .runtime_error
      ∧ parse_numeric atof [45] 0 = .error .runtime_error
      ∧ parse_numeric atof [43, 46] 0 = .error .runtime_error
      ∧ parse_numeric atof [45, 46] 0 = .error .runtime_error :=
  ⟨rfl, rfl, rfl, rfl, rfl, rfl, rfl, rfl, rfl, rfl, rfl⟩

/-! ## Tokens longer than the buffer (C20) -/

/-- C20: for every text whose first 64 characters are `c0 :: t` (the first one not white
space) and every continuation `tail`, `parse_numeric` produces for `c0 :: t ++ tail` the very
outcome it produces for the 64 characters alone (the same value, or the same error): the
characters from the 65th on do not reach the conversion.  A value is produced: when the 64
characters are a sign or a digit and then 63 digits, it is the Integer that `atoll` reads
from these 64 characters, whatever follows them; the Integer 0 is produced for 64 zeros
followed by 1. -/
theorem numeric_token_truncated_at_64 (atof : List char_t → number_t) (c0 : char_t)
    (t tail : List char_t) (hws : is_char_white_space c0 = false) (hlen : t.length = 63) :
    (parse_numeric atof (c0 :: t ++ tail) 0).map (fun q => q.2.1)
        = (parse_numeric atof (c0 :: t) 0).map (fun q => q.2.1)
      ∧ ((c0 = 45 ∨ c0 = 43 ∨ (48 ≤ c0 ∧ c0 ≤ 57)) → (∀ x ∈ t, 48 ≤ x ∧ x ≤ 57) →
          ∃ ch rest, parse_numeric atof (c0 :: t ++ tail) 0
            = .ok (ch, .integer (atoll (c0 :: t)), rest))
      ∧ parse_numeric atof (List.replicate 64 48 ++ [49]) 0 = .ok (49, .integer 0, []) := by
  refine ⟨parse_numeric_tail atof c0 t tail hws hlen,
    fun hc0 ht => parse_numeric_long_integer atof c0 t tail hc0 ht hlen, ?_⟩
  set_option maxRecDepth 100000 in rfl

/-- Witness of C20: 64 zeros, alone and followed by the characters 1 and 2, both give the
Integer 0. -/
theorem numeric_token_truncated_at_64_witness :
    (parse_numeric (fun _ => 0) (48 :: List.replicate 63 48 ++ [49, 50]) 0).map (fun q => q.2.1)
        = .ok (.integer 0)
      ∧ (parse_numeric (fun _ => 0) (48 :: List.replicate 63 48) 0).map (fun q => q.2.1)
        = .ok (.integer 0) := by
  have h := (numeric_token_truncated_at_64 (fun _ => 0) 48 (List.replicate 63 48) [49, 50]
    (by decide) (by decide)).1
  have h2 : (parse_numeric (fun _ => 0) (48 :: List.replicate 63 48) 0).map (fun q => q.2.1)
      = .ok (.integer 0) := by
    set_option maxRecDepth 100000 in rfl
  exact ⟨h.trans h2, h2⟩

/-! ## Lemmas: numbers and containers in the printer, undecoded escapes, white space between tokens -/

theorem number_eq_inf (x : number_t) : number_eq x inf = (!number_is_nan x && x == inf) := by
  unfold number_eq
  have h1 : number_is_nan inf = false := by decide
  have h2 : (inf % 2 ^ 63 == 0) = false := by decide
  rw [h1, h2]
  simp

theorem number_eq_neg_inf (x : number_t) :
    number_eq x neg_inf = (!number_is_nan x && x == neg_inf) := by
  unfold number_eq
  have h1 : number_is_nan neg_inf = false := by decide
  have h2 : (neg_inf % 2 ^ 63 == 0) = false := by decide
  rw [h1, h2]
  simp

theorem finite_not_special (x : Nat) (h : number_is_finite x = true) :
    number_is_nan x = false ∧ x ≠ inf ∧ x ≠ neg_inf := by
  unfold number_is_finite at h
  refine ⟨?_, ?_, ?_⟩
  · unfold number_is_nan
    simp only [bne_iff_ne, ne_eq] at h
    simp only [Bool.and_eq_false_imp, beq_iff_eq]
    intro h1
    exact absurd h1 h
  · rintro rfl
    revert h
    decide
  · rintro rfl
    revert h
    decide

theorem not_finite_cases (x : Nat) (hx : x < 2 ^ 64) (h : number_is_finite x = false) :
    number_is_nan x = true ∨ x = inf ∨ x = neg_inf := by
  unfold number_is_finite at h
  simp only [bne_eq_false_iff_eq] at h
  by_cases hf : x % 2 ^ 52 = 0
  · right
    unfold inf neg_inf
    have e1 : (2 : Nat) ^ 52 = 4503599627370496 := by norm_num
    have e2 : (2 : Nat) ^ 11 = 2048 := by norm_num
    have e3 : (2 : Nat) ^ 64 = 18446744073709551616 := by norm_num
    rw [e1] at hf
    rw [e1, e2] at h
    rw [e3] at hx
    show x = (0x7FF0000000000000 : Nat) ∨ x = (0xFFF0000000000000 : Nat)
    have h1 : x / (4503599627370496 : Nat) % (2048 : Nat) = (2047 : Nat) := h
    clear h
    omega
  · left
    unfold number_is_nan
    rw [h]
    simpa using hf

theorem intercalate_cons_cons {α : Type} (sep x y : List α) (r : List (List α)) :
    List.intercalate sep (x :: y :: r) = x ++ sep ++ List.intercalate sep (y :: r) := by
  simp [List.intercalate, List.intersperse]

theorem intercalate_nil {α : Type} (sep : List α) : List.intercalate sep [] = [] := by
  simp [List.intercalate, List.intersperse]

theorem intercalate_single {α : Type} (sep x : List α) : List.intercalate sep [x] = x := by
  simp [List.intercalate, List.intersperse]

theorem print_elements_intercalate (cfg : Config) (fmt : number_t → List char_t)
    (ps_ : PrintSettings) (newline : Bool) (elements : List Variant)
    (texts : List (List char_t))
    (h : List.Forall₂ (fun e x => print cfg fmt e ps_ = .ok x) elements texts) :
    print_elements cfg fmt elements ps_ newline
      = .ok (List.intercalate [44]
          (texts.map (fun x => (if newline then [10] else []) ++ x))) := by
  induction h with
  | nil => rfl
  | cons hx hr ih =>
    rename_i e x rest xs
    rw [print_elements, hx, except_bind_ok, ih, except_bind_ok]
    cases hr with
    | nil => simp [intercalate_single, intercalate_nil]
    | cons hy hr1 =>
      simp only [List.map_cons, intercalate_cons_cons, List.isEmpty_cons, Bool.false_eq_true,
        if_false, List.append_assoc]

theorem print_entries_intercalate (cfg : Config) (fmt : number_t → List char_t)
    (ps_ : PrintSettings) (entries : List (string_t × Variant)) (texts : List (List char_t))
    (h : List.Forall₂
      (fun kv x => print cfg fmt kv.2
        { depth := ps_.depth, readable := ps_.readable, _indent := false } = .ok x)
      entries texts) :
    print_entries cfg fmt entries ps_
      = .ok (List.intercalate ([44] ++ (if ps_.readable then [10] else []))
          (List.zipWith (fun kv x => entry_text ps_ kv.1 x) entries texts)) := by
  induction h with
  | nil => rfl
  | cons hx hr ih =>
    rename_i kv x rest xs
    obtain ⟨key, value⟩ := kv
    rw [print_entries, hx, except_bind_ok, ih, except_bind_ok]
    cases hr with
    | nil => simp [intercalate_single, intercalate_nil, entry_text]
    | cons hy hr1 =>
      simp only [List.zipWith_cons_cons, intercalate_cons_cons, List.isEmpty_cons,
        Bool.false_eq_true, if_false, List.append_assoc, entry_text]

theorem single_line_eq (elements : List Variant) :
    single_line elements = one_line_array elements := by
  cases elements with
  | nil => rfl
  | cons e rest =>
    unfold single_line one_line_array
    cases e <;> simp [Variant.index]

theorem print_array_intercalate (cfg : Config) (fmt : number_t → List char_t) (a : Nat)
    (elements : List Variant) (ps : PrintSettings) (texts : List (List char_t))
    (hne : elements ≠ [])
    (ht : List.Forall₂
      (fun e x => print cfg fmt e
        (PrintSettings.mk (ps.depth + 1) ps.readable (!single_line elements)) = .ok x)
      elements texts) :
    print cfg fmt (.array (some (a, elements))) ps
      = .ok (print_lead ps ++ [91]
          ++ List.intercalate [44]
              (texts.map (fun x =>
                (if (ps.readable && !single_line elements) = true then [10] else []) ++ x))
          ++ (if (ps.readable && !single_line elements) = true then [10] ++ print_indent ps.depth
              else [])
          ++ [93]) := by
  have hl : elements.length > 0 := List.length_pos.mpr hne
  rw [print, if_pos hl]
  simp only []
  rw [print_elements_intercalate cfg fmt _ _ elements texts ht, except_bind_ok]

theorem print_object_intercalate (cfg : Config) (fmt : number_t → List char_t) (a : Nat)
    (entries : List (string_t × Variant)) (ps : PrintSettings) (texts : List (List char_t))
    (hne : entries ≠ [])
    (ht : List.Forall₂
      (fun kv x => print cfg fmt kv.2 (PrintSettings.mk (ps.depth + 1) ps.readable false) = .ok x)
      entries texts) :
    print cfg fmt (.object (some (a, entries))) ps
      = .ok (print_lead ps ++ [123] ++ (if ps.readable then [10] else [])
          ++ List.intercalate ([44] ++ (if ps.readable then [10] else []))
              (List.zipWith
                (fun kv x => entry_text (PrintSettings.mk (ps.depth + 1) ps.readable true) kv.1 x)
                entries texts)
          ++ (if ps.readable then [10] ++ print_indent ps.depth else [])
          ++ [125]) := by
  have hl : entries.length > 0 := List.length_pos.mpr hne
  rw [print, if_pos hl]
  rw [print_entries_intercalate cfg fmt _ entries texts ht, except_bind_ok]

theorem print_starts_with_lead (cfg : Config) (fmt : number_t → List char_t) (e : Variant)
    (ps : PrintSettings) (x : List char_t) (h : print cfg fmt e ps = .ok x)
    (he : e.index ≠ .invalid_i) : print_lead ps <+: x := by
  cases e with
  | invalid => exact absurd rfl he
  | null =>
    rw [print] at h
    cases h
    exact List.prefix_append _ _
  | boolean b =>
    rw [print] at h
    cases h
    exact List.prefix_append _ _
  | integer n =>
    rw [print] at h
    cases h
    exact List.prefix_append _ _
  | number n =>
    rw [print] at h
    cases h
    exact List.prefix_append _ _
  | string s =>
    rw [print] at h
    unfold print_string at h
    split_ifs at h
    · rcases s with _ | ⟨p, str_⟩
      · cases h
        exact ⟨_, (List.append_assoc _ _ _).symm⟩
      · obtain ⟨out, -, h2⟩ := bind_ok_inv h
        cases h2
        exact ⟨[34] ++ out ++ [34], by simp⟩
    · cases h
      exact ⟨[34] ++ string_content s ++ [34], by simp⟩
  | array m =>
    rcases m with _ | ⟨p, elements⟩
    · rw [print] at h
      cases h
      exact ⟨[91] ++ [93], by simp⟩
    · rw [print] at h
      by_cases hl : elements.length > 0
      · rw [if_pos hl] at h
        obtain ⟨body, -, h2⟩ := bind_ok_inv h
        cases h2
        simp only [List.append_assoc]
        exact List.prefix_append _ _
      · rw [if_neg hl] at h
        cases h
        exact ⟨[91] ++ [93], by simp⟩
  | object m =>
    rcases m with _ | ⟨p, entries⟩
    · rw [print] at h
      cases h
      exact ⟨[123] ++ [125], by simp⟩
    · rw [print] at h
      by_cases hl : entries.length > 0
      · rw [if_pos hl] at h
        obtain ⟨body, -, h2⟩ := bind_ok_inv h
        cases h2
        simp only [List.append_assoc]
        exact List.prefix_append _ _
      · rw [if_neg hl] at h
        cases h
        exact ⟨[123] ++ [125], by simp⟩

theorem count_intercalate_comma (nl : List Nat) (hnl : 44 ∉ nl) (xs : List (List Nat))
    (hx : ∀ x ∈ xs, 44 ∉ x) :
    List.count 44 (List.intercalate ([44] ++ nl) xs) = xs.length - 1 := by
  induction xs with
  | nil => simp [intercalate_nil]
  | cons x r ih =>
    have h0 : List.count 44 x = 0 := List.count_eq_zero.mpr (hx x (List.mem_cons_self _ _))
    have hn : List.count 44 nl = 0 := List.count_eq_zero.mpr hnl
    cases r with
    | nil => simp [intercalate_single, h0]
    | cons y r1 =>
      have ih1 := ih (fun z hz => hx z (List.mem_cons_of_mem _ hz))
      rw [intercalate_cons_cons]
      simp only [List.count_append, h0, hn, ih1, List.length_cons, List.count_cons_self,
        List.count_nil]
      omega

theorem mem_zipWith_parts {α β γ : Type} (f : α → β → γ) (l1 : List α) (l2 : List β) (x : γ)
    (h : x ∈ List.zipWith f l1 l2) : ∃ a ∈ l1, ∃ b ∈ l2, x = f a b := by
  induction l1 generalizing l2 with
  | nil => simp at h
  | cons a r ih =>
    cases l2 with
    | nil => simp at h
    | cons b r2 =>
      rw [List.zipWith_cons_cons, List.mem_cons] at h
      rcases h with h | h
      · exact ⟨a, List.mem_cons_self _ _, b, List.mem_cons_self _ _, h⟩
      · obtain ⟨a1, ha1, b1, hb1, e⟩ := ih r2 h
        exact ⟨a1, List.mem_cons_of_mem _ ha1, b1, List.mem_cons_of_mem _ hb1, e⟩

theorem count_indent (n : Int) : List.count 44 (print_indent n) = 0 := by
  unfold print_indent
  rw [List.count_replicate]
  simp

theorem count_lead (ps : PrintSettings) : List.count 44 (print_lead ps) = 0 := by
  unfold print_lead
  split_ifs
  · exact count_indent _
  · rfl

theorem comma_free_entry (ps_ : PrintSettings) (key : List Nat) (x : List Nat) (hk : 44 ∉ key)
    (hx : 44 ∉ x) : 44 ∉ entry_text ps_ key x := by
  have h1 := count_lead ps_
  have h2 : List.count 44 key = 0 := List.count_eq_zero.mpr hk
  have h3 : List.count 44 x = 0 := List.count_eq_zero.mpr hx
  apply List.count_eq_zero.mp
  unfold entry_text
  by_cases hr : ps_.readable = true
  · rw [if_pos hr]
    simp only [List.count_append, h1, h2, h3]
    rfl
  · rw [if_neg hr]
    simp only [List.count_append, h1, h2, h3]
    rfl

theorem hex_digit_plain (upper : Bool) (d : Nat) (h : d < 16) :
    printed_plain (hex_digit upper d) ∧ hex_digit upper d ≠ 34 ∧ hex_digit upper d ≠ 92 := by
  unfold printed_plain
  interval_cases d <;> cases upper <;> decide

theorem print_string_step_plain (cfg : Config) (h1 : cfg.encode_utf8 = false)
    (h2 : cfg.encode_utf8_ext = false) (s : List char_t) (i : Nat) (ch : char_t)
    (hc : printed_plain ch) : print_string_step cfg s i ch = .ok ([ch], i) := by
  obtain ⟨c1, c2, c3, c4, c5, c6, c7⟩ := hc
  unfold print_string_step
  simp [c1, c2, c3, c4, c5, c6, c7, h1, h2]

theorem print_string_loop_plain (cfg : Config) (h1 : cfg.encode_utf8 = false)
    (h2 : cfg.encode_utf8_ext = false) (s : List char_t) :
    ∀ fuel i, s.length - i ≤ fuel → (∀ c ∈ s.drop i, printed_plain c) →
      print_string_loop cfg s fuel i = .ok (s.drop i) := by
  intro fuel
  induction fuel with
  | zero =>
    intro i h _
    have hi : ¬ i < s.length := by omega
    simp [print_string_loop, hi, List.drop_eq_nil_of_le (Nat.le_of_not_lt hi)]
  | succ fuel ih =>
    intro i h hp
    by_cases hi : i < s.length
    · have hdrop : s.drop i = s.get ⟨i, hi⟩ :: s.drop (i + 1) := by
        rw [List.drop_eq_getElem_cons hi]
        rfl
      rw [hdrop] at hp
      have hc := hp _ (List.mem_cons_self _ _)
      have hr := ih (i + 1) (by omega) (fun c hcm => hp c (List.mem_cons_of_mem _ hcm))
      simp only [print_string_loop, hi, if_true, read_at_of_lt s i hi, except_bind_ok,
        print_string_step_plain cfg h1 h2 s i _ hc, hr, hdrop]
      rfl
    · simp [print_string_loop, hi, List.drop_eq_nil_of_le (Nat.le_of_not_lt hi)]

/-- The printer on a content that starts with a backslash and a marker it leaves alone, followed
by plain bytes: the content is written as it is. -/
theorem print_string_marker (cfg : Config) (hps : cfg.process_string = true)
    (h1 : cfg.encode_utf8 = false) (h2 : cfg.encode_utf8_ext = false) (m : char_t)
    (hm : (cfg.decode_utf8 = false ∧ m = 117) ∨ (cfg.decode_utf8_ext = false ∧ m = 85))
    (a : Nat) (h : List char_t) (hlen : h.length + 2 < 2 ^ 64)
    (hh : ∀ c ∈ h, printed_plain c) :
    print_string cfg (some (a, 92 :: m :: h)) compact = .ok (34 :: 92 :: m :: (h ++ [34])) := by
  have hl := print_string_loop_plain cfg h1 h2 (92 :: m :: h) (h.length + 1) 2 (by simp)
    (by simpa using hh)
  have hg : 0 < size_sub (92 :: m :: h).length 1 := by
    unfold size_sub
    have e : (92 :: m :: h).length + 2 ^ 64 - 1 = (h.length + 1) + 2 ^ 64 := by
      simp only [List.length_cons]
      omega
    rw [e, Nat.add_mod_right, Nat.mod_eq_of_lt (by omega)]
    omega
  have hstep : print_string_step cfg (92 :: m :: h) 0 92 = .ok ([92, m], 1) := by
    unfold print_string_step
    rw [if_pos rfl, if_pos hg]
    have hr : read_at (92 :: m :: h) (0 + 1) = .ok m := rfl
    rw [hr, except_bind_ok, if_pos hm]
  have hloop : print_string_loop cfg (92 :: m :: h) (92 :: m :: h).length 0
      = .ok (92 :: m :: h) := by
    have hr0 : read_at (92 :: m :: h) 0 = .ok 92 := rfl
    have hlen2 : (92 :: m :: h).length = (h.length + 1) + 1 := rfl
    rw [hlen2, print_string_loop, if_pos (by simp), hr0, except_bind_ok, hstep, except_bind_ok]
    show (print_string_loop cfg (92 :: m :: h) (h.length + 1) 2).bind _ = _
    rw [hl, except_bind_ok]
    rfl
  unfold print_string
  rw [if_pos hps]
  simp only []
  rw [hloop, except_bind_ok]
  rfl

/-- The string parser on the literal of a backslash, a marker it does not decode and plain
bytes: the content is the text between the quotes. -/
theorem parse_string_marker (cfg : Config) (hps : cfg.process_string = true) (m : char_t)
    (hm : (cfg.decode_utf8 = false ∧ m = 117) ∨ (cfg.decode_utf8_ext = false ∧ m = 85))
    (h : List char_t) (hh : ∀ c ∈ h, c ≠ 34 ∧ c ≠ 92) (rest : List char_t) (heap : Nat) :
    ∃ a heap1, parse_string cfg (34 :: 92 :: m :: (h ++ 34 :: rest)) heap 0
      = .ok (34, some (a, 92 :: m :: h), rest, heap1) := by
  have hH := decodes_plain cfg hps h hh
  have hskip : ∀ l, _check_and_skip_spaces (34 :: l) 0 = .ok (34, l) := by
    intro l; simp [_check_and_skip_spaces, skip_loop, is_char_white_space]
  have hput : buffer_puts (flush_if_ge buffer_size_ { jstr := none, buffer := [], heap := heap })
      [92, m] = .ok { jstr := none, buffer := [92, m], heap := heap } := rfl
  obtain ⟨st1, _, ha, hl⟩ := hH { jstr := none, buffer := [92, m], heap := heap }
    (34 :: rest) (by simp [buffer_size_])
  refine ⟨st1.heap, st1.heap + 1, ?_⟩
  rcases hm with ⟨hd, rfl⟩ | ⟨hd, rfl⟩
  · simp only [parse_string, hskip, except_bind_ok, loop_backslash_step cfg hps,
      loop_u_literal_step cfg hps hd, hput, hl, loop_quote_step cfg hps]
    simp [flush_buffer, accumulated, string_content, string_append_copy] at ha ⊢
    exact ha
  · simp only [parse_string, hskip, except_bind_ok, loop_backslash_step cfg hps,
      loop_U_literal_step cfg hps hd, hput, hl, loop_quote_step cfg hps]
    simp [flush_buffer, accumulated, string_content, string_append_copy] at ha ⊢
    exact ha

theorem numeric_char_not_space (c : Nat) (h : numeric_char c = true) :
    is_char_white_space c = false ∧ c ≠ 0 := by
  rcases numeric_char_cases c h with rfl | rfl | rfl | rfl | rfl | ⟨h1, h2⟩
  all_goals first
    | decide
    | (interval_cases c <;> decide)

theorem structural_char_cases (c : Nat) (h : structural_char c = true) :
    c = 91 ∨ c = 93 ∨ c = 123 ∨ c = 125 ∨ c = 44 ∨ c = 58 := by
  simpa [structural_char, or_assoc] using h

theorem token_head (cfg : Config) (pre : List Nat) (h : Token cfg pre) :
    ∃ c r, pre = c :: r ∧ is_char_white_space c = false ∧ c ≠ 0 := by
  cases h with
  | structural c h =>
    refine ⟨c, [], rfl, ?_⟩
    rcases structural_char_cases c h with h | h | h | h | h | h <;> subst h <;> decide
  | string body h => exact ⟨34, body, rfl, by decide⟩
  | number _ hne h =>
    cases pre with
    | nil => exact absurd rfl hne
    | cons c r => exact ⟨c, r, rfl, numeric_char_not_space c (h c (List.mem_cons_self _ _))⟩
  | literal _ h =>
    rcases h with h | h | h <;> subst h
    · exact ⟨110, _, rfl, by decide⟩
    · exact ⟨116, _, rfl, by decide⟩
    · exact ⟨102, _, rfl, by decide⟩

theorem spaced_nil (cfg : Config) (t : List Nat) (h : Spaced cfg [] t) : t = [] := by
  generalize hs : ([] : List Nat) = s at h
  cases h with
  | done => rfl
  | gap w1 w2 pre s t hw hsub htok hmax hrest =>
    obtain ⟨c, r, rfl, -⟩ := token_head cfg pre htok
    simp at hs

theorem spaced_length (cfg : Config) (s t : List Nat) (h : Spaced cfg s t) :
    s.length ≤ t.length := by
  induction h with
  | done => exact Nat.le_refl _
  | gap w1 w2 pre s t hw hsub htok hmax hrest ih =>
    have := hsub.length_le
    simp only [List.length_append]
    omega

theorem unread_of_plain (ch : Nat) (s : List Nat) (h0 : ch ≠ 0)
    (hw : is_char_white_space ch = false) : unread ch s = ch :: s := by
  unfold unread
  rw [if_neg]
  rw [hw]
  simp [h0]

theorem unread_eq_nil (ch : Nat) (s : List Nat) (h : unread ch s = []) :
    (ch = 0 ∨ is_char_white_space ch = true) ∧ s = [] := by
  unfold unread at h
  by_cases hc : ch = 0 ∨ is_char_white_space ch = true
  · rw [if_pos hc] at h
    exact ⟨hc, h⟩
  · rw [if_neg hc] at h
    cases h

theorem unread_of_dropped (ch : Nat) (s : List Nat)
    (h : ch = 0 ∨ is_char_white_space ch = true) : unread ch s = s := by
  unfold unread
  rw [if_pos h]

theorem check_eq_skip_loop (s : List Nat) (ch : Nat) :
    _check_and_skip_spaces s ch = skip_loop ch (unread ch s) := by
  unfold _check_and_skip_spaces unread
  by_cases hc : ch = 0 ∨ is_char_white_space ch = true
  · rw [if_pos hc, if_neg]
    rcases hc with hc | hc
    · simp [hc]
    · simp [hc]
  · rw [if_neg hc]
    have h0 : ch ≠ 0 := fun e => hc (Or.inl e)
    have hw : is_char_white_space ch = false := by
      cases hq : is_char_white_space ch
      · rfl
      · exact absurd (Or.inr hq) hc
    rw [if_pos ⟨h0, by simp [hw]⟩, skip_loop, hw]
    simp

theorem skip_loop_cons_indep (a b x : Nat) (r : List Nat) :
    skip_loop a (x :: r) = skip_loop b (x :: r) := by
  rw [skip_loop, skip_loop]

theorem skip_spaces_eq (s : List Nat) (hne : s ≠ []) : _skip_spaces s = skip_loop 0 s := by
  cases s with
  | nil => exact absurd rfl hne
  | cons x r => rfl

theorem skip_spaces_ne_nil (s : List Nat) (c : Nat) (r : List Nat)
    (h : _skip_spaces s = .ok (c, r)) : s ≠ [] := by
  rintro rfl
  cases h

theorem skip_loop_found : ∀ (s : List Nat) (a c : Nat) (r : List Nat), s ≠ [] →
    skip_loop a s = .ok (c, r) →
    is_char_white_space c = false
      ∧ ∃ ws, (∀ w ∈ ws, is_char_white_space w = true) ∧ s = ws ++ c :: r := by
  intro s
  induction s with
  | nil => intro a c r hne; exact absurd rfl hne
  | cons x s ih =>
    intro a c r _ h
    rw [skip_loop] at h
    by_cases hx : is_char_white_space x = true
    · rw [if_pos hx] at h
      by_cases he : s.isEmpty = true
      · rw [if_pos he] at h
        cases h
      · rw [if_neg he] at h
        have hs : s ≠ [] := by
          intro e
          exact he (by rw [e]; rfl)
        obtain ⟨h1, ws, h2, h3⟩ := ih x c r hs h
        refine ⟨h1, x :: ws, ?_, by rw [h3]; rfl⟩
        intro w hw
        rcases List.mem_cons.mp hw with e | e
        · rw [e]; exact hx
        · exact h2 w e
    · rw [if_neg hx] at h
      cases h
      exact ⟨by simpa using hx, [], by simp, rfl⟩

theorem spaced_front (cfg : Config) (c : Nat) (r r1 : List Nat)
    (h : Spaced cfg (c :: r) (c :: r1)) (hc : is_char_white_space c = false) :
    r = r1 ∨ ∃ pre s0 t0, Token cfg pre ∧ c :: r = pre ++ s0 ∧ c :: r1 = pre ++ t0
      ∧ ((∀ x ∈ pre, numeric_char x = true) → ∀ x, s0.head? = some x → numeric_char x = false)
      ∧ Spaced cfg s0 t0 := by
  generalize hS : c :: r = S at h
  generalize hT : c :: r1 = T at h
  cases h with
  | done =>
    left
    rw [← hT] at hS
    exact (List.cons.inj hS).2
  | gap w1 w2 pre s t hw hsub htok hmax hrest =>
    right
    have hw2 : w2 = [] := by
      cases w2 with
      | nil => rfl
      | cons y w2 =>
        have e : c = y := (List.cons.inj hT).1
        have := hw y (List.mem_cons_self _ _)
        rw [← e, hc] at this
        cases this
    subst hw2
    have hw1 : w1 = [] := List.eq_nil_of_sublist_nil hsub
    subst hw1
    exact ⟨pre, s, t, htok, by simp [← hS], by simp [← hT], hmax, hrest⟩

theorem skip_sim (cfg : Config) (S T : List Nat) (h : Spaced cfg S T) (a b c : Nat)
    (r : List Nat) (hne : S ≠ []) (hs : skip_loop a S = .ok (c, r)) :
    ∃ r1, skip_loop b T = .ok (c, r1) ∧ Spaced cfg (c :: r) (c :: r1)
      ∧ is_char_white_space c = false := by
  cases h with
  | done =>
    obtain ⟨hc, -⟩ := skip_loop_found S a c r hne hs
    cases S with
    | nil => exact absurd rfl hne
    | cons x rest =>
      rw [skip_loop_cons_indep b a]
      exact ⟨r, hs, Spaced.done _, hc⟩
  | gap w1 w2 pre s t hw hsub htok hmax hrest =>
    obtain ⟨p, ps, rfl, hp, -⟩ := token_head cfg pre htok
    have hw1 : ∀ w ∈ w1, is_char_white_space w = true := fun w hm => hw w (hsub.subset hm)
    have e1 : skip_loop a (w1 ++ (p :: ps) ++ s) = .ok (p, ps ++ s) := by
      rw [List.append_assoc]
      exact skip_loop_white w1 hw1 a p (ps ++ s) hp
    have e2 : skip_loop b (w2 ++ (p :: ps) ++ t) = .ok (p, ps ++ t) := by
      rw [List.append_assoc]
      exact skip_loop_white w2 hw b p (ps ++ t) hp
    rw [e1] at hs
    cases hs
    refine ⟨ps ++ t, e2, ?_, hp⟩
    exact Spaced.gap [] [] (c :: ps) s t (by simp) (List.Sublist.refl _) htok hmax hrest

theorem spaced_unread (cfg : Config) (c : Nat) (r r1 : List Nat)
    (h : Spaced cfg (c :: r) (c :: r1)) (hc : is_char_white_space c = false) :
    Spaced cfg (unread c r) (unread c r1) := by
  by_cases h0 : c = 0
  · rcases spaced_front cfg c r r1 h hc with e | ⟨pre, s0, t0, htok, e1, -⟩
    · rw [e]
      exact Spaced.done _
    · obtain ⟨p, ps, rfl, -, hp0⟩ := token_head cfg pre htok
      have : c = p := (List.cons.inj e1).1
      exact absurd (this ▸ h0) hp0
  · rw [unread_of_plain c r h0 hc, unread_of_plain c r1 h0 hc]
    exact h

theorem spaced_after_structural (cfg : Config) (d : Nat) (q1 q2 : List Nat)
    (h : Spaced cfg (d :: q1) (d :: q2)) (hd : structural_char d = true) : Spaced cfg q1 q2 := by
  have hw : is_char_white_space d = false := by
    rcases structural_char_cases d hd with e | e | e | e | e | e <;> subst e <;> decide
  have hn : numeric_char d = false := by
    rcases structural_char_cases d hd with e | e | e | e | e | e <;> subst e <;> decide
  rcases spaced_front cfg d q1 q2 h hw with e | ⟨pre, s0, t0, htok, e1, e2, -, hrest⟩
  · rw [e]
    exact Spaced.done _
  · cases htok with
    | structural c hc =>
      simp only [List.singleton_append, List.cons.injEq] at e1 e2
      rw [e1.2, e2.2]
      exact hrest
    | string body hb =>
      have : d = 34 := (List.cons.inj e1).1
      subst this
      cases hd
    | number _ hne hnum =>
      cases pre with
      | nil => exact absurd rfl hne
      | cons p ps =>
        have : d = p := (List.cons.inj e1).1
        have hp := hnum p (List.mem_cons_self _ _)
        rw [← this, hn] at hp
        cases hp
    | literal _ hl =>
      rcases hl with hl | hl | hl <;> subst hl
      · have : d = 110 := (List.cons.inj e1).1
        subst this
        cases hd
      · have : d = 116 := (List.cons.inj e1).1
        subst this
        cases hd
      · have : d = 102 := (List.cons.inj e1).1
        subst this
        cases hd

theorem skip_spaces_sim (cfg : Config) (s t : List Nat) (h : Spaced cfg s t) (c : Nat)
    (r : List Nat) (hs : _skip_spaces s = .ok (c, r)) :
    ∃ r1, _skip_spaces t = .ok (c, r1) ∧ Spaced cfg (c :: r) (c :: r1)
      ∧ is_char_white_space c = false := by
  have hne := skip_spaces_ne_nil s c r hs
  have hnt : t ≠ [] := by
    intro e
    have := spaced_length cfg s t h
    rw [e] at this
    exact hne (List.length_eq_zero.mp (Nat.le_zero.mp this))
  rw [skip_spaces_eq s hne] at hs
  rw [skip_spaces_eq t hnt]
  exact skip_sim cfg s t h 0 0 c r hne hs

theorem check_sim (cfg : Config) (s t : List Nat) (ch ch1 : Nat)
    (h : Spaced cfg (unread ch s) (unread ch1 t)) (c : Nat) (r : List Nat)
    (hs : _check_and_skip_spaces s ch = .ok (c, r)) (hw : is_char_white_space c = false)
    (h0 : c ≠ 0) :
    ∃ r1, _check_and_skip_spaces t ch1 = .ok (c, r1) ∧ Spaced cfg (c :: r) (c :: r1) := by
  rw [check_eq_skip_loop] at hs ⊢
  by_cases hne : unread ch s = []
  · obtain ⟨hd, -⟩ := unread_eq_nil ch s hne
    rw [hne, skip_loop] at hs
    cases hs
    rcases hd with hd | hd
    · exact absurd hd h0
    · rw [hw] at hd
      cases hd
  · obtain ⟨r1, h1, h2, -⟩ := skip_sim cfg _ _ h ch ch1 c r hne hs
    exact ⟨r1, h1, h2⟩

theorem check_sim_entry (cfg : Config) (s t : List Nat) (ch ch1 : Nat)
    (h : Spaced cfg (unread ch s) (unread ch1 t)) (c : Nat) (r : List Nat)
    (hs : _check_and_skip_spaces s ch = .ok (c, r)) :
    ∃ c1 r1, _check_and_skip_spaces t ch1 = .ok (c1, r1)
      ∧ Spaced cfg (unread c r) (unread c1 r1) := by
  rw [check_eq_skip_loop] at hs ⊢
  by_cases hne : unread ch s = []
  · obtain ⟨hd, -⟩ := unread_eq_nil ch s hne
    rw [hne] at h
    have ht := spaced_nil cfg _ h
    obtain ⟨hd1, -⟩ := unread_eq_nil ch1 t ht
    rw [hne, skip_loop] at hs
    cases hs
    rw [ht, skip_loop]
    refine ⟨ch1, [], rfl, ?_⟩
    rw [unread_of_dropped ch [] hd, unread_of_dropped ch1 [] hd1]
    exact Spaced.done _
  · obtain ⟨r1, h1, h2, h3⟩ := skip_sim cfg _ _ h ch ch1 c r hne hs
    exact ⟨c, r1, h1, spaced_unread cfg c r r1 h2 h3⟩

theorem skip_after_value_sim (cfg : Config) (idx : Index) (c1 c2 : Nat) (r1 r2 : List Nat)
    (h : Spaced cfg (after_value idx c1 r1) (after_value idx c2 r2)) (d : Nat) (q1 : List Nat)
    (hs : skip_after_value idx r1 c1 = .ok (d, q1)) (hd : structural_char d = true) :
    ∃ q2, skip_after_value idx r2 c2 = .ok (d, q2) ∧ Spaced cfg q1 q2 := by
  have hw : is_char_white_space d = false := by
    rcases structural_char_cases d hd with e | e | e | e | e | e <;> subst e <;> decide
  have h0 : d ≠ 0 := by
    rcases structural_char_cases d hd with e | e | e | e | e | e <;> subst e <;> decide
  cases idx
  case string_i | array_i | object_i | null_i | boolean_i =>
    obtain ⟨q2, e1, e2, -⟩ := skip_spaces_sim cfg r1 r2 h d q1 hs
    exact ⟨q2, e1, spaced_after_structural cfg d q1 q2 e2 hd⟩
  all_goals
    obtain ⟨q2, e1, e2⟩ := check_sim cfg r1 r2 c1 c2 h d q1 hs hw h0
    exact ⟨q2, e1, spaced_after_structural cfg d q1 q2 e2 hd⟩

theorem check_plain (s : List Nat) (ch : Nat) (h0 : ch ≠ 0)
    (hw : is_char_white_space ch = false) : _check_and_skip_spaces s ch = .ok (ch, s) := by
  unfold _check_and_skip_spaces
  rw [if_pos ⟨h0, by simp [hw]⟩]

theorem literal_sim (cfg : Config) (c : Nat) (es r r1 : List Nat)
    (hlit : c :: es = literal_null ∨ c :: es = literal_true ∨ c :: es = literal_false)
    (h : Spaced cfg (c :: r) (c :: r1)) (q : List Nat) (hm : match_literal es r = .ok q) :
    ∃ q1, match_literal es r1 = .ok q1 ∧ Spaced cfg q q1 := by
  have hr := match_literal_ok es r q hm
  have hc : c = 110 ∨ c = 116 ∨ c = 102 := by
    rcases hlit with e | e | e
    · exact Or.inl (List.cons.inj e).1
    · exact Or.inr (Or.inl (List.cons.inj e).1)
    · exact Or.inr (Or.inr (List.cons.inj e).1)
  have hw : is_char_white_space c = false := by
    rcases hc with e | e | e <;> subst e <;> decide
  rcases spaced_front cfg c r r1 h hw with e | ⟨pre, s0, t0, htok, e1, e2, -, hrest⟩
  · rw [← e]
    exact ⟨q, hm, Spaced.done _⟩
  · cases htok with
    | structural d hd =>
      have : c = d := (List.cons.inj e1).1
      subst this
      rcases hc with e | e | e <;> subst e <;> cases hd
    | string body hb =>
      have : c = 34 := (List.cons.inj e1).1
      subst this
      rcases hc with e | e | e <;> cases e
    | number _ hne hnum =>
      cases pre with
      | nil => exact absurd rfl hne
      | cons p ps =>
        have : c = p := (List.cons.inj e1).1
        have hp := hnum p (List.mem_cons_self _ _)
        rw [← this] at hp
        rcases hc with e | e | e <;> subst e <;> cases hp
    | literal _ hl =>
      have hpre : pre = c :: es := by
        rcases hl with hl | hl | hl
        · subst hl
          have hc0 : c = 110 := (List.cons.inj e1).1
          subst hc0
          rcases hlit with e | e | e
          · exact e.symm
          · cases e
          · cases e
        · subst hl
          have hc0 : c = 116 := (List.cons.inj e1).1
          subst hc0
          rcases hlit with e | e | e
          · cases e
          · exact e.symm
          · cases e
        · subst hl
          have hc0 : c = 102 := (List.cons.inj e1).1
          subst hc0
          rcases hlit with e | e | e
          · cases e
          · cases e
          · exact e.symm
      subst hpre
      have h1 : r = es ++ s0 := (List.cons.inj e1).2
      have h2 : r1 = es ++ t0 := (List.cons.inj e2).2
      have h3 : q = s0 := by
        rw [hr] at h1
        exact List.append_cancel_left h1
      rw [h2, h3]
      exact ⟨t0, match_literal_full es t0, hrest⟩

theorem numeric_loop_white (st : NumericLocals) (ch y : Nat) (rest : List Nat)
    (hy : is_char_white_space y = true) :
    parse_numeric_loop st ch (y :: rest) = .ok (st, y, rest) := by
  have hy2 : y = 32 ∨ (9 ≤ y ∧ y ≤ 13) := by simpa [is_char_white_space] using hy
  have hc : y = 32 ∨ y = 9 ∨ y = 10 ∨ y = 11 ∨ y = 12 ∨ y = 13 := by omega
  rw [parse_numeric_loop]
  by_cases hlen : st.buffer.length < max_buffer_size_
  · rw [if_pos hlen]
    rcases hc with e | e | e | e | e | e <;> subst e <;> simp
  · rw [if_neg hlen]

theorem numeric_loop_other (st : NumericLocals) (ch x : Nat) (hx : numeric_char x = false)
    (rest1 rest2 : List Nat) (res : NumericLocals × Nat × List Nat)
    (h : parse_numeric_loop st ch (x :: rest1) = .ok res) :
    res = (st, x, rest1) ∧ parse_numeric_loop st ch (x :: rest2) = .ok (st, x, rest2) := by
  simp only [numeric_char, Bool.or_eq_false_iff, beq_eq_false_iff_ne, ne_eq,
    Bool.and_eq_false_imp, decide_eq_true_eq, decide_eq_false_iff_not, not_le] at hx
  obtain ⟨⟨⟨⟨⟨h46, h45⟩, h43⟩, h101⟩, h69⟩, hdig⟩ := hx
  rw [parse_numeric_loop] at h ⊢
  by_cases hlen : st.buffer.length < max_buffer_size_
  · rw [if_pos hlen] at h ⊢
    have hd : ¬ (48 ≤ x ∧ x ≤ 57) := fun hh => absurd (hdig hh.1) (by omega)
    simp only [h46, h45, h43, h101, h69, hd, if_false, or_self] at h ⊢
    split_ifs at h ⊢
    · cases h
      exact ⟨rfl, rfl⟩
  · rw [if_neg hlen] at h ⊢
    cases h
    exact ⟨rfl, rfl⟩

theorem spaced_uncons (cfg : Config) (x : Nat) (s1 t0 : List Nat)
    (h : Spaced cfg (x :: s1) t0) :
    ∃ y t1, t0 = y :: t1 ∧ (y = x ∨ is_char_white_space y = true)
      ∧ Spaced cfg (unread x s1) (unread y t1) := by
  generalize hS : x :: s1 = S at h
  cases h with
  | done => exact ⟨x, s1, hS.symm, Or.inl rfl, Spaced.done _⟩
  | gap w1 w2 pre s t hw hsub htok hmax hrest =>
    obtain ⟨p, ps, rfl, hp, hp0⟩ := token_head cfg pre htok
    cases w2 with
    | nil =>
      have hw1 : w1 = [] := List.eq_nil_of_sublist_nil hsub
      subst hw1
      simp only [List.nil_append, List.cons_append, List.cons.injEq] at hS
      obtain ⟨rfl, rfl⟩ := hS
      refine ⟨x, ps ++ t, rfl, Or.inl rfl, ?_⟩
      rw [unread_of_plain x _ hp0 hp, unread_of_plain x _ hp0 hp]
      exact Spaced.gap [] [] (x :: ps) s t (by simp) (List.Sublist.refl _) htok hmax hrest
    | cons y w2 =>
      have hy := hw y (List.mem_cons_self _ _)
      have hw2 : ∀ c ∈ w2, is_char_white_space c = true :=
        fun c hc => hw c (List.mem_cons_of_mem _ hc)
      refine ⟨y, w2 ++ (p :: ps) ++ t, rfl, Or.inr hy, ?_⟩
      rw [unread_of_dropped y _ (Or.inr hy)]
      cases w1 with
      | nil =>
        simp only [List.nil_append, List.cons_append, List.cons.injEq] at hS
        obtain ⟨rfl, rfl⟩ := hS
        rw [unread_of_plain x _ hp0 hp]
        exact Spaced.gap [] w2 (x :: ps) s t hw2 (List.nil_sublist _) htok hmax hrest
      | cons x1 w1 =>
        simp only [List.cons_append, List.cons.injEq] at hS
        obtain ⟨rfl, rfl⟩ := hS
        have hx := hw x (hsub.subset (List.mem_cons_self _ _))
        rw [unread_of_dropped x _ (Or.inr hx)]
        have hsub1 : List.Sublist w1 w2 := by
          cases hsub with
          | cons _ h1 => exact (List.sublist_cons_self _ _).trans h1
          | cons₂ _ h1 => exact h1
        have := Spaced.gap w1 w2 (p :: ps) s t hw2 hsub1 htok hmax hrest
        simpa using this

theorem numeric_loop_sim (cfg : Config) : ∀ (w : List Nat), (∀ x ∈ w, numeric_char x = true) →
    ∀ (s0 t0 : List Nat), (∀ x, s0.head? = some x → numeric_char x = false) →
    Spaced cfg s0 t0 →
    ∀ (st : NumericLocals) (ch : Nat) (st1 : NumericLocals) (c1 : Nat) (r1 : List Nat),
    parse_numeric_loop st ch (w ++ s0) = .ok (st1, c1, r1) →
    ∃ c2 r2, parse_numeric_loop st ch (w ++ t0) = .ok (st1, c2, r2)
      ∧ Spaced cfg (unread c1 r1) (unread c2 r2) := by
  intro w
  induction w with
  | nil =>
    intro _ s0 t0 hmax hsp st ch st1 c1 r1 h
    rw [List.nil_append] at h ⊢
    cases s0 with
    | nil =>
      rw [spaced_nil cfg t0 hsp]
      rw [parse_numeric_loop] at h ⊢
      cases h
      exact ⟨_, _, rfl, Spaced.done _⟩
    | cons x s1 =>
      have hx := hmax x rfl
      obtain ⟨y, t1, rfl, hy, hpost⟩ := spaced_uncons cfg x s1 t0 hsp
      obtain ⟨e1, e2⟩ := numeric_loop_other st ch x hx s1 t1 _ h
      cases e1
      rcases hy with rfl | hy
      · exact ⟨_, _, e2, hpost⟩
      · exact ⟨_, _, numeric_loop_white st ch y t1 hy, hpost⟩
  | cons d w ih =>
    intro hw s0 t0 hmax hsp st ch st1 c1 r1 h
    have hd := hw d (List.mem_cons_self _ _)
    have hw1 : ∀ x ∈ w, numeric_char x = true := fun x hx => hw x (List.mem_cons_of_mem _ hx)
    have hstop : Spaced cfg (unread d (w ++ s0)) (unread d (w ++ t0)) := by
      obtain ⟨hdw, hd0⟩ := numeric_char_not_space d hd
      rw [unread_of_plain d _ hd0 hdw, unread_of_plain d _ hd0 hdw]
      exact Spaced.gap [] [] (d :: w) s0 t0 (by simp) (List.Sublist.refl _)
        (Token.number (d :: w) (by simp) hw) (fun _ => hmax) hsp
    rw [List.cons_append, parse_numeric_loop] at h ⊢
    split_ifs at h ⊢
    all_goals first
      | exact ih hw1 s0 t0 hmax hsp _ _ _ _ _ h
      | (cases h
         exact ⟨_, _, rfl, hstop⟩)

theorem numeric_sim (cfg : Config) (atof : List char_t → number_t) (c : Nat) (r r1 : List Nat)
    (hc : c = 45 ∨ c = 43 ∨ c = 46 ∨ (48 ≤ c ∧ c ≤ 57))
    (h : Spaced cfg (c :: r) (c :: r1)) (res : Nat × Variant × List Nat)
    (hp : parse_numeric atof r c = .ok res) :
    ∃ c2 r2, parse_numeric atof r1 c = .ok (c2, res.2.1, r2)
      ∧ Spaced cfg (unread res.1 res.2.2) (unread c2 r2) := by
  have hnum : numeric_char c = true := by
    simp only [numeric_char, Bool.or_eq_true, beq_iff_eq, Bool.and_eq_true, decide_eq_true_eq]
    omega
  obtain ⟨hw, h0⟩ := numeric_char_not_space c hnum
  rcases spaced_front cfg c r r1 h hw with e | ⟨pre, s0, t0, htok, e1, e2, hmax, hrest⟩
  · rw [← e]
    exact ⟨res.1, res.2.2, hp, Spaced.done _⟩
  · have hpre : ∀ x ∈ pre, numeric_char x = true := by
      cases htok with
      | structural d hd =>
        have e : c = d := (List.cons.inj e1).1
        subst e
        rcases structural_char_cases c hd with e | e | e | e | e | e <;> subst e <;> cases hnum
      | string body hb =>
        have e : c = 34 := (List.cons.inj e1).1
        subst e
        cases hnum
      | number _ hne hx => exact hx
      | literal _ hl =>
        rcases hl with hl | hl | hl <;> subst hl
        · have e : c = 110 := (List.cons.inj e1).1
          subst e
          cases hnum
        · have e : c = 116 := (List.cons.inj e1).1
          subst e
          cases hnum
        · have e : c = 102 := (List.cons.inj e1).1
          subst e
          cases hnum
    cases pre with
    | nil =>
      obtain ⟨p, ps, e, -⟩ := token_head cfg [] htok
      cases e
    | cons p ps =>
      simp only [List.cons_append, List.cons.injEq] at e1 e2
      obtain ⟨rfl, rfl⟩ := e1
      obtain ⟨-, rfl⟩ := e2
      have hps : ∀ x ∈ ps, numeric_char x = true := fun x hx => hpre x (List.mem_cons_of_mem _ hx)
      unfold parse_numeric at hp ⊢
      rw [check_plain _ c h0 hw, except_bind_ok] at hp ⊢
      simp only [] at hp ⊢
      split_ifs at hp ⊢
      obtain ⟨q, hq1, hq2⟩ := bind_ok_inv hp
      obtain ⟨v, hv1, hv2⟩ := bind_ok_inv hq2
      cases hv2
      obtain ⟨c2, r2, hl, hpost⟩ := numeric_loop_sim cfg ps hps s0 t0 (hmax hpre) hrest _ _
        q.1 q.2.1 q.2.2 hq1
      refine ⟨c2, r2, ?_, hpost⟩
      rw [hl, except_bind_ok]
      simp only []
      rw [hv1, except_bind_ok]

theorem parse_string_loop_append (cfg : Config) :
    ∀ (n : Nat) (X : List Nat) (st : StringLocals) (e : Bool) (st1 : StringLocals)
      (R Y : List Nat), X.length ≤ n → parse_string_loop cfg st e X = .ok (st1, R) →
      parse_string_loop cfg st e (X ++ Y) = .ok (st1, R ++ Y) := by
  intro n
  induction n with
  | zero =>
    intro X st e st1 R Y hn h
    have : X = [] := List.length_eq_zero.mp (Nat.le_zero.mp hn)
    subst this
    rw [parse_string_loop_nil] at h
    cases h
  | succ n ih =>
    intro X st e st1 R Y hn h
    cases X with
    | nil =>
      rw [parse_string_loop_nil] at h
      cases h
    | cons ch rest =>
      have hr : rest.length ≤ n := by simpa using hn
      have hrec : ∀ (sta : StringLocals) (ea : Bool),
          parse_string_loop cfg sta ea rest = .ok (st1, R) →
          parse_string_loop cfg sta ea (rest ++ Y) = .ok (st1, R ++ Y) :=
        fun sta ea hh => ih rest sta ea st1 R Y hr hh
      have hbind : ∀ (x : Except Error StringLocals) (ea : Bool),
          x.bind (fun sta => parse_string_loop cfg sta ea rest) = .ok (st1, R) →
          x.bind (fun sta => parse_string_loop cfg sta ea (rest ++ Y)) = .ok (st1, R ++ Y) := by
        intro x ea hh
        obtain ⟨a, ha, hf⟩ := bind_ok_inv hh
        rw [ha, except_bind_ok]
        exact hrec a ea hf
      rw [List.cons_append, parse_string_loop_cons]
      rw [parse_string_loop_cons] at h
      generalize parse_string_loop cfg = F at ih hrec hbind h ⊢
      split_ifs at h ⊢
      all_goals first
        | exact hrec _ _ h
        | exact hbind _ _ h
        | (cases h; rfl)
        | skip
      · rcases rest with _ | ⟨u0, _ | ⟨u1, _ | ⟨u2, _ | ⟨u3, rest1⟩⟩⟩⟩
        · cases h
        · cases h
        · cases h
        · cases h
        · obtain ⟨a, ha, hf⟩ := bind_ok_inv h
          simp only [List.cons_append]
          rw [ha, except_bind_ok]
          exact ih rest1 a false st1 R Y (by simp only [List.length_cons] at hr; omega) hf
      · rcases rest with _ | ⟨u0, _ | ⟨u1, _ | ⟨u2, _ | ⟨u3, _ | ⟨u4, _ | ⟨u5, rest1⟩⟩⟩⟩⟩⟩
        · cases h
        · cases h
        · cases h
        · cases h
        · cases h
        · cases h
        · obtain ⟨a, ha, hf⟩ := bind_ok_inv h
          simp only [List.cons_append]
          rw [ha, except_bind_ok]
          exact ih rest1 a false st1 R Y (by simp only [List.length_cons] at hr; omega) hf

theorem string_sim (cfg : Config) (r r1 : List Nat) (heap : Nat)
    (h : Spaced cfg (34 :: r) (34 :: r1)) (res : Nat × String × List Nat × Nat)
    (hp : parse_string cfg r heap 34 = .ok res) :
    ∃ r2, parse_string cfg r1 heap 34 = .ok (res.1, res.2.1, r2, res.2.2.2)
      ∧ Spaced cfg res.2.2.1 r2 := by
  rcases spaced_front cfg 34 r r1 h (by decide) with e | ⟨pre, s0, t0, htok, e1, e2, -, hrest⟩
  · rw [← e]
    exact ⟨res.2.2.1, hp, Spaced.done _⟩
  · cases htok with
    | structural d hd =>
      have e : 34 = d := (List.cons.inj e1).1
      subst e
      cases hd
    | string body hb =>
      simp only [List.cons_append, List.cons.injEq, true_and] at e1 e2
      subst e1
      subst e2
      obtain ⟨st, hst⟩ := hb heap
      have hs := parse_string_loop_append cfg body.length body _ false st [] s0 (Nat.le_refl _) hst
      have ht := parse_string_loop_append cfg body.length body _ false st [] t0 (Nat.le_refl _) hst
      rw [List.nil_append] at hs ht
      unfold parse_string at hp ⊢
      rw [check_plain _ 34 (by decide) (by decide), except_bind_ok] at hp ⊢
      rw [if_neg (by simp)] at hp ⊢
      rw [hs, except_bind_ok] at hp
      rw [ht, except_bind_ok]
      cases hp
      exact ⟨t0, rfl, hrest⟩
    | number _ hne hnum =>
      cases pre with
      | nil => exact absurd rfl hne
      | cons p ps =>
        have e : 34 = p := (List.cons.inj e1).1
        have hp1 := hnum p (List.mem_cons_self _ _)
        rw [← e] at hp1
        cases hp1
    | literal _ hl =>
      rcases hl with hl | hl | hl <;> subst hl <;> cases (List.cons.inj e1).1

/-- More recursion budget does not change a result of the parsers. -/
theorem fuel_succ (cfg : Config) (atof : List char_t → number_t) : ∀ fuel : Nat,
    (∀ s heap ch res, parse_variant cfg atof fuel s heap ch = .ok res →
      parse_variant cfg atof (fuel + 1) s heap ch = .ok res)
    ∧ (∀ s heap ch res, parse_array cfg atof fuel s heap ch = .ok res →
      parse_array cfg atof (fuel + 1) s heap ch = .ok res)
    ∧ (∀ rhs ft ch s heap res, parse_array_loop cfg atof fuel rhs ft ch s heap = .ok res →
      parse_array_loop cfg atof (fuel + 1) rhs ft ch s heap = .ok res)
    ∧ (∀ s heap ch res, parse_object cfg atof fuel s heap ch = .ok res →
      parse_object cfg atof (fuel + 1) s heap ch = .ok res)
    ∧ (∀ rhs ft ch s heap res, parse_object_loop cfg atof fuel rhs ft ch s heap = .ok res →
      parse_object_loop cfg atof (fuel + 1) rhs ft ch s heap = .ok res) := by
  intro fuel
  induction fuel with
  | zero =>
    refine ⟨?_, ?_, ?_, ?_, ?_⟩
    · intro s heap ch res h
      rw [parse_variant] at h
      cases h
    · intro s heap ch res h
      rw [parse_array] at h
      cases h
    · intro rhs ft ch s heap res h
      rw [parse_array_loop] at h
      cases h
    · intro s heap ch res h
      rw [parse_object] at h
      cases h
    · intro rhs ft ch s heap res h
      rw [parse_object_loop] at h
      cases h
  | succ fuel ih =>
    obtain ⟨ihv, iha, ihal, iho, ihol⟩ := ih
    refine ⟨?_, ?_, ?_, ?_, ?_⟩
    · intro s heap ch res h
      rw [parse_variant] at h ⊢
      obtain ⟨r, hr, hf⟩ := bind_ok_inv h
      rw [hr, except_bind_ok]
      simp only [] at hf ⊢
      split_ifs at hf ⊢
      · exact hf
      · exact hf
      · exact hf
      · exact hf
      · obtain ⟨q, hq, hg⟩ := bind_ok_inv hf
        rw [iha _ _ _ _ hq, except_bind_ok]
        exact hg
      · obtain ⟨q, hq, hg⟩ := bind_ok_inv hf
        rw [iho _ _ _ _ hq, except_bind_ok]
        exact hg
    · intro s heap ch res h
      rw [parse_array] at h ⊢
      obtain ⟨r, hr, hf⟩ := bind_ok_inv h
      rw [hr, except_bind_ok]
      split_ifs at hf ⊢
      obtain ⟨r1, hr1, hf1⟩ := bind_ok_inv hf
      rw [hr1, except_bind_ok]
      split_ifs at hf1 ⊢
      · exact hf1
      · obtain ⟨q, hq, hg⟩ := bind_ok_inv hf1
        rw [ihal _ _ _ _ _ _ hq, except_bind_ok]
        exact hg
    · intro rhs ft ch s heap res h
      rw [parse_array_loop] at h ⊢
      obtain ⟨r, hr, hf⟩ := bind_ok_inv h
      rw [hr, except_bind_ok]
      obtain ⟨e, he, hf1⟩ := bind_ok_inv hf
      rw [ihv _ _ _ _ he, except_bind_ok]
      simp only [] at hf1 ⊢
      obtain ⟨u, hu, hf2⟩ := bind_ok_inv hf1
      rw [hu, except_bind_ok]
      obtain ⟨r2, hr2, hf3⟩ := bind_ok_inv hf2
      rw [hr2, except_bind_ok]
      split_ifs at hf3 ⊢
      · exact ihal _ _ _ _ _ _ hf3
      · exact hf3
    · intro s heap ch res h
      rw [parse_object] at h ⊢
      obtain ⟨r, hr, hf⟩ := bind_ok_inv h
      rw [hr, except_bind_ok]
      split_ifs at hf ⊢
      obtain ⟨r1, hr1, hf1⟩ := bind_ok_inv hf
      rw [hr1, except_bind_ok]
      split_ifs at hf1 ⊢
      · exact hf1
      · obtain ⟨q, hq, hg⟩ := bind_ok_inv hf1
        rw [ihol _ _ _ _ _ _ hq, except_bind_ok]
        exact hg
    · intro rhs ft ch s heap res h
      rw [parse_object_loop] at h ⊢
      obtain ⟨r, hr, hf⟩ := bind_ok_inv h
      rw [hr, except_bind_ok]
      obtain ⟨k, hk, hf0⟩ := bind_ok_inv hf
      rw [hk, except_bind_ok]
      obtain ⟨r1, hr1, hf1⟩ := bind_ok_inv hf0
      simp only []
      rw [hr1, except_bind_ok]
      by_cases h58 : r1.1 = 58
      swap
      · rw [if_pos h58] at hf1
        cases hf1
      rw [if_neg (not_not.mpr h58)] at hf1 ⊢
      obtain ⟨r2, hr2, hf2⟩ := bind_ok_inv hf1
      rw [hr2, except_bind_ok]
      obtain ⟨e, he, hf3⟩ := bind_ok_inv hf2
      rw [ihv _ _ _ _ he, except_bind_ok]
      simp only [] at hf3 ⊢
      obtain ⟨u, hu, hf4⟩ := bind_ok_inv hf3
      rw [hu, except_bind_ok]
      obtain ⟨r3, hr3, hf5⟩ := bind_ok_inv hf4
      rw [hr3, except_bind_ok]
      split_ifs at hf5 ⊢
      · exact ihol _ _ _ _ _ _ hf5
      · exact hf5

theorem fuel_add (cfg : Config) (atof : List char_t → number_t) (k fuel : Nat) (s : List Nat)
    (heap ch : Nat) (res : Nat × Variant × List Nat × Nat)
    (h : parse_variant cfg atof fuel s heap ch = .ok res) :
    parse_variant cfg atof (fuel + k) s heap ch = .ok res := by
  induction k with
  | zero => exact h
  | succ k ih => exact (fuel_succ cfg atof (fuel + k)).1 s heap ch res ih

theorem after_value_numeric (atof : List char_t → number_t) (r : List Nat) (c : Nat)
    (res : Nat × Variant × List Nat) (h : parse_numeric atof r c = .ok res) (a : Nat)
    (b : List Nat) : after_value res.2.1.index a b = unread a b := by
  unfold parse_numeric at h
  obtain ⟨r0, -, h1⟩ := bind_ok_inv h
  simp only [] at h1
  split_ifs at h1
  obtain ⟨q, -, h2⟩ := bind_ok_inv h1
  obtain ⟨v, hv, h3⟩ := bind_ok_inv h2
  cases h3
  unfold convert_numeric at hv
  split_ifs at hv <;> cases hv <;> rfl

theorem string_sim_entry (cfg : Config) (s t : List Nat) (heap ch ch1 : Nat)
    (h : Spaced cfg (unread ch s) (unread ch1 t)) (res : Nat × String × List Nat × Nat)
    (hp : parse_string cfg s heap ch = .ok res) :
    ∃ r2, parse_string cfg t heap ch1 = .ok (res.1, res.2.1, r2, res.2.2.2)
      ∧ Spaced cfg res.2.2.1 r2 := by
  have hp0 := hp
  unfold parse_string at hp0
  obtain ⟨r0, hr0, h1⟩ := bind_ok_inv hp0
  obtain ⟨c0, s0⟩ := r0
  by_cases hc : c0 = 34
  swap
  · rw [if_pos hc] at h1
    cases h1
  subst hc
  obtain ⟨t0, ht0, hsp⟩ := check_sim cfg s t ch ch1 h 34 s0 hr0 (by decide) (by decide)
  have e1 : parse_string cfg s heap ch = parse_string cfg s0 heap 34 := by
    unfold parse_string
    rw [hr0, check_plain s0 34 (by decide) (by decide)]
  have e2 : parse_string cfg t heap ch1 = parse_string cfg t0 heap 34 := by
    unfold parse_string
    rw [ht0, check_plain t0 34 (by decide) (by decide)]
  rw [e1] at hp
  rw [e2]
  exact string_sim cfg s0 t0 heap hsp res hp

theorem dispatch_plain (c : Nat)
    (h : c = 110 ∨ (c = 116 ∨ c = 102) ∨ (c = 45 ∨ c = 43 ∨ c = 46 ∨ (48 ≤ c ∧ c ≤ 57))
      ∨ c = 34 ∨ c = 91 ∨ c = 123) :
    is_char_white_space c = false ∧ c ≠ 0 := by
  have h0 : c ≠ 0 := by omega
  have h1 : c ≠ 32 := by omega
  have h2 : ¬ (9 ≤ c ∧ c ≤ 13) := by omega
  refine ⟨?_, h0⟩
  simp only [is_char_white_space, Bool.or_eq_false_iff, beq_eq_false_iff_ne, ne_eq,
    Bool.and_eq_false_imp, decide_eq_true_eq, decide_eq_false_iff_not]
  exact ⟨h1, fun h => fun h3 => h2 ⟨h, h3⟩⟩

theorem dispatch_cases (c : Nat) :
    ((c = 116 ∨ c = 102) → ¬ c = 110)
      ∧ ((c = 45 ∨ c = 43 ∨ c = 46 ∨ (48 ≤ c ∧ c ≤ 57)) → ¬ c = 110 ∧ ¬ (c = 116 ∨ c = 102)) := by
  constructor
  · intro h
    omega
  · intro h
    constructor <;> omega

/-- The parsers on two texts with the same tokens: at the same recursion budget, when the
parser succeeds on the first text it succeeds on the second with the same value and the same
allocation counter, and what is left of the two texts has the same tokens again. -/
theorem parse_sim (cfg : Config) (atof : List char_t → number_t) : ∀ fuel : Nat,
    (∀ (s t : List Nat) (heap ch ch1 : Nat) (res : Nat × Variant × List Nat × Nat),
      Spaced cfg (unread ch s) (unread ch1 t) →
      parse_variant cfg atof fuel s heap ch = .ok res →
      ∃ c2 r2, parse_variant cfg atof fuel t heap ch1 = .ok (c2, res.2.1, r2, res.2.2.2)
        ∧ Spaced cfg (after_value res.2.1.index res.1 res.2.2.1)
            (after_value res.2.1.index c2 r2))
    ∧ (∀ (s t : List Nat) (heap ch ch1 : Nat) (res : Nat × Array × List Nat × Nat),
      Spaced cfg (unread ch s) (unread ch1 t) →
      parse_array cfg atof fuel s heap ch = .ok res →
      ∃ r2, parse_array cfg atof fuel t heap ch1 = .ok (res.1, res.2.1, r2, res.2.2.2)
        ∧ Spaced cfg res.2.2.1 r2)
    ∧ (∀ (rhs : Array) (ft : Bool) (ch : Nat) (s t : List Nat) (heap : Nat)
        (res : Nat × Array × List Nat × Nat),
      is_char_white_space ch = false → Spaced cfg (ch :: s) (ch :: t) →
      parse_array_loop cfg atof fuel rhs ft ch s heap = .ok res → res.1 = 93 →
      ∃ r2, parse_array_loop cfg atof fuel rhs ft ch t heap
          = .ok (res.1, res.2.1, r2, res.2.2.2)
        ∧ Spaced cfg res.2.2.1 r2)
    ∧ (∀ (s t : List Nat) (heap ch ch1 : Nat) (res : Nat × Object × List Nat × Nat),
      Spaced cfg (unread ch s) (unread ch1 t) →
      parse_object cfg atof fuel s heap ch = .ok res →
      ∃ r2, parse_object cfg atof fuel t heap ch1 = .ok (res.1, res.2.1, r2, res.2.2.2)
        ∧ Spaced cfg res.2.2.1 r2)
    ∧ (∀ (rhs : Object) (ft : Bool) (ch : Nat) (s t : List Nat) (heap : Nat)
        (res : Nat × Object × List Nat × Nat),
      is_char_white_space ch = false → Spaced cfg (ch :: s) (ch :: t) →
      parse_object_loop cfg atof fuel rhs ft ch s heap = .ok res → res.1 = 125 →
      ∃ r2, parse_object_loop cfg atof fuel rhs ft ch t heap
          = .ok (res.1, res.2.1, r2, res.2.2.2)
        ∧ Spaced cfg res.2.2.1 r2) := by
  intro fuel
  induction fuel with
  | zero =>
    refine ⟨?_, ?_, ?_, ?_, ?_⟩
    · intro s t heap ch ch1 res _ h
      rw [parse_variant] at h
      cases h
    · intro s t heap ch ch1 res _ h
      rw [parse_array] at h
      cases h
    · intro rhs ft ch s t heap res _ _ h
      rw [parse_array_loop] at h
      cases h
    · intro s t heap ch ch1 res _ h
      rw [parse_object] at h
      cases h
    · intro rhs ft ch s t heap res _ _ h
      rw [parse_object_loop] at h
      cases h
  | succ fuel ih =>
    obtain ⟨ihv, iha, ihal, iho, ihol⟩ := ih
    refine ⟨?_, ?_, ?_, ?_, ?_⟩
    · -- parse(Variant)
      intro s t heap ch ch1 res hsp h
      rw [parse_variant] at h ⊢
      obtain ⟨r, hr, hf⟩ := bind_ok_inv h
      obtain ⟨c, r⟩ := r
      simp only [] at hf
      have hc : c = 110 ∨ (c = 116 ∨ c = 102) ∨ (c = 45 ∨ c = 43 ∨ c = 46 ∨ (48 ≤ c ∧ c ≤ 57))
          ∨ c = 34 ∨ c = 91 ∨ c = 123 := by
        by_contra hn
        obtain ⟨n1, hn⟩ := not_or.mp hn
        obtain ⟨n2, hn⟩ := not_or.mp hn
        obtain ⟨n3, hn⟩ := not_or.mp hn
        obtain ⟨n4, hn⟩ := not_or.mp hn
        obtain ⟨n5, n6⟩ := not_or.mp hn
        rw [if_neg n1, if_neg n2, if_neg n3, if_neg n4, if_neg n5, if_neg n6] at hf
        cases hf
      obtain ⟨hw, h0⟩ := dispatch_plain c hc
      obtain ⟨r1, hr1, hsp1⟩ := check_sim cfg s t ch ch1 hsp c r hr hw h0
      rw [hr1, except_bind_ok]
      simp only []
      rcases hc with c1 | c2 | c3 | c4 | c5 | c6
      · -- null
        subst c1
        rw [if_pos rfl] at hf ⊢
        obtain ⟨q, hq, hg⟩ := bind_ok_inv hf
        cases hg
        rw [parse_null_eq, check_plain _ 110 (by decide) (by decide), except_bind_ok] at hq ⊢
        simp only [if_true] at hq ⊢
        obtain ⟨q0, hq0, hq1⟩ := bind_ok_inv hq
        cases hq1
        obtain ⟨q1, hm, hs1⟩ := literal_sim cfg 110 [117, 108, 108] r r1 (Or.inl rfl) hsp1 q0 hq0
        refine ⟨108, q1, ?_, hs1⟩
        rw [hm]
        rfl
      · -- true, false
        have n1 : ¬ c = 110 := (dispatch_cases c).1 c2
        rw [if_neg n1, if_pos c2] at hf ⊢
        obtain ⟨q, hq, hg⟩ := bind_ok_inv hf
        cases hg
        have hcw : is_char_white_space c = false ∧ c ≠ 0 := ⟨hw, h0⟩
        rw [parse_boolean_eq, check_plain _ c h0 hw, except_bind_ok] at hq ⊢
        rcases c2 with c2 | c2
        · subst c2
          simp only [if_true] at hq ⊢
          obtain ⟨q0, hq0, hq1⟩ := bind_ok_inv hq
          cases hq1
          obtain ⟨q1, hm, hs1⟩ := literal_sim cfg 116 [114, 117, 101] r r1 (Or.inr (Or.inl rfl))
            hsp1 q0 hq0
          refine ⟨101, q1, ?_, hs1⟩
          rw [hm]
          rfl
        · subst c2
          simp only [Nat.reduceEqDiff, if_false, if_true] at hq ⊢
          obtain ⟨q0, hq0, hq1⟩ := bind_ok_inv hq
          cases hq1
          obtain ⟨q1, hm, hs1⟩ := literal_sim cfg 102 [97, 108, 115, 101] r r1
            (Or.inr (Or.inr rfl)) hsp1 q0 hq0
          refine ⟨101, q1, ?_, hs1⟩
          rw [hm]
          rfl
      · -- number
        have n1 : ¬ c = 110 := ((dispatch_cases c).2 c3).1
        have n2 : ¬ (c = 116 ∨ c = 102) := ((dispatch_cases c).2 c3).2
        rw [if_neg n1, if_neg n2, if_pos c3] at hf ⊢
        obtain ⟨q, hq, hg⟩ := bind_ok_inv hf
        cases hg
        obtain ⟨c2, r2, hn, hs1⟩ := numeric_sim cfg atof c r r1 c3 hsp1 q hq
        refine ⟨c2, r2, ?_, ?_⟩
        · rw [hn]
          rfl
        · show Spaced cfg (after_value q.2.1.index q.1 q.2.2) (after_value q.2.1.index c2 r2)
          rw [after_value_numeric atof r c q hq, after_value_numeric atof r c q hq]
          exact hs1
      · -- string
        subst c4
        rw [if_neg (by decide), if_neg (by decide), if_neg (by decide), if_pos rfl] at hf ⊢
        obtain ⟨q, hq, hg⟩ := bind_ok_inv hf
        cases hg
        obtain ⟨r2, hn, hs1⟩ := string_sim cfg r r1 heap hsp1 q hq
        refine ⟨q.1, r2, ?_, hs1⟩
        rw [hn]
        rfl
      · -- array
        subst c5
        rw [if_neg (by decide), if_neg (by decide), if_neg (by decide), if_neg (by decide),
          if_pos rfl] at hf ⊢
        obtain ⟨q, hq, hg⟩ := bind_ok_inv hf
        cases hg
        obtain ⟨r2, hn, hs1⟩ := iha r r1 heap 91 91 q (spaced_unread cfg 91 r r1 hsp1 hw) hq
        refine ⟨q.1, r2, ?_, hs1⟩
        rw [hn]
        rfl
      · -- object
        subst c6
        rw [if_neg (by decide), if_neg (by decide), if_neg (by decide), if_neg (by decide),
          if_neg (by decide), if_pos rfl] at hf ⊢
        obtain ⟨q, hq, hg⟩ := bind_ok_inv hf
        cases hg
        obtain ⟨r2, hn, hs1⟩ := iho r r1 heap 123 123 q (spaced_unread cfg 123 r r1 hsp1 hw) hq
        refine ⟨q.1, r2, ?_, hs1⟩
        rw [hn]
        rfl
    · -- parse(Array)
      intro s t heap ch ch1 res hsp h
      rw [parse_array] at h ⊢
      obtain ⟨r, hr, hf⟩ := bind_ok_inv h
      obtain ⟨c, r⟩ := r
      by_cases hc : c = 91
      swap
      · rw [if_pos hc] at hf
        cases hf
      subst hc
      rw [if_neg (by simp)] at hf
      obtain ⟨r1, hr1, hsp1⟩ := check_sim cfg s t ch ch1 hsp 91 r hr (by decide) (by decide)
      rw [hr1, except_bind_ok, if_neg (by simp)]
      have hsp2 := spaced_after_structural cfg 91 r r1 hsp1 (by decide)
      obtain ⟨k, hk, hg⟩ := bind_ok_inv hf
      obtain ⟨d, k⟩ := k
      obtain ⟨k1, hk1, hsp3, hdw⟩ := skip_spaces_sim cfg r r1 hsp2 d k hk
      rw [hk1, except_bind_ok]
      by_cases hd : d = 93
      · subst hd
        rw [if_pos rfl] at hg ⊢
        cases hg
        exact ⟨k1, rfl, spaced_after_structural cfg 93 k k1 hsp3 (by decide)⟩
      · rw [if_neg hd] at hg ⊢
        obtain ⟨q, hq, hg1⟩ := bind_ok_inv hg
        by_cases hq93 : q.1 = 93
        swap
        · rw [if_pos hq93] at hg1
          cases hg1
        rw [if_neg (not_not.mpr hq93)] at hg1
        cases hg1
        obtain ⟨r2, hl, hs4⟩ := ihal none true d k k1 heap res hdw hsp3 hq hq93
        refine ⟨r2, ?_, hs4⟩
        rw [hl, except_bind_ok]
        simp only [ne_eq, hq93, not_true_eq_false, if_false]
    · -- the loop of parse(Array)
      intro rhs ft ch s t heap res hw hsp h h93
      rw [parse_array_loop] at h ⊢
      obtain ⟨r, hr, hf⟩ := bind_ok_inv h
      have hfirst : ∃ c1 r1,
          (if ch = 44 then _skip_spaces t else _check_and_skip_spaces t ch) = .ok (c1, r1)
            ∧ Spaced cfg (unread r.1 r.2) (unread c1 r1) := by
        by_cases hc : ch = 44
        · rw [if_pos hc] at hr ⊢
          subst hc
          have hsp2 := spaced_after_structural cfg 44 s t hsp (by decide)
          obtain ⟨r1, e1, e2, e3⟩ := skip_spaces_sim cfg s t hsp2 r.1 r.2 hr
          exact ⟨r.1, r1, e1, spaced_unread cfg r.1 r.2 r1 e2 e3⟩
        · rw [if_neg hc] at hr ⊢
          exact check_sim_entry cfg s t ch ch (spaced_unread cfg ch s t hsp hw) r.1 r.2 hr
      obtain ⟨c1, r1, hr1, hsp1⟩ := hfirst
      rw [hr1, except_bind_ok]
      obtain ⟨e, he, hf1⟩ := bind_ok_inv hf
      obtain ⟨c2, r2, he2, hsp2⟩ := ihv r.2 r1 heap r.1 c1 e hsp1 he
      rw [he2, except_bind_ok]
      simp only [] at hf1 ⊢
      obtain ⟨u, hu, hf2⟩ := bind_ok_inv hf1
      rw [hu, except_bind_ok]
      obtain ⟨k, hk, hf3⟩ := bind_ok_inv hf2
      obtain ⟨d, k⟩ := k
      by_cases hd : d = 44
      · subst hd
        obtain ⟨k1, hk1, hsp3⟩ := skip_after_value_sim cfg e.2.1.index e.1 c2 e.2.2.1 r2 hsp2
          44 k hk (by decide)
        rw [hk1, except_bind_ok]
        rw [if_pos rfl] at hf3 ⊢
        exact ihal u.1 u.2.1 44 k k1 u.2.2 res (by decide)
          (Spaced.gap [] [] [44] k k1 (by simp) (List.Sublist.refl _)
            (Token.structural 44 (by decide))
            (fun hn => absurd (hn 44 (List.mem_singleton.mpr rfl)) (by decide)) hsp3) hf3 h93
      · rw [if_neg hd] at hf3
        cases hf3
        have hd93 : d = 93 := h93
        subst hd93
        obtain ⟨k1, hk1, hsp3⟩ := skip_after_value_sim cfg e.2.1.index e.1 c2 e.2.2.1 r2 hsp2
          93 k hk (by decide)
        rw [hk1, except_bind_ok]
        exact ⟨k1, rfl, hsp3⟩
    · -- parse(Object)
      intro s t heap ch ch1 res hsp h
      rw [parse_object] at h ⊢
      obtain ⟨r, hr, hf⟩ := bind_ok_inv h
      obtain ⟨c, r⟩ := r
      by_cases hc : c = 123
      swap
      · rw [if_pos hc] at hf
        cases hf
      subst hc
      rw [if_neg (by simp)] at hf
      obtain ⟨r1, hr1, hsp1⟩ := check_sim cfg s t ch ch1 hsp 123 r hr (by decide) (by decide)
      rw [hr1, except_bind_ok, if_neg (by simp)]
      have hsp2 := spaced_after_structural cfg 123 r r1 hsp1 (by decide)
      obtain ⟨k, hk, hg⟩ := bind_ok_inv hf
      obtain ⟨d, k⟩ := k
      obtain ⟨k1, hk1, hsp3, hdw⟩ := skip_spaces_sim cfg r r1 hsp2 d k hk
      rw [hk1, except_bind_ok]
      by_cases hd : d = 125
      · subst hd
        rw [if_pos rfl] at hg ⊢
        cases hg
        exact ⟨k1, rfl, spaced_after_structural cfg 125 k k1 hsp3 (by decide)⟩
      · rw [if_neg hd] at hg ⊢
        obtain ⟨q, hq, hg1⟩ := bind_ok_inv hg
        by_cases hq125 : q.1 = 125
        swap
        · rw [if_pos hq125] at hg1
          cases hg1
        rw [if_neg (not_not.mpr hq125)] at hg1
        cases hg1
        obtain ⟨r2, hl, hs4⟩ := ihol none true d k k1 heap res hdw hsp3 hq hq125
        refine ⟨r2, ?_, hs4⟩
        rw [hl, except_bind_ok]
        simp only [ne_eq, hq125, not_true_eq_false, if_false]
    · -- the loop of parse(Object)
      intro rhs ft ch s t heap res hw hsp h h125
      rw [parse_object_loop] at h ⊢
      obtain ⟨r, hr, hf⟩ := bind_ok_inv h
      have hfirst : ∃ c1 r1,
          (if ch = 44 then _skip_spaces t else _check_and_skip_spaces t ch) = .ok (c1, r1)
            ∧ Spaced cfg (unread r.1 r.2) (unread c1 r1) := by
        by_cases hc : ch = 44
        · rw [if_pos hc] at hr ⊢
          subst hc
          have hsp2 := spaced_after_structural cfg 44 s t hsp (by decide)
          obtain ⟨r1, e1, e2, e3⟩ := skip_spaces_sim cfg s t hsp2 r.1 r.2 hr
          exact ⟨r.1, r1, e1, spaced_unread cfg r.1 r.2 r1 e2 e3⟩
        · rw [if_neg hc] at hr ⊢
          exact check_sim_entry cfg s t ch ch (spaced_unread cfg ch s t hsp hw) r.1 r.2 hr
      obtain ⟨c1, r1, hr1, hsp1⟩ := hfirst
      rw [hr1, except_bind_ok]
      obtain ⟨key, hkey, hf0⟩ := bind_ok_inv hf
      obtain ⟨kr, hkey1, hspk⟩ := string_sim_entry cfg r.2 r1 heap r.1 c1 hsp1 key hkey
      rw [hkey1, except_bind_ok]
      simp only [] at hf0 ⊢
      obtain ⟨p, hp, hf1⟩ := bind_ok_inv hf0
      obtain ⟨pc, p⟩ := p
      by_cases hpc : pc = 58
      swap
      · rw [if_pos hpc] at hf1
        cases hf1
      subst hpc
      rw [if_neg (by simp)] at hf1
      obtain ⟨p1, hp1, hspp, -⟩ := skip_spaces_sim cfg key.2.2.1 kr hspk 58 p hp
      rw [hp1, except_bind_ok, if_neg (by simp)]
      have hspp1 := spaced_after_structural cfg 58 p p1 hspp (by decide)
      obtain ⟨v, hv, hf2⟩ := bind_ok_inv hf1
      obtain ⟨v1, hv1, hspv, hvw⟩ := skip_spaces_sim cfg p p1 hspp1 v.1 v.2 hv
      rw [hv1, except_bind_ok]
      obtain ⟨e, he, hf3⟩ := bind_ok_inv hf2
      obtain ⟨c2, r2, he2, hsp2⟩ := ihv v.2 v1 key.2.2.2 v.1 v.1 e
        (spaced_unread cfg v.1 v.2 v1 hspv hvw) he
      rw [he2, except_bind_ok]
      simp only [] at hf3 ⊢
      obtain ⟨u, hu, hf4⟩ := bind_ok_inv hf3
      rw [hu, except_bind_ok]
      obtain ⟨k, hk, hf5⟩ := bind_ok_inv hf4
      obtain ⟨d, k⟩ := k
      by_cases hd : d = 44
      · subst hd
        obtain ⟨k1, hk1, hsp3⟩ := skip_after_value_sim cfg e.2.1.index e.1 c2 e.2.2.1 r2 hsp2
          44 k hk (by decide)
        rw [hk1, except_bind_ok]
        rw [if_pos rfl] at hf5 ⊢
        exact ihol u.1 u.2.1 44 k k1 u.2.2 res (by decide)
          (Spaced.gap [] [] [44] k k1 (by simp) (List.Sublist.refl _)
            (Token.structural 44 (by decide))
            (fun hn => absurd (hn 44 (List.mem_singleton.mpr rfl)) (by decide)) hsp3) hf5 h125
      · rw [if_neg hd] at hf5
        cases hf5
        have hd125 : d = 125 := h125
        subst hd125
        obtain ⟨k1, hk1, hsp3⟩ := skip_after_value_sim cfg e.2.1.index e.1 c2 e.2.2.1 r2 hsp2
          125 k hk (by decide)
        rw [hk1, except_bind_ok]
        exact ⟨k1, rfl, hsp3⟩

theorem len_skip_loop (s : List Nat) (a c : Nat) (r : List Nat)
    (h : skip_loop a s = .ok (c, r)) : r.length ≤ s.length := by
  rcases skip_loop_ok s a c r h with ⟨-, -, e⟩ | ⟨ws, -, e⟩
  · rw [e]
    exact Nat.zero_le _
  · rw [e]
    simp only [List.length_append, List.length_cons]
    omega

theorem len_skip_spaces (s : List Nat) (c : Nat) (r : List Nat)
    (h : _skip_spaces s = .ok (c, r)) : r.length + 1 ≤ s.length := by
  have hne := skip_spaces_ne_nil s c r h
  rw [skip_spaces_eq s hne] at h
  obtain ⟨-, ws, -, e⟩ := skip_loop_found s 0 c r hne h
  rw [e]
  simp only [List.length_append, List.length_cons]
  omega

theorem len_check (s : List Nat) (ch c : Nat) (r : List Nat)
    (h : _check_and_skip_spaces s ch = .ok (c, r)) : r.length ≤ s.length := by
  unfold _check_and_skip_spaces at h
  split_ifs at h
  · cases h
    exact Nat.le_refl _
  · exact len_skip_loop s ch c r h

theorem len_match_literal (es s r : List Nat) (h : match_literal es s = .ok r) :
    r.length ≤ s.length := by
  rw [match_literal_ok es s r h]
  simp

theorem len_parse_null (s : List Nat) (ch : Nat) (res : Nat × List Nat)
    (h : parse_null s ch = .ok res) : res.2.length ≤ s.length := by
  rw [parse_null_eq] at h
  obtain ⟨r, hr, hf⟩ := bind_ok_inv h
  have h1 := len_check s ch r.1 r.2 hr
  split_ifs at hf
  obtain ⟨q, hq, hg⟩ := bind_ok_inv hf
  cases hg
  have h2 := len_match_literal _ _ _ hq
  exact Nat.le_trans h2 h1

theorem len_parse_boolean (s : List Nat) (ch : Nat) (res : Nat × Bool × List Nat)
    (h : parse_boolean s ch = .ok res) : res.2.2.length ≤ s.length := by
  rw [parse_boolean_eq] at h
  obtain ⟨r, hr, hf⟩ := bind_ok_inv h
  have h1 := len_check s ch r.1 r.2 hr
  split_ifs at hf
  · obtain ⟨q, hq, hg⟩ := bind_ok_inv hf
    cases hg
    have h2 := len_match_literal _ _ _ hq
    exact Nat.le_trans h2 h1
  · obtain ⟨q, hq, hg⟩ := bind_ok_inv hf
    cases hg
    have h2 := len_match_literal _ _ _ hq
    exact Nat.le_trans h2 h1

theorem len_numeric_loop : ∀ (s : List Nat) (st : NumericLocals) (ch : Nat)
    (res : NumericLocals × Nat × List Nat),
    parse_numeric_loop st ch s = .ok res → res.2.2.length ≤ s.length := by
  intro s
  induction s with
  | nil =>
    intro st ch res h
    rw [parse_numeric_loop] at h
    cases h
    exact Nat.le_refl _
  | cons c s ih =>
    intro st ch res h
    rw [parse_numeric_loop] at h
    split_ifs at h
    all_goals first
      | exact Nat.le_succ_of_le (ih _ _ _ h)
      | (cases h
         exact Nat.le_succ _)

theorem len_parse_numeric (atof : List char_t → number_t) (s : List Nat) (ch : Nat)
    (res : Nat × Variant × List Nat) (h : parse_numeric atof s ch = .ok res) :
    res.2.2.length ≤ s.length := by
  unfold parse_numeric at h
  obtain ⟨r, hr, hf⟩ := bind_ok_inv h
  have h1 := len_check s ch r.1 r.2 hr
  simp only [] at hf
  split_ifs at hf
  obtain ⟨q, hq, hg⟩ := bind_ok_inv hf
  obtain ⟨v, -, hv⟩ := bind_ok_inv hg
  cases hv
  exact Nat.le_trans (len_numeric_loop _ _ _ _ hq) h1

theorem len_string_loop (cfg : Config) :
    ∀ (n : Nat) (s : List Nat) (st : StringLocals) (e : Bool) (res : StringLocals × List Nat),
      s.length ≤ n → parse_string_loop cfg st e s = .ok res → res.2.length ≤ s.length := by
  intro n
  induction n with
  | zero =>
    intro s st e res hn h
    have : s = [] := List.length_eq_zero.mp (Nat.le_zero.mp hn)
    subst this
    rw [parse_string_loop_nil] at h
    cases h
  | succ n ih =>
    intro s st e res hn h
    cases s with
    | nil =>
      rw [parse_string_loop_nil] at h
      cases h
    | cons ch rest =>
      have hr : rest.length ≤ n := by simpa using hn
      have hrec : ∀ (sta : StringLocals) (ea : Bool),
          parse_string_loop cfg sta ea rest = .ok res → res.2.length ≤ (ch :: rest).length :=
        fun sta ea hh => Nat.le_succ_of_le (ih rest sta ea res hr hh)
      have hbind : ∀ (x : Except Error StringLocals) (ea : Bool),
          x.bind (fun sta => parse_string_loop cfg sta ea rest) = .ok res →
          res.2.length ≤ (ch :: rest).length := by
        intro x ea hh
        obtain ⟨a, -, hf⟩ := bind_ok_inv hh
        exact hrec a ea hf
      rw [parse_string_loop_cons] at h
      generalize parse_string_loop cfg = F at ih hrec hbind h
      split_ifs at h
      all_goals first
        | exact hrec _ _ h
        | exact hbind _ _ h
        | (cases h
           exact Nat.le_succ _)
        | skip
      · rcases rest with _ | ⟨u0, _ | ⟨u1, _ | ⟨u2, _ | ⟨u3, rest1⟩⟩⟩⟩
        · cases h
        · cases h
        · cases h
        · cases h
        · obtain ⟨a, -, hf⟩ := bind_ok_inv h
          have := ih rest1 a false res (by simp only [List.length_cons] at hr; omega) hf
          simp only [List.length_cons]
          omega
      · rcases rest with _ | ⟨u0, _ | ⟨u1, _ | ⟨u2, _ | ⟨u3, _ | ⟨u4, _ | ⟨u5, rest1⟩⟩⟩⟩⟩⟩
        · cases h
        · cases h
        · cases h
        · cases h
        · cases h
        · cases h
        · obtain ⟨a, -, hf⟩ := bind_ok_inv h
          have := ih rest1 a false res (by simp only [List.length_cons] at hr; omega) hf
          simp only [List.length_cons]
          omega

theorem len_parse_string (cfg : Config) (s : List Nat) (heap ch : Nat)
    (res : Nat × String × List Nat × Nat) (h : parse_string cfg s heap ch = .ok res) :
    res.2.2.1.length ≤ s.length := by
  unfold parse_string at h
  obtain ⟨r, hr, hf⟩ := bind_ok_inv h
  have h1 := len_check s ch r.1 r.2 hr
  split_ifs at hf
  obtain ⟨q, hq, hg⟩ := bind_ok_inv hf
  cases hg
  exact Nat.le_trans (len_string_loop cfg _ _ _ _ _ (Nat.le_refl _) hq) h1

theorem len_skip_after_value (idx : Index) (s : List Nat) (ch c : Nat) (r : List Nat)
    (h : skip_after_value idx s ch = .ok (c, r)) : r.length ≤ s.length := by
  cases idx
  case string_i | array_i | object_i | null_i | boolean_i =>
    exact Nat.le_of_succ_le (len_skip_spaces s c r h)
  all_goals exact len_check s ch c r h

/-- The parsers read forward: what is left of the stream is not longer than the stream. -/
theorem len_parse (cfg : Config) (atof : List char_t → number_t) : ∀ fuel : Nat,
    (∀ (s : List Nat) (heap ch : Nat) (res : Nat × Variant × List Nat × Nat),
      parse_variant cfg atof fuel s heap ch = .ok res → res.2.2.1.length ≤ s.length)
    ∧ (∀ (s : List Nat) (heap ch : Nat) (res : Nat × Array × List Nat × Nat),
      parse_array cfg atof fuel s heap ch = .ok res → res.2.2.1.length ≤ s.length)
    ∧ (∀ (rhs : Array) (ft : Bool) (ch : Nat) (s : List Nat) (heap : Nat)
        (res : Nat × Array × List Nat × Nat),
      parse_array_loop cfg atof fuel rhs ft ch s heap = .ok res → res.2.2.1.length ≤ s.length)
    ∧ (∀ (s : List Nat) (heap ch : Nat) (res : Nat × Object × List Nat × Nat),
      parse_object cfg atof fuel s heap ch = .ok res → res.2.2.1.length ≤ s.length)
    ∧ (∀ (rhs : Object) (ft : Bool) (ch : Nat) (s : List Nat) (heap : Nat)
        (res : Nat × Object × List Nat × Nat),
      parse_object_loop cfg atof fuel rhs ft ch s heap = .ok res →
      res.2.2.1.length ≤ s.length) := by
  intro fuel
  induction fuel with
  | zero =>
    refine ⟨?_, ?_, ?_, ?_, ?_⟩
    · intro s heap ch res h
      rw [parse_variant] at h
      cases h
    · intro s heap ch res h
      rw [parse_array] at h
      cases h
    · intro rhs ft ch s heap res h
      rw [parse_array_loop] at h
      cases h
    · intro s heap ch res h
      rw [parse_object] at h
      cases h
    · intro rhs ft ch s heap res h
      rw [parse_object_loop] at h
      cases h
  | succ fuel ih =>
    obtain ⟨ihv, iha, ihal, iho, ihol⟩ := ih
    have hfirst : ∀ (ch : Nat) (s : List Nat) (r : Nat × List Nat),
        (if ch = 44 then _skip_spaces s else _check_and_skip_spaces s ch) = .ok r →
        r.2.length ≤ s.length := by
      intro ch s r hr
      split_ifs at hr
      · exact Nat.le_of_succ_le (len_skip_spaces s r.1 r.2 hr)
      · exact len_check s ch r.1 r.2 hr
    refine ⟨?_, ?_, ?_, ?_, ?_⟩
    · intro s heap ch res h
      rw [parse_variant] at h
      obtain ⟨r, hr, hf⟩ := bind_ok_inv h
      have h1 := len_check s ch r.1 r.2 hr
      simp only [] at hf
      split_ifs at hf
      · obtain ⟨q, hq, hg⟩ := bind_ok_inv hf
        cases hg
        exact Nat.le_trans (len_parse_null _ _ _ hq) h1
      · obtain ⟨q, hq, hg⟩ := bind_ok_inv hf
        cases hg
        exact Nat.le_trans (len_parse_boolean _ _ _ hq) h1
      · obtain ⟨q, hq, hg⟩ := bind_ok_inv hf
        cases hg
        exact Nat.le_trans (len_parse_numeric atof _ _ _ hq) h1
      · obtain ⟨q, hq, hg⟩ := bind_ok_inv hf
        cases hg
        exact Nat.le_trans (len_parse_string cfg _ _ _ _ hq) h1
      · obtain ⟨q, hq, hg⟩ := bind_ok_inv hf
        cases hg
        exact Nat.le_trans (iha _ _ _ _ hq) h1
      · obtain ⟨q, hq, hg⟩ := bind_ok_inv hf
        cases hg
        exact Nat.le_trans (iho _ _ _ _ hq) h1
    · intro s heap ch res h
      rw [parse_array] at h
      obtain ⟨r, hr, hf⟩ := bind_ok_inv h
      have h1 := len_check s ch r.1 r.2 hr
      split_ifs at hf
      obtain ⟨k, hk, hg⟩ := bind_ok_inv hf
      have h2 := len_skip_spaces r.2 k.1 k.2 hk
      split_ifs at hg
      · cases hg
        show k.2.length ≤ s.length
        omega
      · obtain ⟨q, hq, hg1⟩ := bind_ok_inv hg
        split_ifs at hg1
        cases hg1
        have h3 := ihal _ _ _ _ _ _ hq
        omega
    · intro rhs ft ch s heap res h
      rw [parse_array_loop] at h
      obtain ⟨r, hr, hf⟩ := bind_ok_inv h
      have h1 := hfirst ch s r hr
      obtain ⟨e, he, hf1⟩ := bind_ok_inv hf
      have h2 := ihv _ _ _ _ he
      simp only [] at hf1
      obtain ⟨u, -, hf2⟩ := bind_ok_inv hf1
      obtain ⟨k, hk, hf3⟩ := bind_ok_inv hf2
      have h3 := len_skip_after_value _ _ _ k.1 k.2 hk
      split_ifs at hf3
      · have h4 := ihal _ _ _ _ _ _ hf3
        omega
      · cases hf3
        show k.2.length ≤ s.length
        omega
    · intro s heap ch res h
      rw [parse_object] at h
      obtain ⟨r, hr, hf⟩ := bind_ok_inv h
      have h1 := len_check s ch r.1 r.2 hr
      split_ifs at hf
      obtain ⟨k, hk, hg⟩ := bind_ok_inv hf
      have h2 := len_skip_spaces r.2 k.1 k.2 hk
      split_ifs at hg
      · cases hg
        show k.2.length ≤ s.length
        omega
      · obtain ⟨q, hq, hg1⟩ := bind_ok_inv hg
        split_ifs at hg1
        cases hg1
        have h3 := ihol _ _ _ _ _ _ hq
        omega
    · intro rhs ft ch s heap res h
      rw [parse_object_loop] at h
      obtain ⟨r, hr, hf⟩ := bind_ok_inv h
      have h1 := hfirst ch s r hr
      obtain ⟨key, hkey, hf0⟩ := bind_ok_inv hf
      have hk1 := len_parse_string cfg _ _ _ _ hkey
      obtain ⟨p, hp, hf1⟩ := bind_ok_inv hf0
      have hp1 := len_skip_spaces _ p.1 p.2 hp
      by_cases h58 : p.1 = 58
      swap
      · rw [if_pos h58] at hf1
        cases hf1
      rw [if_neg (not_not.mpr h58)] at hf1
      obtain ⟨v, hv, hf2⟩ := bind_ok_inv hf1
      have hv1 := len_skip_spaces _ v.1 v.2 hv
      obtain ⟨e, he, hf3⟩ := bind_ok_inv hf2
      have h2 := ihv _ _ _ _ he
      simp only [] at hf3
      obtain ⟨u, -, hf4⟩ := bind_ok_inv hf3
      obtain ⟨k, hk, hf5⟩ := bind_ok_inv hf4
      have h3 := len_skip_after_value _ _ _ k.1 k.2 hk
      split_ifs at hf5
      · have h4 := ihol _ _ _ _ _ _ hf5
        omega
      · cases hf5
        show k.2.length ≤ s.length
        omega

theorem bind_ne_fuel {α β : Type} (x : Except Error α) (f : α → Except Error β)
    (hx : x ≠ .error .out_of_fuel) (hf : ∀ a, x = .ok a → f a ≠ .error .out_of_fuel) :
    x.bind f ≠ .error .out_of_fuel := by
  cases x with
  | error e => simpa using hx
  | ok a => simpa using hf a rfl

theorem skip_loop_ne_fuel : ∀ (s : List Nat) (a : Nat), skip_loop a s ≠ .error .out_of_fuel := by
  intro s
  induction s with
  | nil =>
    intro a
    simp [skip_loop]
  | cons x s ih =>
    intro a
    rw [skip_loop]
    split_ifs
    · simp
    · exact ih x
    · simp

theorem skip_spaces_ne_fuel (s : List Nat) : _skip_spaces s ≠ .error .out_of_fuel := by
  cases s with
  | nil => simp [_skip_spaces]
  | cons x r => exact skip_loop_ne_fuel _ 0

theorem check_ne_fuel (s : List Nat) (ch : Nat) :
    _check_and_skip_spaces s ch ≠ .error .out_of_fuel := by
  unfold _check_and_skip_spaces
  split_ifs
  · simp
  · exact skip_loop_ne_fuel _ _

theorem match_literal_ne_fuel : ∀ (es s : List Nat), match_literal es s ≠ .error .out_of_fuel := by
  intro es
  induction es with
  | nil =>
    intro s
    simp [match_literal]
  | cons e es ih =>
    intro s
    rw [match_literal]
    refine bind_ne_fuel _ _ ?_ (fun a _ => ih a)
    unfold expect_char
    cases s with
    | nil => simp
    | cons c r =>
      simp only []
      split_ifs <;> simp

theorem parse_null_ne_fuel (s : List Nat) (ch : Nat) : parse_null s ch ≠ .error .out_of_fuel := by
  rw [parse_null_eq]
  refine bind_ne_fuel _ _ (check_ne_fuel s ch) (fun r _ => ?_)
  split_ifs
  · exact bind_ne_fuel _ _ (match_literal_ne_fuel _ _) (fun a _ => by simp)
  · simp

theorem parse_boolean_ne_fuel (s : List Nat) (ch : Nat) :
    parse_boolean s ch ≠ .error .out_of_fuel := by
  rw [parse_boolean_eq]
  refine bind_ne_fuel _ _ (check_ne_fuel s ch) (fun r _ => ?_)
  split_ifs
  · exact bind_ne_fuel _ _ (match_literal_ne_fuel _ _) (fun a _ => by simp)
  · exact bind_ne_fuel _ _ (match_literal_ne_fuel _ _) (fun a _ => by simp)
  · simp

theorem numeric_loop_ne_fuel : ∀ (s : List Nat) (st : NumericLocals) (ch : Nat),
    parse_numeric_loop st ch s ≠ .error .out_of_fuel := by
  intro s
  induction s with
  | nil =>
    intro st ch
    simp [parse_numeric_loop]
  | cons c s ih =>
    intro st ch
    rw [parse_numeric_loop]
    split_ifs
    all_goals first
      | exact ih _ _
      | simp

theorem parse_numeric_ne_fuel (atof : List char_t → number_t) (s : List Nat) (ch : Nat) :
    parse_numeric atof s ch ≠ .error .out_of_fuel := by
  unfold parse_numeric
  refine bind_ne_fuel _ _ (check_ne_fuel s ch) (fun r _ => ?_)
  simp only []
  split_ifs
  · simp
  · refine bind_ne_fuel _ _ (numeric_loop_ne_fuel _ _ _) (fun q _ => ?_)
    refine bind_ne_fuel _ _ ?_ (fun v _ => by simp)
    unfold convert_numeric
    split_ifs <;> simp
  · simp

theorem buffer_put_ne_fuel (st : StringLocals) (ch : Nat) :
    buffer_put st ch ≠ .error .out_of_fuel := by
  unfold buffer_put
  split_ifs <;> simp

theorem buffer_puts_ne_fuel (cs : List Nat) :
    ∀ st : StringLocals, buffer_puts st cs ≠ .error .out_of_fuel := by
  induction cs with
  | nil => intro st; simp [buffer_puts]
  | cons c cs ih =>
    intro st
    exact bind_ne_fuel _ _ (buffer_put_ne_fuel st c) (fun a _ => ih a)

theorem record_char_ne_fuel (st : StringLocals) (e : Bool) (ch : Nat) :
    record_char st e ch ≠ .error .out_of_fuel := by
  unfold record_char
  split_ifs
  · simp
  · exact buffer_put_ne_fuel _ _

theorem decode_u_ne_fuel (st : StringLocals) (u0 u1 u2 u3 : Nat) :
    decode_u st u0 u1 u2 u3 ≠ .error .out_of_fuel := by
  unfold decode_u
  simp only []
  split_ifs <;> exact buffer_puts_ne_fuel _ _

theorem decode_U_ne_fuel (st : StringLocals) (u0 u1 u2 u3 u4 u5 : Nat) :
    decode_U st u0 u1 u2 u3 u4 u5 ≠ .error .out_of_fuel := by
  unfold decode_U
  simp only []
  split_ifs <;> exact buffer_puts_ne_fuel _ _

theorem string_loop_ne_fuel (cfg : Config) :
    ∀ (n : Nat) (input : List Nat) (st : StringLocals) (e : Bool), input.length ≤ n →
      parse_string_loop cfg st e input ≠ .error .out_of_fuel := by
  intro n
  induction n with
  | zero =>
    intro input st e h
    have : input = [] := List.length_eq_zero.mp (Nat.le_zero.mp h)
    subst this
    rw [parse_string_loop_nil]
    simp
  | succ n ih =>
    intro input st e h
    cases input with
    | nil => rw [parse_string_loop_nil]; simp
    | cons ch rest =>
      have hr : rest.length ≤ n := by simpa using h
      have hrec : ∀ (st1 : StringLocals) (e1 : Bool),
          parse_string_loop cfg st1 e1 rest ≠ .error .out_of_fuel := fun st1 e1 => ih rest st1 e1 hr
      rw [parse_string_loop_cons]
      generalize parse_string_loop cfg = F at ih hrec ⊢
      split_ifs
      all_goals first
        | exact hrec _ _
        | exact bind_ne_fuel _ _ (record_char_ne_fuel _ _ _) (fun a _ => hrec a _)
        | exact bind_ne_fuel _ _ (buffer_puts_ne_fuel _ _) (fun a _ => hrec a _)
        | exact bind_ne_fuel _ _ (buffer_put_ne_fuel _ _) (fun a _ => hrec a _)
        | (simp; done)
        | skip
      all_goals split
      · exact bind_ne_fuel _ _ (decode_u_ne_fuel _ _ _ _ _)
          (fun a _ => ih _ a false (by simp only [List.length_cons] at hr ⊢; omega))
      · simp
      · exact bind_ne_fuel _ _ (decode_U_ne_fuel _ _ _ _ _ _ _)
          (fun a _ => ih _ a false (by simp only [List.length_cons] at hr ⊢; omega))
      · simp

theorem parse_string_ne_fuel (cfg : Config) (s : List Nat) (heap ch : Nat) :
    parse_string cfg s heap ch ≠ .error .out_of_fuel := by
  unfold parse_string
  refine bind_ne_fuel _ _ (check_ne_fuel s ch) (fun r _ => ?_)
  split_ifs
  · simp
  · exact bind_ne_fuel _ _ (string_loop_ne_fuel cfg _ _ _ _ (Nat.le_refl _)) (fun q _ => by simp)

theorem skip_after_value_ne_fuel (idx : Index) (s : List Nat) (ch : Nat) :
    skip_after_value idx s ch ≠ .error .out_of_fuel := by
  cases idx
  case string_i | array_i | object_i | null_i | boolean_i => exact skip_spaces_ne_fuel s
  all_goals exact check_ne_fuel s ch

/-- The recursion budget of `parse` is enough: with three nested calls per byte of input, and
four, no parser runs out of budget. -/
theorem fuel_adequate (cfg : Config) (atof : List char_t → number_t) : ∀ fuel : Nat,
    (∀ (s : List Nat) (heap ch : Nat), 3 * s.length + 4 ≤ fuel →
      parse_variant cfg atof fuel s heap ch ≠ .error .out_of_fuel)
    ∧ (∀ (s : List Nat) (heap ch : Nat), 3 * s.length + 3 ≤ fuel →
      parse_array cfg atof fuel s heap ch ≠ .error .out_of_fuel)
    ∧ (∀ (rhs : Array) (ft : Bool) (ch : Nat) (s : List Nat) (heap : Nat),
      (if ch = 44 then 3 * s.length + 2 else 3 * s.length + 5) ≤ fuel →
      parse_array_loop cfg atof fuel rhs ft ch s heap ≠ .error .out_of_fuel)
    ∧ (∀ (s : List Nat) (heap ch : Nat), 3 * s.length + 3 ≤ fuel →
      parse_object cfg atof fuel s heap ch ≠ .error .out_of_fuel)
    ∧ (∀ (rhs : Object) (ft : Bool) (ch : Nat) (s : List Nat) (heap : Nat),
      (if ch = 44 then 3 * s.length + 2 else 3 * s.length + 5) ≤ fuel →
      parse_object_loop cfg atof fuel rhs ft ch s heap ≠ .error .out_of_fuel) := by
  intro fuel
  induction fuel with
  | zero =>
    refine ⟨?_, ?_, ?_, ?_, ?_⟩
    · intro s heap ch h
      omega
    · intro s heap ch h
      omega
    · intro rhs ft ch s heap h
      split_ifs at h <;> omega
    · intro s heap ch h
      omega
    · intro rhs ft ch s heap h
      split_ifs at h <;> omega
  | succ fuel ih =>
    obtain ⟨ihv, iha, ihal, iho, ihol⟩ := ih
    have hfirst : ∀ (ch : Nat) (s : List Nat) (r : Nat × List Nat),
        (if ch = 44 then 3 * s.length + 2 else 3 * s.length + 5) ≤ fuel + 1 →
        (if ch = 44 then _skip_spaces s else _check_and_skip_spaces s ch) = .ok r →
        3 * r.2.length + 4 ≤ fuel := by
      intro ch s r hb hr
      split_ifs at hr hb
      · have := len_skip_spaces s r.1 r.2 hr
        omega
      · have := len_check s ch r.1 r.2 hr
        omega
    have hfirst_ne : ∀ (ch : Nat) (s : List Nat),
        (if ch = 44 then _skip_spaces s else _check_and_skip_spaces s ch)
          ≠ .error .out_of_fuel := by
      intro ch s
      split_ifs
      · exact skip_spaces_ne_fuel s
      · exact check_ne_fuel s ch
    refine ⟨?_, ?_, ?_, ?_, ?_⟩
    · intro s heap ch hb
      rw [parse_variant]
      refine bind_ne_fuel _ _ (check_ne_fuel s ch) (fun r hr => ?_)
      have h1 := len_check s ch r.1 r.2 hr
      simp only []
      split_ifs
      · exact bind_ne_fuel _ _ (parse_null_ne_fuel _ _) (fun q _ => by simp)
      · exact bind_ne_fuel _ _ (parse_boolean_ne_fuel _ _) (fun q _ => by simp)
      · exact bind_ne_fuel _ _ (parse_numeric_ne_fuel atof _ _) (fun q _ => by simp)
      · exact bind_ne_fuel _ _ (parse_string_ne_fuel cfg _ _ _) (fun q _ => by simp)
      · exact bind_ne_fuel _ _ (iha _ _ _ (by omega)) (fun q _ => by simp)
      · exact bind_ne_fuel _ _ (iho _ _ _ (by omega)) (fun q _ => by simp)
      · simp
    · intro s heap ch hb
      rw [parse_array]
      refine bind_ne_fuel _ _ (check_ne_fuel s ch) (fun r hr => ?_)
      have h1 := len_check s ch r.1 r.2 hr
      split_ifs
      · simp
      · refine bind_ne_fuel _ _ (skip_spaces_ne_fuel _) (fun k hk => ?_)
        have h2 := len_skip_spaces r.2 k.1 k.2 hk
        split_ifs
        · simp
        · refine bind_ne_fuel _ _ (ihal _ _ _ _ _ ?_) (fun q _ => ?_)
          · split_ifs <;> omega
          · split_ifs <;> simp
    · intro rhs ft ch s heap hb
      rw [parse_array_loop]
      refine bind_ne_fuel _ _ (hfirst_ne ch s) (fun r hr => ?_)
      have h1 := hfirst ch s r hb hr
      refine bind_ne_fuel _ _ (ihv _ _ _ h1) (fun e he => ?_)
      have h2 := (len_parse cfg atof fuel).1 _ _ _ _ he
      simp only []
      refine bind_ne_fuel _ _ ?_ (fun u _ => ?_)
      · split_ifs
        · simp
        · refine bind_ne_fuel _ _ ?_ (fun a _ => by simp)
          unfold Array.insert
          split <;> simp
        · simp
      · refine bind_ne_fuel _ _ (skip_after_value_ne_fuel _ _ _) (fun k hk => ?_)
        have h3 := len_skip_after_value _ _ _ k.1 k.2 hk
        split_ifs with h44
        · refine ihal _ _ _ _ _ ?_
          rw [if_pos h44]
          omega
        · simp
    · intro s heap ch hb
      rw [parse_object]
      refine bind_ne_fuel _ _ (check_ne_fuel s ch) (fun r hr => ?_)
      have h1 := len_check s ch r.1 r.2 hr
      split_ifs
      · simp
      · refine bind_ne_fuel _ _ (skip_spaces_ne_fuel _) (fun k hk => ?_)
        have h2 := len_skip_spaces r.2 k.1 k.2 hk
        split_ifs
        · simp
        · refine bind_ne_fuel _ _ (ihol _ _ _ _ _ ?_) (fun q _ => ?_)
          · split_ifs <;> omega
          · split_ifs <;> simp
    · intro rhs ft ch s heap hb
      rw [parse_object_loop]
      refine bind_ne_fuel _ _ (hfirst_ne ch s) (fun r hr => ?_)
      have h1 := hfirst ch s r hb hr
      refine bind_ne_fuel _ _ (parse_string_ne_fuel cfg _ _ _) (fun key hkey => ?_)
      have hk1 := len_parse_string cfg _ _ _ _ hkey
      simp only []
      refine bind_ne_fuel _ _ (skip_spaces_ne_fuel _) (fun p hp => ?_)
      have hp1 := len_skip_spaces _ p.1 p.2 hp
      by_cases h58 : p.1 = 58
      swap
      · rw [if_pos h58]
        simp
      rw [if_neg (not_not.mpr h58)]
      refine bind_ne_fuel _ _ (skip_spaces_ne_fuel _) (fun v hv => ?_)
      have hv1 := len_skip_spaces _ v.1 v.2 hv
      refine bind_ne_fuel _ _ (ihv _ _ _ (by omega)) (fun e he => ?_)
      have h2 := (len_parse cfg atof fuel).1 _ _ _ _ he
      refine bind_ne_fuel _ _ ?_ (fun u _ => ?_)
      · split_ifs
        · simp
        · refine bind_ne_fuel _ _ ?_ (fun a _ => by simp)
          unfold Object.set
          split <;> simp
        · simp
      · refine bind_ne_fuel _ _ (skip_after_value_ne_fuel _ _ _) (fun k hk => ?_)
        have h3 := len_skip_after_value _ _ _ k.1 k.2 hk
        split_ifs with h44
        · refine ihol _ _ _ _ _ ?_
          rw [if_pos h44]
          omega
        · simp

/-- The entry point never stops for lack of recursion budget. -/
theorem parse_ne_fuel (cfg : Config) (atof : List char_t → number_t) (s : List Nat)
    (heap : Nat) : parse cfg atof s heap ≠ .error .out_of_fuel :=
  (fuel_adequate cfg atof (3 * s.length + 4)).1 s heap 0 (Nat.le_refl _)

/-! ## White space between tokens (C21) -/

/-- C21: when a text parses to a value V, every text made of the same tokens with white space
(space, tab, CR, LF, VT, FF) inserted before the first token or between two tokens parses as
well, to the same value V, with the same allocations; and no parse of any text stops for lack
of recursion budget, so a parse that succeeds in the code succeeds in the embedding. -/
theorem whitespace_between_tokens (cfg : Config) (atof : List char_t → number_t)
    (s t : List char_t) (heap : Nat) (ch : char_t) (V : Variant) (rest : List char_t)
    (heap1 : Nat) (hsp : Spaced cfg s t)
    (hp : parse cfg atof s heap = .ok (ch, V, rest, heap1)) :
    (∃ ch1 rest1, parse cfg atof t heap = .ok (ch1, V, rest1, heap1))
    ∧ ∀ (text : List char_t) (heap0 : Nat),
        parse cfg atof text heap0 ≠ .error .out_of_fuel := by
  refine ⟨?_, fun text heap0 => parse_ne_fuel cfg atof text heap0⟩
  unfold parse at hp ⊢
  have hentry : Spaced cfg (unread 0 s) (unread 0 t) := by
    rw [unread_of_dropped 0 s (Or.inl rfl), unread_of_dropped 0 t (Or.inl rfl)]
    exact hsp
  obtain ⟨c2, r2, h2, -⟩ := (parse_sim cfg atof (3 * s.length + 4)).1 s t heap 0 0 _ hentry hp
  have hlen := spaced_length cfg s t hsp
  have hfuel : 3 * t.length + 4 = (3 * s.length + 4) + 3 * (t.length - s.length) := by omega
  rw [hfuel]
  exact ⟨c2, r2, fuel_add cfg atof _ _ t heap 0 _ h2⟩

/-- Witness of C21: the text of an object with the member a, an array of 1 and true, and the
same tokens with a space, a tab, a CR, an LF, a VT, an FF and spaces in front of them. -/
theorem whitespace_between_tokens_witness :
    Spaced default_config
        [123, 34, 97, 34, 58, 91, 49, 44, 116, 114, 117, 101, 93, 125]
        [32, 123, 9, 34, 97, 34, 13, 58, 10, 91, 11, 49, 12, 44, 32, 116, 114, 117, 101, 32, 93,
          32, 125]
    ∧ parse default_config (fun _ => 0)
        [123, 34, 97, 34, 58, 91, 49, 44, 116, 114, 117, 101, 93, 125] 0
      = .ok (125, .object (some (2, [([97], .array (some (1, [.integer 1, .boolean true])))])),
          [], 3)
    ∧ ∃ ch1 rest1, parse default_config (fun _ => 0)
        [32, 123, 9, 34, 97, 34, 13, 58, 10, 91, 11, 49, 12, 44, 32, 116, 114, 117, 101, 32, 93,
          32, 125] 0
      = .ok (ch1, .object (some (2, [([97], .array (some (1, [.integer 1, .boolean true])))])),
          rest1, 3) :=
  have hsp : Spaced default_config
      [123, 34, 97, 34, 58, 91, 49, 44, 116, 114, 117, 101, 93, 125]
      [32, 123, 9, 34, 97, 34, 13, 58, 10, 91, 11, 49, 12, 44, 32, 116, 114, 117, 101, 32, 93,
        32, 125] :=
    Spaced.gap [] [32] [123] _ _ (by decide) (List.nil_sublist _)
      (Token.structural 123 (by decide))
      (fun hn => absurd (hn 123 (List.mem_cons_self _ _)) (by decide))
    (Spaced.gap [] [9] [34, 97, 34] _ _ (by decide) (List.nil_sublist _)
      (Token.string [97, 34] (fun heap => ⟨_, rfl⟩))
      (fun hn => absurd (hn 34 (List.mem_cons_self _ _)) (by decide))
    (Spaced.gap [] [13] [58] _ _ (by decide) (List.nil_sublist _)
      (Token.structural 58 (by decide))
      (fun hn => absurd (hn 58 (List.mem_cons_self _ _)) (by decide))
    (Spaced.gap [] [10] [91] _ _ (by decide) (List.nil_sublist _)
      (Token.structural 91 (by decide))
      (fun hn => absurd (hn 91 (List.mem_cons_self _ _)) (by decide))
    (Spaced.gap [] [11] [49] _ _ (by decide) (List.nil_sublist _)
      (Token.number [49] (by simp) (by decide))
      (fun _ c hc => by
        cases hc
        decide)
    (Spaced.gap [] [12] [44] _ _ (by decide) (List.nil_sublist _)
      (Token.structural 44 (by decide))
      (fun hn => absurd (hn 44 (List.mem_cons_self _ _)) (by decide))
    (Spaced.gap [] [32] [116, 114, 117, 101] _ _ (by decide) (List.nil_sublist _)
      (Token.literal _ (Or.inr (Or.inl rfl)))
      (fun hn => absurd (hn 116 (List.mem_cons_self _ _)) (by decide))
    (Spaced.gap [] [32] [93] _ _ (by decide) (List.nil_sublist _)
      (Token.structural 93 (by decide))
      (fun hn => absurd (hn 93 (List.mem_cons_self _ _)) (by decide))
    (Spaced.gap [] [32] [125] [] [] (by decide) (List.nil_sublist _)
      (Token.structural 125 (by decide))
      (fun hn => absurd (hn 125 (List.mem_cons_self _ _)) (by decide))
      (Spaced.done [])))))))))
  ⟨hsp, rfl, (whitespace_between_tokens default_config (fun _ => 0) _ _ 0 125 _ [] 3 hsp rfl).1⟩

/-! ## The layout of a readable array (C22) -/

/-- C22: in readable mode a non-empty Array that has at most 7 elements and starts with a Null,
Boolean, Integer or Number is printed as the opening bracket, the texts of the elements (printed
without indentation) separated by commas, and the closing bracket; every other non-empty Array
is printed with a newline before every element, every element printed at depth + 1 (its text
starts with depth + 1 tabs), and a newline and depth tabs before the closing bracket. -/
theorem readable_array_layout (cfg : Config) (fmt : number_t → List char_t) (a : Nat)
    (elements : List Variant) (ps : PrintSettings) (texts : List (List char_t))
    (hne : elements ≠ []) (hr : ps.readable = true)
    (ht : List.Forall₂
      (fun e x => print cfg fmt e
        (PrintSettings.mk (ps.depth + 1) true (!one_line_array elements)) = .ok x)
      elements texts) :
    (one_line_array elements = true →
      print cfg fmt (.array (some (a, elements))) ps
        = .ok (print_lead ps ++ [91] ++ List.intercalate [44] texts ++ [93]))
    ∧ (one_line_array elements = false →
      print cfg fmt (.array (some (a, elements))) ps
          = .ok (print_lead ps ++ [91]
              ++ List.intercalate [44] (texts.map (fun x => [10] ++ x))
              ++ ([10] ++ print_indent ps.depth) ++ [93])
        ∧ List.Forall₂ (fun e x => e.index ≠ .invalid_i → print_indent (ps.depth + 1) <+: x)
            elements texts) := by
  rw [← single_line_eq] at ht ⊢
  have ht1 : List.Forall₂
      (fun e x => print cfg fmt e
        (PrintSettings.mk (ps.depth + 1) ps.readable (!single_line elements)) = .ok x)
      elements texts := by
    rw [hr]
    exact ht
  have hp := print_array_intercalate cfg fmt a elements ps texts hne ht1
  rw [hr] at hp
  constructor
  · intro hs
    rw [hp, hs]
    simp
  · intro hs
    constructor
    · rw [hp, hs]
      simp
    · rw [hs] at ht
      refine ht.imp (fun e x h he => ?_)
      have := print_starts_with_lead cfg fmt e _ x h he
      simpa [print_lead] using this

/-- Witness of C22: five integers are printed on one line, eight integers one per line, and an
array holding one object over several lines. -/
theorem readable_array_layout_witness :
    print default_config (fun _ => [])
        (.array (some (0, [.integer 1, .integer 2, .integer 3, .integer 4, .integer 5]))) {}
      = .ok [91, 49, 44, 50, 44, 51, 44, 52, 44, 53, 93]
    ∧ print default_config (fun _ => [])
        (.array (some (0, [.integer 1, .integer 2, .integer 3, .integer 4, .integer 5,
          .integer 6, .integer 7, .integer 8]))) {}
      = .ok [91, 10, 9, 49, 44, 10, 9, 50, 44, 10, 9, 51, 44, 10, 9, 52, 44, 10, 9, 53, 44,
          10, 9, 54, 44, 10, 9, 55, 44, 10, 9, 56, 10, 93]
    ∧ print default_config (fun _ => [])
        (.array (some (0, [.object (some (1, [([97], .integer 1)]))]))) {}
      = .ok [91, 10, 9, 123, 10, 9, 9, 34, 97, 34, 58, 32, 49, 10, 9, 125, 10, 93] :=
  ⟨(readable_array_layout default_config (fun _ => []) 0
      [.integer 1, .integer 2, .integer 3, .integer 4, .integer 5] {}
      [[49], [50], [51], [52], [53]] (by simp) rfl
      (.cons rfl (.cons rfl (.cons rfl (.cons rfl (.cons rfl .nil)))))).1 rfl,
   ((readable_array_layout default_config (fun _ => []) 0
      [.integer 1, .integer 2, .integer 3, .integer 4, .integer 5, .integer 6, .integer 7,
        .integer 8] {}
      [[9, 49], [9, 50], [9, 51], [9, 52], [9, 53], [9, 54], [9, 55], [9, 56]] (by simp) rfl
      (.cons rfl (.cons rfl (.cons rfl (.cons rfl (.cons rfl (.cons rfl (.cons rfl
        (.cons rfl .nil))))))))).2 rfl).1,
   ((readable_array_layout default_config (fun _ => []) 0
      [.object (some (1, [([97], .integer 1)]))] {}
      [[9, 123, 10, 9, 9, 34, 97, 34, 58, 32, 49, 10, 9, 125]] (by simp) rfl
      (.cons rfl .nil)).2 rfl).1⟩

/-! ## Separators of containers (C23) -/

/-- C23: a non-empty Array is printed as the texts of its elements with one comma between
consecutive texts, and a non-empty Object as the texts of its entries with one comma between
consecutive texts (followed by a newline in readable mode): a comma follows every element
except the last and nothing stands between the last element and what closes the container.
When no element text and no key holds a comma of its own, the output holds exactly n - 1
commas.  An empty or absent container is printed without a comma. -/
theorem container_separators (cfg : Config) (fmt : number_t → List char_t) (a : Nat)
    (elements : List Variant) (entries : List (string_t × Variant)) (ps : PrintSettings)
    (texts value_texts : List (List char_t))
    (ha : List.Forall₂
      (fun e x => print cfg fmt e
        (PrintSettings.mk (ps.depth + 1) ps.readable (!single_line elements)) = .ok x)
      elements texts)
    (ho : List.Forall₂
      (fun kv x => print cfg fmt kv.2 (PrintSettings.mk (ps.depth + 1) ps.readable false) = .ok x)
      entries value_texts) :
    (elements ≠ [] →
      print cfg fmt (.array (some (a, elements))) ps
          = .ok (print_lead ps ++ [91]
              ++ List.intercalate [44]
                  (texts.map (fun x =>
                    (if (ps.readable && !single_line elements) = true then [10] else []) ++ x))
              ++ (if (ps.readable && !single_line elements) = true
                  then [10] ++ print_indent ps.depth else [])
              ++ [93])
        ∧ ((∀ x ∈ texts, 44 ∉ x) →
            ∃ out, print cfg fmt (.array (some (a, elements))) ps = .ok out
              ∧ List.count 44 out = elements.length - 1))
    ∧ (entries ≠ [] →
      print cfg fmt (.object (some (a, entries))) ps
          = .ok (print_lead ps ++ [123] ++ (if ps.readable then [10] else [])
              ++ List.intercalate ([44] ++ (if ps.readable then [10] else []))
                  (List.zipWith
                    (fun kv x =>
                      entry_text (PrintSettings.mk (ps.depth + 1) ps.readable true) kv.1 x)
                    entries value_texts)
              ++ (if ps.readable then [10] ++ print_indent ps.depth else [])
              ++ [125])
        ∧ ((∀ x ∈ value_texts, 44 ∉ x) → (∀ kv ∈ entries, 44 ∉ kv.1) →
            ∃ out, print cfg fmt (.object (some (a, entries))) ps = .ok out
              ∧ List.count 44 out = entries.length - 1))
    ∧ print cfg fmt (.array (some (a, []))) ps = .ok (print_lead ps ++ [91] ++ [93])
    ∧ print cfg fmt (.array none) ps = .ok (print_lead ps ++ [91] ++ [93])
    ∧ print cfg fmt (.object (some (a, []))) ps = .ok (print_lead ps ++ [123] ++ [125])
    ∧ print cfg fmt (.object none) ps = .ok (print_lead ps ++ [123] ++ [125]) := by
  refine ⟨fun hne => ?_, fun hne => ?_, ?_, ?_, ?_, ?_⟩
  · have hp := print_array_intercalate cfg fmt a elements ps texts hne ha
    refine ⟨hp, fun hx => ⟨_, hp, ?_⟩⟩
    have hlen : texts.length = elements.length := ha.length_eq.symm
    have hc := count_intercalate_comma [] (by simp)
      (texts.map (fun x =>
        (if (ps.readable && !single_line elements) = true then [10] else []) ++ x))
      (by
        intro x hxm
        obtain ⟨y, hy, rfl⟩ := List.mem_map.mp hxm
        have := hx y hy
        split_ifs <;> simpa using this)
    rw [List.append_nil, List.length_map, hlen] at hc
    have hl := count_lead ps
    have hi := count_indent ps.depth
    simp only [List.count_append, hc, hl]
    split_ifs <;> simp [hi]
  · have hp := print_object_intercalate cfg fmt a entries ps value_texts hne ho
    refine ⟨hp, fun hx hk => ⟨_, hp, ?_⟩⟩
    have hlen : value_texts.length = entries.length := ho.length_eq.symm
    have hc := count_intercalate_comma (if ps.readable then [10] else [])
      (by split_ifs <;> simp)
      (List.zipWith
        (fun kv x => entry_text (PrintSettings.mk (ps.depth + 1) ps.readable true) kv.1 x)
        entries value_texts)
      (by
        intro x hxm
        obtain ⟨kv, hkv, y, hy, rfl⟩ := mem_zipWith_parts _ _ _ _ hxm
        exact comma_free_entry _ _ _ (hk kv hkv) (hx y hy))
    rw [List.length_zipWith, hlen, Nat.min_self] at hc
    have hl := count_lead ps
    have hi := count_indent ps.depth
    simp only [List.count_append, hc, hl]
    split_ifs <;> simp [hi]
  · rw [print]
    rfl
  · rw [print]
  · rw [print]
    rfl
  · rw [print]

/-- Witness of C23: in compact mode the array of 1, 2, 3 is printed with two commas and the
object with the members a and b with one. -/
theorem container_separators_witness :
    print default_config (fun _ => [])
        (.array (some (0, [.integer 1, .integer 2, .integer 3]))) compact
      = .ok [91, 49, 44, 50, 44, 51, 93]
    ∧ print default_config (fun _ => [])
        (.object (some (0, [([97], .integer 1), ([98], .integer 2)]))) compact
      = .ok [123, 34, 97, 34, 58, 49, 44, 34, 98, 34, 58, 50, 125] :=
  ⟨((container_separators default_config (fun _ => []) 0
      [.integer 1, .integer 2, .integer 3] [([97], .integer 1), ([98], .integer 2)] compact
      [[49], [50], [51]] [[49], [50]]
      (.cons rfl (.cons rfl (.cons rfl .nil))) (.cons rfl (.cons rfl .nil))).1 (by simp)).1,
   ((container_separators default_config (fun _ => []) 0
      [.integer 1, .integer 2, .integer 3] [([97], .integer 1), ([98], .integer 2)] compact
      [[49], [50], [51]] [[49], [50]]
      (.cons rfl (.cons rfl (.cons rfl .nil))) (.cons rfl (.cons rfl .nil))).2.1 (by simp)).1⟩

/-! ## Encoding of 2-byte and 3-byte sequences (C24) -/

/-- C24, the code at the failing input: with string processing and `encode_utf8` on, the bytes
C3 A9 (the 2-byte sequence of U+00E9) are printed as backslash, u, 0, 0, C, 3: the branch for
2-byte sequences (json.hpp 1217) takes `begin_[i]`, the lead byte, as the second byte, so the
digits are those of 0xC3 and not of 0xE9.  The branch for 3-byte sequences reads the bytes that
follow: E2 82 AC (U+20AC) is printed as backslash, u, 2, 0, A, C. -/
theorem two_byte_sequence_misencoded :
    print_string { default_config with encode_utf8 := true } (some (0, [0xC3, 0xA9])) compact
        = .ok [34, 92, 117, 48, 48, 67, 51, 34]
      ∧ standard_utf8 0xE9 = [0xC3, 0xA9]
      ∧ [hex_char 0, hex_char 0, hex_char 0xE, hex_char 9] = [48, 48, 69, 57]
      ∧ print_string { default_config with encode_utf8 := true }
          (some (0, [0xE2, 0x82, 0xAC])) compact
        = .ok [34, 92, 117, 50, 48, 65, 67, 34] := by
  decide

/-! ## The 4-byte sequences and the six-digit escape (C25) -/

/-- C25, the code at the failing input: with string processing, `encode_utf8_ext` and
`decode_utf8_ext` on, the bytes F4 80 80 80 (the 4-byte sequence of U+100000) are printed as
backslash, U, 1, 0, 0, 0, 0, 0, and that text parses to the bytes F1 80 80 80, not to the
original four: the parser shifts the first digit by 18 instead of 20 (json.hpp 1813). -/
theorem U_escape_print_parse_differs :
    print_string { default_config with encode_utf8_ext := true }
        (some (0, [0xF4, 0x80, 0x80, 0x80])) compact
        = .ok [34, 92, 85, 49, 48, 48, 48, 48, 48, 34]
      ∧ standard_utf8 0x100000 = [0xF4, 0x80, 0x80, 0x80]
      ∧ parse_string { default_config with encode_utf8_ext := true }
          [34, 92, 85, 49, 48, 48, 48, 48, 48, 34] 0 0
        = .ok (34, some (0, [0xF1, 0x80, 0x80, 0x80]), [], 1) := by
  decide

/-! ## Escapes stored undecoded (C26) -/

/-- C26: with string processing on, both encode switches off and the decoding of the
backslash-u escape off, the literal of a backslash, u and four hexadecimal digits parses to a
String that the compact printer writes as that same literal (the stored backslash is written
once); likewise, with the decoding of the backslash-U escape off, for a backslash, U and six
hexadecimal digits. -/
theorem undecoded_escape_reprinted (cfg : Config) (hps : cfg.process_string = true)
    (h1 : cfg.encode_utf8 = false) (h2 : cfg.encode_utf8_ext = false)
    (digits : List (Bool × Nat)) (hd : ∀ x ∈ digits, x.2 < 16) (heap : Nat) :
    (cfg.decode_utf8 = false → digits.length = 4 →
        ∃ s heap1,
          parse_string cfg
              (34 :: 92 :: 117 :: (digits.map (fun x => hex_digit x.1 x.2) ++ [34])) heap 0
            = .ok (34, s, [], heap1)
          ∧ print_string cfg s compact
            = .ok (34 :: 92 :: 117 :: (digits.map (fun x => hex_digit x.1 x.2) ++ [34])))
    ∧ (cfg.decode_utf8_ext = false → digits.length = 6 →
        ∃ s heap1,
          parse_string cfg
              (34 :: 92 :: 85 :: (digits.map (fun x => hex_digit x.1 x.2) ++ [34])) heap 0
            = .ok (34, s, [], heap1)
          ∧ print_string cfg s compact
            = .ok (34 :: 92 :: 85 :: (digits.map (fun x => hex_digit x.1 x.2) ++ [34]))) := by
  have hq : ∀ c ∈ digits.map (fun x => hex_digit x.1 x.2), c ≠ 34 ∧ c ≠ 92 := by
    intro c hc
    obtain ⟨x, hx, rfl⟩ := List.mem_map.mp hc
    exact (hex_digit_plain x.1 x.2 (hd x hx)).2
  have hp : ∀ c ∈ digits.map (fun x => hex_digit x.1 x.2), printed_plain c := by
    intro c hc
    obtain ⟨x, hx, rfl⟩ := List.mem_map.mp hc
    exact (hex_digit_plain x.1 x.2 (hd x hx)).1
  constructor
  · intro hdec hlen
    obtain ⟨a, heap1, hparse⟩ := parse_string_marker cfg hps 117 (Or.inl ⟨hdec, rfl⟩) _ hq [] heap
    refine ⟨_, heap1, hparse, ?_⟩
    exact print_string_marker cfg hps h1 h2 117 (Or.inl ⟨hdec, rfl⟩) a _
      (by rw [List.length_map, hlen]; norm_num) hp
  · intro hdec hlen
    obtain ⟨a, heap1, hparse⟩ := parse_string_marker cfg hps 85 (Or.inr ⟨hdec, rfl⟩) _ hq [] heap
    refine ⟨_, heap1, hparse, ?_⟩
    exact print_string_marker cfg hps h1 h2 85 (Or.inr ⟨hdec, rfl⟩) a _
      (by rw [List.length_map, hlen]; norm_num) hp

/-- Witness of C26: with the decoding of the backslash-u escape off, the literal of backslash,
u, 0, 0, E, 9 is parsed and printed back as it was. -/
theorem undecoded_escape_reprinted_witness :
    ∃ s heap1,
      parse_string { default_config with decode_utf8 := false }
          [34, 92, 117, 48, 48, 69, 57, 34] 0 0 = .ok (34, s, [], heap1)
      ∧ print_string { default_config with decode_utf8 := false } s compact
          = .ok [34, 92, 117, 48, 48, 69, 57, 34] :=
  (undecoded_escape_reprinted { default_config with decode_utf8 := false } rfl rfl rfl
    [(true, 0), (true, 0), (true, 14), (true, 9)] (by decide) 0).1 rfl rfl

/-! ## Printing a Number (C27) -/

/-- C27: printing a Number writes, after the indentation, `null` for a NaN, `9e+999` for
+infinity and `-9e+999` for -infinity, and the text of the default formatting for every finite
payload; a payload that is not finite is one of those three, and its output does not depend on
the default formatting. -/
theorem number_printing (fmt : number_t → List char_t) (x : number_t) (ps : PrintSettings)
    (hx : x < 2 ^ 64) :
    (number_is_nan x = true → print_number fmt x ps = print_lead ps ++ [110, 117, 108, 108])
    ∧ (x = inf → print_number fmt x ps = print_lead ps ++ [57, 101, 43, 57, 57, 57])
    ∧ (x = neg_inf → print_number fmt x ps = print_lead ps ++ [45, 57, 101, 43, 57, 57, 57])
    ∧ (number_is_finite x = true → print_number fmt x ps = print_lead ps ++ fmt x)
    ∧ (number_is_finite x = false →
        (number_is_nan x = true ∨ x = inf ∨ x = neg_inf)
          ∧ ∀ fmt1 : number_t → List char_t, print_number fmt1 x ps = print_number fmt x ps) := by
  refine ⟨?_, ?_, ?_, ?_, ?_⟩
  · intro h
    unfold print_number
    rw [h]
    rfl
  · rintro rfl
    rfl
  · rintro rfl
    rfl
  · intro h
    obtain ⟨h1, h2, h3⟩ := finite_not_special x h
    unfold print_number
    rw [number_eq_inf, number_eq_neg_inf, h1]
    simp [h2, h3]
  · intro h
    have hc := not_finite_cases x hx h
    refine ⟨hc, fun fmt1 => ?_⟩
    rcases hc with h1 | rfl | rfl
    · unfold print_number
      rw [h1]
      rfl
    · rfl
    · rfl

/-- Witness of C27: the bits of +infinity are a 64-bit payload; they print as `9e+999`. -/
theorem number_printing_witness :
    inf < 2 ^ 64 ∧ print_number (fun _ => [48]) inf compact = [57, 101, 43, 57, 57, 57] :=
  ⟨by decide, (number_printing (fun _ => [48]) inf compact (by decide)).2.1 rfl⟩

/-! ## Equality of String values (C28) -/

/-- C28: two String values compare equal exactly when both buffers are absent or both are
present with equal content, for owners that do not hold one address with two contents; an
absent buffer and a present empty buffer are unequal, and two separately owned buffers with the
same content are equal. -/
theorem string_equality (a b : String)
    (hheap : ∀ p x y, a = some (p, x) → b = some (p, y) → x = y) :
    (Variant.operator_eq (.string a) (.string b) = true
        ↔ (a = none ∧ b = none)
          ∨ (a.isSome = true ∧ b.isSome = true ∧ string_content a = string_content b))
    ∧ (∀ p, Variant.operator_eq (.string none) (.string (some (p, []))) = false)
    ∧ (∀ p, Variant.operator_eq (.string (some (p, []))) (.string none) = false)
    ∧ (∀ p q x, Variant.operator_eq (.string (some (p, x))) (.string (some (q, x))) = true) := by
  refine ⟨?_, fun p => rfl, fun p => rfl, fun p q x => ?_⟩
  · rcases a with _ | ⟨p, x⟩ <;> rcases b with _ | ⟨q, y⟩
    · simp [Variant.operator_eq, Variant.index, unique_ptr_eq]
    · simp [Variant.operator_eq, Variant.index, unique_ptr_eq, unique_ptr_bool]
    · simp [Variant.operator_eq, Variant.index, unique_ptr_eq, unique_ptr_bool]
    · simp only [Variant.operator_eq, Variant.index, unique_ptr_eq, unique_ptr_bool,
        string_content, ne_eq, not_true_eq_false, if_false, Option.isSome_some, Bool.and_self,
        Bool.true_and, Bool.or_eq_true, beq_iff_eq, reduceCtorEq, false_and, true_and, false_or]
      constructor
      · rintro (h | h)
        · subst h
          exact hheap p x y rfl rfl
        · exact h
      · intro h
        exact Or.inr h
  · simp [Variant.operator_eq, Variant.index, unique_ptr_eq, unique_ptr_bool, string_content]

/-- Witness of C28: the owners at addresses 1 and 2 both hold the text `a`. -/
theorem string_equality_witness :
    (∀ p x y, (some (1, [97]) : String) = some (p, x) → (some (2, [97]) : String) = some (p, y)
        → x = y)
    ∧ Variant.operator_eq (.string (some (1, [97]))) (.string (some (2, [97]))) = true :=
  ⟨fun p x y h1 h2 => (by
      cases h1
      cases h2),
    (string_equality (some (1, [97])) (some (2, [97])) (fun p x y h1 h2 => by
      cases h1
      cases h2)).1.2 (Or.inr ⟨rfl, rfl, rfl⟩)⟩

/-! ## The keyed index operator (C29) -/

/-- C29: the keyed index operator throws runtime_error for every key when the discriminant is
not Object, and for an Object it returns what indexing the mapping returns; so, as long as
indexing the mapping does not itself throw runtime_error, the operator throws runtime_error
exactly when the discriminant is not Object. -/
theorem keyed_index_type_error (entries_index : Object → string_t → Except Error Variant)
    (v : Variant) (key : string_t) :
    (v.index ≠ .object_i → Variant.operator_index entries_index v key = .error .runtime_error)
    ∧ (∀ m_entries, v = .object m_entries
        → Variant.operator_index entries_index v key = entries_index m_entries key)
    ∧ ((∀ m_entries k, entries_index m_entries k ≠ .error .runtime_error)
        → (Variant.operator_index entries_index v key = .error .runtime_error
            ↔ v.index ≠ .object_i)) := by
  refine ⟨?_, ?_, ?_⟩
  · intro h
    unfold Variant.operator_index
    rw [if_pos h]
  · rintro m rfl
    rfl
  · intro hl
    constructor
    · intro h hi
      cases v <;> simp [Variant.index] at hi
      exact hl _ _ h
    · intro h
      unfold Variant.operator_index
      rw [if_pos h]

/-- Witness of C29: with a mapping whose indexing returns null for every key, the operator
throws runtime_error on an Integer and returns null on an Object. -/
theorem keyed_index_type_error_witness :
    Variant.operator_index (fun _ _ => .ok .null) (.integer 5) [97] = .error .runtime_error
    ∧ Variant.operator_index (fun _ _ => .ok .null) (.object (some (0, []))) [97] = .ok .null :=
  ⟨((keyed_index_type_error (fun _ _ => .ok .null) (.integer 5) [97]).2.2
      (fun _ _ h => by cases h)).2 (by decide),
    (keyed_index_type_error (fun _ _ => .ok .null) (.object (some (0, []))) [97]).2.1 _ rfl⟩

/-! ## The move constructor (C30) -/

/-- C30: the value constructed by a move holds the payload and the discriminant the source
had; the discriminant of the source is the same after the move, for every kind; after a move
from a String, Array or Object the owner of the source is null; so the byte the array and the
object parser read next, chosen by `element_.index` after the move, is the one chosen by the
discriminant of the element. -/
theorem move_keeps_source_discriminant (rhs : Variant) (m_value : String) (m_elements : Array)
    (m_entries : Object) (istream : List char_t) (ch : char_t) :
    (Variant.move_construct rhs).1 = rhs
    ∧ (Variant.move_construct rhs).2.index = rhs.index
    ∧ (Variant.move_construct (.string m_value)).2 = .string none
    ∧ (Variant.move_construct (.array m_elements)).2 = .array none
    ∧ (Variant.move_construct (.object m_entries)).2 = .object none
    ∧ skip_after_value (Variant.move_construct rhs).2.index istream ch
        = skip_after_value rhs.index istream ch := by
  have hi : (Variant.move_construct rhs).2.index = rhs.index := by cases rhs <;> rfl
  refine ⟨?_, hi, rfl, rfl, rfl, ?_⟩
  · cases rhs <;> rfl
  · rw [hi]

/-! ## Lemmas: a full scratch buffer, unvalidated escape digits, a leading comma -/

theorem loop_plain_run (cfg : Config) (hps : cfg.process_string = true) (jstr : String)
    (heap : Nat) (rest : List char_t) :
    ∀ (n : Nat) (buf : List char_t), buf.length + n ≤ buffer_size_ →
      parse_string_loop cfg { jstr := jstr, buffer := buf, heap := heap } false
          (List.replicate n 97 ++ rest)
        = parse_string_loop cfg { jstr := jstr, buffer := buf ++ List.replicate n 97, heap := heap }
            false rest := by
  intro n
  induction n with
  | zero => intro buf _; simp
  | succ n ih =>
    intro buf hlen
    have hlt : buf.length < buffer_size_ := by omega
    have hrec : record_char { jstr := jstr, buffer := buf, heap := heap } false 97
        = .ok { jstr := jstr, buffer := buf ++ [97], heap := heap } := by
      simp [record_char, flush_if_ge, buffer_put, hlt, Nat.not_le.mpr hlt]
    rw [List.replicate_succ, List.cons_append,
      loop_plain_step cfg hps _ 97 _ (by decide) (by decide), hrec, except_bind_ok,
      ih (buf ++ [97]) (by simp; omega)]
    simp

theorem marker_at_1023 (st : StringLocals) (c : char_t) (h : st.buffer.length = 1023) :
    buffer_puts (flush_if_ge buffer_size_ st) [92, c] = .error .undefined_behaviour := by
  simp [buffer_puts, buffer_put, flush_if_ge, buffer_size_, h, Except.bind]

theorem pass_through_at_1017 (st : StringLocals) (h : st.buffer.length = 1017) :
    decode_U st 70 48 48 48 48 48 = .error .undefined_behaviour := by
  have hv : ((hex_value 70 <<< 18) ||| (hex_value 48 <<< 16) ||| (hex_value 48 <<< 12)
    ||| (hex_value 48 <<< 8) ||| (hex_value 48 <<< 4) ||| hex_value 48) % 2 ^ 32 = 3932160 := by
    decide
  simp only [decode_U, hv]
  simp [buffer_puts, buffer_put, flush_if_ge, buffer_size_, h, Except.bind]

theorem parse_string_open (cfg : Config) (l : List char_t) (heap : Nat) :
    parse_string cfg (34 :: l) heap 0
      = (parse_string_loop cfg { jstr := none, buffer := [], heap := heap } false l).bind
          (fun q => .ok (34, (flush_buffer q.1).jstr, q.2, (flush_buffer q.1).heap)) := by
  have hskip : _check_and_skip_spaces (34 :: l) 0 = .ok (34, l) := by
    simp [_check_and_skip_spaces, skip_loop, is_char_white_space]
  simp only [parse_string, hskip, except_bind_ok, ne_eq, not_true_eq_false, if_false]

theorem hex_value_lt (c : char_t) : hex_value c < 16 := by
  have h : ∀ n : Nat, hex_value n < 16 := by
    intro n
    by_cases a : (48 ≤ n ∧ n ≤ 57)
    · have e : hex_value n = n - 48 := if_pos a
      omega
    · by_cases b : (97 ≤ n ∧ n ≤ 102)
      · have e : hex_value n = 10 + (n - 97) := (if_neg a).trans (if_pos b)
        omega
      · by_cases d : (65 ≤ n ∧ n ≤ 70)
        · have e : hex_value n = 10 + (n - 65) := ((if_neg a).trans (if_neg b)).trans (if_pos d)
          omega
        · have e : hex_value n = 0 := ((if_neg a).trans (if_neg b)).trans (if_neg d)
          omega
  exact h c

theorem hex_value_other (c : char_t)
    (h : ¬ ((48 ≤ c ∧ c ≤ 57) ∨ (97 ≤ c ∧ c ≤ 102) ∨ (65 ≤ c ∧ c ≤ 70))) : hex_value c = 0 := by
  obtain ⟨h1, h⟩ := not_or.mp h
  obtain ⟨h2, h3⟩ := not_or.mp h
  simp only [hex_value, h1, h2, h3, if_false]

theorem decode_u_any (st : StringLocals) (hst : st.buffer.length ≤ buffer_size_)
    (u0 u1 u2 u3 : char_t) :
    ∃ st1, decode_u st u0 u1 u2 u3 = .ok st1
      ∧ st1.buffer.length ≤ buffer_size_
      ∧ accumulated st1
          = accumulated st ++ standard_utf8
              (hex_value u0 * 4096 + hex_value u1 * 256 + hex_value u2 * 16 + hex_value u3) := by
  have h0 := hex_value_lt u0
  have h1 := hex_value_lt u1
  have h2 := hex_value_lt u2
  have h3 := hex_value_lt u3
  have hv : hex_value u0 * 4096 + hex_value u1 * 256 + hex_value u2 * 16 + hex_value u3
      ≤ 0xFFFF := by omega
  generalize hvdef :
    hex_value u0 * 4096 + hex_value u1 * 256 + hex_value u2 * 16 + hex_value u3 = v at hv
  unfold decode_u standard_utf8
  simp only [code_unit_of_digits _ _ _ _ h0 h1 h2 h3, hvdef]
  by_cases c1 : v ≤ 0x7F
  · simp only [c1, if_true, utf8_one_byte v c1]
    exact flush_then_puts 0 [v] st (by decide) (by simp) hst
  · by_cases c2 : v ≤ 0x7FF
    · simp only [c1, c2, if_true, if_false, utf8_two_bytes v c2]
      exact flush_then_puts 2 _ st (by decide) (by simp) hst
    · simp only [c1, c2, hv, if_true, if_false, utf8_three_bytes v hv]
      exact flush_then_puts 3 _ st (by decide) (by simp) hst

theorem decode_U_any (st : StringLocals) (hst : st.buffer.length ≤ buffer_size_)
    (u0 u1 u2 u3 u4 u5 : char_t) (v : Nat)
    (hv : v = ((hex_value u0 <<< 18) ||| (hex_value u1 <<< 16) ||| (hex_value u2 <<< 12)
      ||| (hex_value u3 <<< 8) ||| (hex_value u4 <<< 4) ||| hex_value u5) % 2 ^ 32)
    (hroom : st.buffer.length = 1017 → v ≤ 0x10FFFF) :
    ∃ st1, decode_U st u0 u1 u2 u3 u4 u5 = .ok st1
      ∧ st1.buffer.length ≤ buffer_size_
      ∧ accumulated st1
          = accumulated st
            ++ (if v ≤ 0x10FFFF then standard_utf8 v else [92, 85, u0, u1, u2, u3, u4, u5]) := by
  unfold decode_U standard_utf8
  simp only [← hv]
  by_cases c1 : v ≤ 0x7F
  · have c4 : v ≤ 0x10FFFF := by omega
    simp only [c1, c4, if_true, utf8_one_byte v c1]
    exact flush_then_puts 0 [v] st (by decide) (by simp) hst
  · by_cases c2 : v ≤ 0x7FF
    · have c4 : v ≤ 0x10FFFF := by omega
      simp only [c1, c2, c4, if_true, if_false, utf8_two_bytes v c2]
      exact flush_then_puts 2 _ st (by decide) (by simp) hst
    · by_cases c3 : v ≤ 0xFFFF
      · have c4 : v ≤ 0x10FFFF := by omega
        simp only [c1, c2, c3, c4, if_true, if_false, utf8_three_bytes v c3]
        exact flush_then_puts 3 _ st (by decide) (by simp) hst
      · by_cases c4 : v ≤ 0x10FFFF
        · simp only [c1, c2, c3, c4, if_true, if_false, utf8_four_bytes v c4]
          exact flush_then_puts 4 _ st (by decide) (by simp) hst
        · simp only [c1, c2, c3, c4, if_false]
          have hne : st.buffer.length ≠ 1017 := fun h => c4 (hroom h)
          have hb : buffer_size_ = 1024 := rfl
          by_cases hge : st.buffer.length ≥ buffer_size_ - 6
          · have hfl : flush_if_ge (buffer_size_ - 6) st = flush_buffer st := by
              simp [flush_if_ge, hge]
            have hlen : (flush_buffer st).buffer.length
                + [92, 85, u0, u1, u2, u3, u4, u5].length ≤ buffer_size_ := by
              simp only [flush_buffer, List.length_nil, List.length_cons]; omega
            refine ⟨_, by rw [hfl, buffer_puts_ok _ _ hlen], ?_, ?_⟩
            · simpa using hlen
            · simp [accumulated, flush_buffer, string_content, string_append_copy]
          · have hfl : flush_if_ge (buffer_size_ - 6) st = st := by
              simp [flush_if_ge, hge]
            have hlen : st.buffer.length + [92, 85, u0, u1, u2, u3, u4, u5].length
                ≤ buffer_size_ := by
              simp only [List.length_nil, List.length_cons]; omega
            refine ⟨_, by rw [hfl, buffer_puts_ok _ _ hlen], ?_, ?_⟩
            · simpa using hlen
            · simp [accumulated]

theorem skip_spaces_result_plain (T : List Nat) (c : Nat) (r : List Nat)
    (hskip : _skip_spaces T = .ok (c, r)) : is_char_white_space c = false := by
  have hne := skip_spaces_ne_nil T c r hskip
  rw [skip_spaces_eq T hne] at hskip
  exact (skip_loop_found T 0 c r hne hskip).1

theorem check_open (o : Nat) (X : List Nat) (ho : o = 91 ∨ o = 123) :
    _check_and_skip_spaces (o :: X) 0 = .ok (o, X) := by
  rcases ho with h | h <;> subst h <;>
    simp [_check_and_skip_spaces, skip_loop, is_char_white_space]

theorem skip_spaces_comma (T : List Nat) : _skip_spaces (44 :: T) = .ok (44, T) := by
  simp [_skip_spaces, skip_loop, is_char_white_space]

theorem array_loop_comma (cfg : Config) (atof : List char_t → number_t) (fuel : Nat)
    (rhs : Array) (ft : Bool) (T : List Nat) (c : Nat) (r : List Nat) (heap : Nat)
    (hskip : _skip_spaces T = .ok (c, r)) (h0 : c ≠ 0) (h44 : c ≠ 44) :
    parse_array_loop cfg atof fuel rhs ft 44 T heap
      = parse_array_loop cfg atof fuel rhs ft c r heap := by
  have hw := skip_spaces_result_plain T c r hskip
  cases fuel with
  | zero => rw [parse_array_loop, parse_array_loop]
  | succ fuel =>
    rw [parse_array_loop, parse_array_loop, if_pos rfl, hskip, if_neg h44, check_plain r c h0 hw]

theorem object_loop_comma (cfg : Config) (atof : List char_t → number_t) (fuel : Nat)
    (rhs : Object) (ft : Bool) (T : List Nat) (c : Nat) (r : List Nat) (heap : Nat)
    (hskip : _skip_spaces T = .ok (c, r)) (h0 : c ≠ 0) (h44 : c ≠ 44) :
    parse_object_loop cfg atof fuel rhs ft 44 T heap
      = parse_object_loop cfg atof fuel rhs ft c r heap := by
  have hw := skip_spaces_result_plain T c r hskip
  cases fuel with
  | zero => rw [parse_object_loop, parse_object_loop]
  | succ fuel =>
    rw [parse_object_loop, parse_object_loop, if_pos rfl, hskip, if_neg h44,
      check_plain r c h0 hw]

theorem array_comma (cfg : Config) (atof : List char_t → number_t) (fuel : Nat)
    (T : List Nat) (c : Nat) (r : List Nat) (heap : Nat)
    (hskip : _skip_spaces T = .ok (c, r)) (h0 : c ≠ 0) (h44 : c ≠ 44) (h93 : c ≠ 93) :
    parse_array cfg atof fuel (44 :: T) heap 91 = parse_array cfg atof fuel T heap 91 := by
  cases fuel with
  | zero => rw [parse_array, parse_array]
  | succ fuel =>
    rw [parse_array, parse_array, check_plain _ 91 (by decide) (by decide),
      check_plain _ 91 (by decide) (by decide), except_bind_ok, except_bind_ok]
    simp only [ne_eq, not_true_eq_false, if_false]
    rw [skip_spaces_comma, hskip, except_bind_ok, except_bind_ok]
    simp only [h93, if_false, show ¬ ((44 : Nat) = 93) by decide]
    rw [array_loop_comma cfg atof fuel none true T c r heap hskip h0 h44]

theorem object_comma (cfg : Config) (atof : List char_t → number_t) (fuel : Nat)
    (T : List Nat) (c : Nat) (r : List Nat) (heap : Nat)
    (hskip : _skip_spaces T = .ok (c, r)) (h0 : c ≠ 0) (h44 : c ≠ 44) (h125 : c ≠ 125) :
    parse_object cfg atof fuel (44 :: T) heap 123 = parse_object cfg atof fuel T heap 123 := by
  cases fuel with
  | zero => rw [parse_object, parse_object]
  | succ fuel =>
    rw [parse_object, parse_object, check_plain _ 123 (by decide) (by decide),
      check_plain _ 123 (by decide) (by decide), except_bind_ok, except_bind_ok]
    simp only [ne_eq, not_true_eq_false, if_false]
    rw [skip_spaces_comma, hskip, except_bind_ok, except_bind_ok]
    simp only [h125, if_false, show ¬ ((44 : Nat) = 125) by decide]
    rw [object_loop_comma cfg atof fuel none true T c r heap hskip h0 h44]

theorem variant_array_comma (cfg : Config) (atof : List char_t → number_t) (fuel : Nat)
    (T : List Nat) (c : Nat) (r : List Nat) (heap : Nat)
    (hskip : _skip_spaces T = .ok (c, r)) (h0 : c ≠ 0) (h44 : c ≠ 44) (h93 : c ≠ 93) :
    parse_variant cfg atof fuel (91 :: 44 :: T) heap 0
      = parse_variant cfg atof fuel (91 :: T) heap 0 := by
  cases fuel with
  | zero => rw [parse_variant, parse_variant]
  | succ fuel =>
    rw [parse_variant, parse_variant, check_open 91 _ (Or.inl rfl),
      check_open 91 _ (Or.inl rfl), except_bind_ok, except_bind_ok]
    simp [array_comma cfg atof fuel T c r heap hskip h0 h44 h93]

theorem variant_object_comma (cfg : Config) (atof : List char_t → number_t) (fuel : Nat)
    (T : List Nat) (c : Nat) (r : List Nat) (heap : Nat)
    (hskip : _skip_spaces T = .ok (c, r)) (h0 : c ≠ 0) (h44 : c ≠ 44) (h125 : c ≠ 125) :
    parse_variant cfg atof fuel (123 :: 44 :: T) heap 0
      = parse_variant cfg atof fuel (123 :: T) heap 0 := by
  cases fuel with
  | zero => rw [parse_variant, parse_variant]
  | succ fuel =>
    rw [parse_variant, parse_variant, check_open 123 _ (Or.inr rfl),
      check_open 123 _ (Or.inr rfl), except_bind_ok, except_bind_ok]
    simp [object_comma cfg atof fuel T c r heap hskip h0 h44 h125]

/-! ## The bands of the hash (C31) -/

/-- C31, the code at the failing input: the Integer band starts at 4 and the Number band at
the partition size 63, not at 63 + 4, so the indices 63 to 66 belong to both: with hashes that
return the value itself, the Integer 59 and the Number whose bits are 0 both get the bucket 63.
For all hashes, every index is below 256, the indices of Invalid, Null and Boolean are 0, 1 and
2 or 3, and the bands are 4 to 66 for Integer, 63 to 125 for Number, 126 to 188 for String,
189 to 219 for Array and 220 to 250 for Object. -/
theorem integer_and_number_bands_overlap :
    hash (fun n => n.toNat) (fun x => x) (fun _ => 0) (fun p => p) 0 (.integer 59) = 63
    ∧ hash (fun n => n.toNat) (fun x => x) (fun _ => 0) (fun p => p) 0 (.number 0) = 63
    ∧ ∀ (hash_integer : integer_t → Nat) (hash_uint64 : Nat → Nat) (hash_string : string_t → Nat)
        (hash_pointer : Nat → Nat) (self : Nat) (var : Variant),
        hash hash_integer hash_uint64 hash_string hash_pointer self var < hash_table_size_
        ∧ (match var with
          | .invalid => hash hash_integer hash_uint64 hash_string hash_pointer self var = 0
          | .null => hash hash_integer hash_uint64 hash_string hash_pointer self var = 1
          | .boolean b =>
            hash hash_integer hash_uint64 hash_string hash_pointer self var = if b then 3 else 2
          | .integer _ =>
            4 ≤ hash hash_integer hash_uint64 hash_string hash_pointer self var
              ∧ hash hash_integer hash_uint64 hash_string hash_pointer self var ≤ 66
          | .number _ =>
            63 ≤ hash hash_integer hash_uint64 hash_string hash_pointer self var
              ∧ hash hash_integer hash_uint64 hash_string hash_pointer self var ≤ 125
          | .string _ =>
            126 ≤ hash hash_integer hash_uint64 hash_string hash_pointer self var
              ∧ hash hash_integer hash_uint64 hash_string hash_pointer self var ≤ 188
          | .array _ =>
            189 ≤ hash hash_integer hash_uint64 hash_string hash_pointer self var
              ∧ hash hash_integer hash_uint64 hash_string hash_pointer self var ≤ 219
          | .object _ =>
            220 ≤ hash hash_integer hash_uint64 hash_string hash_pointer self var
              ∧ hash hash_integer hash_uint64 hash_string hash_pointer self var ≤ 250) := by
  refine ⟨rfl, rfl, ?_⟩
  intro hi hu hs hp self var
  cases var with
  | invalid => exact ⟨by simp [hash, hash_table_size_], rfl⟩
  | null => exact ⟨by simp [hash, hash_table_size_], rfl⟩
  | boolean b => cases b <;> exact ⟨by simp [hash, hash_table_size_], rfl⟩
  | integer n =>
    have h := Nat.mod_lt (hi n) (show 0 < 63 by norm_num)
    simp only [hash, hash_table_size_]
    norm_num
    omega
  | number x =>
    have h := Nat.mod_lt (hu x) (show 0 < 63 by norm_num)
    simp only [hash, hash_table_size_]
    norm_num
    omega
  | string s =>
    simp only [hash, hash_table_size_]
    norm_num
    omega
  | array a =>
    simp only [hash, hash_table_size_]
    norm_num
    omega
  | object o =>
    simp only [hash, hash_table_size_]
    norm_num
    omega

/-! ## Writes into the scratch buffer (C32) -/

/-- C32, the code at the failing inputs: the copy of a two-character marker with decoding off
is guarded by `i >= buffer_size_` like the write of one byte, and the copy of an eight-character
`\U` escape is guarded by `i >= buffer_size_ - 6`.  With `\u` decoding off, a literal of 1023
letters a followed by \u00e9 writes the `u` at index 1024; with the initial switches, a literal
of 1017 letters a followed by \UF00000 writes its last character at index 1024.  This holds at
every state with 1023, respectively 1017, bytes in the scratch buffer. -/
theorem scratch_buffer_written_past_end :
    (∀ heap : Nat,
      parse_string { default_config with decode_utf8 := false }
          (34 :: (List.replicate 1023 97 ++ [92, 117, 48, 48, 101, 57, 34])) heap 0
        = .error .undefined_behaviour)
    ∧ (∀ heap : Nat,
      parse_string default_config
          (34 :: (List.replicate 1017 97 ++ [92, 85, 70, 48, 48, 48, 48, 48, 34])) heap 0
        = .error .undefined_behaviour)
    ∧ (∀ (st : StringLocals) (c : char_t), st.buffer.length = 1023 →
        buffer_puts (flush_if_ge buffer_size_ st) [92, c] = .error .undefined_behaviour)
    ∧ ∀ st : StringLocals, st.buffer.length = 1017 →
        decode_U st 70 48 48 48 48 48 = .error .undefined_behaviour := by
  refine ⟨?_, ?_, marker_at_1023, pass_through_at_1017⟩
  · intro heap
    rw [parse_string_open,
      loop_plain_run { default_config with decode_utf8 := false } rfl none heap
        [92, 117, 48, 48, 101, 57, 34] 1023 [] (by simp [buffer_size_]),
      loop_backslash_step _ rfl, loop_u_literal_step _ rfl rfl,
      marker_at_1023 _ 117 (by
        show ([] ++ List.replicate 1023 97 : List char_t).length = 1023
        rw [List.nil_append, List.length_replicate])]
    rfl
  · intro heap
    rw [parse_string_open,
      loop_plain_run default_config rfl none heap
        [92, 85, 70, 48, 48, 48, 48, 48, 34] 1017 [] (by simp [buffer_size_]),
      loop_backslash_step _ rfl, loop_U_step _ rfl rfl,
      pass_through_at_1017 _ (by
        show ([] ++ List.replicate 1017 97 : List char_t).length = 1017
        rw [List.nil_append, List.length_replicate])]
    rfl

/-! ## The index operator of Array (C33) -/

/-- C33, the code at the failing input: the loop that should walk to position `index` never
changes `index`, so for the Array [10, 20] and the index 1 the iterator runs to the end of the
sequence and the element 20 is not returned: the result is the dereference of an end iterator.
The same holds for every index between 1 and n - 1; the index 0 gives the first element, an
index from n on raises index-out-of-bounds, and an absent sequence raises null-pointer. -/
theorem index_loop_never_counts :
    Array.operator_index (some (0, [.integer 10, .integer 20])) 1 = .error .undefined_behaviour
    ∧ (∀ (p : Nat) (elements_ : List Variant) (i : Nat), 0 < i → i < elements_.length →
        Array.operator_index (some (p, elements_)) i = .error .undefined_behaviour)
    ∧ (∀ (p : Nat) (x : Variant) (xs : List Variant),
        Array.operator_index (some (p, x :: xs)) 0 = .ok x)
    ∧ (∀ (p : Nat) (elements_ : List Variant) (i : Nat), elements_.length ≤ i →
        Array.operator_index (some (p, elements_)) i = .error .index_out_of_bounds)
    ∧ ∀ i : Nat, Array.operator_index none i = .error .null_pointer := by
  have hloop : ∀ (i : Nat) (l : List Variant), 0 < i → index_loop i l = [] := by
    intro i l hi
    induction l with
    | nil => rfl
    | cons x xs ih => simp only [index_loop, gt_iff_lt, hi, if_true, ih]
  refine ⟨?_, ?_, ?_, ?_, ?_⟩
  · simp [Array.operator_index, index_loop]
  · intro p elements_ i h0 hlt
    simp only [Array.operator_index, ge_iff_le, Nat.not_le.mpr hlt, if_false, hloop i _ h0]
  · intro p x xs
    simp [Array.operator_index, index_loop]
  · intro p elements_ i hle
    simp only [Array.operator_index, ge_iff_le, hle, if_true]
  · intro i
    rfl

/-! ## Inequality of Values (C34) -/

/-- C34, the code at the failing input: for two String values that own distinct buffers with
the same content "a", `operator==` returns true and `operator!=` returns true as well, because
its first test is the inequality of the two owners.  For two Strings that own buffers at
distinct addresses `operator!=` always returns true, while `operator==` compares the contents;
for every other pair of Values `operator!=` returns the negation of `operator==`. -/
theorem string_ne_not_negation_of_eq :
    (Variant.operator_eq (.string (some (1, [97]))) (.string (some (2, [97]))) = true
      ∧ Variant.operator_ne (.string (some (1, [97]))) (.string (some (2, [97]))) = true)
    ∧ (∀ (p q : Nat) (s t : string_t), p ≠ q →
        Variant.operator_ne (.string (some (p, s))) (.string (some (q, t))) = true
          ∧ Variant.operator_eq (.string (some (p, s))) (.string (some (q, t))) = (s == t))
    ∧ ∀ a b : Variant,
        (∀ (p q : Nat) (s t : string_t),
          a = .string (some (p, s)) → b = .string (some (q, t)) → False) →
        Variant.operator_ne a b = !Variant.operator_eq a b := by
  refine ⟨⟨by decide, by decide⟩, ?_, ?_⟩
  · intro p q s t hpq
    simp [Variant.operator_ne, Variant.operator_eq, Variant.index, unique_ptr_ne,
      unique_ptr_eq, unique_ptr_bool, string_content, hpq]
  · intro a b hab
    cases a <;> cases b <;>
      simp [Variant.operator_ne, Variant.operator_eq, Variant.index, unique_ptr_ne]
    any_goals rfl
    case string.string x y =>
      rcases x with _ | ⟨p, s⟩ <;> rcases y with _ | ⟨q, t⟩ <;>
        simp [unique_ptr_eq, unique_ptr_bool, string_content]
      exact (hab p q s t rfl rfl).elim

/-! ## Keys in the entry printer (C35) -/

/-- C35, the code at the failing input: the entry printer writes the key between two quotes
as it is.  The Object with the one key a"b (a quote in the middle) and the value 1 prints
compactly as {"a"b":1}; the string parser reads the key text "a"b" as the key a and leaves b"
unread, and the printed Object is rejected by the parser; the same bytes as a String value are
printed escaped, as "a\"b". -/
theorem entry_key_written_raw :
    print default_config (fun _ => []) (.object (some (0, [([97, 34, 98], .integer 1)]))) compact
        = .ok [123, 34, 97, 34, 98, 34, 58, 49, 125]
      ∧ parse_string default_config [34, 97, 34, 98, 34] 0 0
        = .ok (34, some (0, [97]), [98, 34], 1)
      ∧ (parse default_config (fun _ => 0) [123, 34, 97, 34, 98, 34, 58, 49, 125] 0).toOption.isSome
        = false
      ∧ print default_config (fun _ => []) (.string (some (0, [97, 34, 98]))) compact
        = .ok [34, 97, 92, 34, 98, 34] := by
  decide

/-! ## Look-ahead reads of the string printer (C36) -/

/-- C36, the code at the failing input: with the encode switches on, the content of the one
byte F0 passes the test `i < length_ - 3`, because 1 - 3 wraps around in unsigned arithmetic,
and the bytes at the positions 1, 2 and 3 are read past the end of the content.  The same
happens for the one byte E0 with the test `i < length_ - 2`, and for the two bytes 41 F0.  The
two bytes 41 E0, the one byte C3 and the three bytes 41 42 F0 are printed without such a
read. -/
theorem lookahead_guard_wraps :
    print_string { default_config with encode_utf8_ext := true } (some (0, [0xF0])) compact
        = .error .undefined_behaviour
      ∧ size_sub 1 3 = 2 ^ 64 - 2
      ∧ print_string { default_config with encode_utf8 := true } (some (0, [0xE0])) compact
        = .error .undefined_behaviour
      ∧ print_string { default_config with encode_utf8_ext := true } (some (0, [0x41, 0xF0]))
          compact
        = .error .undefined_behaviour
      ∧ print_string { default_config with encode_utf8 := true } (some (0, [0x41, 0xE0])) compact
        = .ok [34, 0x41, 0xE0, 34]
      ∧ print_string { default_config with encode_utf8 := true } (some (0, [0xC3])) compact
        = .ok [34, 0xC3, 34]
      ∧ print_string { default_config with encode_utf8 := true, encode_utf8_ext := true }
          (some (0, [0x41, 0x42, 0xF0])) compact
        = .ok [34, 0x41, 0x42, 0xF0, 34] := by
  decide

/-! ## String parsing without processing (C37) -/

/-- C37, the code at the failing input: with string processing off, the backslash in "a\nb"
sets the escape flag and the letters after it do not clear it, so the closing quote is stored
as content and the literal does not end there: alone the text is rejected at the end of the
stream, and followed by ,"c" the literal ends at the next quote with the content a\nb", .  A
quote or a backslash right after the backslash clears the flag, as in "a\"b" and "a\\". -/
theorem raw_escape_flag_stays_set :
    parse_string { default_config with process_string := false } [34, 97, 92, 110, 98, 34] 0 0
        = .error .runtime_error
      ∧ parse_string { default_config with process_string := false }
          [34, 97, 92, 110, 98, 34, 44, 34, 99, 34] 0 0
        = .ok (34, some (0, [97, 92, 110, 98, 34, 44]), [99, 34], 1)
      ∧ parse_string { default_config with process_string := false } [34, 97, 92, 34, 98, 34] 0 0
        = .ok (34, some (0, [97, 92, 34, 98]), [], 1)
      ∧ parse_string { default_config with process_string := false } [34, 97, 92, 92, 34] 0 0
        = .ok (34, some (0, [97, 92, 92]), [], 1) := by
  exact ⟨by decide, by decide, by decide, by decide⟩

/-! ## Characters after the escape markers (C38) -/

/-- C38: with string processing on, the characters after `\u` and `\U` are not validated.
`hex_value` gives 0 for every character that is not a hex digit.  With `\u` decoding on, for
any four characters the escape is accepted at every position of a literal and adds the UTF-8
bytes of the value built from the `hex_value` of each character, so the literal made of the one
escape parses to those bytes.  With `\U` decoding on, for any six characters the escape is
accepted and adds the UTF-8 bytes of the value the code builds from the six `hex_value`
results when that value is at most 0x10FFFF, and the eight characters of the escape
otherwise, at every position except, for a value above 0x10FFFF, the one where the scratch
buffer holds exactly 1017 bytes. -/
theorem escape_digits_not_validated (cfg : Config) (hps : cfg.process_string = true)
    (u0 u1 u2 u3 u4 u5 : char_t) :
    (∀ c : char_t, ¬ ((48 ≤ c ∧ c ≤ 57) ∨ (97 ≤ c ∧ c ≤ 102) ∨ (65 ≤ c ∧ c ≤ 70)) →
        hex_value c = 0)
    ∧ (cfg.decode_utf8 = true →
        (∀ (st : StringLocals) (rest : List char_t), st.buffer.length ≤ buffer_size_ →
          ∃ st1 : StringLocals, st1.buffer.length ≤ buffer_size_
            ∧ accumulated st1 = accumulated st ++ standard_utf8
                (hex_value u0 * 4096 + hex_value u1 * 256 + hex_value u2 * 16 + hex_value u3)
            ∧ parse_string_loop cfg st false (92 :: 117 :: u0 :: u1 :: u2 :: u3 :: rest)
                = parse_string_loop cfg st1 false rest)
        ∧ ∀ (rest : List char_t) (heap : Nat), ∃ a heap1,
            parse_string cfg (34 :: 92 :: 117 :: u0 :: u1 :: u2 :: u3 :: 34 :: rest) heap 0
              = .ok (34, some (a, standard_utf8
                  (hex_value u0 * 4096 + hex_value u1 * 256 + hex_value u2 * 16 + hex_value u3)),
                  rest, heap1))
    ∧ (cfg.decode_utf8_ext = true →
        ∀ (st : StringLocals) (rest : List char_t) (v : Nat),
          v = ((hex_value u0 <<< 18) ||| (hex_value u1 <<< 16) ||| (hex_value u2 <<< 12)
            ||| (hex_value u3 <<< 8) ||| (hex_value u4 <<< 4) ||| hex_value u5) % 2 ^ 32 →
          st.buffer.length ≤ buffer_size_ → (st.buffer.length = 1017 → v ≤ 0x10FFFF) →
          ∃ st1 : StringLocals, st1.buffer.length ≤ buffer_size_
            ∧ accumulated st1 = accumulated st
                ++ (if v ≤ 0x10FFFF then standard_utf8 v else [92, 85, u0, u1, u2, u3, u4, u5])
            ∧ parse_string_loop cfg st false
                  (92 :: 85 :: u0 :: u1 :: u2 :: u3 :: u4 :: u5 :: rest)
                = parse_string_loop cfg st1 false rest) := by
  refine ⟨hex_value_other, ?_, ?_⟩
  · intro hd
    have hdec : Decodes cfg [92, 117, u0, u1, u2, u3] (standard_utf8
        (hex_value u0 * 4096 + hex_value u1 * 256 + hex_value u2 * 16 + hex_value u3)) :=
      decodes_of_step cfg _ _ (fun st => decode_u st u0 u1 u2 u3)
        (fun st rest => by
          show parse_string_loop cfg st false (92 :: 117 :: _ :: _ :: _ :: _ :: rest) = _
          rw [loop_backslash_step cfg hps, loop_u_step cfg hps hd])
        (fun st hst => decode_u_any st hst u0 u1 u2 u3)
    refine ⟨fun st rest hst => hdec st rest hst, ?_⟩
    intro rest heap
    exact parse_string_of_decodes cfg hps _ _ rest heap hdec
  · intro hd st rest v hv hst hroom
    obtain ⟨st1, h1, h2, h3⟩ := decode_U_any st hst u0 u1 u2 u3 u4 u5 v hv hroom
    refine ⟨st1, h2, h3, ?_⟩
    rw [loop_backslash_step cfg hps, loop_U_step cfg hps hd, h1]
    rfl

/-- Witness of C38: the literal "\uZZZZ" parses to the single byte 0. -/
theorem escape_digits_not_validated_witness :
    default_config.process_string = true ∧ default_config.decode_utf8 = true
      ∧ ∃ a heap1, parse_string default_config [34, 92, 117, 90, 90, 90, 90, 34] 0 0
          = .ok (34, some (a, [0]), [], heap1) :=
  ⟨rfl, rfl,
    ((escape_digits_not_validated default_config rfl 90 90 90 90 0 0).2.1 rfl).2 [] 0⟩

/-! ## A comma after the opening bracket (C39) -/

/-- C39: a comma right after the opening bracket or brace is skipped.  Let T be the text that
follows the opening bracket and let its first character after optional white space be neither
NUL nor a comma: when that character is not the closing bracket and `[` T parses, then `[,` T
parses to the same result (the same Array, the same rest of the stream, the same
allocations); when it is not the closing brace and `{` T parses, then `{,` T parses to the
same result. -/
theorem leading_comma_skipped (cfg : Config) (atof : List char_t → number_t)
    (T : List char_t) (c : char_t) (r : List char_t) (heap : Nat)
    (hskip : _skip_spaces T = .ok (c, r)) (h0 : c ≠ 0) (h44 : c ≠ 44) :
    (c ≠ 93 → ∀ res, parse cfg atof (91 :: T) heap = .ok res →
        parse cfg atof (91 :: 44 :: T) heap = .ok res)
    ∧ (c ≠ 125 → ∀ res, parse cfg atof (123 :: T) heap = .ok res →
        parse cfg atof (123 :: 44 :: T) heap = .ok res) := by
  constructor
  · intro h93 res h
    unfold parse at h ⊢
    have e : 3 * (91 :: 44 :: T).length + 4 = (3 * (91 :: T).length + 4) + 3 := by
      simp only [List.length_cons]; omega
    rw [e, variant_array_comma cfg atof _ T c r heap hskip h0 h44 h93]
    exact fuel_add cfg atof 3 _ _ heap 0 res h
  · intro h125 res h
    unfold parse at h ⊢
    have e : 3 * (123 :: 44 :: T).length + 4 = (3 * (123 :: T).length + 4) + 3 := by
      simp only [List.length_cons]; omega
    rw [e, variant_object_comma cfg atof _ T c r heap hskip h0 h44 h125]
    exact fuel_add cfg atof 3 _ _ heap 0 res h

/-- Witness of C39: the texts [,1,true] and {,"a":1} parse to the Array [1, true] and to the
Object with the one key a. -/
theorem leading_comma_skipped_witness :
    parse default_config (fun _ => 0) [91, 44, 49, 44, 116, 114, 117, 101, 93] 0
        = .ok (93, .array (some (0, [.integer 1, .boolean true])), [], 1)
      ∧ parse default_config (fun _ => 0) [123, 44, 34, 97, 34, 58, 49, 125] 0
        = .ok (125, .object (some (1, [([97], .integer 1)])), [], 2) :=
  ⟨(leading_comma_skipped default_config (fun _ => 0) [49, 44, 116, 114, 117, 101, 93] 49
      [44, 116, 114, 117, 101, 93] 0 rfl (by decide) (by decide)).1 (by decide) _ rfl,
    (leading_comma_skipped default_config (fun _ => 0) [34, 97, 34, 58, 49, 125] 34
      [97, 34, 58, 49, 125] 0 rfl (by decide) (by decide)).2 (by decide) _ rfl⟩

/-! ## The typed getters of Object (C40) -/

/-- C40, the code at the failing input: for an Object whose key "k" maps to a String with no
buffer, `get_string` reads the payload through the null owner and returns nothing defined.
In every other case the six getters return true with the payload (for an Array or Object
payload, its copy) in the destination when the key maps to a Value of their kind, true with
the destination unchanged when it maps to Null, and false with the destination unchanged when
the mapping is absent, the key is missing or the Value has another kind. -/
theorem get_string_reads_null_owner :
    Object.get_string (some (0, [([107], .string none)])) [107] [120]
      = .error .undefined_behaviour
    ∧ (∀ (rhs : Object) (key : string_t) (d : Bool),
        (∀ b, stored rhs key = some (.boolean b) → Object.get_boolean rhs key d = (true, b))
        ∧ (stored rhs key = some .null → Object.get_boolean rhs key d = (true, d))
        ∧ ((∀ b, stored rhs key ≠ some (.boolean b)) → stored rhs key ≠ some .null →
            Object.get_boolean rhs key d = (false, d)))
    ∧ (∀ (rhs : Object) (key : string_t) (d : integer_t),
        (∀ n, stored rhs key = some (.integer n) → Object.get_integer rhs key d = (true, n))
        ∧ (stored rhs key = some .null → Object.get_integer rhs key d = (true, d))
        ∧ ((∀ n, stored rhs key ≠ some (.integer n)) → stored rhs key ≠ some .null →
            Object.get_integer rhs key d = (false, d)))
    ∧ (∀ (rhs : Object) (key : string_t) (d : number_t),
        (∀ x, stored rhs key = some (.number x) → Object.get_number rhs key d = (true, x))
        ∧ (stored rhs key = some .null → Object.get_number rhs key d = (true, d))
        ∧ ((∀ x, stored rhs key ≠ some (.number x)) → stored rhs key ≠ some .null →
            Object.get_number rhs key d = (false, d)))
    ∧ (∀ (rhs : Object) (key : string_t) (d : string_t),
        (∀ p s, stored rhs key = some (.string (some (p, s))) →
            Object.get_string rhs key d = .ok (true, s))
        ∧ (stored rhs key = some (.string none) →
            Object.get_string rhs key d = .error .undefined_behaviour)
        ∧ (stored rhs key = some .null → Object.get_string rhs key d = .ok (true, d))
        ∧ ((∀ s, stored rhs key ≠ some (.string s)) → stored rhs key ≠ some .null →
            Object.get_string rhs key d = .ok (false, d)))
    ∧ (∀ (copy_container : List Variant → List Variant) (heap : Nat) (rhs : Object)
        (key : string_t) (d : Array),
        (∀ a, stored rhs key = some (.array a) →
            Object.get_array copy_container heap rhs key d
              = (true, owner_copy copy_container heap a))
        ∧ (stored rhs key = some .null →
            Object.get_array copy_container heap rhs key d = (true, d))
        ∧ ((∀ a, stored rhs key ≠ some (.array a)) → stored rhs key ≠ some .null →
            Object.get_array copy_container heap rhs key d = (false, d)))
    ∧ ∀ (copy_container : List (string_t × Variant) → List (string_t × Variant)) (heap : Nat)
        (rhs : Object) (key : string_t) (d : Object),
        (∀ o, stored rhs key = some (.object o) →
            Object.get_object copy_container heap rhs key d
              = (true, owner_copy copy_container heap o))
        ∧ (stored rhs key = some .null →
            Object.get_object copy_container heap rhs key d = (true, d))
        ∧ ((∀ o, stored rhs key ≠ some (.object o)) → stored rhs key ≠ some .null →
            Object.get_object copy_container heap rhs key d = (false, d)) := by
  refine ⟨by decide, ?_, ?_, ?_, ?_, ?_, ?_⟩
  · intro rhs key d
    rcases rhs with _ | ⟨a, entries⟩
    · simp [stored, Object.get_boolean]
    · simp only [stored, Object.get_boolean]
      rcases position_of entries key with _ | var
      · simp
      · cases var <;> simp
  · intro rhs key d
    rcases rhs with _ | ⟨a, entries⟩
    · simp [stored, Object.get_integer]
    · simp only [stored, Object.get_integer]
      rcases position_of entries key with _ | var
      · simp
      · cases var <;> simp
  · intro rhs key d
    rcases rhs with _ | ⟨a, entries⟩
    · simp [stored, Object.get_number]
    · simp only [stored, Object.get_number]
      rcases position_of entries key with _ | var
      · simp
      · cases var <;> simp
  · intro rhs key d
    rcases rhs with _ | ⟨a, entries⟩
    · simp [stored, Object.get_string]
    · simp only [stored, Object.get_string]
      rcases position_of entries key with _ | var
      · simp
      · cases var with
        | string s => rcases s with _ | ⟨p, s⟩ <;> simp
        | _ => simp
  · intro cc heap rhs key d
    rcases rhs with _ | ⟨a, entries⟩
    · simp [stored, Object.get_array]
    · simp only [stored, Object.get_array]
      rcases position_of entries key with _ | var
      · simp
      · cases var <;> simp
  · intro cc heap rhs key d
    rcases rhs with _ | ⟨a, entries⟩
    · simp [stored, Object.get_object]
    · simp only [stored, Object.get_object]
      rcases position_of entries key with _ | var
      · simp
      · cases var <;> simp

/-! ## Lemmas: the token and the buffer, decimal texts of Numbers -/

theorem numeric_char_of_dispatch (c : Nat)
    (h : c = 46 ∨ (c = 45 ∨ c = 43) ∨ (c = 101 ∨ c = 69) ∨ (48 ≤ c ∧ c ≤ 57)) :
    numeric_char c = true := by
  simp only [numeric_char, Bool.or_eq_true, beq_iff_eq, Bool.and_eq_true, decide_eq_true_eq]
  omega

theorem terminator_not_numeric (c : Nat)
    (h : c = 44 ∨ c = 93 ∨ c = 125 ∨ c = 32 ∨ c = 10 ∨ c = 13 ∨ c = 9 ∨ c = 11 ∨ c = 12) :
    numeric_char c = false := by
  rcases h with h | h | h | h | h | h | h | h | h <;> subst h <;> decide

/-- The state at `end_loop` with the reason for leaving the loop: the buffer holds token
characters only, and the loop ended at the end of the stream, at a character that is not a
token character, or with a full buffer. -/
theorem numeric_loop_reason : ∀ (input buf : List Nat) (ch : Nat) (st : NumericLocals)
    (ch1 : Nat) (rest : List Nat), buf.length ≤ 64 →
    parse_numeric_loop (flags_of buf) ch input = .ok (st, ch1, rest) →
    ∃ tok : List Nat, st = flags_of (buf ++ tok) ∧ (buf ++ tok).length ≤ 64
      ∧ (∀ x ∈ tok, numeric_char x = true)
      ∧ ((input = tok ∧ rest = [])
        ∨ (input = tok ++ ch1 :: rest
            ∧ (numeric_char ch1 = false ∨ (buf ++ tok).length = 64))) := by
  intro input
  induction input with
  | nil =>
    intro buf ch st ch1 rest hlen h
    simp only [parse_numeric_loop, Except.ok.injEq, Prod.mk.injEq] at h
    exact ⟨[], by simp [h.1.symm], by simpa using hlen, by simp, Or.inl ⟨rfl, h.2.2.symm⟩⟩
  | cons c input ih =>
    intro buf ch st ch1 rest hlen h
    by_cases hlt : buf.length < 64
    · rw [numeric_step buf hlt] at h
      have hrec : numeric_char c = true →
          parse_numeric_loop (flags_of (buf ++ [c])) c input = .ok (st, ch1, rest) →
          ∃ tok : List Nat, st = flags_of (buf ++ tok) ∧ (buf ++ tok).length ≤ 64
            ∧ (∀ x ∈ tok, numeric_char x = true)
            ∧ ((c :: input = tok ∧ rest = [])
              ∨ (c :: input = tok ++ ch1 :: rest
                  ∧ (numeric_char ch1 = false ∨ (buf ++ tok).length = 64))) := by
        intro hc h1
        obtain ⟨tok, e1, e2, e3, e4⟩ := ih (buf ++ [c]) c st ch1 rest
          (by simp only [List.length_append, List.length_singleton]; omega) h1
        refine ⟨c :: tok, by simpa using e1, by simpa using e2, ?_, ?_⟩
        · intro x hx
          rcases List.mem_cons.mp hx with rfl | hx
          · exact hc
          · exact e3 x hx
        · rcases e4 with ⟨e4, e5⟩ | ⟨e4, e5⟩
          · exact Or.inl ⟨by rw [e4], e5⟩
          · refine Or.inr ⟨by rw [e4]; rfl, ?_⟩
            rcases e5 with e5 | e5
            · exact Or.inl e5
            · exact Or.inr (by simpa using e5)
      have hstop : numeric_char c = false →
          (Except.ok (flags_of buf, c, input) : Except Error _) = .ok (st, ch1, rest) →
          ∃ tok : List Nat, st = flags_of (buf ++ tok) ∧ (buf ++ tok).length ≤ 64
            ∧ (∀ x ∈ tok, numeric_char x = true)
            ∧ ((c :: input = tok ∧ rest = [])
              ∨ (c :: input = tok ++ ch1 :: rest
                  ∧ (numeric_char ch1 = false ∨ (buf ++ tok).length = 64))) := by
        intro hc h1
        simp only [Except.ok.injEq, Prod.mk.injEq] at h1
        refine ⟨[], by simp [h1.1.symm], by simpa using hlen, by simp,
          Or.inr ⟨by rw [h1.2.1, h1.2.2]; rfl, Or.inl ?_⟩⟩
        rw [← h1.2.1]
        exact hc
      split_ifs at h
      all_goals first
        | exact hrec (numeric_char_of_dispatch c (by omega)) h
        | exact hstop (terminator_not_numeric c (by omega)) h
    · have hge : ¬ (flags_of buf).buffer.length < max_buffer_size_ := hlt
      rw [parse_numeric_loop, if_neg hge] at h
      simp only [Except.ok.injEq, Prod.mk.injEq] at h
      refine ⟨[], by simp [h.1.symm], by simpa using hlen, by simp,
        Or.inr ⟨by rw [h.2.1, h.2.2]; rfl, Or.inr ?_⟩⟩
      simp only [List.append_nil]
      omega

/-- A successful run of `parse_numeric`, taken apart, with the reason for leaving the loop. -/
theorem parse_numeric_reason (atof : List char_t → number_t) (istream : List Nat) (ch_ ch : Nat)
    (v : Variant) (rest : List Nat) (h : parse_numeric atof istream ch_ = .ok (ch, v, rest)) :
    ∃ (c0 : Nat) (s tok : List Nat), _check_and_skip_spaces istream ch_ = .ok (c0, s)
      ∧ (c0 = 45 ∨ c0 = 43 ∨ (48 ≤ c0 ∧ c0 ≤ 57))
      ∧ (c0 :: tok).length ≤ 64
      ∧ (∀ x ∈ c0 :: tok, numeric_char x = true)
      ∧ ((c0 :: s = c0 :: tok ∧ rest = [])
        ∨ (c0 :: s = (c0 :: tok) ++ ch :: rest
            ∧ (numeric_char ch = false ∨ (c0 :: tok).length = 64)))
      ∧ convert_numeric atof (decide (c0 = 45 ∨ c0 = 43)) (flags_of (c0 :: tok)) = .ok v := by
  obtain ⟨c0, s, tok, hskip, hst, hloop, hlen, _, hconv⟩ :=
    parse_numeric_ok atof istream ch_ ch v rest h
  rw [← flags_of_start c0 hst] at hloop
  obtain ⟨tok1, e1, _, e3, e4⟩ :=
    numeric_loop_reason s [c0] c0 (flags_of (c0 :: tok)) ch rest (by simp) hloop
  have e5 : c0 :: tok = [c0] ++ tok1 := congrArg NumericLocals.buffer e1
  rw [List.singleton_append] at e5
  have e6 : tok = tok1 := List.tail_eq_of_cons_eq e5
  subst e6
  refine ⟨c0, s, tok, hskip, hst, hlen, ?_, ?_, hconv⟩
  · intro x hx
    rcases List.mem_cons.mp hx with rfl | hx
    · exact numeric_char_of_dispatch x (by omega)
    · exact e3 x hx
  · rcases e4 with ⟨e4, e7⟩ | ⟨e4, e7⟩
    · exact Or.inl ⟨by rw [e4], e7⟩
    · exact Or.inr ⟨by rw [e4]; rfl, by simpa using e7⟩

theorem run_prefix_length : ∀ (b a ta tb : List Nat), a ++ ta = b ++ tb →
    (∀ x ∈ a, numeric_char x = true) → (∀ c, tb.head? = some c → numeric_char c = false) →
    a.length ≤ b.length := by
  intro b
  induction b with
  | nil =>
    intro a ta tb h ha hb
    cases a with
    | nil => simp
    | cons x a1 =>
      rw [List.nil_append] at h
      have h1 := hb x (by rw [← h]; rfl)
      have h2 := ha x (List.mem_cons_self x a1)
      rw [h1] at h2
      cases h2
  | cons y b1 ih =>
    intro a ta tb h ha hb
    cases a with
    | nil => simp
    | cons x a1 =>
      simp only [List.cons_append, List.cons.injEq] at h
      have := ih a1 ta tb h.2 (fun z hz => ha z (List.mem_cons_of_mem x hz)) hb
      simp only [List.length_cons]
      omega

/-- The text accumulated in `buffer` is the token itself when the token, the longest run of
token characters at the front of the text, has 64 characters at most. -/
theorem buffer_is_token (text token tail buf : List Nat) (ch : Nat) (rest : List Nat)
    (htext : text = token ++ tail) (htok : ∀ x ∈ token, numeric_char x = true)
    (hmax : ∀ c, tail.head? = some c → numeric_char c = false) (hlen : token.length ≤ 64)
    (hbuf : ∀ x ∈ buf, numeric_char x = true)
    (hsplit : (text = buf ∧ rest = [])
      ∨ (text = buf ++ ch :: rest ∧ (numeric_char ch = false ∨ buf.length = 64))) :
    buf = token ∧ ((tail = [] ∧ rest = []) ∨ tail = ch :: rest) := by
  rcases hsplit with ⟨e1, e2⟩ | ⟨e1, e2⟩
  · have e : buf ++ [] = token ++ tail := by rw [List.append_nil, ← e1, htext]
    have l1 := run_prefix_length token buf [] tail e hbuf hmax
    have l2 := run_prefix_length buf token tail [] e.symm htok (fun c hc => by cases hc)
    obtain ⟨e3, e4⟩ := List.append_inj e (by omega)
    exact ⟨e3, Or.inl ⟨e4.symm, e2⟩⟩
  · have e : buf ++ ch :: rest = token ++ tail := by rw [← e1, htext]
    have l1 := run_prefix_length token buf (ch :: rest) tail e hbuf hmax
    have l2 : token.length ≤ buf.length := by
      rcases e2 with e2 | e2
      · exact run_prefix_length buf token tail (ch :: rest) e.symm htok
          (fun c hc => by
            simp only [List.head?_cons, Option.some.injEq] at hc
            rw [← hc]; exact e2)
      · omega
    obtain ⟨e3, e4⟩ := List.append_inj e (by omega)
    exact ⟨e3, Or.inr e4.symm⟩

theorem digit_not_marker (l : List Nat) (h : ∀ c ∈ l, 48 ≤ c ∧ c ≤ 57) :
    46 ∉ l ∧ 101 ∉ l ∧ 69 ∉ l ∧ 45 ∉ l ∧ 43 ∉ l := by
  refine ⟨fun hm => ?_, fun hm => ?_, fun hm => ?_, fun hm => ?_, fun hm => ?_⟩ <;>
    · have := h _ hm
      omega

theorem getLast_of_digits (P l : List Nat) (hl : l ≠ []) (h : ∀ c ∈ l, 48 ≤ c ∧ c ≤ 57) :
    ∃ d, (P ++ l).getLast? = some d ∧ 48 ≤ d ∧ d ≤ 57 := by
  rcases List.eq_nil_or_concat l with e | ⟨l1, d, e⟩
  · exact absurd e hl
  · refine ⟨d, ?_, h d (by rw [e]; simp)⟩
    rw [e, List.concat_eq_append, ← List.append_assoc, List.getLast?_append,
      List.getLast?_singleton]
    rfl

theorem step_point (buf : List Nat) (hlen : buf.length < 64) (ch : Nat) (rest : List Nat)
    (h46 : 46 ∉ buf) (h101 : 101 ∉ buf) (h69 : 69 ∉ buf) :
    parse_numeric_loop (flags_of buf) ch (46 :: rest)
      = parse_numeric_loop (flags_of (buf ++ [46])) 46 rest := by
  rw [numeric_step buf hlen, if_pos rfl, if_neg (by tauto)]

theorem step_marker (buf : List Nat) (hlen : buf.length < 64) (ch e : Nat) (rest : List Nat)
    (he : e = 101 ∨ e = 69) (h101 : 101 ∉ buf) (h69 : 69 ∉ buf)
    (hlast : buf.getLast? ≠ some 46) :
    parse_numeric_loop (flags_of buf) ch (e :: rest)
      = parse_numeric_loop (flags_of (buf ++ [e])) e rest := by
  have h1 : e ≠ 46 := by omega
  have h2 : ¬ (e = 45 ∨ e = 43) := by omega
  rw [numeric_step buf hlen, if_neg h1, if_neg h2, if_pos he, if_neg (by tauto)]

theorem step_sign (buf : List Nat) (hlen : buf.length < 64) (ch c : Nat) (rest : List Nat)
    (hc : c = 45 ∨ c = 43) (hlast : buf.getLast? = some 101) :
    parse_numeric_loop (flags_of buf) ch (c :: rest)
      = parse_numeric_loop (flags_of (buf ++ [c])) c rest := by
  have h46 : c ≠ 46 := by omega
  rw [numeric_step buf hlen, if_neg h46, if_pos hc, if_pos hlast]

/-- The loop of the tokenizer through a fraction: a point and a run of digits. -/
theorem loop_fraction (A fr : List Nat) (ch : Nat) (rest : List Nat)
    (hlen : A.length + fr.length ≤ 64) (h46 : 46 ∉ A) (h101 : 101 ∉ A) (h69 : 69 ∉ A)
    (hfr : fr = [] ∨ ∃ fd, fr = 46 :: fd ∧ is_digits fd) :
    ∃ ch1, parse_numeric_loop (flags_of A) ch (fr ++ rest)
      = parse_numeric_loop (flags_of (A ++ fr)) ch1 rest := by
  rcases hfr with rfl | ⟨fd, rfl, _, hd⟩
  · exact ⟨ch, by simp⟩
  · simp only [List.length_cons] at hlen
    obtain ⟨ch1, h1⟩ := numeric_run_digits fd (A ++ [46]) 46 rest
      (by simp only [List.length_append, List.length_singleton]; omega) hd
    refine ⟨ch1, ?_⟩
    rw [List.cons_append, step_point A (by omega) ch _ h46 h101 h69, h1]
    simp

/-- The loop of the tokenizer through an exponent: `e`, an optional sign, a run of digits. -/
theorem loop_exponent (B ex : List Nat) (ch : Nat) (rest : List Nat)
    (hlen : B.length + ex.length ≤ 64) (h101 : 101 ∉ B) (h69 : 69 ∉ B)
    (hlast : B.getLast? ≠ some 46)
    (hex : ex = [] ∨ ∃ e es ed, ex = e :: (es ++ ed)
      ∧ ((e = 101 ∧ (es = [] ∨ es = [43] ∨ es = [45])) ∨ (e = 69 ∧ es = []))
      ∧ is_digits ed ∧ digit_run 0 ed < 999) :
    ∃ ch1, parse_numeric_loop (flags_of B) ch (ex ++ rest)
      = parse_numeric_loop (flags_of (B ++ ex)) ch1 rest := by
  rcases hex with rfl | ⟨e, es, ed, rfl, hm, ⟨_, hd⟩, _⟩
  · exact ⟨ch, by simp⟩
  · simp only [List.length_cons, List.length_append] at hlen
    rcases hm with ⟨rfl, hes⟩ | ⟨rfl, rfl⟩
    · have hl : (B ++ [101]).getLast? = some 101 := by
        rw [List.getLast?_append, List.getLast?_singleton]
        rfl
      rcases hes with rfl | rfl | rfl
      · obtain ⟨ch1, h1⟩ := numeric_run_digits ed (B ++ [101]) 101 rest
          (by simp only [List.length_append, List.length_singleton, List.length_nil] at hlen ⊢
              omega) hd
        refine ⟨ch1, ?_⟩
        rw [List.cons_append, step_marker B (by omega) ch 101 _ (Or.inl rfl) h101 h69 hlast,
          List.nil_append, h1]
        simp
      · obtain ⟨ch1, h1⟩ := numeric_run_digits ed (B ++ [101] ++ [43]) 43 rest
          (by simp only [List.length_append, List.length_singleton] at hlen ⊢
              omega) hd
        refine ⟨ch1, ?_⟩
        rw [List.cons_append, step_marker B (by omega) ch 101 _ (Or.inl rfl) h101 h69 hlast,
          List.append_assoc, List.singleton_append,
          step_sign (B ++ [101]) (by simp only [List.length_append, List.length_singleton]
                                     simp only [List.length_singleton] at hlen
                                     omega) 101 43 _ (Or.inr rfl) hl, h1]
        simp
      · obtain ⟨ch1, h1⟩ := numeric_run_digits ed (B ++ [101] ++ [45]) 45 rest
          (by simp only [List.length_append, List.length_singleton] at hlen ⊢
              omega) hd
        refine ⟨ch1, ?_⟩
        rw [List.cons_append, step_marker B (by omega) ch 101 _ (Or.inl rfl) h101 h69 hlast,
          List.append_assoc, List.singleton_append,
          step_sign (B ++ [101]) (by simp only [List.length_append, List.length_singleton]
                                     simp only [List.length_singleton] at hlen
                                     omega) 101 45 _ (Or.inl rfl) hl, h1]
        simp
    · obtain ⟨ch1, h1⟩ := numeric_run_digits ed (B ++ [69]) 69 rest
        (by simp only [List.length_append, List.length_singleton, List.length_nil] at hlen ⊢
            omega) hd
      refine ⟨ch1, ?_⟩
      rw [List.cons_append, step_marker B (by omega) ch 69 _ (Or.inr rfl) h101 h69 hlast,
        List.nil_append, h1]
      simp

theorem scan_exponent (es ed : List Nat) (hes : es = [] ∨ es = [43] ∨ es = [45])
    (hd : is_digits ed) :
    scan_integer (es ++ ed) = (digit_run 0 ed : Int)
      ∨ scan_integer (es ++ ed) = -(digit_run 0 ed : Int) := by
  obtain ⟨hne, hdig⟩ := hd
  rcases hes with rfl | rfl | rfl
  · left
    cases ed with
    | nil => exact absurd rfl hne
    | cons d ed1 =>
      have hd0 : (48 : Nat) ≤ d ∧ d ≤ (57 : Nat) := hdig d (List.mem_cons_self d ed1)
      have hw : is_char_white_space d = false :=
        numeric_char_not_white d (numeric_char_of_dispatch d (by omega))
      have e : List.dropWhile is_char_white_space (d :: ed1) = d :: ed1 := by
        simp [List.dropWhile, hw]
      unfold scan_integer
      rw [List.nil_append, e]
      split
      · rename_i r heq
        simp only [List.cons.injEq] at heq
        omega
      · rename_i r heq
        simp only [List.cons.injEq] at heq
        omega
      · rfl
  · left
    have e : List.dropWhile is_char_white_space (43 :: ed) = 43 :: ed := by
      simp [List.dropWhile, is_char_white_space]
    unfold scan_integer
    rw [List.singleton_append, e]
  · right
    have e : List.dropWhile is_char_white_space (45 :: ed) = 45 :: ed := by
      simp [List.dropWhile, is_char_white_space]
    unfold scan_integer
    rw [List.singleton_append, e]

theorem atoi_exponent (es ed : List Nat) (hes : es = [] ∨ es = [43] ∨ es = [45])
    (hd : is_digits ed) (hv : digit_run 0 ed < 999) : ¬ (atoi (es ++ ed) ≥ 999) := by
  have h := scan_exponent es ed hes hd
  have h1 : -(2 : Int) ^ 31 ≤ scan_integer (es ++ ed) := by rcases h with h | h <;> omega
  have h2 : scan_integer (es ++ ed) < (2 : Int) ^ 31 := by rcases h with h | h <;> omega
  rw [atoi_in_range _ h1 h2]
  rcases h with h | h <;> omega

theorem exponent_not_point (ex : List Nat)
    (hex : ex = [] ∨ ∃ e es ed, ex = e :: (es ++ ed)
      ∧ ((e = 101 ∧ (es = [] ∨ es = [43] ∨ es = [45])) ∨ (e = 69 ∧ es = []))
      ∧ is_digits ed ∧ digit_run 0 ed < 999) : 46 ∉ ex := by
  rcases hex with rfl | ⟨e, es, ed, rfl, hm, ⟨_, hd⟩, _⟩
  · simp
  · have h := (digit_not_marker ed hd).1
    rcases hm with ⟨rfl, rfl | rfl | rfl⟩ | ⟨rfl, rfl⟩ <;> simp [h]

theorem fraction_not_marker (fr : List Nat)
    (hfr : fr = [] ∨ ∃ fd, fr = 46 :: fd ∧ is_digits fd) : 101 ∉ fr ∧ 69 ∉ fr := by
  rcases hfr with rfl | ⟨fd, rfl, _, hd⟩
  · simp
  · obtain ⟨_, h1, h2, _, _⟩ := digit_not_marker fd hd
    simp [h1, h2]

/-- The conversion at `end_loop` of a decimal text with a point or an exponent below 999: the
Number that `atof` reads from the text. -/
theorem convert_number_text (atof : List char_t → number_t) (signed_ : Bool)
    (A fr ex : List Nat) (hA : A ≠ []) (h46 : 46 ∉ A) (h101 : 101 ∉ A) (h69 : 69 ∉ A)
    (hfr : fr = [] ∨ ∃ fd, fr = 46 :: fd ∧ is_digits fd)
    (hex : ex = [] ∨ ∃ e es ed, ex = e :: (es ++ ed)
      ∧ ((e = 101 ∧ (es = [] ∨ es = [43] ∨ es = [45])) ∨ (e = 69 ∧ es = []))
      ∧ is_digits ed ∧ digit_run 0 ed < 999)
    (hne : fr ≠ [] ∨ ex ≠ []) :
    convert_numeric atof signed_ (flags_of (A ++ fr ++ ex))
      = .ok (.number (atof (A ++ fr ++ ex))) := by
  have hAl : 1 ≤ A.length := by
    cases A with
    | nil => exact absurd rfl hA
    | cons a A1 => simp
  have hex46 := exponent_not_point ex hex
  obtain ⟨hfr101, hfr69⟩ := fraction_not_marker fr hfr
  have hbuf : (flags_of (A ++ fr ++ ex)).buffer = A ++ fr ++ ex := rfl
  -- the point is not the last character
  have hpoint : ¬ ((flags_of (A ++ fr ++ ex)).point_ = true
      ∧ (flags_of (A ++ fr ++ ex)).point_i = (A ++ fr ++ ex).length - 1) := by
    rintro ⟨hp, hi⟩
    rcases hfr with rfl | ⟨fd, rfl, hfne, hd⟩
    · have hmem : 46 ∈ A ++ [] ++ ex := of_decide_eq_true hp
      simp only [List.append_nil, List.mem_append] at hmem
      tauto
    · have hmem : 46 ∈ A ++ 46 :: fd ++ ex := by simp
      have hidx : (flags_of (A ++ 46 :: fd ++ ex)).point_i = A.length := by
        show (if _ then _ else 0) = A.length
        rw [if_pos hmem, List.append_assoc, List.indexOf_append_of_not_mem h46,
          List.cons_append, List.indexOf_cons_self]
        rfl
      rw [hidx] at hi
      have hfl : 1 ≤ fd.length := by
        cases fd with
        | nil => exact absurd rfl hfne
        | cons a l => simp
      simp only [List.length_append, List.length_cons] at hi
      omega
  have hlen2 : (A ++ fr ++ ex).length ≠ 1 := by
    have : 1 ≤ fr.length + ex.length := by
      rcases hne with h | h
      · cases fr with
        | nil => exact absurd rfl h
        | cons a l => simp only [List.length_cons]; omega
      · cases ex with
        | nil => exact absurd rfl h
        | cons a l => simp only [List.length_cons]; omega
    simp only [List.length_append]
    omega
  unfold convert_numeric
  rw [hbuf, if_neg (by
    rintro (⟨h1, _⟩ | h2)
    · exact hlen2 h1
    · exact hpoint h2)]
  rcases hex with rfl | ⟨e, es, ed, rfl, hm, hd, hv⟩
  · -- no exponent: there is a fraction
    have hfrne : fr ≠ [] := by
      rcases hne with h | h
      · exact h
      · exact absurd rfl h
    have hp : (flags_of (A ++ fr ++ [])).point_ = true := by
      rcases hfr with rfl | ⟨fd, rfl, _, _⟩
      · exact absurd rfl hfrne
      · exact decide_eq_true (by simp)
    have he : (flags_of (A ++ fr ++ [])).exponent_ = false := by
      apply decide_eq_false
      simp only [List.append_nil, List.mem_append]
      tauto
    rw [hp, he]
    rfl
  · have he : e = 101 ∨ e = 69 := by
      rcases hm with ⟨h, _⟩ | ⟨h, _⟩
      · exact Or.inl h
      · exact Or.inr h
    have hes : es = [] ∨ es = [43] ∨ es = [45] := by
      rcases hm with ⟨_, h⟩ | ⟨_, h⟩
      · exact h
      · exact Or.inl h
    have hmem : 101 ∈ A ++ fr ++ e :: (es ++ ed) ∨ 69 ∈ A ++ fr ++ e :: (es ++ ed) := by
      rcases he with rfl | rfl
      · left; simp
      · right; simp
    have hno : ¬ (101 ∈ A ++ fr ∨ 69 ∈ A ++ fr) := by
      rintro (h | h)
      · exact (List.mem_append.mp h).elim h101 hfr101
      · exact (List.mem_append.mp h).elim h69 hfr69
    have hidx : List.findIdx (fun x => x == 101 || x == 69) (A ++ fr ++ e :: (es ++ ed))
        = (A ++ fr).length := by
      have h1 := marker_idx_new (A ++ fr) e hno he
      have h2 : 101 ∈ A ++ fr ++ [e] ∨ 69 ∈ A ++ fr ++ [e] := by
        rcases he with rfl | rfl
        · left; simp
        · right; simp
      have h3 := marker_idx_append (A ++ fr ++ [e]) (es ++ ed) h2
      rw [List.append_assoc (A ++ fr), List.singleton_append] at h3
      rw [h3, h1]
    have hdrop : List.drop ((A ++ fr).length + 1) (A ++ fr ++ e :: (es ++ ed)) = es ++ ed := by
      rw [List.drop_append]
      rfl
    have hexp : (flags_of (A ++ fr ++ e :: (es ++ ed))).exponent_ = true :=
      decide_eq_true hmem
    have hei : (flags_of (A ++ fr ++ e :: (es ++ ed))).exponent_i = (A ++ fr).length := by
      show (if _ then _ else 0) = (A ++ fr).length
      rw [if_pos hmem, hidx]
    rw [hexp, hei, hdrop]
    simp only [Bool.or_true, if_true, atoi_exponent es ed hes hd hv, if_false]

theorem number_text_head (sg ip : List Nat) (hsg : sg = [] ∨ sg = [45]) (hip : is_digits ip) :
    ∃ (c0 : Nat) (hd : List Nat), sg ++ ip = c0 :: hd ∧ (c0 = 45 ∨ (48 ≤ c0 ∧ c0 ≤ 57))
      ∧ (∀ c ∈ hd, 48 ≤ c ∧ c ≤ 57)
      ∧ 46 ∉ sg ++ ip ∧ 101 ∉ sg ++ ip ∧ 69 ∉ sg ++ ip
      ∧ (sg ++ ip).getLast? ≠ some 46 := by
  obtain ⟨hne, hd⟩ := hip
  obtain ⟨h46, h101, h69, _, _⟩ := digit_not_marker ip hd
  obtain ⟨d, hl, hd1, hd2⟩ := getLast_of_digits sg ip hne hd
  have hlast : (sg ++ ip).getLast? ≠ some 46 := by
    rw [hl]
    intro h
    simp only [Option.some.injEq] at h
    omega
  rcases hsg with rfl | rfl
  · cases ip with
    | nil => exact absurd rfl hne
    | cons c0 ip1 =>
      refine ⟨c0, ip1, rfl, Or.inr (hd c0 (List.mem_cons_self c0 ip1)),
        fun c hc => hd c (List.mem_cons_of_mem c0 hc), ?_, ?_, ?_, hlast⟩
      · simpa using h46
      · simpa using h101
      · simpa using h69
  · refine ⟨45, ip, rfl, Or.inl rfl, hd, ?_, ?_, ?_, hlast⟩
    · simp [h46]
    · simp [h101]
    · simp [h69]

/-- The tokenizer accepts every decimal text of a Number at the end of the stream and gives
the Number that `atof` reads from it. -/
theorem parse_numeric_number_text (atof : List char_t → number_t) (w : List Nat)
    (h : number_text w) :
    ∃ (c0 : Nat) (s : List Nat) (ch : Nat), w = c0 :: s ∧ (c0 = 45 ∨ (48 ≤ c0 ∧ c0 ≤ 57))
      ∧ parse_numeric atof s c0 = .ok (ch, .number (atof w), []) := by
  obtain ⟨sg, ip, fr, ex, rfl, hsg, hip, hfr, hex, hne, hlen⟩ := h
  obtain ⟨c0, hd, hA, hc0, hhd, h46, h101, h69, hlast⟩ := number_text_head sg ip hsg hip
  rw [hA] at h46 h101 h69 hlast hlen ⊢
  simp only [List.length_append, List.length_cons] at hlen
  have hst : c0 = 45 ∨ c0 = 43 ∨ (48 ≤ c0 ∧ c0 ≤ 57) := by omega
  have hc46 : c0 ≠ 46 := by omega
  have hnw : c0 ≠ 0 ∧ ¬ is_char_white_space c0 = true := by
    have h1 := numeric_char_not_white c0 (numeric_char_of_dispatch c0 (by omega))
    refine ⟨by omega, by simp [h1]⟩
  have hskip : ∀ l, _check_and_skip_spaces l c0 = .ok (c0, l) := by
    intro l
    unfold _check_and_skip_spaces
    rw [if_pos hnw]
  obtain ⟨ch1, e1⟩ := numeric_run_digits hd [c0] c0 (fr ++ ex)
    (by simp only [List.length_singleton]; omega) hhd
  obtain ⟨ch2, e2⟩ := loop_fraction (c0 :: hd) fr ch1 ex
    (by simp only [List.length_cons]; omega) h46 h101 h69 hfr
  obtain ⟨hf101, hf69⟩ := fraction_not_marker fr hfr
  have hlast2 : (c0 :: hd ++ fr).getLast? ≠ some 46 := by
    rcases hfr with rfl | ⟨fd, rfl, hfne, hfd⟩
    · simpa using hlast
    · obtain ⟨d, hl, hd1, hd2⟩ := getLast_of_digits (c0 :: hd ++ [46]) fd hfne hfd
      rw [List.append_assoc, List.singleton_append] at hl
      rw [hl]
      intro h
      simp only [Option.some.injEq] at h
      omega
  obtain ⟨ch3, e3⟩ := loop_exponent (c0 :: hd ++ fr) ex ch2 []
    (by simp only [List.length_append, List.length_cons]; omega)
    (fun h => (List.mem_append.mp h).elim h101 hf101)
    (fun h => (List.mem_append.mp h).elim h69 hf69) hlast2 hex
  have hloop : parse_numeric_loop (flags_of [c0]) c0 (hd ++ fr ++ ex)
      = .ok (flags_of (c0 :: hd ++ fr ++ ex), ch3, []) := by
    rw [List.append_assoc, e1, List.singleton_append, e2]
    rw [List.append_nil] at e3
    rw [e3, parse_numeric_loop]
  have hconv := convert_number_text atof (decide (c0 = 45 ∨ c0 = 43)) (c0 :: hd) fr ex
    (by simp) h46 h101 h69 hfr hex hne
  refine ⟨c0, hd ++ fr ++ ex, ch3, rfl, hc0, ?_⟩
  unfold parse_numeric
  rw [hskip]
  simp only [except_bind_ok]
  rw [if_neg hc46, if_pos hst, ← flags_of_start c0 hst, hloop]
  simp only [except_bind_ok]
  rw [hconv]
  simp only [except_bind_ok]

theorem print_number_finite (fmt : number_t → List char_t) (x : number_t)
    (h : number_is_finite x = true) : print_number fmt x compact = fmt x := by
  obtain ⟨h1, h2, h3⟩ := finite_not_special x h
  unfold print_number
  rw [number_eq_inf, number_eq_neg_inf, h1]
  simp [h2, h3, print_lead, compact]

/-! ## The round trip of a value (C1) -/

/-- C1 as amended: for every value that is Null, a Boolean, an Integer (in the 64-bit range),
a finite Number whose printed text is a decimal text with a point or an exponent that the C
library reads back as an equal double, a String with a present buffer (under the initial
switches), or an Array or Object whose payload is absent, printing in compact mode succeeds,
parsing the text succeeds and consumes it, and the parsed value is `operator==`-equal to the
original. -/
theorem print_parse_round_trip (cfg : Config) (fmt : number_t → List char_t)
    (atof : List char_t → number_t) (V : Variant) (heap : Nat)
    (hV : round_trips cfg fmt atof V) :
    ∃ text ch V1 heap1, print cfg fmt V compact = .ok text
      ∧ parse cfg atof text heap = .ok (ch, V1, [], heap1)
      ∧ V1.operator_eq V = true := by
  cases V with
  | invalid => exact hV.elim
  | null => exact ⟨_, 108, .null, heap, rfl, rfl, rfl⟩
  | boolean b =>
    cases b
    · exact ⟨_, 101, .boolean false, heap, rfl, rfl, rfl⟩
    · exact ⟨_, 101, .boolean true, heap, rfl, rfl, rfl⟩
  | integer n =>
    obtain ⟨hlo, hhi⟩ : -(2 : Int) ^ 63 ≤ n ∧ n < (2 : Int) ^ 63 := hV
    obtain ⟨ch, hp⟩ := parse_write_integer cfg atof n hlo hhi heap
    exact ⟨write_integer n, ch, .integer n, heap, rfl, hp, by simp [Variant.operator_eq]⟩
  | number x =>
    obtain ⟨hfin, htext, heq⟩ :
        number_is_finite x = true ∧ number_text (fmt x)
          ∧ number_eq (atof (fmt x)) x = true := hV
    obtain ⟨c0, s, ch, hw, hc0, hp⟩ := parse_numeric_number_text atof (fmt x) htext
    refine ⟨fmt x, ch, .number (atof (fmt x)), heap, ?_, ?_, ?_⟩
    · show Except.ok (print_number fmt x compact) = .ok (fmt x)
      rw [print_number_finite fmt x hfin]
    · have hv := parse_variant_numeric cfg atof (3 * (fmt x).length + 3) compact c0 s heap hc0
      have hl : print_lead compact ++ c0 :: s = fmt x := by rw [hw]; rfl
      rw [hl, hp] at hv
      exact hv
    · simpa [Variant.operator_eq, Variant.index] using heq
  | string s =>
    cases s with
    | none => exact hV.elim
    | some p =>
      obtain ⟨a, s⟩ := p
      have hcfg : cfg = default_config := hV
      subst hcfg
      obtain ⟨a1, heap1, hp⟩ := parse_printed_string atof s heap
      refine ⟨34 :: (printed_text s ++ [34]), 34, .string (some (a1, s)), heap1, ?_, hp, ?_⟩
      · have := print_string_default a s compact
        simpa [print, print_lead, compact] using this
      · simp [Variant.operator_eq, Variant.index, unique_ptr_bool, string_content]
  | array m =>
    cases m with
    | none => exact ⟨_, 93, .array none, heap, rfl, rfl, rfl⟩
    | some p => exact hV.elim
  | object m =>
    cases m with
    | none => exact ⟨_, 125, .object none, heap, rfl, rfl, rfl⟩
    | some p => exact hV.elim

/-- Witness of C1 as amended, at the Number 1.5 written as `1.5`. -/
theorem print_parse_round_trip_witness :
    round_trips default_config (fun _ => [49, 46, 53]) (fun _ => 0x3FF8000000000000)
        (.number 0x3FF8000000000000)
      ∧ ∃ text ch V1 heap1,
          print default_config (fun _ => [49, 46, 53]) (.number 0x3FF8000000000000) compact
              = .ok text
            ∧ parse default_config (fun _ => 0x3FF8000000000000) text 0 = .ok (ch, V1, [], heap1)
            ∧ V1.operator_eq (.number 0x3FF8000000000000) = true :=
  have h : round_trips default_config (fun _ => [49, 46, 53]) (fun _ => 0x3FF8000000000000)
      (.number 0x3FF8000000000000) :=
    ⟨by decide,
      ⟨[], [49], [46, 53], [], rfl, Or.inl rfl, ⟨by decide, by decide⟩,
        Or.inr ⟨[53], rfl, by decide, by decide⟩, Or.inl rfl, Or.inl (by decide), by decide⟩,
      by decide⟩
  ⟨h, print_parse_round_trip default_config (fun _ => [49, 46, 53])
    (fun _ => 0x3FF8000000000000) (.number 0x3FF8000000000000) 0 h⟩

/-! ## The discriminant of a numeric token (C15) -/

/-- C15 fails as stated: the token of 64 zeros followed by `.5` contains a point and is
accepted, and the value is the Integer 0: the buffer of the tokenizer holds 64 characters, the
point is the character carried out of the loop, and the discriminant is decided by the 64
characters in the buffer. -/
theorem long_token_with_point_is_integer :
    parse_numeric (fun _ => 7) (List.replicate 64 48 ++ [46, 53]) 0
        = .ok (46, .integer 0, [53])
      ∧ 46 ∈ List.replicate 64 48 ++ [46, 53]
      ∧ (List.replicate 64 48 ++ [46, 53]).length = 66 := by
  refine ⟨?_, by decide, rfl⟩
  set_option maxRecDepth 100000 in rfl

/-- C15 as amended: let the token be the longest run of token characters (digits, point,
signs, `e`, `E`) at the front of the text, after the white space, and let it have 64
characters at most.  Whenever `parse_numeric` returns a value, the value has the discriminant
Number if and only if the token contains a point, an `e` or an `E`, and the discriminant
Integer if and only if it contains none of them; and the token is followed by the carried
character and the unread rest, or ends the stream. -/
theorem numeric_discriminant_by_token (atof : List char_t → number_t) (istream : List char_t)
    (ch_ ch c0 : char_t) (v : Variant) (rest s token tail : List char_t)
    (hskip : _check_and_skip_spaces istream ch_ = .ok (c0, s))
    (htext : c0 :: s = token ++ tail) (htok : ∀ x ∈ token, numeric_char x = true)
    (hmax : ∀ c, tail.head? = some c → numeric_char c = false) (hlen : token.length ≤ 64)
    (h : parse_numeric atof istream ch_ = .ok (ch, v, rest)) :
    (v.index = .number_i ↔ (46 ∈ token ∨ 101 ∈ token ∨ 69 ∈ token))
      ∧ (v.index = .integer_i ↔ ¬ (46 ∈ token ∨ 101 ∈ token ∨ 69 ∈ token))
      ∧ ((tail = [] ∧ rest = []) ∨ tail = ch :: rest) := by
  obtain ⟨c1, s1, tok, hskip1, _, _, hnum, hsplit, hconv⟩ :=
    parse_numeric_reason atof istream ch_ ch v rest h
  rw [hskip] at hskip1
  simp only [Except.ok.injEq, Prod.mk.injEq] at hskip1
  obtain ⟨rfl, rfl⟩ := hskip1
  obtain ⟨e1, e2⟩ := buffer_is_token (c0 :: s) token tail (c0 :: tok) ch rest htext htok hmax
    hlen hnum hsplit
  obtain ⟨h1, h2⟩ := convert_numeric_index atof _ (c0 :: tok) v hconv
  rw [e1] at h1 h2
  exact ⟨h1, h2, e2⟩

/-- Witness of C15 as amended: `1.5,` gives a Number, `-15,` an Integer and `1E5,` a Number;
the theorem at the token `1.5` followed by a comma. -/
theorem numeric_discriminant_by_token_witness :
    (parse_numeric (fun _ => 7) [49, 46, 53, 44] 0 = .ok (44, .number 7, [])
      ∧ parse_numeric (fun _ => 7) [45, 49, 53, 44] 0 = .ok (44, .integer (-15), [])
      ∧ parse_numeric (fun _ => 7) [49, 69, 53, 44] 0 = .ok (44, .number 7, []))
      ∧ ((Variant.number 7).index = .number_i
          ↔ (46 ∈ [49, 46, 53] ∨ 101 ∈ [49, 46, 53] ∨ 69 ∈ [49, 46, 53]))
      ∧ ((Variant.number 7).index = .integer_i
          ↔ ¬ (46 ∈ [49, 46, 53] ∨ 101 ∈ [49, 46, 53] ∨ 69 ∈ [49, 46, 53]))
      ∧ ((([44] : List char_t) = [] ∧ ([] : List char_t) = []) ∨ [44] = 44 :: []) :=
  ⟨⟨rfl, rfl, rfl⟩,
    numeric_discriminant_by_token (fun _ => 7) [49, 46, 53, 44] 0 44 49 (.number 7) []
      [46, 53, 44] [49, 46, 53] [44] rfl rfl (by decide) (by decide) (by decide) rfl⟩

/-! ## Exponents of 999 and more (C19) -/

/-- C19 fails as stated: the exponent is read by `atoi` into an `int`, from the 64 characters
the buffer holds.  In `0e4294967296` the exponent part has the value 2^32, `atoi` gives 0, and
the value is the Number `atof` reads from the token (0.0, bits 0), not +infinity.  In the token
made of `1e`, 62 zeros and `999` the exponent part has the value 999, the buffer ends after
the zeros, and the value is the Number `atof` reads from the 64 characters (1.0), not
+infinity. -/
theorem exponent_beyond_int_or_buffer_not_infinite :
    parse_numeric (fun _ => 0) [48, 101, 52, 50, 57, 52, 57, 54, 55, 50, 57, 54] 0
        = .ok (54, .number 0, [])
      ∧ scan_integer [52, 50, 57, 52, 57, 54, 55, 50, 57, 54] = 4294967296
      ∧ atoi [52, 50, 57, 52, 57, 54, 55, 50, 57, 54] = 0
      ∧ parse_numeric (fun _ => 0x3FF0000000000000)
          ([49, 101] ++ List.replicate 62 48 ++ [57, 57, 57]) 0
        = .ok (57, .number 0x3FF0000000000000, [57, 57])
      ∧ scan_integer (List.replicate 62 48 ++ [57, 57, 57]) = 999
      ∧ (0 : number_t) ≠ inf ∧ (0x3FF0000000000000 : number_t) ≠ inf := by
  refine ⟨rfl, by decide, by decide, ?_, ?_, by decide, by decide⟩
  · set_option maxRecDepth 100000 in rfl
  · set_option maxRecDepth 100000 in decide

/-- C19 as amended: let the token be the longest run of token characters at the front of the
text, after the white space, and let it have 64 characters at most.  Whenever `parse_numeric`
returns a value for it, and the token is a part `m` without exponent marker, then `e` or `E`,
then an exponent part `x` whose decimal value (as the C library reads it, sign included) is
999 or more and within the range of `int` (below 2^31), the value is the Number +infinity, or
the Number -infinity when the first character of the token is `-`; the function `atof` takes
no part in it. -/
theorem exponent_saturates_to_infinity (atof : List char_t → number_t) (istream : List char_t)
    (ch_ ch c0 e : char_t) (v : Variant) (rest s token tail m x : List char_t)
    (hskip : _check_and_skip_spaces istream ch_ = .ok (c0, s))
    (htext : c0 :: s = token ++ tail) (htok : ∀ c ∈ token, numeric_char c = true)
    (hmax : ∀ c, tail.head? = some c → numeric_char c = false) (hlen : token.length ≤ 64)
    (hsplit : token = m ++ e :: x) (he : e = 101 ∨ e = 69) (h101 : 101 ∉ m) (h69 : 69 ∉ m)
    (hx : scan_integer x ≥ 999) (hx2 : scan_integer x < (2 : Int) ^ 31)
    (h : parse_numeric atof istream ch_ = .ok (ch, v, rest)) :
    v = .number (if token.head? = some 45 then neg_inf else inf)
      ∧ ((tail = [] ∧ rest = []) ∨ tail = ch :: rest) := by
  obtain ⟨c1, s1, tok, hskip1, _, _, hnum, hsp, hconv⟩ :=
    parse_numeric_reason atof istream ch_ ch v rest h
  rw [hskip] at hskip1
  simp only [Except.ok.injEq, Prod.mk.injEq] at hskip1
  obtain ⟨rfl, rfl⟩ := hskip1
  obtain ⟨e1, e2⟩ := buffer_is_token (c0 :: s) token tail (c0 :: tok) ch rest htext htok hmax
    hlen hnum hsp
  refine ⟨?_, e2⟩
  have hs : decide (c0 = 45 ∨ c0 = 43) = false → (m ++ e :: x).head? ≠ some 45 := by
    intro hsg
    rw [← hsplit, ← e1]
    exact head_of_unsigned c0 tok hsg
  rw [e1, hsplit] at hconv
  rw [hsplit]
  exact convert_numeric_saturates atof _ m x e he h101 h69 hx hx2 hs v hconv

/-- Witness of C19 as amended: `1e999` gives +infinity and `-1e999` gives -infinity, and so do
the texts `9e+999` and `-9e+999` that the printer writes for the two infinities; the theorem
at the token `-1e999`. -/
theorem exponent_saturates_to_infinity_witness :
    (parse_numeric (fun _ => 0) [49, 101, 57, 57, 57] 0 = .ok (57, .number inf, [])
      ∧ parse_numeric (fun _ => 0) [45, 49, 101, 57, 57, 57] 0 = .ok (57, .number neg_inf, [])
      ∧ parse_numeric (fun _ => 0) [57, 101, 43, 57, 57, 57] 0 = .ok (57, .number inf, [])
      ∧ parse_numeric (fun _ => 0) [45, 57, 101, 43, 57, 57, 57] 0
          = .ok (57, .number neg_inf, [])
      ∧ print_number (fun _ => []) inf compact = [57, 101, 43, 57, 57, 57]
      ∧ print_number (fun _ => []) neg_inf compact = [45, 57, 101, 43, 57, 57, 57])
      ∧ Variant.number neg_inf
          = .number (if ([45, 49, 101, 57, 57, 57] : List char_t).head? = some 45
              then neg_inf else inf)
      ∧ (((([] : List char_t) = [] ∧ ([] : List char_t) = [])) ∨ ([] : List char_t) = 57 :: []) :=
  ⟨⟨rfl, rfl, rfl, rfl, rfl, rfl⟩,
    exponent_saturates_to_infinity (fun _ => 0) [45, 49, 101, 57, 57, 57] 0 57 45 101
      (.number neg_inf) [] [49, 101, 57, 57, 57] [45, 49, 101, 57, 57, 57] [] [45, 49]
      [57, 57, 57] rfl rfl (by decide) (by decide) (by decide) rfl (Or.inl rfl) (by decide)
      (by decide) (by decide) (by decide) rfl⟩

end json
